import Mathlib

/-!
# MLES_IMU: sliding-window feature extraction and gesture classification

A shallow embedding of the C sources `project/src/classifier.c`,
`project/src/features.c`, `project/src/csv_logger.cpp`, the sampling loop and
the storage sink of `project/src/main.c`, and the three programs under
`project/lab_algorithms`.

Modelling conventions.

* `float` and `double` scalars are elements of a linear ordered field `α`
  and arithmetic is exact: the casts between `float` and `double` are the
  identity, rounding, NaN and infinities are not modelled.  The definitions
  are computable and run on `ℚ`; theorems that need the analytic meaning of
  `sqrtf`, `cos`, `sin` instantiate `α` with `ℝ`.
* Functions of the C maths library (`sqrtf`, `cosf`, `cos`, `sin`) and the
  constant `M_PI` are parameters of the definitions that call them.
* An array argument `(const float* x, int n)` is the list of its first `n`
  elements; an index read `x[i]` is `x.getD i 0`.
* `int` counters are natural numbers (none of them can go negative and the
  configured sizes are far from the 32-bit range); an `int` argument that may
  be zero or negative (`n` and `dir` of `fft_radix2`) is an integer.
* Unsigned counters that grow without bound wrap: `unsigned` modulo `2^32`,
  `uint64_t` modulo `2^64`.
* A call into a library outside the sources (FatFs, the SD driver) is modelled
  by its result, which is an input of the function that makes the call, and
  by an entry in the list of calls the function returns.
-/

namespace MLES

/-! ## features.h : data model -/

/-- The struct `amag_feats_t` of `features.h`. -/
structure amag_feats_t (α : Type) where
  mean : α
  std : α
  rms : α
  energy : α
  dom_freq : α
  bp1 : α
  bp2 : α


/-- The struct `feat_vec_t` of `features.h`. -/
structure feat_vec_t (α : Type) where
  amag : amag_feats_t α
  gx_std : α
  gy_std : α
  gz_std : α
  d_pitch_std : α
  d_roll_std : α


/-! ## classifier.h / classifier.c -/

/-- Enumerator `G_NONE` of `classifier.h`. -/
def G_NONE : Int := 0

/-- Enumerator `G_SHAKE` of `classifier.h`. -/
def G_SHAKE : Int := 1

/-- Enumerator `G_TILT` of `classifier.h`. -/
def G_TILT : Int := 2

/-- Enumerator `G_CIRCLE` of `classifier.h`. -/
def G_CIRCLE : Int := 3

section Classifier

variable {α : Type} [LinearOrderedField α]

/-- The function `classify` of `classifier.c`, lines 15-30. -/
def classify (f : feat_vec_t α) : Int :=
  let s := f.amag.std
  let df := f.amag.dom_freq
  let gsum := (f.gx_std + f.gy_std + f.gz_std) / 3
  if s > 0.05 ∧ df ≥ 3 then G_SHAKE
  else if df > 0.2 ∧ df < 2 ∧ s > 0.01 ∧ s < 0.3 then G_TILT
  else if gsum > 10 ∧ df ≥ 1 ∧ df ≤ 3 then G_CIRCLE
  else G_NONE

/-- Rule 1 of the specification (section 4.5): `SHAKE`. -/
def shake_rule (f : feat_vec_t α) : Prop :=
  f.amag.std > 0.05 ∧ f.amag.dom_freq ≥ 3

/-- Rule 2 of the specification (section 4.5): `TILT`. -/
def tilt_rule (f : feat_vec_t α) : Prop :=
  (0.2 < f.amag.dom_freq ∧ f.amag.dom_freq < 2) ∧ (0.01 < f.amag.std ∧ f.amag.std < 0.3)

/-- Rule 3 of the specification (section 4.5): `CIRCLE`. -/
def circle_rule (f : feat_vec_t α) : Prop :=
  (f.gx_std + f.gy_std + f.gz_std) / 3 > 10 ∧ (1 ≤ f.amag.dom_freq ∧ f.amag.dom_freq ≤ 3)

instance (f : feat_vec_t α) : Decidable (shake_rule f) := by
  unfold shake_rule; infer_instance

instance (f : feat_vec_t α) : Decidable (tilt_rule f) := by
  unfold tilt_rule; infer_instance

instance (f : feat_vec_t α) : Decidable (circle_rule f) := by
  unfold circle_rule; infer_instance

/-- The ordered rule table of the specification: each rule with its label. -/
def rule_table (f : feat_vec_t α) : List (Bool × Int) :=
  [(decide (shake_rule f), G_SHAKE), (decide (tilt_rule f), G_TILT),
   (decide (circle_rule f), G_CIRCLE)]

/-- The specification of the classifier in its own words: evaluate the rules
in order, return the label of the first that matches, `NONE` when none does. -/
def classify_first_match_spec (f : feat_vec_t α) : Int :=
  match (rule_table f).find? (fun r => r.1) with
  | some r => r.2
  | none => G_NONE

end Classifier

/-! ## config.h and the derived sizes of main.c -/

/-- The macro `SAMPLE_HZ` of `config.h`. -/
def SAMPLE_HZ : Nat := 100

/-- The macro `WIN_MS` of `config.h`. -/
def WIN_MS : Nat := 1000

/-- The macro `HOP_MS` of `config.h`. -/
def HOP_MS : Nat := 500

/-- The macro `WIN_SAMPLES` of `main.c`, line 47. -/
def WIN_SAMPLES : Nat := (SAMPLE_HZ * WIN_MS) / 1000

/-- The macro `HOP_SAMPLES` of `main.c`, line 48. -/
def HOP_SAMPLES : Nat := (SAMPLE_HZ * HOP_MS) / 1000

/-! ## main.c : ring buffers and the hop-scheduled sampling loop

The loop body is modelled for arbitrary sizes `W` (`WIN_SAMPLES`) and `H`
(`HOP_SAMPLES`); the configured build is `W = WIN_SAMPLES`, `H = HOP_SAMPLES`.
The `while (true)` loop is modelled by its finite prefixes: `run_ticks` runs
the body once for each sample of a list. -/

section SamplingLoop

variable {α : Type} [LinearOrderedField α]

/-- The scaled, bias-corrected sample of one tick: the locals `ax .. gz` of the
loop body of `main` (lines 302-307). -/
structure imu_sample (α : Type) where
  ax : α
  ay : α
  az : α
  gx : α
  gy : α
  gz : α

/-- The window variables of `main` (lines 267-276): the six static rings and
the three counters. -/
structure loop_state (α : Type) where
  ax_ring : List α
  ay_ring : List α
  az_ring : List α
  gx_ring : List α
  gy_ring : List α
  gz_ring : List α
  ring_index : Nat
  ring_filled : Nat
  hop_accum : Nat

/-- The six linear windows `ax_win .. gz_win` of `main` (lines 351-356). -/
structure window_set (α : Type) where
  ax_win : List α
  ay_win : List α
  az_win : List α
  gx_win : List α
  gy_win : List α
  gz_win : List α

/-- The state at loop entry (lines 267-276): rings zero-initialised, the three
counters 0. -/
def initial_state (W : Nat) : loop_state α :=
  { ax_ring := List.replicate W 0, ay_ring := List.replicate W 0,
    az_ring := List.replicate W 0, gx_ring := List.replicate W 0,
    gy_ring := List.replicate W 0, gz_ring := List.replicate W 0,
    ring_index := 0, ring_filled := 0, hop_accum := 0 }

/-- The function `copy_window` of `main.c`, lines 187-193.  The destination is
write-only and every position `0 .. ring_size - 1` is written once, so the
function returns the new content of `dst`. -/
def copy_window (ring : List α) (ring_size start_idx : Nat) : List α :=
  (List.range ring_size).map fun i =>
    let idx := start_idx + i
    let idx := if idx ≥ ring_size then idx - ring_size else idx
    ring.getD idx 0

/-- The ring and counter update of the loop body, `main.c` lines 334-345. -/
def ring_update (W : Nat) (st : loop_state α) (s : imu_sample α) : loop_state α :=
  let ring_index := st.ring_index + 1
  let ring_index := if ring_index ≥ W then 0 else ring_index
  let ring_filled := if st.ring_filled < W then st.ring_filled + 1 else st.ring_filled
  { ax_ring := st.ax_ring.set st.ring_index s.ax
    ay_ring := st.ay_ring.set st.ring_index s.ay
    az_ring := st.az_ring.set st.ring_index s.az
    gx_ring := st.gx_ring.set st.ring_index s.gx
    gy_ring := st.gy_ring.set st.ring_index s.gy
    gz_ring := st.gz_ring.set st.ring_index s.gz
    ring_index := ring_index
    ring_filled := ring_filled
    hop_accum := st.hop_accum + 1 }

/-- The six `copy_window` calls of `main.c`, lines 359-364. -/
def extract_windows (W : Nat) (st : loop_state α) : window_set α :=
  { ax_win := copy_window st.ax_ring W st.ring_index
    ay_win := copy_window st.ay_ring W st.ring_index
    az_win := copy_window st.az_ring W st.ring_index
    gx_win := copy_window st.gx_ring W st.ring_index
    gy_win := copy_window st.gy_ring W st.ring_index
    gz_win := copy_window st.gz_ring W st.ring_index }

/-- One iteration of the sampling loop as far as the window state goes
(`main.c` lines 334-364): push the sample, then, when a full window is
available and the hop is reached, reset `hop_accum` and linearise the rings.
The second component is the emission of this tick, `none` when extraction does
not fire. -/
def tick (W H : Nat) (st : loop_state α) (s : imu_sample α) :
    loop_state α × Option (window_set α) :=
  let st1 := ring_update W st s
  if st1.ring_filled = W ∧ st1.hop_accum ≥ H then
    let st2 := { st1 with hop_accum := 0 }
    (st2, some (extract_windows W st2))
  else
    (st1, none)

/-- The sampling loop run over the samples of a list, one tick each: the final
state and the emission of every tick, in order. -/
def run_ticks (W H : Nat) :
    loop_state α → List (imu_sample α) → loop_state α × List (Option (window_set α))
  | st, [] => (st, [])
  | st, s :: rest =>
    let r := tick W H st s
    let r2 := run_ticks W H r.1 rest
    (r2.1, r.2 :: r2.2)

/-- The 1-based tick numbers at which a trace of emissions has an emission. -/
def emission_ticks (trace : List (Option (window_set α))) : List Nat :=
  ((List.range trace.length).filter fun i => (trace.getD i none).isSome).map (· + 1)

/-- Ring invariant: `ring` has `W` cells and holds each of the last `W` values
of `vals` (the values pushed so far) at its index modulo `W`. -/
def RingInv (W : Nat) (ring vals : List α) : Prop :=
  ring.length = W ∧
  ∀ t, t < vals.length → vals.length - t ≤ W → ring.getD (t % W) 0 = vals.getD t 0

/-- Loop invariant relating the window state to the list `hist` of all the
samples pushed so far. -/
def LoopInv (W : Nat) (st : loop_state α) (hist : List (imu_sample α)) : Prop :=
  st.ring_index = hist.length % W ∧
  st.ring_filled = min hist.length W ∧
  RingInv W st.ax_ring (hist.map (·.ax)) ∧ RingInv W st.ay_ring (hist.map (·.ay)) ∧
  RingInv W st.az_ring (hist.map (·.az)) ∧ RingInv W st.gx_ring (hist.map (·.gx)) ∧
  RingInv W st.gy_ring (hist.map (·.gy)) ∧ RingInv W st.gz_ring (hist.map (·.gz))

/-- The counters `(ring_filled, hop_accum)` after one tick and whether the tick
fires: the part of `tick` that does not look at the samples. -/
def counters_step (W H : Nat) (c : Nat × Nat) : (Nat × Nat) × Bool :=
  let ring_filled := if c.1 < W then c.1 + 1 else c.1
  let hop_accum := c.2 + 1
  if ring_filled = W ∧ hop_accum ≥ H then ((ring_filled, 0), true)
  else ((ring_filled, hop_accum), false)

/-- The fire flags of `n` consecutive ticks from the counters `c`. -/
def fire_flags (W H : Nat) : Nat × Nat → Nat → List Bool
  | _, 0 => []
  | c, n + 1 => (counters_step W H c).2 :: fire_flags W H (counters_step W H c).1 n

/-- The 1-based positions of the `true` entries of a list of flags. -/
def true_positions (flags : List Bool) : List Nat :=
  ((List.range flags.length).filter fun i => flags.getD i false).map (· + 1)

end SamplingLoop

/-! ## features.c : statistics, spectrum, quantisation -/

section Features

variable {α : Type} [LinearOrderedField α]

/-- The four outputs `*mean, *std, *rms, *energy` of `stats_basic`. -/
structure basic_stats (α : Type) where
  mean : α
  std : α
  rms : α
  energy : α

/-- The accumulation loop of `stats_basic` (`features.c` lines 18-22): the pair
`(s, sq)` after the loop. -/
def stats_sums (x : List α) : α × α :=
  x.foldl (fun acc xi => (acc.1 + xi, acc.2 + xi * xi)) (0, 0)

/-- The function `stats_basic` of `features.c`, lines 17-31; `n` is the length
of the list `x`. -/
def stats_basic (sqrtf : α → α) (x : List α) : basic_stats α :=
  let n : α := (x.length : α)
  let s := (stats_sums x).1
  let sq := (stats_sums x).2
  let m := s / n
  let v := sq / n - m * m
  let v := if v < 0 then 0 else v
  { mean := m, std := sqrtf v, rms := sqrtf (sq / n), energy := sq }

/-- The enumerator `MAX_SAMPLES` of `spectral_features_capped`; also the length
of the static table `cached` of `hann_window`. -/
def MAX_SAMPLES : Nat := 2048

/-- The enumerator `MAX_CAPPED_BINS` of `spectral_features_capped`. -/
def MAX_CAPPED_BINS : Nat := 256

/-- The function-local statics `cached_n` and `cached` of `hann_window`. -/
structure hann_cache (α : Type) where
  cached_n : Nat
  cached : List α

/-- The statics of `hann_window` at program start (`features.c` lines 39-40). -/
def hann_cache_initial : hann_cache α :=
  { cached_n := 0, cached := List.replicate MAX_SAMPLES 0 }

/-- The coefficient written to `cached[i]` on line 47 of `features.c`. -/
def hann_coeff (cosf : α → α) (pi : α) (n i : Nat) : α :=
  0.5 * (1 - cosf (2 * pi * (i : α) / ((n - 1 : Nat) : α)))

/-- The function `hann_window` of `features.c`, lines 35-53: given the length
`n`, the destination `w` and the statics, the destination and the statics after
the call. -/
def hann_window (cosf : α → α) (pi : α) (n : Nat) (w : List α) (c : hann_cache α) :
    List α × hann_cache α :=
  if n = 0 then (w, c)
  else if n = 1 then (w.set 0 1, c)
  else
    let max_len := MAX_SAMPLES
    let n := if n > max_len then max_len else n
    let c :=
      if c.cached_n ≠ n then
        { cached_n := n
          cached := (List.range n).map (hann_coeff cosf pi n) ++ c.cached.drop n }
      else c
    (c.cached.take n ++ w.drop n, c)

/-- The three outputs `*dom_freq, *bp1, *bp2` of `spectral_features_capped`. -/
structure spectral_out (α : Type) where
  dom_freq : α
  bp1 : α
  bp2 : α

/-- The all-zero output of the early returns of `spectral_features_capped`. -/
def spectral_zero : spectral_out α :=
  { dom_freq := 0, bp1 := 0, bp2 := 0 }

/-- Lines 65-71 of `features.c`: remove the mean of the `n` samples and apply
the Hann window.  The static buffer `win` is overwritten on `0 .. n - 1` before
it is read, so its content on entry is immaterial (zeros here).  Returns the
`n` entries of `work` and the statics of `hann_window` after the call. -/
def windowed_signal (cosf : α → α) (pi : α) (x : List α) (c : hann_cache α) :
    List α × hann_cache α :=
  let n := x.length
  let sum := x.foldl (fun acc xi => acc + xi) 0
  let mean := sum / (n : α)
  let work := x.map (fun xi => xi - mean)
  let hw := hann_window cosf pi n (List.replicate MAX_SAMPLES 0) c
  (List.zipWith (fun wi hi => wi * hi) work (hw.1.take n), hw.2)

/-- The Goertzel pass of one bin, `features.c` lines 92-104: the recurrence over
the windowed samples with the pair `(s_prev, s_prev2)` as state, then the
squared magnitude. -/
def goertzel_mag2 (cosw sinw : α) (work : List α) : α :=
  let coeff := 2 * cosw
  let st := work.foldl (fun (p : α × α) wi => (wi + coeff * p.1 - p.2, p.1)) (0, 0)
  let s_prev := st.1
  let s_prev2 := st.2
  let real := s_prev - s_prev2 * cosw
  let imag := s_prev2 * sinw
  real * real + imag * imag

/-- The power `mag2` computed for bin `k` (lines 89-104): `omega = 2 pi k / n`. -/
def bin_power (cos sin : α → α) (pi : α) (work : List α) (n k : Nat) : α :=
  let omega := 2 * pi * (k : α) / (n : α)
  goertzel_mag2 (cos omega) (sin omega) work

/-- The per-bin variables of the direct (rotating-phasor) branch of
`spectral_features_capped`, compiled when `SPECTRAL_METHOD_GOERTZEL = 0`
(`features.c` lines 116-121): entry `idx` of the six local arrays. -/
structure phasor_bin (α : Type) where
  cos_angle : α
  sin_angle : α
  cos_state : α
  sin_state : α
  real_acc : α
  imag_acc : α

/-- The initialisation loop of the direct branch, lines 123-132. -/
def phasor_init (cosf sinf : α → α) (pi : α) (n bin_count : Nat) : List (phasor_bin α) :=
  (List.range bin_count).map fun idx =>
    let k : Nat := idx + 1
    let angle := 2 * pi * (k : α) / (n : α)
    { cos_angle := cosf angle, sin_angle := sinf angle, cos_state := 1, sin_state := 0,
      real_acc := 0, imag_acc := 0 }

/-- The body of the inner loop of the direct branch for one bin, lines 137-145. -/
def phasor_update (sample : α) (b : phasor_bin α) : phasor_bin α :=
  let real_acc := b.real_acc + sample * b.cos_state
  let imag_acc := b.imag_acc - sample * b.sin_state
  let c := b.cos_state
  let s := b.sin_state
  let cos_next := c * b.cos_angle - s * b.sin_angle
  let sin_next := s * b.cos_angle + c * b.sin_angle
  { cos_angle := b.cos_angle, sin_angle := b.sin_angle, cos_state := cos_next,
    sin_state := sin_next, real_acc := real_acc, imag_acc := imag_acc }

/-- The sample loop of the direct branch, lines 134-147: for each sample the
inner loop updates every bin. -/
def phasor_pass (work : List α) (bins : List (phasor_bin α)) : List (phasor_bin α) :=
  work.foldl (fun bins sample => bins.map (phasor_update sample)) bins

/-- The powers `mag2` of the direct branch (line 151), entry `idx` for bin
`idx + 1`. -/
def direct_mag2s (cosf sinf : α → α) (pi : α) (work : List α) (n bin_count : Nat) : List α :=
  (phasor_pass work (phasor_init cosf sinf pi n bin_count)).map fun b =>
    b.real_acc * b.real_acc + b.imag_acc * b.imag_acc

/-- The accumulators of the bin loop (lines 82-85). -/
structure bin_acc (α : Type) where
  bp1_acc : α
  bp2_acc : α
  best_mag2 : α
  best_freq : α

/-- The body of the bin loop for bin `k`, lines 89-109. -/
def bin_step (cos sin : α → α) (pi : α) (work : List α) (n : Nat) (df : α)
    (acc : bin_acc α) (k : Nat) : bin_acc α :=
  let mag2 := bin_power cos sin pi work n k
  let freq := df * (k : α)
  let best := if mag2 > acc.best_mag2 then (mag2, freq) else (acc.best_mag2, acc.best_freq)
  let bp1_acc := if freq ≥ 0.5 ∧ freq < 3 then acc.bp1_acc + mag2 else acc.bp1_acc
  let bp2_acc :=
    if freq ≥ 0.5 ∧ freq < 3 then acc.bp2_acc
    else if freq ≥ 3 ∧ freq ≤ 10 then acc.bp2_acc + mag2 else acc.bp2_acc
  { bp1_acc := bp1_acc, bp2_acc := bp2_acc, best_mag2 := best.1, best_freq := best.2 }

/-- The bins `1 .. kmax` visited by `for (int k = 1; k <= kmax; k++)`. -/
def bins_upto (kmax : Nat) : List Nat :=
  (List.range kmax).map (· + 1)

/-- The bin loop, lines 82-110, from the zero accumulators. -/
def bin_loop (cos sin : α → α) (pi : α) (work : List α) (n : Nat) (df : α) (kmax : Nat) :
    bin_acc α :=
  (bins_upto kmax).foldl (bin_step cos sin pi work n df)
    { bp1_acc := 0, bp2_acc := 0, best_mag2 := 0, best_freq := 0 }

/-- Lines 158-161: the zero-power guard and the outputs. -/
def spectral_finish (acc : bin_acc α) : spectral_out α :=
  let best_freq := if acc.best_mag2 ≤ 0 then 0 else acc.best_freq
  { dom_freq := best_freq, bp1 := acc.bp1_acc, bp2 := acc.bp2_acc }

/-- A rational stand-in for the cosine (second-order Taylor polynomial), to run
the definitions on `ℚ`. -/
def taylor_cos (t : α) : α :=
  1 - t * t / 2

/-- A rational stand-in for the sine (first-order Taylor polynomial), to run the
definitions on `ℚ`. -/
def taylor_sin (t : α) : α :=
  t

/-- The frequency `df * k` of bin `k` lies in the low band `[0.5, 3.0)` Hz. -/
def in_low_band (df : α) (k : Nat) : Bool :=
  decide (0.5 ≤ df * (k : α) ∧ df * (k : α) < 3)

/-- The frequency `df * k` of bin `k` lies in the high band `[3.0, 10.0]` Hz. -/
def in_high_band (df : α) (k : Nat) : Bool :=
  decide (3 ≤ df * (k : α) ∧ df * (k : α) ≤ 10)

variable [FloorRing α]

/-- The function `spectral_features_capped` of `features.c`, lines 55-162, in
the configured build (`SPECTRAL_METHOD_GOERTZEL = 1`).  The conversion
`(int)floorf(..)` is the mathematical floor.  Returns the outputs and the
statics of `hann_window` after the call. -/
def spectral_features_capped (cosf cos sin : α → α) (pi : α) (x : List α) (fs : α)
    (c : hann_cache α) : spectral_out α × hann_cache α :=
  let n := x.length
  if n ≤ 1 ∨ fs ≤ 0 then (spectral_zero, c)
  else
    let n := if n > MAX_SAMPLES then MAX_SAMPLES else n
    let ws := windowed_signal cosf pi (x.take n) c
    let work := ws.1
    let df := fs / (n : α)
    if df ≤ 0 then (spectral_zero, ws.2)
    else
      let nyquist : Int := ((n / 2 : Nat) : Int)
      let kmax : Int := ⌊10 / df⌋
      let kmax := if kmax > nyquist then nyquist else kmax
      if kmax < 1 then (spectral_zero, ws.2)
      else
        let kmax := if kmax > (MAX_CAPPED_BINS : Int) then (MAX_CAPPED_BINS : Int) else kmax
        (spectral_finish (bin_loop cos sin pi work n df kmax.toNat), ws.2)

/-- The length `n` in force after line 63 for an input of `n0` samples. -/
def spectral_n (n0 : Nat) : Nat :=
  if n0 > MAX_SAMPLES then MAX_SAMPLES else n0

/-- The resolution `df` of line 73 for an input of `n0` samples at rate `fs`. -/
def spectral_df (n0 : Nat) (fs : α) : α :=
  fs / (spectral_n n0 : α)

/-- The bins for which the loop body of line 88 runs on an input of `n0`
samples at rate `fs`: none on the early returns, `1 .. kmax` otherwise. -/
def evaluated_bins (n0 : Nat) (fs : α) : List Nat :=
  if n0 ≤ 1 ∨ fs ≤ 0 then []
  else
    let n := spectral_n n0
    let df := spectral_df n0 fs
    if df ≤ 0 then []
    else
      let nyquist : Int := ((n / 2 : Nat) : Int)
      let kmax : Int := ⌊10 / df⌋
      let kmax := if kmax > nyquist then nyquist else kmax
      if kmax < 1 then []
      else
        let kmax := if kmax > (MAX_CAPPED_BINS : Int) then (MAX_CAPPED_BINS : Int) else kmax
        bins_upto kmax.toNat

/-- The windowed signal `work` of an input `x` (after the truncation of line 63). -/
def spectral_work (cosf : α → α) (pi : α) (x : List α) (c : hann_cache α) : List α :=
  (windowed_signal cosf pi (x.take (spectral_n x.length)) c).1

/-- The C library function `lrintf` in the default rounding mode: the nearest
integer, a tie going to the even neighbour. -/
def lrintf (y : α) : Int :=
  let f := ⌊y⌋
  let d := y - (f : α)
  if d < 1 / 2 then f
  else if 1 / 2 < d then f + 1
  else if f % 2 = 0 then f else f + 1

/-- The conversion `(uint8_t)` of a `long`: reduction modulo 256. -/
def to_uint8 (z : Int) : Nat :=
  (z % 256).toNat

/-- The body of the loop of `quantize_features_u8` for one value (lines 208-211):
clamp to `[0, 1]`, scale by 255, round, convert to a byte. -/
def quantize_value (x : α) : Nat :=
  let x := if x < 0 then 0 else x
  let x := if x > 1 then 1 else x
  to_uint8 (lrintf (x * 255))

/-- The array `v` of `quantize_features_u8`, lines 199-205. -/
def quantize_selection (f : feat_vec_t α) : List α :=
  [f.amag.std, f.amag.dom_freq / 10, f.gx_std / 300, f.gy_std / 300, f.gz_std / 300]

/-- The function `quantize_features_u8` of `features.c`, lines 197-214: the
buffer `out_buf` after the call and the count `k` stored through `out_len`. -/
def quantize_features_u8 (f : feat_vec_t α) (out_buf : List Nat) : List Nat × Nat :=
  (quantize_selection f).foldl
    (fun (st : List Nat × Nat) x => (st.1.set st.2 (quantize_value x), st.2 + 1))
    (out_buf, 0)

end Features

/-! ## features.c : `compute_features`, and the feature stage of the sampling loop -/

section FeatureExtraction

variable {α : Type} [LinearOrderedField α] [FloorRing α]

/-- The function `compute_features` of `features.c`, lines 166-195.  The six
arrays share the count `n`; entry `i` of an array is `getD i 0`.  The `memset`
of line 170 is overwritten field by field.  Returns the feature vector and the
statics of `hann_window` after the call. -/
def compute_features (sqrtf cosf cos sin : α → α) (pi : α) (ax ay az gx gy gz : List α)
    (n : Nat) (fs_hz : α) (c : hann_cache α) : feat_vec_t α × hann_cache α :=
  let n := if n > 2048 then 2048 else n
  let amag := (List.range n).map fun i =>
    let x := ax.getD i 0
    let y := ay.getD i 0
    let z := az.getD i 0
    sqrtf (x * x + y * y + z * z)
  let st := stats_basic sqrtf amag
  let sp := spectral_features_capped cosf cos sin pi amag fs_hz c
  let gx_std := (stats_basic sqrtf (gx.take n)).std
  let gy_std := (stats_basic sqrtf (gy.take n)).std
  let gz_std := (stats_basic sqrtf (gz.take n)).std
  ({ amag := { mean := st.mean, std := st.std, rms := st.rms, energy := st.energy,
               dom_freq := sp.1.dom_freq, bp1 := sp.1.bp1, bp2 := sp.1.bp2 }
     gx_std := gx_std, gy_std := gy_std, gz_std := gz_std
     d_pitch_std := gy_std * 0.001, d_roll_std := gx_std * 0.001 }, sp.2)

/-- The feature stage of the sampling loop (`main.c` lines 368-372) applied to
the emissions of a run, in order: `compute_features` on the six windows with
`n = W` and the sample rate `fs`, then `classify`.  The statics of
`hann_window` pass from one emission to the next. -/
def process_emissions (sqrtf cosf cos sin : α → α) (pi : α) (W : Nat) (fs : α) :
    hann_cache α → List (Option (window_set α)) → List (Option (feat_vec_t α × Int))
  | _, [] => []
  | c, none :: rest => none :: process_emissions sqrtf cosf cos sin pi W fs c rest
  | c, some w :: rest =>
    let r := compute_features sqrtf cosf cos sin pi w.ax_win w.ay_win w.az_win w.gx_win
      w.gy_win w.gz_win W fs c
    some (r.1, classify r.1) :: process_emissions sqrtf cosf cos sin pi W fs r.2 rest

/-- The statics of `hann_window` after a sequence of calls, each given by its
length and its destination buffer. -/
def hann_calls (cosf : α → α) (pi : α) : hann_cache α → List (Nat × List α) → hann_cache α
  | c, [] => c
  | c, call :: rest => hann_calls cosf pi (hann_window cosf pi call.1 call.2 c).2 rest

/-- Validity of the statics of `hann_window`: the table has `MAX_SAMPLES` cells
and, once filled (`cached_n ≠ 0`), holds the coefficients of length `cached_n`. -/
def HannCacheValid (cosf : α → α) (pi : α) (c : hann_cache α) : Prop :=
  c.cached.length = MAX_SAMPLES ∧
  (c.cached_n = 0 ∨
    (2 ≤ c.cached_n ∧ c.cached_n ≤ MAX_SAMPLES ∧
      ∀ i, i < c.cached_n → c.cached.getD i 0 = hann_coeff cosf pi c.cached_n i))

end FeatureExtraction

/-! ## csv_logger.h / csv_logger.cpp : the append-only log file -/

/-- The result type `FRESULT` of the FatFs library (`ff.h`, a library header
that is not among the sources): the four codes the sources name, and one
constructor for every other error code. -/
inductive FRESULT where
  | FR_OK
  | FR_EXIST
  | FR_INVALID_OBJECT
  | FR_NO_FILESYSTEM
  | FR_OTHER (code : Nat)
  deriving DecidableEq

/-- The library calls that reach the card.  A run records the calls it makes,
in order; the data passed to a call is not recorded. -/
inductive storage_call where
  | sd_init_driver
  | sd_get_by_num
  | sd_get_drive_prefix_fn
  | f_mount
  | f_mkfs
  | f_mkdir
  | f_open
  | f_write
  | f_sync
  | f_close
  deriving DecidableEq

/-- The struct `csv_logger_t` of `csv_logger.h`.  The field `open` is `opened`
here; the FatFs file object `file` is library state and shows only through the
results of the calls made on it. -/
structure csv_logger_t where
  opened : Bool
  lines_written : Nat
  flush_interval : Nat
  deriving DecidableEq

/-- The number of values of the type `unsigned` of the target (32 bits):
`lines_written++` wraps at this modulus. -/
def UNSIGNED_MODULUS : Nat := 2 ^ 32

/-- The results of the library calls `csv_open` may make, in source order.  A
result is read only if its call is made. -/
structure csv_open_outcomes where
  f_open : FRESULT
  f_write_header : FRESULT
  f_write_newline : FRESULT
  f_sync : FRESULT

/-- The function `csv_open` of `csv_logger.cpp`, lines 6-24.  The pointer `lg`
is `none` when it is NULL.  Returns the result, the logger and the calls made. -/
def csv_open (lg : Option csv_logger_t) (o : csv_open_outcomes) :
    FRESULT × Option csv_logger_t × List storage_call :=
  match lg with
  | none => (FRESULT.FR_INVALID_OBJECT, none, [])
  | some _ =>
    let lg : csv_logger_t := { opened := false, lines_written := 0, flush_interval := 0 }
    let lg := { lg with flush_interval := 20 }
    let fr := o.f_open
    if fr ≠ FRESULT.FR_OK then (fr, some lg, [storage_call.f_open])
    else
      let fr := o.f_write_header
      let w := if fr = FRESULT.FR_OK then
          (o.f_write_newline, [storage_call.f_open, storage_call.f_write, storage_call.f_write])
        else (fr, [storage_call.f_open, storage_call.f_write])
      if w.1 ≠ FRESULT.FR_OK then (w.1, some lg, w.2 ++ [storage_call.f_close])
      else
        let lg := { lg with opened := true }
        (o.f_sync, some lg, w.2 ++ [storage_call.f_sync])

/-- The results of the library calls `csv_append` may make, in source order. -/
structure csv_append_outcomes where
  f_write_line : FRESULT
  f_write_newline : FRESULT
  f_sync : FRESULT

/-- The function `csv_append` of `csv_logger.cpp`, lines 26-39. -/
def csv_append (lg : Option csv_logger_t) (o : csv_append_outcomes) :
    FRESULT × Option csv_logger_t × List storage_call :=
  match lg with
  | none => (FRESULT.FR_INVALID_OBJECT, none, [])
  | some lg =>
    if !lg.opened then (FRESULT.FR_INVALID_OBJECT, some lg, [])
    else
      let fr := o.f_write_line
      if fr ≠ FRESULT.FR_OK then (fr, some lg, [storage_call.f_write])
      else
        let fr := o.f_write_newline
        if fr ≠ FRESULT.FR_OK then (fr, some lg, [storage_call.f_write, storage_call.f_write])
        else
          let lg := { lg with lines_written := (lg.lines_written + 1) % UNSIGNED_MODULUS }
          if lg.flush_interval ≠ 0 ∧ lg.lines_written % lg.flush_interval = 0 then
            (o.f_sync, some lg,
              [storage_call.f_write, storage_call.f_write, storage_call.f_sync])
          else (FRESULT.FR_OK, some lg, [storage_call.f_write, storage_call.f_write])

/-- The results of the library calls `csv_close` may make, in source order. -/
structure csv_close_outcomes where
  f_sync : FRESULT
  f_close : FRESULT

/-- The function `csv_close` of `csv_logger.cpp`, lines 41-47. -/
def csv_close (lg : Option csv_logger_t) (o : csv_close_outcomes) :
    FRESULT × Option csv_logger_t × List storage_call :=
  match lg with
  | none => (FRESULT.FR_INVALID_OBJECT, none, [])
  | some lg =>
    if !lg.opened then (FRESULT.FR_INVALID_OBJECT, some lg, [])
    else
      let fr := o.f_sync
      let fr2 := o.f_close
      let lg := { lg with opened := false }
      (if fr ≠ FRESULT.FR_OK then fr else fr2, some lg,
        [storage_call.f_sync, storage_call.f_close])

/-- A sequence of `csv_append` calls on one logger, each with the results of its
library calls: the logger at the end and, per call, the result and the calls
made. -/
def csv_append_run : csv_logger_t → List csv_append_outcomes →
    csv_logger_t × List (FRESULT × List storage_call)
  | lg, [] => (lg, [])
  | lg, o :: rest =>
    let r := csv_append (some lg) o
    let r2 := csv_append_run (r.2.1.getD lg) rest
    (r2.1, (r.1, r.2.2) :: r2.2)

/-- The call of `csv_append` wrote the line: both writes succeeded. -/
def line_written (o : csv_append_outcomes) : Bool :=
  decide (o.f_write_line = FRESULT.FR_OK ∧ o.f_write_newline = FRESULT.FR_OK)

/-! ## main.c : the storage sink -/

/-- The file-scope variables of the storage sink (`main.c` lines 36-41):
whether `g_drive_prefix` is set (not NULL), the logger and the two flags.  The
FatFs object `g_fs` and the card pointer `g_sd` are library state. -/
structure sink_state where
  g_drive_prefix_set : Bool
  g_csv_logger : csv_logger_t
  g_csv_logger_ready : Bool
  g_csv_logger_failed : Bool

/-- The storage sink at program start: prefix NULL, logger zeroed, both flags
false. -/
def sink_initial : sink_state :=
  { g_drive_prefix_set := false
    g_csv_logger := { opened := false, lines_written := 0, flush_interval := 0 }
    g_csv_logger_ready := false
    g_csv_logger_failed := false }

/-- The results of the library calls `ensure_sd_mounted` may make, in source
order; a pointer result is `true` when it is not NULL. -/
structure mount_outcomes where
  sd_init_driver : Bool
  sd_get_by_num : Bool
  sd_get_drive_prefix_ok : Bool
  f_mount : FRESULT
  f_mkfs : FRESULT
  f_mount_again : FRESULT

/-- The function `ensure_sd_mounted` of `main.c`, lines 76-117. -/
def ensure_sd_mounted (st : sink_state) (o : mount_outcomes) :
    Bool × sink_state × List storage_call :=
  if st.g_drive_prefix_set then (true, st, [])
  else if !o.sd_init_driver then (false, st, [storage_call.sd_init_driver])
  else if !o.sd_get_by_num then
    (false, st, [storage_call.sd_init_driver, storage_call.sd_get_by_num])
  else
    let st := { st with g_drive_prefix_set := o.sd_get_drive_prefix_ok }
    let calls := [storage_call.sd_init_driver, storage_call.sd_get_by_num,
      storage_call.sd_get_drive_prefix_fn]
    if !st.g_drive_prefix_set then (false, st, calls)
    else
      let fr := o.f_mount
      if fr = FRESULT.FR_NO_FILESYSTEM then
        let fr := o.f_mkfs
        if fr ≠ FRESULT.FR_OK then
          (false, st, calls ++ [storage_call.f_mount, storage_call.f_mkfs])
        else
          let fr := o.f_mount_again
          if fr ≠ FRESULT.FR_OK then
            (false, st,
              calls ++ [storage_call.f_mount, storage_call.f_mkfs, storage_call.f_mount])
          else
            (true, st,
              calls ++ [storage_call.f_mount, storage_call.f_mkfs, storage_call.f_mount])
      else if fr ≠ FRESULT.FR_OK then (false, st, calls ++ [storage_call.f_mount])
      else (true, st, calls ++ [storage_call.f_mount])

/-- The results of the library calls `init_csv_logging` may make. -/
structure init_outcomes where
  mount : mount_outcomes
  f_mkdir : FRESULT
  csv_open : csv_open_outcomes

/-- The function `init_csv_logging` of `main.c`, lines 119-152. -/
def init_csv_logging (st : sink_state) (o : init_outcomes) :
    Bool × sink_state × List storage_call :=
  if st.g_csv_logger_ready then (true, st, [])
  else if st.g_csv_logger_failed then (false, st, [])
  else
    let m := ensure_sd_mounted st o.mount
    if !m.1 then (false, { m.2.1 with g_csv_logger_failed := true }, m.2.2)
    else
      let fr := o.f_mkdir
      if fr ≠ FRESULT.FR_OK ∧ fr ≠ FRESULT.FR_EXIST then
        (false, { m.2.1 with g_csv_logger_failed := true },
          m.2.2 ++ [storage_call.f_mkdir])
      else
        let r := csv_open (some m.2.1.g_csv_logger) o.csv_open
        let st := { m.2.1 with g_csv_logger := r.2.1.getD m.2.1.g_csv_logger }
        if r.1 ≠ FRESULT.FR_OK then
          (false, { st with g_csv_logger_failed := true },
            m.2.2 ++ [storage_call.f_mkdir] ++ r.2.2)
        else
          (true, { st with g_csv_logger_ready := true },
            m.2.2 ++ [storage_call.f_mkdir] ++ r.2.2)

/-- The results of the library calls `append_csv_line` may make. -/
structure append_line_outcomes where
  init : init_outcomes
  csv_append : csv_append_outcomes
  csv_close : csv_close_outcomes

/-- The function `append_csv_line` of `main.c`, lines 154-183.  The record
passed in is formatted and handed to `csv_append`; it has no influence on the
flags or on which calls are made. -/
def append_csv_line (st : sink_state) (o : append_line_outcomes) :
    sink_state × List storage_call :=
  if st.g_csv_logger_failed then (st, [])
  else
    let r := if !st.g_csv_logger_ready then init_csv_logging st o.init else (true, st, [])
    if !r.1 then (r.2.1, r.2.2)
    else
      let a := csv_append (some r.2.1.g_csv_logger) o.csv_append
      let st := { r.2.1 with g_csv_logger := a.2.1.getD r.2.1.g_csv_logger }
      if a.1 ≠ FRESULT.FR_OK then
        let cl := csv_close (some st.g_csv_logger) o.csv_close
        ({ st with g_csv_logger := cl.2.1.getD st.g_csv_logger
                   g_csv_logger_ready := false
                   g_csv_logger_failed := true },
          r.2.2 ++ a.2.2 ++ cl.2.2)
      else (st, r.2.2 ++ a.2.2)

/-- A call into the storage sink, with the results of the library calls it may
make: `init_csv_logging` (called by `main` at line 261) or `append_csv_line`
(called once per emitted window, line 419). -/
inductive sink_call where
  | init (o : init_outcomes)
  | append (o : append_line_outcomes)

/-- One call into the storage sink: the state after it and the calls made. -/
def sink_step (st : sink_state) : sink_call → sink_state × List storage_call
  | sink_call.init o => ((init_csv_logging st o).2.1, (init_csv_logging st o).2.2)
  | sink_call.append o => append_csv_line st o

/-- A sequence of calls into the storage sink: per call, the state after it and
the library calls it made. -/
def sink_run : sink_state → List sink_call → List (sink_state × List storage_call)
  | _, [] => []
  | st, c :: rest => sink_step st c :: sink_run (sink_step st c).1 rest

/-! ## main.c : the rate monitor of the sampling loop -/

/-- The number of values of the type `uint64_t`: the microsecond timestamps wrap
at this modulus. -/
def UINT64_MODULUS : Nat := 2 ^ 64

/-- The two variables of the rate monitor, `main.c` lines 290-291. -/
structure rate_monitor where
  last_sample_us : Nat
  next_rate_warn_us : Nat
  deriving DecidableEq

/-- The rate monitor at loop entry (lines 290-291): both variables hold the time
`now_us` returned by `time_us_64()`. -/
def rate_monitor_init (now_us : Nat) : rate_monitor :=
  { last_sample_us := now_us, next_rate_warn_us := now_us }

/-- The difference `dt_us` of line 311, an unsigned 64-bit subtraction. -/
def sample_dt_us (last_sample_us sample_time_us : Nat) : Nat :=
  (sample_time_us + UINT64_MODULUS - last_sample_us) % UINT64_MODULUS

/-- The relative drift of lines 313-314 for a period of `dt_us` microseconds,
in exact arithmetic on the rationals. -/
def rate_drift (dt_us : Nat) : ℚ :=
  let actual_hz : ℚ := 1000000 / (dt_us : ℚ)
  |actual_hz - (SAMPLE_HZ : ℚ)| / (SAMPLE_HZ : ℚ)

/-- The rate monitor of one tick, `main.c` lines 310-321, for the timestamp
`sample_time_us` of the tick: the two variables after it and whether the
warning of line 316 was printed. -/
def rate_monitor_step (m : rate_monitor) (sample_time_us : Nat) : rate_monitor × Bool :=
  let dt_us := sample_dt_us m.last_sample_us sample_time_us
  let w : Bool × Nat :=
    if dt_us > 0 then
      if rate_drift dt_us > 0.05 ∧ sample_time_us ≥ m.next_rate_warn_us then
        (true, (sample_time_us + 1000000) % UINT64_MODULUS)
      else (false, m.next_rate_warn_us)
    else (false, m.next_rate_warn_us)
  ({ last_sample_us := sample_time_us, next_rate_warn_us := w.2 }, w.1)

/-- The rate monitor over the timestamps of consecutive ticks: the variables at
the end and, per tick, whether a warning was printed. -/
def rate_monitor_run : rate_monitor → List Nat → rate_monitor × List Bool
  | m, [] => (m, [])
  | m, t :: rest =>
    let r := rate_monitor_step m t
    let r2 := rate_monitor_run r.1 rest
    (r2.1, r.2 :: r2.2)

section MainLoop

variable {α : Type} [LinearOrderedField α]

/-- The variables of the sampling loop that outlive an iteration: those of the
rate monitor and the window state. -/
structure main_loop_state (α : Type) where
  monitor : rate_monitor
  window : loop_state α

/-- One iteration of the sampling loop of `main` (lines 293-444) for a tick
with timestamp `sample_time_us` and sample `s`: the rate monitor (lines
310-321), then the window update and extraction (lines 334-364).  Returns the
state, whether a drift warning was printed and the emission of the tick. -/
def main_iteration (W H : Nat) (st : main_loop_state α) (sample_time_us : Nat)
    (s : imu_sample α) : main_loop_state α × Bool × Option (window_set α) :=
  let m := rate_monitor_step st.monitor sample_time_us
  let t := tick W H st.window s
  ({ monitor := m.1, window := t.1 }, m.2, t.2)

/-- The sampling loop over a list of ticks, each a timestamp and a sample. -/
def main_run (W H : Nat) : main_loop_state α → List (Nat × imu_sample α) →
    main_loop_state α × List (Bool × Option (window_set α))
  | st, [] => (st, [])
  | st, x :: rest =>
    let r := main_iteration W H st x.1 x.2
    let r2 := main_run W H r.1 rest
    (r2.1, (r.2.1, r.2.2) :: r2.2)

end MainLoop

/-! ## main.c / config.h : the per-window records of the two sinks -/

/-- The macro `CSV_HEADER` of `config.h`, lines 19-21: the header of the console
sink. -/
def CSV_HEADER : String :=
  "t_ms,ax,ay,az,gx,gy,gz,amag_mean,amag_std,amag_rms,energy,dom_freq,bp1,bp2,gx_std,gy_std,gz_std,d_pitch_std,d_roll_std,class,lat_ms,q_len"

/-- The constant `kCsvHeader` of `main.c`, lines 43-44: the header of the
storage sink. -/
def kCsvHeader : String :=
  "t_ms,ax,ay,az,gx,gy,gz,amag_std,dom_freq,bp1,bp2,gx_std,gy_std,gz_std,cls,lat_ms,qbytes"

/-- The format string of `format_csv_line`, `main.c` line 70. -/
def kCsvLineFormat : String :=
  "%u,%.5f,%.5f,%.5f,%.5f,%.5f,%.5f,%.5f,%.5f,%.5f,%.5f,%.5f,%.5f,%.5f,%d,%.3f,%d"

/-- The format string of the per-window `printf`, `main.c` line 399 (without
its final newline). -/
def kConsoleFormat : String :=
  "%lu,%.5f,%.5f,%.5f,%.5f,%.5f,%.5f,%.5f,%.5f,%.5f,%.5f,%.5f,%.5f,%.5f,%.5f,%.5f,%.5f,%.5f,%.5f,%d,%.3f,%d"

/-- The macro `USE_GYRO` of `config.h`. -/
def USE_GYRO : Bool := true

/-- The columns of a header line: the number of its commas plus one. -/
def header_column_count (h : String) : Nat :=
  (h.toList.filter fun ch => ch == ',').length + 1

/-- The number of conversion specifications of a format string without `%%`:
the number of its percent signs. -/
def conversion_count (fmt : String) : Nat :=
  (fmt.toList.filter fun ch => ch == '%').length

section Records

variable {α : Type} [LinearOrderedField α]

/-- One value of a record, by the kind of its conversion: unsigned (`%u`,
`%lu`), floating (`%.5f`, `%.3f`) or signed (`%d`). -/
inductive record_value (α : Type) where
  | unsigned (v : Nat)
  | floating (v : α)
  | signed (v : Int)

/-- The function `format_csv_line` of `main.c`, lines 62-74: the values printed,
in the order of the conversions of `kCsvLineFormat`. -/
def format_csv_line (t_ms : Nat) (ax ay az gx gy gz amag_std dom_f bp1 bp2 gx_std gy_std
    gz_std : α) (cls : Int) (lat_ms : α) (qbytes : Int) : List (record_value α) :=
  [record_value.unsigned t_ms, record_value.floating ax, record_value.floating ay,
   record_value.floating az, record_value.floating gx, record_value.floating gy,
   record_value.floating gz, record_value.floating amag_std, record_value.floating dom_f,
   record_value.floating bp1, record_value.floating bp2, record_value.floating gx_std,
   record_value.floating gy_std, record_value.floating gz_std, record_value.signed cls,
   record_value.floating lat_ms, record_value.signed qbytes]

/-- The locals of the extraction block of `main` that the two sinks print: the
time of the tick, its sample, the feature vector, the label, the latency and
the quantised length. -/
structure window_locals (α : Type) where
  t_ms : Nat
  ax : α
  ay : α
  az : α
  gx : α
  gy : α
  gz : α
  feat : feat_vec_t α
  cls : Int
  lat_ms : α
  q_len : Int

/-- The values of the per-window `printf` of `main.c`, lines 399-417, in the
order of its arguments; lines 382-396 select the gyro values by `USE_GYRO`. -/
def console_record (w : window_locals α) : List (record_value α) :=
  let gx_sample := if USE_GYRO then w.gx else 0
  let gy_sample := if USE_GYRO then w.gy else 0
  let gz_sample := if USE_GYRO then w.gz else 0
  let gx_std_val := if USE_GYRO then w.feat.gx_std else 0
  let gy_std_val := if USE_GYRO then w.feat.gy_std else 0
  let gz_std_val := if USE_GYRO then w.feat.gz_std else 0
  [record_value.unsigned w.t_ms, record_value.floating w.ax, record_value.floating w.ay,
   record_value.floating w.az, record_value.floating gx_sample,
   record_value.floating gy_sample, record_value.floating gz_sample,
   record_value.floating w.feat.amag.mean, record_value.floating w.feat.amag.std,
   record_value.floating w.feat.amag.rms, record_value.floating w.feat.amag.energy,
   record_value.floating w.feat.amag.dom_freq, record_value.floating w.feat.amag.bp1,
   record_value.floating w.feat.amag.bp2, record_value.floating gx_std_val,
   record_value.floating gy_std_val, record_value.floating gz_std_val,
   record_value.floating w.feat.d_pitch_std, record_value.floating w.feat.d_roll_std,
   record_value.signed w.cls, record_value.floating w.lat_ms, record_value.signed w.q_len]

/-- The record handed to the storage sink: the call of `append_csv_line` of
`main.c`, lines 419-431, whose arguments reach `format_csv_line` unchanged
(lines 169-174). -/
def storage_record (w : window_locals α) : List (record_value α) :=
  let gx_sample := if USE_GYRO then w.gx else 0
  let gy_sample := if USE_GYRO then w.gy else 0
  let gz_sample := if USE_GYRO then w.gz else 0
  let gx_std_val := if USE_GYRO then w.feat.gx_std else 0
  let gy_std_val := if USE_GYRO then w.feat.gy_std else 0
  let gz_std_val := if USE_GYRO then w.feat.gz_std else 0
  format_csv_line w.t_ms w.ax w.ay w.az gx_sample gy_sample gz_sample w.feat.amag.std
    w.feat.amag.dom_freq w.feat.amag.bp1 w.feat.amag.bp2 gx_std_val gy_std_val gz_std_val
    w.cls w.lat_ms w.q_len

/-- The record of the specification (section on the storage and console
collaborators), in its own words: the 22 fields `t_ms, ax, ay, az, gx, gy, gz,
amag_mean, amag_std, amag_rms, energy, dom_freq, bandpower_low, bandpower_high,
gx_std, gy_std, gz_std, pitch_rate_std, roll_rate_std, class, latency_ms,
quantized_len`, in this order. -/
def record_spec (w : window_locals α) : List (record_value α) :=
  [record_value.unsigned w.t_ms, record_value.floating w.ax, record_value.floating w.ay,
   record_value.floating w.az, record_value.floating w.gx, record_value.floating w.gy,
   record_value.floating w.gz, record_value.floating w.feat.amag.mean,
   record_value.floating w.feat.amag.std, record_value.floating w.feat.amag.rms,
   record_value.floating w.feat.amag.energy, record_value.floating w.feat.amag.dom_freq,
   record_value.floating w.feat.amag.bp1, record_value.floating w.feat.amag.bp2,
   record_value.floating w.feat.gx_std, record_value.floating w.feat.gy_std,
   record_value.floating w.feat.gz_std, record_value.floating w.feat.d_pitch_std,
   record_value.floating w.feat.d_roll_std, record_value.signed w.cls,
   record_value.floating w.lat_ms, record_value.signed w.q_len]

end Records

/-! ## lab_algorithms/quantization.c -/

section QuantizationLab

variable {α : Type} [LinearOrderedField α] [FloorRing α]

omit [FloorRing α] in
/-- The function `clampf` of `quantization.c`, lines 6-8. -/
def clampf (v lo hi : α) : α :=
  if v < lo then lo else if v > hi then hi else v

/-- The conversion of an integer to a signed integer type of `w` bits
(`(int16_t)q`, `(int8_t)q`): reduction modulo `2^w` into `[-2^(w-1), 2^(w-1))`. -/
def to_signed (w : Nat) (q : Int) : Int :=
  (q + 2 ^ (w - 1)) % 2 ^ w - 2 ^ (w - 1)

/-- The body of the loop of `quantize_bits` for one sample `x[i]`, lines 21-34:
whether the sample counts as clipped, and the value stored in `q_out[i]`
(`none` when `elem_size` is none of `sizeof(int16_t) = 2`, `sizeof(int8_t) = 1`,
`sizeof(int32_t) = 4`, in which case nothing is stored). -/
def quantize_sample (bits elem_size : Nat) (x : α) : Bool × Option Int :=
  let scale : Int := 2 ^ (bits - 1)
  let max_q : Int := scale - 1
  let min_q : Int := -scale
  let hi : α := (max_q : α) / (scale : α)
  let lo : α := -1
  let s := clampf x lo hi
  let q : Int := lrintf (s * (scale : α))
  let q := if q > max_q then max_q else q
  let q := if q < min_q then min_q else q
  (decide (s ≠ x),
    if elem_size = 2 then some (to_signed 16 q)
    else if elem_size = 1 then some (to_signed 8 q)
    else if elem_size = 4 then some q
    else none)

/-- The function `quantize_bits` of `quantization.c`, lines 11-38, on the `n`
samples of the list `x`: the buffer `q_out` after the call and the count stored
through `clip_count`.  The loop state is the buffer, `clips` and `i`. -/
def quantize_bits (x : List α) (bits elem_size : Nat) (q_out : List Int) : List Int × Nat :=
  let r := x.foldl
    (fun (st : List Int × Nat × Nat) xi =>
      let c := quantize_sample bits elem_size xi
      ((match c.2 with
        | some v => st.1.set st.2.2 v
        | none => st.1),
       (if c.1 then st.2.1 + 1 else st.2.1), st.2.2 + 1))
    (q_out, 0, 0)
  (r.1, r.2.1)

omit [FloorRing α] in
/-- The function `dequantize_bits` of `quantization.c`, lines 40-52, on the
first `n` stored values: the buffer `y` after the call. -/
def dequantize_bits (q_in : List Int) (n bits elem_size : Nat) (y : List α) : List α :=
  let inv_scale : α := 1 / (((2 : Int) ^ (bits - 1) : Int) : α)
  if elem_size = 2 ∨ elem_size = 1 ∨ elem_size = 4 then
    (List.range n).foldl (fun (y : List α) i => y.set i ((q_in.getD i 0 : α) * inv_scale)) y
  else y

/-- The element size the validation program of `quantization.c` uses for a
width (lines 122-126): `int16_t` for 16 bits, `int8_t` for 8 and for 4. -/
def validation_elem_size (bits : Nat) : Nat :=
  if bits = 16 then 2 else 1

end QuantizationLab

/-! ## lab_algorithms/fft.c -/

/-- The struct `c32` of `fft.c`, line 8. -/
structure c32 (α : Type) where
  re : α
  im : α

/-- The function `is_power_of_two` of `fft.c`, line 22, as a truth value.  For
`n ≤ 0` the second operand of `&&` is not evaluated; for `n > 0` the operands of
`&` are non-negative. -/
def is_power_of_two (n : Int) : Bool :=
  decide (n > 0) && decide (n.toNat &&& (n.toNat - 1) = 0)

/-- The function `reverse_bits` of `fft.c`, lines 23-27.  The loop state is
`(r, v)`; the shift of the `unsigned` value `r` wraps. -/
def reverse_bits (v : Nat) (nbits : Nat) : Nat :=
  ((List.range nbits).foldl
    (fun (st : Nat × Nat) _ =>
      (((st.1 <<< 1) % UNSIGNED_MODULUS) ||| (st.2 &&& 1), st.2 >>> 1))
    (0, v)).1

/-- The loop `while ((1 << logn) < n) logn++` of `fft_radix2`, line 33, with a
bound on the number of iterations. -/
def fft_logn_loop (n : Int) : Nat → Nat → Nat
  | 0, logn => logn
  | fuel + 1, logn => if (2 : Int) ^ logn < n then fft_logn_loop n fuel (logn + 1) else logn

/-- The value of `logn` after line 33 of `fft.c`.  The loop leaves after at most
`n` iterations because `logn < 2^logn`. -/
def fft_logn (n : Int) : Nat :=
  fft_logn_loop n n.toNat 0

section FftLab

variable {α : Type} [LinearOrderedField α]

/-- The bit-reversal permutation of `fft_radix2`, lines 36-39. -/
def bit_reversal (x : List (c32 α)) (n : Int) (logn : Nat) : List (c32 α) :=
  (List.range n.toNat).foldl
    (fun (x : List (c32 α)) i =>
      let j := reverse_bits i logn
      if j > i then
        let t := x.getD i ⟨0, 0⟩
        let x := x.set i (x.getD j ⟨0, 0⟩)
        x.set j t
      else x)
    x

/-- The body of the innermost loop of `fft_radix2`, lines 51-61: one butterfly
and the update of the twiddle factor.  The loop state is `(x, wr, wi)`. -/
def butterfly (wpr wpi : α) (k m2 : Nat) (st : List (c32 α) × α × α) (j : Nat) :
    List (c32 α) × α × α :=
  let x := st.1
  let wr := st.2.1
  let wi := st.2.2
  let t := k + j + m2
  let u := k + j
  let tr := wr * (x.getD t ⟨0, 0⟩).re - wi * (x.getD t ⟨0, 0⟩).im
  let ti := wr * (x.getD t ⟨0, 0⟩).im + wi * (x.getD t ⟨0, 0⟩).re
  let ur := (x.getD u ⟨0, 0⟩).re
  let ui := (x.getD u ⟨0, 0⟩).im
  let x := x.set t ⟨ur - tr, ui - ti⟩
  let x := x.set u ⟨ur + tr, ui + ti⟩
  (x, wr + (wr * wpr - wi * wpi), wi + (wi * wpr + wr * wpi))

/-- The values of `k` in the loop `for (k = 0; k < n; k += m)` of line 48. -/
def block_starts (n : Int) (m : Nat) : List Nat :=
  (List.range ((n.toNat + m - 1) / m)).map (fun b => b * m)

/-- One iteration of the loop over `s` of `fft_radix2`, lines 43-63. -/
def fft_stage (sinf : α → α) (pi : α) (sgn : α) (n : Int) (x : List (c32 α)) (s : Nat) :
    List (c32 α) :=
  let m : Nat := 2 ^ s
  let m2 : Nat := m / 2
  let theta : α := sgn * pi / (m2 : α)
  let wpr : α := -2 * sinf (0.5 * theta) * sinf (0.5 * theta)
  let wpi : α := sinf theta
  (block_starts n m).foldl
    (fun (x : List (c32 α)) k => ((List.range m2).foldl (butterfly wpr wpi k m2) (x, 1, 0)).1)
    x

/-- The function `fft_radix2` of `fft.c`, lines 31-71: the return value and the
buffer `x` after the call. -/
def fft_radix2 (sinf : α → α) (pi : α) (x : List (c32 α)) (n dir : Int) :
    Int × List (c32 α) :=
  if is_power_of_two n = false then (-1, x)
  else
    let logn := fft_logn n
    let x := bit_reversal x n logn
    let sgn : α := if dir ≥ 0 then -1 else 1
    let x := (List.range logn).foldl
      (fun (x : List (c32 α)) s => fft_stage sinf pi sgn n x (s + 1)) x
    let x :=
      if dir < 0 then
        let inv : α := 1 / (n : α)
        (List.range n.toNat).foldl
          (fun (x : List (c32 α)) i =>
            x.set i ⟨(x.getD i ⟨0, 0⟩).re * inv, (x.getD i ⟨0, 0⟩).im * inv⟩)
          x
      else x
    (0, x)

/-- The loop over `i` of `top_k_peaks`, lines 86-93, for the indices `out_idx`
taken so far: the final `(best_i, best_v)`, with `none` for `best_i = -1`. -/
def peak_scan (mag : List α) (n_half k_exclude_dc : Nat) (out_idx : List Nat) :
    Option Nat × α :=
  (List.range' k_exclude_dc (n_half - k_exclude_dc)).foldl
    (fun (st : Option Nat × α) i =>
      if out_idx.contains i then st
      else if mag.getD i 0 > st.2 then (some i, mag.getD i 0)
      else st)
    (none, -1)

/-- The function `top_k_peaks` of `fft.c`, lines 81-101: the first `out_count`
entries of `out_idx` and of `out_val`, and `out_count`. -/
def top_k_peaks (mag : List α) (n_half k_exclude_dc K : Nat) : List Nat × List α × Nat :=
  let r := (List.range K).foldl
    (fun (st : List Nat × List α) _ =>
      let b := peak_scan mag n_half k_exclude_dc st.1
      match b.1 with
      | some best_i => (st.1 ++ [best_i], st.2 ++ [b.2])
      | none => st)
    ([], [])
  (r.1, r.2, r.1.length)

end FftLab

/-! ## lab_algorithms/statistic.c -/

section StatisticLab

variable {α : Type} [LinearOrderedField α]

/-- The loop `while (j >= 0 && tmp[j] > key)` of `median_f32`, lines 54-57.  The
loop state is `tmp` and the position `p = j + 1`; the loop leaves when `j` is
`-1`, that is `p = 0`, or when `tmp[j] ≤ key`. -/
def insertion_shift (key : α) : List α → Nat → List α × Nat
  | tmp, 0 => (tmp, 0)
  | tmp, p + 1 =>
    if tmp.getD p 0 > key then insertion_shift key (tmp.set (p + 1) (tmp.getD p 0)) p
    else (tmp, p + 1)

/-- The insertion sort of `median_f32`, lines 51-59, on the local array `tmp`
of `n` elements: the loop over `i = 1 .. n - 1`. -/
def insertion_sort (tmp : List α) (n : Nat) : List α :=
  (List.range (n - 1)).foldl
    (fun (tmp : List α) i0 =>
      let i := i0 + 1
      let key := tmp.getD i 0
      let r := insertion_shift key tmp i
      r.1.set r.2 key)
    tmp

/-- The arrays and the return value at the end of a call of `median_f32`. -/
structure median_run (α : Type) where
  x : List α
  tmp : List α
  result : α

/-- The function `median_f32` of `statistic.c`, lines 46-63: the argument array
`x` (which is `const` and never written), the local array `tmp` after the sort,
and the value returned. -/
def median_f32_run (x : List α) : median_run α :=
  let n := x.length
  let tmp := (List.range n).map (fun i => x.getD i 0)
  let tmp := insertion_sort tmp n
  { x := x
    tmp := tmp
    result :=
      if n % 2 = 1 then tmp.getD (n / 2) 0
      else 0.5 * (tmp.getD (n / 2 - 1) 0 + tmp.getD (n / 2) 0) }

/-- The value returned by `median_f32`. -/
def median_f32 (x : List α) : α :=
  (median_f32_run x).result

end StatisticLab

/-! ## Auxiliary definitions for `fft_radix2` -/

/-- One iteration of the loop of `reverse_bits`, line 25 of `fft.c`. -/
def reverse_bits_step (st : Nat × Nat) : Nat × Nat :=
  (((st.1 <<< 1) % UNSIGNED_MODULUS) ||| (st.2 &&& 1), st.2 >>> 1)

/-- A `c32` value over the reals as a complex number. -/
def c32_to_complex (z : c32 ℝ) : ℂ :=
  ⟨z.re, z.im⟩

/-- A buffer of `c32` values as a sequence of complex numbers (zero outside the
buffer). -/
def c32_seq (x : List (c32 ℝ)) (p : Nat) : ℂ :=
  c32_to_complex (x.getD p ⟨0, 0⟩)

/-- The effect of one stage of butterflies with half-size `m2` and twiddle step
`W` on a sequence: within each block of `2 * m2` elements, the lower half gets
`a p + W^j · a (p + m2)` and the upper half `a (p - m2) - W^j · a p`. -/
def stage_map {K : Type} [Field K] (W : K) (m2 : Nat) (a : Nat → K) (p : Nat) : K :=
  if p % (2 * m2) < m2 then a p + W ^ (p % (2 * m2)) * a (p + m2)
  else a (p - m2) - W ^ (p % (2 * m2) - m2) * a p

/-- The discrete Fourier sum of `size` elements of `a` taken from `c` on with
the given stride, for the root `ζ ^ stride`, at frequency `j`. -/
def dft_sub {K : Type} [Field K] (ζ : K) (a : Nat → K) (stride c size j : Nat) : K :=
  ∑ t in Finset.range size, a (c + t * stride) * ζ ^ (stride * t * j)

section ClassifierTheorems

variable {α : Type} [LinearOrderedField α]

/-- C1: `classify` returns the label of the first matching rule of the ordered
table SHAKE, TILT, CIRCLE and `NONE` when no rule matches; in particular a
vector matching SHAKE and CIRCLE is SHAKE and one matching TILT and CIRCLE is
TILT. -/
theorem classify_eq_first_match (f : feat_vec_t α) :
    classify f = classify_first_match_spec f ∧
    (shake_rule f → circle_rule f → classify f = G_SHAKE) ∧
    (tilt_rule f → circle_rule f → classify f = G_TILT) := by
  have key : classify f = classify_first_match_spec f := by
    unfold classify classify_first_match_spec rule_table shake_rule tilt_rule circle_rule
    by_cases h1 : f.amag.std > 0.05 ∧ f.amag.dom_freq ≥ 3
    · simp [h1, List.find?]
    · by_cases h2 : (0.2 < f.amag.dom_freq ∧ f.amag.dom_freq < 2) ∧
          (0.01 < f.amag.std ∧ f.amag.std < 0.3)
      · have h2c : f.amag.dom_freq > 0.2 ∧ f.amag.dom_freq < 2 ∧
            f.amag.std > 0.01 ∧ f.amag.std < 0.3 := ⟨h2.1.1, h2.1.2, h2.2.1, h2.2.2⟩
        simp [h1, h2, h2c, List.find?]
      · have h2c : ¬ (f.amag.dom_freq > 0.2 ∧ f.amag.dom_freq < 2 ∧
            f.amag.std > 0.01 ∧ f.amag.std < 0.3) :=
          fun h => h2 ⟨⟨h.1, h.2.1⟩, h.2.2.1, h.2.2.2⟩
        by_cases h3 : (f.gx_std + f.gy_std + f.gz_std) / 3 > 10 ∧
            (1 ≤ f.amag.dom_freq ∧ f.amag.dom_freq ≤ 3)
        · have h3c : (f.gx_std + f.gy_std + f.gz_std) / 3 > 10 ∧
              f.amag.dom_freq ≥ 1 ∧ f.amag.dom_freq ≤ 3 := h3
          simp [h1, h2, h2c, h3, h3c, List.find?]
        · have h3c : ¬ ((f.gx_std + f.gy_std + f.gz_std) / 3 > 10 ∧
              f.amag.dom_freq ≥ 1 ∧ f.amag.dom_freq ≤ 3) := h3
          simp [h1, h2, h2c, h3, h3c, List.find?]
  refine ⟨key, ?_, ?_⟩
  · intro hs _
    have hs2 : f.amag.std > 0.05 ∧ f.amag.dom_freq ≥ 3 := hs
    unfold classify
    simp only [hs2, and_self, if_true]
  · intro ht _
    obtain ⟨⟨ht1, ht2⟩, ht3, ht4⟩ := ht
    have hns : ¬ (f.amag.std > 0.05 ∧ f.amag.dom_freq ≥ 3) := by
      rintro ⟨_, h⟩
      have : (3 : α) < 2 := lt_of_le_of_lt h ht2
      norm_num at this
    have ht5 : f.amag.dom_freq > 0.2 ∧ f.amag.dom_freq < 2 ∧
        f.amag.std > 0.01 ∧ f.amag.std < 0.3 := ⟨ht1, ht2, ht3, ht4⟩
    unfold classify
    simp only [hns, ht5, and_self, if_true, if_false]

/-- Witness for C1 on the rationals: a vector matching both SHAKE and CIRCLE,
and one matching both TILT and CIRCLE. -/
theorem classify_eq_first_match_witness :
    classify (⟨⟨0, 1, 0, 0, 3, 0, 0⟩, 30, 30, 30, 0, 0⟩ : feat_vec_t ℚ) = G_SHAKE ∧
    classify (⟨⟨0, 1 / 10, 0, 0, 3 / 2, 0, 0⟩, 30, 30, 30, 0, 0⟩ : feat_vec_t ℚ) = G_TILT :=
  ⟨(classify_eq_first_match _).2.1 (by norm_num [shake_rule]) (by norm_num [circle_rule]),
   (classify_eq_first_match _).2.2 (by norm_num [tilt_rule]) (by norm_num [circle_rule])⟩

end ClassifierTheorems

section SamplingLoopTheorems

variable {α : Type} [LinearOrderedField α]

theorem mod_ne_of_lt_of_sub_lt {W t m : Nat} (htm : t < m) (hW : m - t < W) :
    t % W ≠ m % W := by
  intro h
  have h0 : (m - t) % W = 0 := Nat.sub_mod_eq_zero_of_mod_eq h.symm
  rw [Nat.mod_eq_of_lt hW] at h0
  omega

theorem ringInv_replicate (W : Nat) : RingInv W (List.replicate W (0 : α)) [] := by
  refine ⟨by simp, ?_⟩
  intro t ht
  simp at ht

theorem ringInv_push {W : Nat} (hW : 0 < W) {ring vals : List α} (v : α)
    (h : RingInv W ring vals) :
    RingInv W (ring.set (vals.length % W) v) (vals ++ [v]) := by
  obtain ⟨hlen, hval⟩ := h
  refine ⟨by simp [hlen], ?_⟩
  intro t ht hd
  simp only [List.length_append, List.length_singleton] at ht hd
  have hmW : vals.length % W < ring.length := by rw [hlen]; exact Nat.mod_lt _ hW
  rcases Nat.lt_or_ge t vals.length with hlt | hge
  · have hne : vals.length % W ≠ t % W :=
      fun e => mod_ne_of_lt_of_sub_lt hlt (by omega) e.symm
    have h1 := hval t hlt (by omega)
    simp only [List.getD_eq_getElem?_getD] at h1 ⊢
    rw [List.getElem?_set_ne hne, h1, List.getElem?_append_left hlt]
  · have ht2 : t = vals.length := by omega
    subst ht2
    simp only [List.getD_eq_getElem?_getD]
    rw [List.getElem?_set_eq_of_lt _ hmW]
    simp

theorem getD_copy_window (ring : List α) (W start i : Nat) (hi : i < W) :
    (copy_window ring W start).getD i 0 =
      ring.getD (if start + i ≥ W then start + i - W else start + i) 0 := by
  unfold copy_window
  simp [List.getD_eq_getElem?_getD, List.getElem?_map, List.getElem?_range hi]

theorem length_copy_window (ring : List α) (W start : Nat) :
    (copy_window ring W start).length = W := by
  simp [copy_window]

theorem wrap_eq_mod {W m i : Nat} (hW : 0 < W) (hm : W ≤ m) (hi : i < W) :
    (if m % W + i ≥ W then m % W + i - W else m % W + i) = (m - W + i) % W := by
  have hr : m % W < W := Nat.mod_lt _ hW
  have e1 : (m - W + i) % W = (m % W + i) % W := by
    have : m - W + i + W = m + i := by omega
    rw [← Nat.add_mod_right (m - W + i) W, this, Nat.add_mod, Nat.mod_eq_of_lt hi]
  rw [e1]
  split
  · next hge =>
    have e2 : (m % W + i) % W = (m % W + i - W) % W := Nat.mod_eq_sub_mod hge
    have e3 : (m % W + i - W) % W = m % W + i - W := Nat.mod_eq_of_lt (by omega)
    rw [e2, e3]
  · next hlt =>
    have e2 : (m % W + i) % W = m % W + i := Nat.mod_eq_of_lt (by omega)
    rw [e2]

theorem copy_window_of_ringInv {W : Nat} (hW : 0 < W) {ring vals : List α}
    (h : RingInv W ring vals) (hm : W ≤ vals.length) :
    copy_window ring W (vals.length % W) = vals.drop (vals.length - W) := by
  apply List.ext_getElem
  · rw [length_copy_window, List.length_drop]; omega
  · intro i h1 h2
    rw [length_copy_window] at h1
    have e := getD_copy_window ring W (vals.length % W) i h1
    rw [wrap_eq_mod hW hm h1, h.2 (vals.length - W + i) (by omega) (by omega)] at e
    rw [List.getD_eq_getElem?_getD, List.getElem?_eq_getElem
      (by rw [length_copy_window]; exact h1)] at e
    rw [List.getD_eq_getElem?_getD, List.getElem?_eq_getElem (by omega)] at e
    simp only [Option.getD_some] at e
    rw [e, List.getElem_drop]

theorem succ_mod_wrap {W : Nat} (hW : 0 < W) (m : Nat) :
    (if m % W + 1 ≥ W then 0 else m % W + 1) = (m + 1) % W := by
  have hr : m % W < W := Nat.mod_lt _ hW
  have e : (m + 1) % W = (m % W + 1) % W := (Nat.mod_add_mod m W 1).symm
  rw [e]
  split
  · next hge =>
    have : m % W + 1 = W := by omega
    rw [this, Nat.mod_self]
  · next hlt =>
    exact (Nat.mod_eq_of_lt (by omega)).symm

theorem loopInv_initial (W : Nat) : LoopInv W (initial_state W : loop_state α) [] := by
  refine ⟨by simp [initial_state], by simp [initial_state], ?_, ?_, ?_, ?_, ?_, ?_⟩ <;>
    exact ringInv_replicate W

theorem loopInv_ring_update {W : Nat} (hW : 0 < W) {st : loop_state α}
    {hist : List (imu_sample α)} (s : imu_sample α) (h : LoopInv W st hist) :
    LoopInv W (ring_update W st s) (hist ++ [s]) := by
  obtain ⟨hidx, hfill, h1, h2, h3, h4, h5, h6⟩ := h
  have push : ∀ (p : imu_sample α → α) (ring : List α), RingInv W ring (hist.map p) →
      RingInv W (ring.set st.ring_index (p s)) ((hist ++ [s]).map p) := by
    intro p ring hr
    have := ringInv_push hW (p s) hr
    rw [List.length_map, ← hidx] at this
    simpa using this
  refine ⟨?_, ?_, push _ _ h1, push _ _ h2, push _ _ h3, push _ _ h4, push _ _ h5,
    push _ _ h6⟩
  · show (if st.ring_index + 1 ≥ W then 0 else st.ring_index + 1) = (hist ++ [s]).length % W
    rw [hidx, List.length_append, List.length_singleton]
    exact succ_mod_wrap hW _
  · show (if st.ring_filled < W then st.ring_filled + 1 else st.ring_filled)
      = min (hist ++ [s]).length W
    rw [hfill, List.length_append, List.length_singleton]
    split <;> omega

theorem loopInv_hop {W : Nat} {st : loop_state α} {hist : List (imu_sample α)} (k : Nat)
    (h : LoopInv W st hist) : LoopInv W { st with hop_accum := k } hist := h

theorem tick_fst (W H : Nat) (st : loop_state α) (s : imu_sample α) :
    (tick W H st s).1 = ring_update W st s ∨
    (tick W H st s).1 = { ring_update W st s with hop_accum := 0 } := by
  unfold tick
  simp only
  split
  · exact Or.inr rfl
  · exact Or.inl rfl

theorem loopInv_tick {W : Nat} (H : Nat) (hW : 0 < W) {st : loop_state α}
    {hist : List (imu_sample α)} (s : imu_sample α) (h : LoopInv W st hist) :
    LoopInv W (tick W H st s).1 (hist ++ [s]) := by
  rcases tick_fst W H st s with e | e
  · rw [e]; exact loopInv_ring_update hW s h
  · rw [e]; exact loopInv_hop 0 (loopInv_ring_update hW s h)

theorem loopInv_run_ticks {W : Nat} (H : Nat) (hW : 0 < W) (xs : List (imu_sample α)) :
    ∀ (st : loop_state α) (hist : List (imu_sample α)), LoopInv W st hist →
      LoopInv W (run_ticks W H st xs).1 (hist ++ xs) := by
  induction xs with
  | nil => intro st hist h; simpa [run_ticks] using h
  | cons s rest ih =>
    intro st hist h
    have h2 := ih (tick W H st s).1 (hist ++ [s]) (loopInv_tick H hW s h)
    simpa [run_ticks] using h2

theorem copy_window_of_loopInv {W : Nat} (hW : 0 < W) {st : loop_state α}
    {hist : List (imu_sample α)} (p : imu_sample α → α) (ring : List α)
    (hidx : st.ring_index = hist.length % W) (hr : RingInv W ring (hist.map p))
    (hm : W ≤ hist.length) :
    copy_window ring W st.ring_index = (hist.drop (hist.length - W)).map p := by
  have := copy_window_of_ringInv hW hr (by simpa using hm)
  rw [List.length_map] at this
  rw [hidx, this, List.map_drop]

/-- C2: after any `m ≥ W` pushes from the initial state, `copy_window` started at
`ring_index` returns, for each of the six rings, the last `W` pushed values of
that channel in arrival order (oldest first): entry `i` is the sample number
`m - W + i` (0-based) of the input. -/
theorem copy_window_yields_last_window (W H : Nat) (hW : 0 < W) (xs : List (imu_sample α))
    (hm : W ≤ xs.length) :
    let st := (run_ticks W H (initial_state W) xs).1
    let last := xs.drop (xs.length - W)
    (copy_window st.ax_ring W st.ring_index = last.map (·.ax) ∧
     copy_window st.ay_ring W st.ring_index = last.map (·.ay) ∧
     copy_window st.az_ring W st.ring_index = last.map (·.az) ∧
     copy_window st.gx_ring W st.ring_index = last.map (·.gx) ∧
     copy_window st.gy_ring W st.ring_index = last.map (·.gy) ∧
     copy_window st.gz_ring W st.ring_index = last.map (·.gz)) ∧
    last.length = W ∧ ∀ i, i < W → last[i]? = xs[xs.length - W + i]? := by
  intro st last
  have hinv : LoopInv W st ([] ++ xs) :=
    loopInv_run_ticks H hW xs (initial_state W) [] (loopInv_initial W)
  rw [List.nil_append] at hinv
  obtain ⟨hidx, _, h1, h2, h3, h4, h5, h6⟩ := hinv
  refine ⟨⟨?_, ?_, ?_, ?_, ?_, ?_⟩, ?_, ?_⟩
  · exact copy_window_of_loopInv hW _ _ hidx h1 hm
  · exact copy_window_of_loopInv hW _ _ hidx h2 hm
  · exact copy_window_of_loopInv hW _ _ hidx h3 hm
  · exact copy_window_of_loopInv hW _ _ hidx h4 hm
  · exact copy_window_of_loopInv hW _ _ hidx h5 hm
  · exact copy_window_of_loopInv hW _ _ hidx h6 hm
  · show (xs.drop (xs.length - W)).length = W
    rw [List.length_drop]; omega
  · intro i _
    show (xs.drop (xs.length - W))[i]? = xs[xs.length - W + i]?
    rw [List.getElem?_drop]

/-- Witness for C2: window size 2, three samples pushed, on the rationals. -/
theorem copy_window_yields_last_window_witness :
    copy_window (run_ticks 2 1 (initial_state 2)
        [(⟨1, 2, 3, 4, 5, 6⟩ : imu_sample ℚ), ⟨7, 8, 9, 10, 11, 12⟩,
          ⟨13, 14, 15, 16, 17, 18⟩]).1.ax_ring 2
      (run_ticks 2 1 (initial_state 2)
        [(⟨1, 2, 3, 4, 5, 6⟩ : imu_sample ℚ), ⟨7, 8, 9, 10, 11, 12⟩,
          ⟨13, 14, 15, 16, 17, 18⟩]).1.ring_index = [7, 13] :=
  (copy_window_yields_last_window 2 1 (by decide)
    [(⟨1, 2, 3, 4, 5, 6⟩ : imu_sample ℚ), ⟨7, 8, 9, 10, 11, 12⟩, ⟨13, 14, 15, 16, 17, 18⟩]
    (by decide)).1.1

theorem tick_snd_isSome (W H : Nat) (st : loop_state α) (s : imu_sample α) :
    (tick W H st s).2.isSome = true ↔
      (ring_update W st s).ring_filled = W ∧ (ring_update W st s).hop_accum ≥ H := by
  unfold tick
  simp only
  split
  · next h => simpa using h
  · next h => simpa using h

theorem run_ticks_getD (W H : Nat) (xs : List (imu_sample α)) :
    ∀ (st : loop_state α) (i : Nat) (hi : i < xs.length),
      (run_ticks W H st xs).2.getD i none =
        (tick W H (run_ticks W H st (xs.take i)).1 (xs.get ⟨i, hi⟩)).2 := by
  induction xs with
  | nil => intro st i hi; simp at hi
  | cons s rest ih =>
    intro st i hi
    cases i with
    | zero => simp [run_ticks]
    | succ j =>
      have hj : j < rest.length := by simpa using hi
      have := ih (tick W H st s).1 j hj
      simpa [run_ticks] using this

/-- C3: on every tick of the sampling loop (tick `i`, 0-based, of any sample
sequence) extraction fires if and only if, after that tick's push,
`ring_filled = W` and `hop_accum ≥ H`; and no extraction fires on the first
`W - 1` ticks. -/
theorem extraction_fires_iff (W H : Nat) (xs : List (imu_sample α)) (i : Nat)
    (hi : i < xs.length) :
    let pushed :=
      ring_update W (run_ticks W H (initial_state W) (xs.take i)).1 (xs.get ⟨i, hi⟩)
    (((run_ticks W H (initial_state W) xs).2.getD i none).isSome = true ↔
      pushed.ring_filled = W ∧ pushed.hop_accum ≥ H) ∧
    (i + 1 < W → (run_ticks W H (initial_state W) xs).2.getD i none = none) := by
  intro pushed
  have hget := run_ticks_getD W H xs (initial_state W) i hi
  have hiff := tick_snd_isSome W H (run_ticks W H (initial_state W) (xs.take i)).1
    (xs.get ⟨i, hi⟩)
  refine ⟨by rw [hget]; exact hiff, ?_⟩
  intro hlt
  have hW : 0 < W := by omega
  have hinv : LoopInv W (run_ticks W H (initial_state W) (xs.take i)).1 ([] ++ xs.take i) :=
    loopInv_run_ticks H hW (xs.take i) (initial_state W) [] (loopInv_initial W)
  have hfill := (loopInv_ring_update hW (xs.get ⟨i, hi⟩) hinv).2.1
  have hlen : ([] ++ xs.take i ++ [xs.get ⟨i, hi⟩]).length = i + 1 := by
    simp [List.length_take]; omega
  rw [hlen] at hfill
  have hne : ¬ (pushed.ring_filled = W ∧ pushed.hop_accum ≥ H) := by
    rintro ⟨h1, _⟩
    have : pushed.ring_filled = min (i + 1) W := hfill
    omega
  rw [hget]
  have hnot : ¬ ((tick W H (run_ticks W H (initial_state W) (xs.take i)).1
      (xs.get ⟨i, hi⟩)).2.isSome = true) := fun h => hne (hiff.mp h)
  simpa using hnot

/-- Witness for C3: window 2, hop 1, three samples, the first tick. -/
theorem extraction_fires_iff_witness :
    (run_ticks 2 1 (initial_state 2)
      [(⟨1, 2, 3, 4, 5, 6⟩ : imu_sample ℚ), ⟨7, 8, 9, 10, 11, 12⟩,
        ⟨13, 14, 15, 16, 17, 18⟩]).2.getD 0 none = none :=
  (extraction_fires_iff 2 1
    [(⟨1, 2, 3, 4, 5, 6⟩ : imu_sample ℚ), ⟨7, 8, 9, 10, 11, 12⟩, ⟨13, 14, 15, 16, 17, 18⟩]
    0 (by decide)).2 (by decide)

theorem run_ticks_flags (W H : Nat) (xs : List (imu_sample α)) :
    ∀ st : loop_state α, (run_ticks W H st xs).2.map Option.isSome =
      fire_flags W H (st.ring_filled, st.hop_accum) xs.length := by
  induction xs with
  | nil => intro st; simp [run_ticks, fire_flags]
  | cons s rest ih =>
    intro st
    have h12 : (tick W H st s).2.isSome = (counters_step W H (st.ring_filled, st.hop_accum)).2 ∧
        ((tick W H st s).1.ring_filled, (tick W H st s).1.hop_accum) =
          (counters_step W H (st.ring_filled, st.hop_accum)).1 := by
      by_cases hc : (ring_update W st s).ring_filled = W ∧ (ring_update W st s).hop_accum ≥ H
      · have hc2 : (if st.ring_filled < W then st.ring_filled + 1 else st.ring_filled) = W ∧
            st.hop_accum + 1 ≥ H := hc
        unfold tick counters_step
        simp only
        rw [if_pos hc, if_pos hc2]
        exact ⟨rfl, rfl⟩
      · have hc2 : ¬ ((if st.ring_filled < W then st.ring_filled + 1 else st.ring_filled) = W ∧
            st.hop_accum + 1 ≥ H) := hc
        unfold tick counters_step
        simp only
        rw [if_neg hc, if_neg hc2]
        exact ⟨rfl, rfl⟩
    obtain ⟨h1, h2⟩ := h12
    simp only [run_ticks, List.map_cons, List.length_cons, fire_flags]
    rw [ih, h1, h2]

omit [LinearOrderedField α] in
theorem emission_ticks_eq (trace : List (Option (window_set α))) :
    emission_ticks trace = true_positions (trace.map Option.isSome) := by
  unfold emission_ticks true_positions
  rw [List.length_map]
  congr 1
  apply List.filter_congr
  intro i hi
  have hi2 : i < trace.length := by simpa using hi
  simp [List.getD_eq_getElem?_getD, List.getElem?_map, List.getElem?_eq_getElem hi2]

set_option maxRecDepth 100000 in
theorem fire_flags_configured :
    true_positions (fire_flags 100 50 (0, 0) 260) = [100, 150, 200, 250] := by
  decide

/-- C4: with the configured sizes (`WIN_SAMPLES = 100`, `HOP_SAMPLES = 50`) any
260 samples fed to the sampling loop from its initial state produce emissions
at exactly the ticks 100, 150, 200 and 250 (numbered from 1). -/
theorem emissions_of_260_samples (xs : List (imu_sample α)) (h : xs.length = 260) :
    WIN_SAMPLES = 100 ∧ HOP_SAMPLES = 50 ∧
    emission_ticks (run_ticks WIN_SAMPLES HOP_SAMPLES (initial_state WIN_SAMPLES) xs).2 =
      [100, 150, 200, 250] := by
  have hW : WIN_SAMPLES = 100 := by decide
  have hH : HOP_SAMPLES = 50 := by decide
  refine ⟨hW, hH, ?_⟩
  rw [hW, hH, emission_ticks_eq, run_ticks_flags, h]
  exact fire_flags_configured

/-- Witness for C4: 260 copies of one sample on the rationals. -/
theorem emissions_of_260_samples_witness :
    emission_ticks (run_ticks WIN_SAMPLES HOP_SAMPLES (initial_state WIN_SAMPLES)
      (List.replicate 260 (⟨0, 0, 1, 0, 0, 0⟩ : imu_sample ℚ))).2 = [100, 150, 200, 250] :=
  (emissions_of_260_samples (List.replicate 260 (⟨0, 0, 1, 0, 0, 0⟩ : imu_sample ℚ))
    (List.length_replicate _ _)).2.2

end SamplingLoopTheorems

section FeatureTheorems

variable {α : Type} [LinearOrderedField α]

theorem stats_fold_eq (x : List α) : ∀ a b : α,
    x.foldl (fun acc xi => (acc.1 + xi, acc.2 + xi * xi)) (a, b) =
      (a + x.sum, b + (x.map (fun t => t ^ 2)).sum) := by
  induction x with
  | nil => intro a b; simp
  | cons y ys ih =>
    intro a b
    simp only [List.foldl_cons, List.sum_cons, List.map_cons]
    rw [ih]
    congr 1 <;> ring

theorem stats_sums_eq (x : List α) :
    stats_sums x = (x.sum, (x.map (fun t => t ^ 2)).sum) := by
  unfold stats_sums
  rw [stats_fold_eq]
  simp

/-- C5: for a window of `n ≥ 1` real samples `stats_basic` returns
`mean = (Σ x_i)/n`, `energy = Σ x_i²`, `rms = sqrt((Σ x_i²)/n)` and
`std = sqrt(max 0 ((Σ x_i²)/n - mean²))`. -/
theorem stats_basic_closed_form (x : List ℝ) (hn : 1 ≤ x.length) :
    (stats_basic Real.sqrt x).mean = x.sum / (x.length : ℝ) ∧
    (stats_basic Real.sqrt x).energy = (x.map (fun t => t ^ 2)).sum ∧
    (stats_basic Real.sqrt x).rms =
      Real.sqrt ((x.map (fun t => t ^ 2)).sum / (x.length : ℝ)) ∧
    (stats_basic Real.sqrt x).std =
      Real.sqrt (max 0 ((x.map (fun t => t ^ 2)).sum / (x.length : ℝ) -
        (x.sum / (x.length : ℝ)) ^ 2)) := by
  have _hn := hn
  have e := stats_sums_eq x
  refine ⟨?_, ?_, ?_, ?_⟩
  · show (stats_sums x).1 / (x.length : ℝ) = _
    rw [e]
  · show (stats_sums x).2 = _
    rw [e]
  · show Real.sqrt ((stats_sums x).2 / (x.length : ℝ)) = _
    rw [e]
  show Real.sqrt (if (stats_sums x).2 / (x.length : ℝ) -
      (stats_sums x).1 / (x.length : ℝ) * ((stats_sums x).1 / (x.length : ℝ)) < 0 then 0
    else (stats_sums x).2 / (x.length : ℝ) -
      (stats_sums x).1 / (x.length : ℝ) * ((stats_sums x).1 / (x.length : ℝ))) = _
  rw [e]
  congr 1
  rw [← pow_two]
  split
  · next h => exact (max_eq_left (le_of_lt h)).symm
  · next h => exact (max_eq_right (not_lt.mp h)).symm

/-- Witness for C5: the window `[3, 4]`. -/
theorem stats_basic_closed_form_witness :
    (stats_basic Real.sqrt [3, 4]).mean = ([3, 4] : List ℝ).sum / (([3, 4] : List ℝ).length : ℝ) :=
  (stats_basic_closed_form [3, 4] (by decide)).1

end FeatureTheorems

section QuantizeTheorems

variable {α : Type} [LinearOrderedField α] [FloorRing α]

theorem lrintf_cases (y : α) : lrintf y = ⌊y⌋ ∨ lrintf y = ⌊y⌋ + 1 := by
  unfold lrintf
  simp only
  split
  · exact Or.inl rfl
  · split
    · exact Or.inr rfl
    · split
      · exact Or.inl rfl
      · exact Or.inr rfl

theorem lrintf_abs_sub_le (y : α) : |((lrintf y : Int) : α) - y| ≤ 1 / 2 := by
  have h1 : (⌊y⌋ : α) ≤ y := Int.floor_le y
  have h2 : y < (⌊y⌋ : α) + 1 := Int.lt_floor_add_one y
  unfold lrintf
  simp only
  rw [abs_le]
  split
  · next h => constructor <;> linarith
  · next h =>
    split
    · next h3 => push_cast; constructor <;> linarith
    · next h3 =>
      have hd : y - (⌊y⌋ : α) = 1 / 2 := le_antisymm (not_lt.mp h3) (not_lt.mp h)
      split
      · constructor <;> linarith
      · push_cast; constructor <;> linarith

theorem lrintf_intCast (z : Int) : lrintf (z : α) = z := by
  unfold lrintf
  simp

theorem lrintf_nonneg {y : α} (h : 0 ≤ y) : 0 ≤ lrintf y := by
  have hf : 0 ≤ ⌊y⌋ := Int.floor_nonneg.mpr h
  rcases lrintf_cases y with e | e <;> omega

theorem lrintf_le_of_le {y : α} (z : Int) (h : y ≤ (z : α)) : lrintf y ≤ z := by
  rcases lt_or_eq_of_le h with hlt | heq
  · have hf : ⌊y⌋ < z := Int.floor_lt.mpr hlt
    rcases lrintf_cases y with e | e <;> omega
  · rw [heq, lrintf_intCast]

omit [FloorRing α] in
/-- The clamp of lines 209-210 is the clamp to `[0, 1]`. -/
theorem clamp_eq (x : α) :
    (if (if x < 0 then 0 else x) > 1 then 1 else (if x < 0 then 0 else x)) =
      max 0 (min x 1) := by
  by_cases h0 : x < 0
  · have h1 : ¬ ((0 : α) > 1) := by norm_num
    rw [if_pos h0, if_neg h1, min_eq_left (by linarith), max_eq_left (le_of_lt h0)]
  · rw [if_neg h0]
    by_cases h1 : x > 1
    · rw [if_pos h1, min_eq_right (le_of_lt h1), max_eq_right (by norm_num)]
    · rw [if_neg h1, min_eq_left (not_lt.mp h1), max_eq_right (not_lt.mp h0)]

theorem quantize_value_eq (x : α) :
    ((quantize_value x : Nat) : Int) = lrintf (max 0 (min x 1) * 255) := by
  have hc0 : (0 : α) ≤ max 0 (min x 1) := le_max_left _ _
  have hc1 : max 0 (min x 1) ≤ (1 : α) := max_le (by norm_num) (min_le_right _ _)
  have hlo : 0 ≤ lrintf (max 0 (min x 1) * 255) := lrintf_nonneg (by positivity)
  have hhi : lrintf (max 0 (min x 1) * 255) ≤ 255 :=
    lrintf_le_of_le 255 (by push_cast; linarith)
  unfold quantize_value to_uint8
  simp only
  rw [clamp_eq]
  omega

theorem quantize_fold (vs : List α) : ∀ (buf : List Nat) (k : Nat),
    k + vs.length ≤ buf.length →
    (vs.foldl (fun (st : List Nat × Nat) x => (st.1.set st.2 (quantize_value x), st.2 + 1))
        (buf, k)).2 = k + vs.length ∧
    (∀ i, i < vs.length →
      (vs.foldl (fun (st : List Nat × Nat) x => (st.1.set st.2 (quantize_value x), st.2 + 1))
        (buf, k)).1[k + i]? = (vs[i]?).map quantize_value) ∧
    (∀ j, j < k ∨ k + vs.length ≤ j →
      (vs.foldl (fun (st : List Nat × Nat) x => (st.1.set st.2 (quantize_value x), st.2 + 1))
        (buf, k)).1[j]? = buf[j]?) := by
  induction vs with
  | nil => intro buf k _; simp
  | cons v rest ih =>
    intro buf k hk
    simp only [List.length_cons] at hk
    have hlen : k + 1 + rest.length ≤ (buf.set k (quantize_value v)).length := by
      rw [List.length_set]; omega
    obtain ⟨h1, h2, h3⟩ := ih (buf.set k (quantize_value v)) (k + 1) hlen
    simp only [List.foldl_cons, List.length_cons]
    refine ⟨by rw [h1]; omega, ?_, ?_⟩
    · intro i hi
      cases i with
      | zero =>
        rw [h3 (k + 0) (Or.inl (by omega))]
        simp only [Nat.add_zero, List.getElem?_cons_zero, Option.map_some']
        exact List.getElem?_set_eq_of_lt _ (by omega)
      | succ j =>
        have := h2 j (by omega)
        rw [show k + (j + 1) = k + 1 + j by omega, this]
        simp
    · intro j hj
      rw [h3 j (by omega)]
      exact List.getElem?_set_ne (by omega)

/-- C10: `quantize_features_u8` writes the bytes `b_0 .. b_4`, where `b_i` is
`clamp(v_i, 0, 1) · 255` rounded to a nearest integer (by `lrintf`) and
`v = (amag_std, dom_freq/10, gx_std/300, gy_std/300, gz_std/300)`; a selected
value `≥ 1` gives 255 and one `≤ 0` gives 0. -/
theorem quantize_features_u8_bytes (f : feat_vec_t α) (out_buf : List Nat)
    (hbuf : 5 ≤ out_buf.length) :
    let v : List α :=
      [f.amag.std, f.amag.dom_freq / 10, f.gx_std / 300, f.gy_std / 300, f.gz_std / 300]
    let out := (quantize_features_u8 f out_buf).1
    ∀ i, i < 5 →
      ((out.getD i 0 : Nat) : Int) = lrintf (max 0 (min (v.getD i 0) 1) * 255) ∧
      |((out.getD i 0 : Nat) : α) - max 0 (min (v.getD i 0) 1) * 255| ≤ 1 / 2 ∧
      (1 ≤ v.getD i 0 → out.getD i 0 = 255) ∧
      (v.getD i 0 ≤ 0 → out.getD i 0 = 0) := by
  intro v out i hi
  have hfold := (quantize_fold (quantize_selection f) out_buf 0
    (by simpa [quantize_selection] using hbuf)).2.1 i (by simpa [quantize_selection] using hi)
  have hv : quantize_selection f = v := rfl
  have hout : out.getD i 0 = quantize_value (v.getD i 0) := by
    have hiv : i < v.length := by simpa [v] using hi
    show (quantize_features_u8 f out_buf).1.getD i 0 = _
    unfold quantize_features_u8
    rw [Nat.zero_add] at hfold
    rw [List.getD_eq_getElem?_getD, hfold, hv, List.getD_eq_getElem?_getD,
      List.getElem?_eq_getElem hiv]
    simp
  have hq := quantize_value_eq (v.getD i 0)
  rw [hout]
  refine ⟨hq, ?_, ?_, ?_⟩
  · have hcast : ((quantize_value (v.getD i 0) : Nat) : α) =
        ((lrintf (max 0 (min (v.getD i 0) 1) * 255) : Int) : α) := by
      rw [← hq]; simp
    rw [hcast]
    exact lrintf_abs_sub_le _
  · intro h1
    have hc : max 0 (min (v.getD i 0) 1) = (1 : α) := by
      rw [min_eq_right h1]; exact max_eq_right (by norm_num)
    rw [hc] at hq
    have h255 : ((1 : α) * 255) = ((255 : Int) : α) := by push_cast; ring
    rw [h255, lrintf_intCast] at hq
    omega
  · intro h0
    have hc : max 0 (min (v.getD i 0) 1) = (0 : α) := by
      rw [min_eq_left (le_trans h0 (by norm_num))]; exact max_eq_left h0
    rw [hc] at hq
    have h00 : ((0 : α) * 255) = ((0 : Int) : α) := by push_cast; ring
    rw [h00, lrintf_intCast] at hq
    omega

/-- Witness for C10: a vector on the rationals whose `gy_std` saturates, with an
8-byte buffer. -/
theorem quantize_features_u8_bytes_witness :
    (quantize_features_u8 (⟨⟨0, 1 / 2, 0, 0, 3, 0, 0⟩, 30, 450, -3, 0, 0⟩ : feat_vec_t ℚ)
      (List.replicate 8 7)).1.getD 3 0 = 255 :=
  ((quantize_features_u8_bytes (⟨⟨0, 1 / 2, 0, 0, 3, 0, 0⟩, 30, 450, -3, 0, 0⟩ : feat_vec_t ℚ)
    (List.replicate 8 7) (by decide) 3 (by decide)).2.2.1) (by norm_num)

end QuantizeTheorems

section SpectralTheorems

variable {α : Type} [LinearOrderedField α]

theorem bins_upto_succ (K : Nat) : bins_upto (K + 1) = bins_upto K ++ [K + 1] := by
  simp [bins_upto, List.range_succ]

theorem mem_bins_upto (K k : Nat) : k ∈ bins_upto K ↔ 1 ≤ k ∧ k ≤ K := by
  unfold bins_upto
  simp only [List.mem_map, List.mem_range]
  constructor
  · rintro ⟨a, ha, rfl⟩; omega
  · rintro ⟨h1, h2⟩; exact ⟨k - 1, by omega, by omega⟩

/-- Invariant of the maximum tracking of the bin loop after the bins `1 .. K`. -/
theorem bin_loop_best (cos sin : α → α) (pi : α) (work : List α) (n : Nat) (df : α) (K : Nat) :
    0 ≤ (bin_loop cos sin pi work n df K).best_mag2 ∧
    (∀ j, 1 ≤ j → j ≤ K →
      bin_power cos sin pi work n j ≤ (bin_loop cos sin pi work n df K).best_mag2) ∧
    (((bin_loop cos sin pi work n df K).best_mag2 = 0 ∧
        (bin_loop cos sin pi work n df K).best_freq = 0) ∨
      ∃ k, 1 ≤ k ∧ k ≤ K ∧
        (bin_loop cos sin pi work n df K).best_mag2 = bin_power cos sin pi work n k ∧
        (bin_loop cos sin pi work n df K).best_freq = df * (k : α) ∧
        0 < bin_power cos sin pi work n k ∧
        ∀ j, 1 ≤ j → j < k → bin_power cos sin pi work n j < bin_power cos sin pi work n k) := by
  induction K with
  | zero =>
    refine ⟨le_refl _, ?_, Or.inl ⟨rfl, rfl⟩⟩
    intro j h1 h2; omega
  | succ K ih =>
    obtain ⟨h0, hmax, hcase⟩ := ih
    have hstep : bin_loop cos sin pi work n df (K + 1) =
        bin_step cos sin pi work n df (bin_loop cos sin pi work n df K) (K + 1) := by
      unfold bin_loop
      rw [bins_upto_succ, List.foldl_append]
      rfl
    rw [hstep]
    by_cases hgt : bin_power cos sin pi work n (K + 1) >
        (bin_loop cos sin pi work n df K).best_mag2
    · have e1 : (bin_step cos sin pi work n df (bin_loop cos sin pi work n df K) (K + 1)).best_mag2
          = bin_power cos sin pi work n (K + 1) := by
        simp only [bin_step, if_pos hgt]
      have e2 : (bin_step cos sin pi work n df (bin_loop cos sin pi work n df K) (K + 1)).best_freq
          = df * ((K + 1 : Nat) : α) := by
        simp only [bin_step, if_pos hgt]
      rw [e1, e2]
      refine ⟨le_of_lt (lt_of_le_of_lt h0 hgt), ?_, Or.inr ⟨K + 1, by omega, le_refl _, rfl, rfl,
        lt_of_le_of_lt h0 hgt, ?_⟩⟩
      · intro j h1 h2
        rcases Nat.lt_or_ge j (K + 1) with hlt | hge
        · exact le_of_lt (lt_of_le_of_lt (hmax j h1 (by omega)) hgt)
        · have : j = K + 1 := by omega
          rw [this]
      · intro j h1 h2
        exact lt_of_le_of_lt (hmax j h1 (by omega)) hgt
    · have e1 : (bin_step cos sin pi work n df (bin_loop cos sin pi work n df K) (K + 1)).best_mag2
          = (bin_loop cos sin pi work n df K).best_mag2 := by
        simp only [bin_step, if_neg hgt]
      have e2 : (bin_step cos sin pi work n df (bin_loop cos sin pi work n df K) (K + 1)).best_freq
          = (bin_loop cos sin pi work n df K).best_freq := by
        simp only [bin_step, if_neg hgt]
      rw [e1, e2]
      refine ⟨h0, ?_, ?_⟩
      · intro j h1 h2
        rcases Nat.lt_or_ge j (K + 1) with hlt | hge
        · exact hmax j h1 (by omega)
        · have : j = K + 1 := by omega
          rw [this]; exact not_lt.mp hgt
      · rcases hcase with hz | ⟨k, hk1, hk2, hk3, hk4, hk5, hk6⟩
        · exact Or.inl hz
        · exact Or.inr ⟨k, hk1, by omega, hk3, hk4, hk5, hk6⟩

/-- The band accumulators after folding the loop body over any list of bins. -/
theorem bin_fold_bands (cos sin : α → α) (pi : α) (work : List α) (n : Nat) (df : α)
    (L : List Nat) : ∀ acc : bin_acc α,
    (L.foldl (bin_step cos sin pi work n df) acc).bp1_acc =
      acc.bp1_acc + ((L.filter (in_low_band df)).map (bin_power cos sin pi work n)).sum ∧
    (L.foldl (bin_step cos sin pi work n df) acc).bp2_acc =
      acc.bp2_acc + ((L.filter (in_high_band df)).map (bin_power cos sin pi work n)).sum := by
  induction L with
  | nil => intro acc; simp
  | cons k rest ih =>
    intro acc
    obtain ⟨h1, h2⟩ := ih (bin_step cos sin pi work n df acc k)
    simp only [List.foldl_cons]
    rw [h1, h2]
    by_cases hlow : 0.5 ≤ df * (k : α) ∧ df * (k : α) < 3
    · have hlow2 : df * (k : α) ≥ 0.5 ∧ df * (k : α) < 3 := hlow
      have hnh : ¬ (3 ≤ df * (k : α) ∧ df * (k : α) ≤ 10) :=
        fun h => absurd hlow.2 (not_lt.mpr h.1)
      have b1 : in_low_band df k = true := decide_eq_true hlow
      have b2 : in_high_band df k = false := decide_eq_false hnh
      simp only [bin_step, if_pos hlow2, List.filter_cons, b1, b2, if_true, List.map_cons,
        List.sum_cons]
      constructor
      · ring
      · simp
    · have hlow2 : ¬ (df * (k : α) ≥ 0.5 ∧ df * (k : α) < 3) := hlow
      have b1 : in_low_band df k = false := decide_eq_false hlow
      by_cases hhigh : 3 ≤ df * (k : α) ∧ df * (k : α) ≤ 10
      · have hhigh2 : df * (k : α) ≥ 3 ∧ df * (k : α) ≤ 10 := hhigh
        have b2 : in_high_band df k = true := decide_eq_true hhigh
        simp only [bin_step, if_neg hlow2, if_pos hhigh2, List.filter_cons, b1, b2, if_true,
          List.map_cons, List.sum_cons]
        constructor
        · simp
        · ring
      · have hhigh2 : ¬ (df * (k : α) ≥ 3 ∧ df * (k : α) ≤ 10) := hhigh
        have b2 : in_high_band df k = false := decide_eq_false hhigh
        simp only [bin_step, if_neg hlow2, if_neg hhigh2, List.filter_cons, b1, b2]
        simp

variable [FloorRing α]

theorem evaluated_bins_eq_upto (n0 : Nat) (fs : α) : ∃ K, evaluated_bins n0 fs = bins_upto K := by
  unfold evaluated_bins
  simp only
  split_ifs
  all_goals first
    | exact ⟨0, rfl⟩
    | exact ⟨_, rfl⟩

/-- The outputs of `spectral_features_capped` are those of the bin loop run over
`evaluated_bins`. -/
theorem spectral_features_capped_eq (cosf cos sin : α → α) (pi : α) (x : List α) (fs : α)
    (c : hann_cache α) :
    (spectral_features_capped cosf cos sin pi x fs c).1 =
      spectral_finish ((evaluated_bins x.length fs).foldl
        (bin_step cos sin pi (spectral_work cosf pi x c) (spectral_n x.length)
          (spectral_df x.length fs))
        { bp1_acc := 0, bp2_acc := 0, best_mag2 := 0, best_freq := 0 }) := by
  have hz : spectral_finish ({ bp1_acc := 0, bp2_acc := 0, best_mag2 := 0, best_freq := 0 } :
      bin_acc α) = spectral_zero := by
    simp [spectral_finish, spectral_zero]
  unfold spectral_features_capped evaluated_bins spectral_work spectral_df spectral_n bin_loop
  simp only
  split_ifs
  all_goals first
    | rfl
    | (rw [List.foldl_nil, hz])

omit [FloorRing α] in
theorem spectral_df_of_le (n0 : Nat) (fs : α) (h : n0 ≤ MAX_SAMPLES) :
    spectral_df n0 fs = fs / (n0 : α) := by
  unfold spectral_df spectral_n
  rw [if_neg (by omega)]

/-- C7: the reported dominant frequency is `k · df` for the lowest evaluated bin
`k` of maximal power when that power is positive, and 0 when no evaluated bin
has positive power. -/
theorem dominant_frequency_argmax (cosf cos sin : α → α) (pi : α) (x : List α) (fs : α)
    (c : hann_cache α) :
    let out := (spectral_features_capped cosf cos sin pi x fs c).1
    let bins := evaluated_bins x.length fs
    let power := bin_power cos sin pi (spectral_work cosf pi x c) (spectral_n x.length)
    let df := spectral_df x.length fs
    (∀ k, k ∈ bins → 0 < power k → (∀ j, j ∈ bins → power j ≤ power k) →
      (∀ j, j ∈ bins → j < k → power j < power k) → out.dom_freq = df * (k : α)) ∧
    ((∀ j, j ∈ bins → power j ≤ 0) → out.dom_freq = 0) ∧
    (x.length ≤ MAX_SAMPLES → df = fs / (x.length : α)) := by
  intro out bins power df
  obtain ⟨K, hK⟩ := evaluated_bins_eq_upto x.length fs
  have hout : out = spectral_finish
      (bin_loop cos sin pi (spectral_work cosf pi x c) (spectral_n x.length) df K) := by
    show (spectral_features_capped cosf cos sin pi x fs c).1 = _
    rw [spectral_features_capped_eq, hK]
    rfl
  have hbins : bins = bins_upto K := hK
  obtain ⟨h0, hmax, hcase⟩ :=
    bin_loop_best cos sin pi (spectral_work cosf pi x c) (spectral_n x.length) df K
  have hdom : out.dom_freq =
      if (bin_loop cos sin pi (spectral_work cosf pi x c) (spectral_n x.length) df K).best_mag2 ≤ 0
      then 0
      else (bin_loop cos sin pi (spectral_work cosf pi x c) (spectral_n x.length) df K).best_freq := by
    rw [hout]; rfl
  refine ⟨?_, ?_, spectral_df_of_le x.length fs⟩
  · intro k hk hpos hge hfirst
    rw [hbins, mem_bins_upto] at hk
    have hle := hmax k hk.1 hk.2
    have hbest : ¬ ((bin_loop cos sin pi (spectral_work cosf pi x c) (spectral_n x.length)
        df K).best_mag2 ≤ 0) := not_le.mpr (lt_of_lt_of_le hpos hle)
    rw [hdom, if_neg hbest]
    rcases hcase with ⟨hz, _⟩ | ⟨k2, hk1, hk2, hk3, hk4, _, hk6⟩
    · exact absurd (le_of_eq hz) hbest
    · have hmem : k2 ∈ bins := by rw [hbins, mem_bins_upto]; exact ⟨hk1, hk2⟩
      have hle2 : power k ≤ power k2 := le_of_le_of_eq hle hk3
      have heq : power k2 = power k := le_antisymm (hge k2 hmem) hle2
      rcases Nat.lt_trichotomy k2 k with hlt | he | hgt
      · exact absurd heq (ne_of_lt (hfirst k2 hmem hlt))
      · rw [hk4, he]
      · exact absurd heq.symm (ne_of_lt (hk6 k hk.1 hgt))
  · intro hall
    rw [hdom]
    rcases hcase with ⟨hz, _⟩ | ⟨k2, hk1, hk2, _, _, hk5, _⟩
    · rw [if_pos (le_of_eq hz)]
    · have hmem : k2 ∈ bins := by rw [hbins, mem_bins_upto]; exact ⟨hk1, hk2⟩
      exact absurd hk5 (not_lt.mpr (hall k2 hmem))

/-- C9: `bp1` is the sum of the powers of the evaluated bins whose frequency
`k · df` lies in `[0.5, 3.0)`, `bp2` the sum over those in `[3.0, 10.0]`; no bin
lies in both bands and a bin below 0.5 Hz or above 10 Hz lies in neither. -/
theorem bandpowers_are_band_sums (cosf cos sin : α → α) (pi : α) (x : List α) (fs : α)
    (c : hann_cache α) :
    let out := (spectral_features_capped cosf cos sin pi x fs c).1
    let bins := evaluated_bins x.length fs
    let power := bin_power cos sin pi (spectral_work cosf pi x c) (spectral_n x.length)
    let df := spectral_df x.length fs
    out.bp1 = ((bins.filter (in_low_band df)).map power).sum ∧
    out.bp2 = ((bins.filter (in_high_band df)).map power).sum ∧
    (∀ k : Nat, (in_low_band df k = true ↔ 0.5 ≤ df * (k : α) ∧ df * (k : α) < 3) ∧
      (in_high_band df k = true ↔ 3 ≤ df * (k : α) ∧ df * (k : α) ≤ 10) ∧
      ¬ (in_low_band df k = true ∧ in_high_band df k = true) ∧
      (df * (k : α) < 0.5 ∨ 10 < df * (k : α) →
        in_low_band df k = false ∧ in_high_band df k = false)) := by
  intro out bins power df
  have hb := bin_fold_bands cos sin pi (spectral_work cosf pi x c) (spectral_n x.length) df bins
    { bp1_acc := 0, bp2_acc := 0, best_mag2 := 0, best_freq := 0 }
  have hout : out = spectral_finish (bins.foldl
      (bin_step cos sin pi (spectral_work cosf pi x c) (spectral_n x.length) df)
      { bp1_acc := 0, bp2_acc := 0, best_mag2 := 0, best_freq := 0 }) :=
    spectral_features_capped_eq cosf cos sin pi x fs c
  refine ⟨?_, ?_, ?_⟩
  · rw [hout]
    exact hb.1.trans (zero_add _)
  · rw [hout]
    exact hb.2.trans (zero_add _)
  · intro k
    have e1 : in_low_band df k = true ↔ 0.5 ≤ df * (k : α) ∧ df * (k : α) < 3 := by
      unfold in_low_band; exact decide_eq_true_iff
    have e2 : in_high_band df k = true ↔ 3 ≤ df * (k : α) ∧ df * (k : α) ≤ 10 := by
      unfold in_high_band; exact decide_eq_true_iff
    refine ⟨e1, e2, ?_, ?_⟩
    · rintro ⟨h1, h2⟩
      exact absurd (e1.mp h1).2 (not_lt.mpr (e2.mp h2).1)
    · intro h
      have n1 : ¬ (in_low_band df k = true) := by
        rw [e1]; rintro ⟨h1, h2⟩
        rcases h with h | h
        · exact absurd h1 (not_le.mpr h)
        · have : (3 : α) < 10 := by norm_num
          linarith
      have n2 : ¬ (in_high_band df k = true) := by
        rw [e2]; rintro ⟨h1, h2⟩
        rcases h with h | h
        · have : (0.5 : α) < 3 := by norm_num
          linarith
        · exact absurd h2 (not_le.mpr h)
      exact ⟨by simpa using n1, by simpa using n2⟩

theorem mem_capped_bins (g q : Int) (k : Nat) :
    (k ∈ (if (if g > q then q else g) < 1 then []
        else bins_upto (if (if g > q then q else g) > (MAX_CAPPED_BINS : Int)
          then (MAX_CAPPED_BINS : Int) else (if g > q then q else g)).toNat)) ↔
      1 ≤ k ∧ (k : Int) ≤ min (min g q) (MAX_CAPPED_BINS : Int) := by
  have hM : (MAX_CAPPED_BINS : Int) = 256 := rfl
  rw [hM]
  split_ifs <;> simp only [List.not_mem_nil, mem_bins_upto, false_iff, not_and, not_le] <;> omega

/-- Counterexample for C8: with 600 samples at 20 Hz the bound
`min(floor(10/df), n/2)` is 300, but bin 300 is not evaluated (the loop stops at
`MAX_CAPPED_BINS = 256`); and with 4096 samples at 100 Hz bin 205 is below that
bound (and below 256) but is not evaluated, because the input is truncated to
`MAX_SAMPLES = 2048` samples before `df` is formed. -/
theorem evaluated_bins_counterexample :
    ¬ (∀ k : Nat, k ∈ evaluated_bins 600 (20 : ℚ) ↔
      1 ≤ k ∧ (k : Int) ≤ min ⌊(10 : ℚ) / ((20 : ℚ) / ((600 : Nat) : ℚ))⌋ ((600 / 2 : Nat) : Int)) ∧
    ¬ (∀ k : Nat, k ∈ evaluated_bins 4096 (100 : ℚ) ↔
      1 ≤ k ∧ (k : Int) ≤
        min (min ⌊(10 : ℚ) / ((100 : ℚ) / ((4096 : Nat) : ℚ))⌋ ((4096 / 2 : Nat) : Int)) 256) := by
  constructor
  · intro h
    have hb : evaluated_bins 600 (20 : ℚ) = bins_upto 256 := by
      norm_num [evaluated_bins, spectral_n, spectral_df, MAX_SAMPLES, MAX_CAPPED_BINS]
      rfl
    have hf : ⌊(10 : ℚ) / ((20 : ℚ) / ((600 : Nat) : ℚ))⌋ = 300 := by norm_num
    have h300 := (h 300).mpr ⟨by decide, by rw [hf]; decide⟩
    rw [hb, mem_bins_upto] at h300
    omega
  · intro h
    have hf2 : ⌊(10 : ℚ) / ((100 : ℚ) / 2048)⌋ = 204 := by
      rw [Int.floor_eq_iff]; norm_num
    have hb : evaluated_bins 4096 (100 : ℚ) = bins_upto 204 := by
      norm_num [evaluated_bins, spectral_n, spectral_df, MAX_SAMPLES, MAX_CAPPED_BINS, hf2]
      rfl
    have hf : ⌊(10 : ℚ) / ((100 : ℚ) / ((4096 : Nat) : ℚ))⌋ = 409 := by
      rw [Int.floor_eq_iff]; norm_num
    have h205 := (h 205).mpr ⟨by decide, by rw [hf]; decide⟩
    rw [hb, mem_bins_upto] at h205
    omega

/-- C8 (amended): for `n ≥ 2` samples at rate `fs > 0`, with `n' = min(n, 2048)`
and `df = fs / n'`, the bins whose power is computed are exactly the `k` with
`1 ≤ k ≤ min(floor(10/df), n'/2, 256)`, and the outputs are those of the bin
loop run over these bins. -/
theorem evaluated_bins_capped (cosf cos sin : α → α) (pi : α) (x : List α) (fs : α)
    (c : hann_cache α) (hn : 2 ≤ x.length) (hfs : 0 < fs) :
    let n := min x.length MAX_SAMPLES
    let df := fs / (n : α)
    (∀ k : Nat, k ∈ evaluated_bins x.length fs ↔
      1 ≤ k ∧ (k : Int) ≤ min (min ⌊10 / df⌋ ((n / 2 : Nat) : Int)) (MAX_CAPPED_BINS : Int)) ∧
    (spectral_features_capped cosf cos sin pi x fs c).1 =
      spectral_finish ((evaluated_bins x.length fs).foldl
        (bin_step cos sin pi (spectral_work cosf pi x c) n df)
        { bp1_acc := 0, bp2_acc := 0, best_mag2 := 0, best_freq := 0 }) := by
  intro n df
  have hN : spectral_n x.length = n := by
    unfold spectral_n
    show _ = min x.length MAX_SAMPLES
    split_ifs <;> omega
  have hD : spectral_df x.length fs = df := by
    unfold spectral_df; rw [hN]
  have hn2 : 2 ≤ n := by
    show 2 ≤ min x.length MAX_SAMPLES
    have : (2 : Nat) ≤ MAX_SAMPLES := by decide
    omega
  have hnpos : (0 : α) < (n : α) := by
    have : 0 < n := by omega
    exact_mod_cast this
  have hdf : 0 < df := div_pos hfs hnpos
  constructor
  · intro k
    have h1 : ¬ (x.length ≤ 1 ∨ fs ≤ 0) := by
      rintro (h | h)
      · omega
      · exact absurd hfs (not_lt.mpr h)
    unfold evaluated_bins
    simp only
    rw [hN, hD, if_neg h1, if_neg (not_le.mpr hdf)]
    exact mem_capped_bins _ _ k
  · have := spectral_features_capped_eq cosf cos sin pi x fs c
    rw [hN, hD] at this
    exact this

/-- Witness for C8 (amended): four samples at 8 Hz on the rationals. -/
theorem evaluated_bins_capped_witness :
    (2 : Nat) ∈ evaluated_bins ([1, 2, 1, 0] : List ℚ).length (8 : ℚ) :=
  ((evaluated_bins_capped (fun _ => (0 : ℚ)) (fun _ => 0) (fun _ => 1) 3 [1, 2, 1, 0] 8
    hann_cache_initial (by decide) (by norm_num)).1 2).mpr (by
      constructor
      · decide
      · have hf : ⌊(10 : ℚ) / ((8 : ℚ) / ((min ([1, 2, 1, 0] : List ℚ).length MAX_SAMPLES : Nat) : ℚ))⌋
            = 5 := by
          norm_num [MAX_SAMPLES]
        rw [hf]
        decide)

theorem sample_run_bins : evaluated_bins ([1, 2, 1, 0] : List ℚ).length (8 : ℚ) = [1, 2] := by
  norm_num [evaluated_bins, spectral_n, spectral_df, MAX_SAMPLES, MAX_CAPPED_BINS, bins_upto,
    List.range_succ]
  rfl

theorem sample_run_power_one :
    bin_power taylor_cos taylor_sin 3
      (spectral_work taylor_cos 3 ([1, 2, 1, 0] : List ℚ) hann_cache_initial)
      (spectral_n ([1, 2, 1, 0] : List ℚ).length) 1 = 101905 / 1024 := by
  norm_num [bin_power, goertzel_mag2, spectral_work, windowed_signal, hann_window, hann_coeff,
    spectral_n, MAX_SAMPLES, hann_cache_initial, List.range_succ, taylor_cos, taylor_sin]

theorem sample_run_power_two :
    bin_power taylor_cos taylor_sin 3
      (spectral_work taylor_cos 3 ([1, 2, 1, 0] : List ℚ) hann_cache_initial)
      (spectral_n ([1, 2, 1, 0] : List ℚ).length) 2 = 2605 / 4 := by
  norm_num [bin_power, goertzel_mag2, spectral_work, windowed_signal, hann_window, hann_coeff,
    spectral_n, MAX_SAMPLES, hann_cache_initial, List.range_succ, taylor_cos, taylor_sin]

/-- Witness for C7: four samples at 8 Hz on the rationals; bins 1 and 2 are
evaluated, bin 2 has the larger power and the reported frequency is `2 · df`. -/
theorem dominant_frequency_argmax_witness :
    (spectral_features_capped taylor_cos taylor_cos taylor_sin 3 ([1, 2, 1, 0] : List ℚ) 8
      hann_cache_initial).1.dom_freq =
      spectral_df ([1, 2, 1, 0] : List ℚ).length (8 : ℚ) * ((2 : Nat) : ℚ) :=
  (dominant_frequency_argmax taylor_cos taylor_cos taylor_sin 3 ([1, 2, 1, 0] : List ℚ) 8
    hann_cache_initial).1 2
    (by rw [sample_run_bins]; decide)
    (by rw [sample_run_power_two]; norm_num)
    (by
      intro j hj
      rw [sample_run_bins] at hj
      simp only [List.mem_cons, List.mem_singleton, List.not_mem_nil, or_false] at hj
      rcases hj with rfl | rfl
      · rw [sample_run_power_one, sample_run_power_two]; norm_num
      · exact le_refl _)
    (by
      intro j hj hlt
      rw [sample_run_bins] at hj
      simp only [List.mem_cons, List.mem_singleton, List.not_mem_nil, or_false] at hj
      rcases hj with rfl | rfl
      · rw [sample_run_power_one, sample_run_power_two]; norm_num
      · omega)

/-- Witness for C9: on the same run bin 1 (2 Hz) is the only bin of the low
band, so `bp1` is its power. -/
theorem bandpowers_are_band_sums_witness :
    (spectral_features_capped taylor_cos taylor_cos taylor_sin 3 ([1, 2, 1, 0] : List ℚ) 8
      hann_cache_initial).1.bp1 = 101905 / 1024 := by
  have h := (bandpowers_are_band_sums taylor_cos taylor_cos taylor_sin 3
    ([1, 2, 1, 0] : List ℚ) 8 hann_cache_initial).1
  rw [h, sample_run_bins]
  have l1 : in_low_band (spectral_df ([1, 2, 1, 0] : List ℚ).length (8 : ℚ)) 1 = true := by
    norm_num [in_low_band, spectral_df, spectral_n, MAX_SAMPLES]
  have l2 : in_low_band (spectral_df ([1, 2, 1, 0] : List ℚ).length (8 : ℚ)) 2 = false := by
    norm_num [in_low_band, spectral_df, spectral_n, MAX_SAMPLES]
  simp only [List.filter_cons, l1, l2, List.filter_nil, if_true, Bool.false_eq_true, if_false,
    List.map_cons, List.map_nil, List.sum_cons, List.sum_nil, add_zero]
  exact sample_run_power_one

end SpectralTheorems

section GoertzelTheorems

open Finset in
/-- Invariant of the Goertzel recurrence in complex form, for `u = c - s·i` on
the unit circle: `u^n · (s_prev - s_prev2·conj u)` is the initial value plus
`Σ_j w_j u^(j+1)`. -/
theorem goertzel_fold_complex (c s : ℝ) (h : c ^ 2 + s ^ 2 = 1) (w : List ℝ) :
    ∀ p q : ℝ,
    (⟨c, -s⟩ : ℂ) ^ w.length *
        ⟨(w.foldl (fun (p : ℝ × ℝ) wi => (wi + 2 * c * p.1 - p.2, p.1)) (p, q)).1 -
          (w.foldl (fun (p : ℝ × ℝ) wi => (wi + 2 * c * p.1 - p.2, p.1)) (p, q)).2 * c,
         (w.foldl (fun (p : ℝ × ℝ) wi => (wi + 2 * c * p.1 - p.2, p.1)) (p, q)).2 * s⟩ =
      (⟨p - q * c, q * s⟩ : ℂ) +
        ∑ j in range w.length, ((w.getD j 0 : ℝ) : ℂ) * (⟨c, -s⟩ : ℂ) ^ (j + 1) := by
  induction w with
  | nil => intro p q; simp
  | cons a rest ih =>
    intro p q
    have hrec := ih (a + 2 * c * p - q) p
    simp only [List.foldl_cons, List.length_cons]
    rw [pow_succ, mul_right_comm, hrec, sum_range_succ', add_mul, sum_mul]
    have hE : (⟨a + 2 * c * p - q - p * c, p * s⟩ : ℂ) * ⟨c, -s⟩ =
        (⟨p - q * c, q * s⟩ : ℂ) + ((a : ℝ) : ℂ) * (⟨c, -s⟩ : ℂ) ^ (0 + 1) := by
      apply Complex.ext
      · simp only [Complex.mul_re, Complex.add_re, Complex.ofReal_re, Complex.ofReal_im,
          zero_add, pow_one]
        linear_combination p * h
      · simp only [Complex.mul_im, Complex.add_im, Complex.ofReal_re, Complex.ofReal_im,
          zero_add, pow_one]
        ring
    rw [hE]
    simp only [List.getD_cons_succ, List.getD_cons_zero]
    rw [add_assoc, add_comm (((a : ℝ) : ℂ) * _) _]
    congr 2
    apply sum_congr rfl
    intro j _
    ring

open Finset in
/-- The Goertzel power of `features.c` is the squared magnitude of
`Σ_j w_j u^j` for `u = c - s·i` on the unit circle. -/
theorem goertzel_mag2_eq_normSq (c s : ℝ) (h : c ^ 2 + s ^ 2 = 1) (w : List ℝ) :
    goertzel_mag2 c s w =
      Complex.normSq (∑ j in range w.length, ((w.getD j 0 : ℝ) : ℂ) * (⟨c, -s⟩ : ℂ) ^ j) := by
  have hu : Complex.normSq (⟨c, -s⟩ : ℂ) = 1 := by
    rw [Complex.normSq_mk]; linear_combination h
  have hfold := goertzel_fold_complex c s h w 0 0
  have hz : (⟨0 - 0 * c, 0 * s⟩ : ℂ) = 0 := by
    apply Complex.ext <;> simp
  rw [hz, zero_add] at hfold
  have hsum : ∑ j in range w.length, ((w.getD j 0 : ℝ) : ℂ) * (⟨c, -s⟩ : ℂ) ^ (j + 1) =
      (⟨c, -s⟩ : ℂ) * ∑ j in range w.length, ((w.getD j 0 : ℝ) : ℂ) * (⟨c, -s⟩ : ℂ) ^ j := by
    rw [mul_sum]
    apply sum_congr rfl
    intro j _
    ring
  rw [hsum] at hfold
  have hn := congrArg Complex.normSq hfold
  rw [Complex.normSq_mul, Complex.normSq_mul, map_pow, hu, one_pow, one_mul,
    one_mul, Complex.normSq_mk] at hn
  rw [← hn]
  rfl

open Finset in
/-- Invariant of the rotating-phasor accumulation of one bin in complex form. -/
theorem phasor_fold_complex (w : List ℝ) : ∀ b : phasor_bin ℝ,
    (⟨(w.foldl (fun b a => phasor_update a b) b).real_acc,
      (w.foldl (fun b a => phasor_update a b) b).imag_acc⟩ : ℂ) =
      (⟨b.real_acc, b.imag_acc⟩ : ℂ) + (⟨b.cos_state, -b.sin_state⟩ : ℂ) *
        ∑ j in range w.length, ((w.getD j 0 : ℝ) : ℂ) * (⟨b.cos_angle, -b.sin_angle⟩ : ℂ) ^ j := by
  induction w with
  | nil => intro b; simp
  | cons a rest ih =>
    intro b
    have hrec := ih (phasor_update a b)
    simp only [List.foldl_cons, List.length_cons]
    rw [hrec, sum_range_succ']
    simp only [List.getD_cons_succ, List.getD_cons_zero, pow_zero, mul_one]
    have hs : ∑ j in range rest.length,
        ((rest.getD j 0 : ℝ) : ℂ) * (⟨b.cos_angle, -b.sin_angle⟩ : ℂ) ^ (j + 1) =
        (⟨b.cos_angle, -b.sin_angle⟩ : ℂ) * ∑ j in range rest.length,
          ((rest.getD j 0 : ℝ) : ℂ) * (⟨b.cos_angle, -b.sin_angle⟩ : ℂ) ^ j := by
      rw [mul_sum]
      apply sum_congr rfl
      intro j _
      ring
    have h1 : (⟨(phasor_update a b).real_acc, (phasor_update a b).imag_acc⟩ : ℂ) =
        (⟨b.real_acc, b.imag_acc⟩ : ℂ) + (⟨b.cos_state, -b.sin_state⟩ : ℂ) * ((a : ℝ) : ℂ) := by
      apply Complex.ext
      · simp only [phasor_update, Complex.mul_re, Complex.add_re, Complex.ofReal_re,
          Complex.ofReal_im]
        ring
      · simp only [phasor_update, Complex.mul_im, Complex.add_im, Complex.ofReal_re,
          Complex.ofReal_im]
        ring
    have h2 : (⟨(phasor_update a b).cos_state, -(phasor_update a b).sin_state⟩ : ℂ) =
        (⟨b.cos_state, -b.sin_state⟩ : ℂ) * (⟨b.cos_angle, -b.sin_angle⟩ : ℂ) := by
      apply Complex.ext
      · simp only [phasor_update, Complex.mul_re]
        ring
      · simp only [phasor_update, Complex.mul_im]
        ring
    have h3 : (phasor_update a b).cos_angle = b.cos_angle := rfl
    have h4 : (phasor_update a b).sin_angle = b.sin_angle := rfl
    rw [h1, h2, h3, h4, hs]
    ring

theorem phasor_pass_eq_map (w : List ℝ) : ∀ bins : List (phasor_bin ℝ),
    phasor_pass w bins = bins.map fun b => w.foldl (fun b a => phasor_update a b) b := by
  induction w with
  | nil => intro bins; simp [phasor_pass]
  | cons a rest ih =>
    intro bins
    have := ih (bins.map (phasor_update a))
    unfold phasor_pass at this ⊢
    simp only [List.foldl_cons]
    rw [this, List.map_map]
    rfl

/-- The unit-circle point `cos ω - sin ω · i` raised to `j` is `exp(-2πi·k·j/n)`
for `ω = 2πk/n`. -/
theorem exp_bin_eq_pow (n k j : Nat) :
    Complex.exp (-(2 * (Real.pi : ℂ) * Complex.I * (k : ℂ) * (j : ℂ) / (n : ℂ))) =
      (⟨Real.cos (2 * Real.pi * (k : ℝ) / (n : ℝ)),
        -Real.sin (2 * Real.pi * (k : ℝ) / (n : ℝ))⟩ : ℂ) ^ j := by
  have hu : (⟨Real.cos (2 * Real.pi * (k : ℝ) / (n : ℝ)),
      -Real.sin (2 * Real.pi * (k : ℝ) / (n : ℝ))⟩ : ℂ) =
      Complex.exp (-((2 * Real.pi * (k : ℝ) / (n : ℝ) : ℝ) : ℂ) * Complex.I) := by
    rw [Complex.exp_mul_I, Complex.cos_neg, Complex.sin_neg, ← Complex.ofReal_cos,
      ← Complex.ofReal_sin]
    apply Complex.ext
    · simp only [Complex.add_re, Complex.mul_re, Complex.neg_re, Complex.neg_im,
        Complex.ofReal_re, Complex.ofReal_im, Complex.I_re, Complex.I_im]
      ring
    · simp only [Complex.add_im, Complex.mul_im, Complex.neg_re, Complex.neg_im,
        Complex.ofReal_re, Complex.ofReal_im, Complex.I_re, Complex.I_im]
      ring
  rw [hu, ← Complex.exp_nat_mul]
  congr 1
  push_cast
  ring

/-- C6: for `n ≥ 2` windowed samples and a bin `1 ≤ k ≤ n/2`, the power of the
Goertzel pass (with the real cosine and sine of `2πk/n`) is, in exact real
arithmetic, the squared magnitude of DFT bin `k`, `|Σ_i w_i exp(-2πi·k·i/n)|²`;
the direct (rotating-phasor) branch computes the same quantity for that bin. -/
theorem goertzel_power_eq_dft_power (n k : Nat) (w : List ℝ) (hn : 2 ≤ n) (hk1 : 1 ≤ k)
    (hk2 : k ≤ n / 2) (hw : w.length = n) :
    bin_power Real.cos Real.sin Real.pi w n k =
      Complex.normSq (∑ i in Finset.range n, ((w.getD i 0 : ℝ) : ℂ) *
        Complex.exp (-(2 * (Real.pi : ℂ) * Complex.I * (k : ℂ) * (i : ℂ) / (n : ℂ)))) ∧
    ∀ bin_count, k ≤ bin_count →
      (direct_mag2s Real.cos Real.sin Real.pi w n bin_count).getD (k - 1) 0 =
        Complex.normSq (∑ i in Finset.range n, ((w.getD i 0 : ℝ) : ℂ) *
          Complex.exp (-(2 * (Real.pi : ℂ) * Complex.I * (k : ℂ) * (i : ℂ) / (n : ℂ)))) := by
  have _h := And.intro hn hk2
  have hX : (∑ i in Finset.range n, ((w.getD i 0 : ℝ) : ℂ) *
        Complex.exp (-(2 * (Real.pi : ℂ) * Complex.I * (k : ℂ) * (i : ℂ) / (n : ℂ)))) =
      ∑ i in Finset.range w.length, ((w.getD i 0 : ℝ) : ℂ) *
        (⟨Real.cos (2 * Real.pi * (k : ℝ) / (n : ℝ)),
          -Real.sin (2 * Real.pi * (k : ℝ) / (n : ℝ))⟩ : ℂ) ^ i := by
    rw [hw]
    apply Finset.sum_congr rfl
    intro i _
    rw [exp_bin_eq_pow]
  rw [hX]
  constructor
  · unfold bin_power
    exact goertzel_mag2_eq_normSq _ _ (by rw [add_comm]; exact Real.sin_sq_add_cos_sq _) w
  · intro bin_count hb
    have hidx : k - 1 < bin_count := by omega
    unfold direct_mag2s
    rw [phasor_pass_eq_map, List.map_map, List.getD_eq_getElem?_getD, List.getElem?_map]
    unfold phasor_init
    rw [List.getElem?_map, List.getElem?_range hidx]
    simp only [Option.map_some', Option.getD_some, Function.comp_apply]
    have hk : ((k - 1 + 1 : Nat) : ℝ) = (k : ℝ) := by
      have : k - 1 + 1 = k := by omega
      rw [this]
    rw [hk]
    have hfold := phasor_fold_complex w
      { cos_angle := Real.cos (2 * Real.pi * (k : ℝ) / (n : ℝ)),
        sin_angle := Real.sin (2 * Real.pi * (k : ℝ) / (n : ℝ)),
        cos_state := 1, sin_state := 0, real_acc := 0, imag_acc := 0 }
    simp only at hfold
    have h10 : (⟨1, -0⟩ : ℂ) = 1 := by apply Complex.ext <;> simp
    have h00 : (⟨0, 0⟩ : ℂ) = 0 := by apply Complex.ext <;> simp
    rw [h10, h00, zero_add, one_mul] at hfold
    rw [← hfold, Complex.normSq_mk]

/-- Witness for C6: the window `[1, 0]`, bin 1 of 2. -/
theorem goertzel_power_eq_dft_power_witness :
    bin_power Real.cos Real.sin Real.pi [1, 0] 2 1 =
      Complex.normSq (∑ i in Finset.range 2, ((([1, 0] : List ℝ).getD i 0 : ℝ) : ℂ) *
        Complex.exp (-(2 * (Real.pi : ℂ) * Complex.I * ((1 : Nat) : ℂ) * (i : ℂ) / ((2 : Nat) : ℂ)))) :=
  (goertzel_power_eq_dft_power 2 1 [1, 0] (by decide) (by decide) (by decide) rfl).1

end GoertzelTheorems

section BoundaryTheorems

variable {α : Type} [LinearOrderedField α]

/-- C19: at `dom_freq = 3.0` exactly, a vector with `amag_std = 0.05` exactly is
neither SHAKE (strict `>`) nor TILT; it is CIRCLE when the mean gyro std exceeds
10 (the bounds `1 ≤ f ≤ 3` are non-strict) and NONE otherwise; a vector with
`amag_std > 0.05` is SHAKE (non-strict `≥` on the frequency). -/
theorem classify_boundary (f : feat_vec_t α) (hdf : f.amag.dom_freq = 3) :
    (f.amag.std = 0.05 →
      classify f ≠ G_SHAKE ∧ classify f ≠ G_TILT ∧
      ((f.gx_std + f.gy_std + f.gz_std) / 3 > 10 → classify f = G_CIRCLE) ∧
      (¬ ((f.gx_std + f.gy_std + f.gz_std) / 3 > 10) → classify f = G_NONE)) ∧
    (f.amag.std > 0.05 → classify f = G_SHAKE) := by
  constructor
  · intro hs
    have h1 : ¬ (f.amag.std > 0.05 ∧ f.amag.dom_freq ≥ 3) := by
      rw [hs]; rintro ⟨h, _⟩; exact lt_irrefl _ h
    have h2 : ¬ (f.amag.dom_freq > 0.2 ∧ f.amag.dom_freq < 2 ∧ f.amag.std > 0.01 ∧
        f.amag.std < 0.3) := by
      rw [hdf]; rintro ⟨_, h, _⟩; norm_num at h
    have hcircle : (f.gx_std + f.gy_std + f.gz_std) / 3 > 10 → classify f = G_CIRCLE := by
      intro hg
      have h3 : (f.gx_std + f.gy_std + f.gz_std) / 3 > 10 ∧ f.amag.dom_freq ≥ 1 ∧
          f.amag.dom_freq ≤ 3 := by
        rw [hdf]; exact ⟨hg, by norm_num, le_refl _⟩
      unfold classify
      simp only [if_neg h1, if_neg h2, if_pos h3]
    have hnone : ¬ ((f.gx_std + f.gy_std + f.gz_std) / 3 > 10) → classify f = G_NONE := by
      intro hg
      have h3 : ¬ ((f.gx_std + f.gy_std + f.gz_std) / 3 > 10 ∧ f.amag.dom_freq ≥ 1 ∧
          f.amag.dom_freq ≤ 3) := fun h => hg h.1
      unfold classify
      simp only [if_neg h1, if_neg h2, if_neg h3]
    have hval : classify f = G_CIRCLE ∨ classify f = G_NONE := by
      by_cases hg : (f.gx_std + f.gy_std + f.gz_std) / 3 > 10
      · exact Or.inl (hcircle hg)
      · exact Or.inr (hnone hg)
    refine ⟨?_, ?_, hcircle, hnone⟩
    · rcases hval with h | h <;> rw [h] <;> decide
    · rcases hval with h | h <;> rw [h] <;> decide
  · intro hs
    have h1 : f.amag.std > 0.05 ∧ f.amag.dom_freq ≥ 3 := ⟨hs, by rw [hdf]⟩
    unfold classify
    simp only [if_pos h1]

/-- Witness for C19: the boundary vector with a large gyro spread is CIRCLE. -/
theorem classify_boundary_witness :
    classify (⟨⟨0, 0.05, 0, 0, 3, 0, 0⟩, 30, 30, 30, 0, 0⟩ : feat_vec_t ℚ) = G_CIRCLE :=
  ((classify_boundary (⟨⟨0, 0.05, 0, 0, 3, 0, 0⟩, 30, 30, 30, 0, 0⟩ : feat_vec_t ℚ) rfl).1
    rfl).2.2.1 (by norm_num)

end BoundaryTheorems

section CounterTheorems

variable {α : Type} [LinearOrderedField α]

theorem tick_ring_filled (W H : Nat) (st : loop_state α) (s : imu_sample α) :
    (tick W H st s).1.ring_filled =
      if st.ring_filled < W then st.ring_filled + 1 else st.ring_filled := by
  rcases tick_fst W H st s with e | e <;> rw [e] <;> rfl

theorem run_ticks_ring_filled (W H : Nat) (xs : List (imu_sample α)) :
    ∀ st : loop_state α, st.ring_filled ≤ W →
      (run_ticks W H st xs).1.ring_filled = min (st.ring_filled + xs.length) W := by
  induction xs with
  | nil => intro st h; simp [run_ticks]; omega
  | cons s rest ih =>
    intro st h
    have hstep := tick_ring_filled W H st s
    have hle : (tick W H st s).1.ring_filled ≤ W := by
      rw [hstep]; split <;> omega
    have := ih (tick W H st s).1 hle
    simp only [run_ticks, List.length_cons]
    rw [this, hstep]
    split <;> omega

/-- C12: after `m` pushes from the initial state `ring_filled = min m W`; it is
`W` after `W + k` pushes, never exceeds `W` and never decreases. -/
theorem ring_filled_saturates (W H : Nat) (xs : List (imu_sample α)) :
    (run_ticks W H (initial_state W) xs).1.ring_filled = min xs.length W ∧
    (W ≤ xs.length → (run_ticks W H (initial_state W) xs).1.ring_filled = W) ∧
    (run_ticks W H (initial_state W) xs).1.ring_filled ≤ W ∧
    (∀ ys : List (imu_sample α), (run_ticks W H (initial_state W) xs).1.ring_filled ≤
      (run_ticks W H (initial_state W) (xs ++ ys)).1.ring_filled) := by
  have key : ∀ zs : List (imu_sample α),
      (run_ticks W H (initial_state W) zs).1.ring_filled = min zs.length W := by
    intro zs
    have := run_ticks_ring_filled W H zs (initial_state W) (Nat.zero_le _)
    rw [this]
    show min (0 + zs.length) W = _
    rw [Nat.zero_add]
  refine ⟨key xs, ?_, ?_, ?_⟩
  · intro h; rw [key]; omega
  · rw [key]; omega
  · intro ys
    rw [key, key, List.length_append]; omega

/-- Witness for C12: window 2, three pushes. -/
theorem ring_filled_saturates_witness :
    (run_ticks 2 1 (initial_state 2)
      [(⟨1, 2, 3, 4, 5, 6⟩ : imu_sample ℚ), ⟨7, 8, 9, 10, 11, 12⟩,
        ⟨13, 14, 15, 16, 17, 18⟩]).1.ring_filled = 2 :=
  (ring_filled_saturates 2 1
    [(⟨1, 2, 3, 4, 5, 6⟩ : imu_sample ℚ), ⟨7, 8, 9, 10, 11, 12⟩, ⟨13, 14, 15, 16, 17, 18⟩]).2.1
    (by decide)

end CounterTheorems

section HopTheorems

variable {α : Type} [LinearOrderedField α]

theorem counters_step_fired (W H : Nat) (c : Nat × Nat)
    (h : (counters_step W H c).2 = true) :
    H ≤ c.2 + 1 ∧ (counters_step W H c).1.2 = 0 := by
  by_cases hc : (if c.1 < W then c.1 + 1 else c.1) = W ∧ c.2 + 1 ≥ H
  · have e : counters_step W H c = (((if c.1 < W then c.1 + 1 else c.1), 0), true) := by
      unfold counters_step; simp only; rw [if_pos hc]
    rw [e]
    exact ⟨hc.2, rfl⟩
  · have e : counters_step W H c =
        (((if c.1 < W then c.1 + 1 else c.1), c.2 + 1), false) := by
      unfold counters_step; simp only; rw [if_neg hc]
    rw [e] at h
    simp at h

theorem counters_step_idle (W H : Nat) (c : Nat × Nat)
    (h : (counters_step W H c).2 = false) :
    (counters_step W H c).1.2 = c.2 + 1 := by
  by_cases hc : (if c.1 < W then c.1 + 1 else c.1) = W ∧ c.2 + 1 ≥ H
  · have e : counters_step W H c = (((if c.1 < W then c.1 + 1 else c.1), 0), true) := by
      unfold counters_step; simp only; rw [if_pos hc]
    rw [e] at h
    simp at h
  · have e : counters_step W H c =
        (((if c.1 < W then c.1 + 1 else c.1), c.2 + 1), false) := by
      unfold counters_step; simp only; rw [if_neg hc]
    rw [e]

/-- A fire at position `p` of the flags needs the hop counter to have reached
`H`: it cannot come earlier than `H - hop` ticks after the start. -/
theorem fire_flags_hop_bound (W H : Nat) : ∀ (n : Nat) (c : Nat × Nat) (p : Nat),
    (fire_flags W H c n).getD p false = true → H ≤ c.2 + p + 1 := by
  intro n
  induction n with
  | zero => intro c p h; simp [fire_flags] at h
  | succ n ih =>
    intro c p h
    cases p with
    | zero =>
      have h0 : (counters_step W H c).2 = true := by simpa [fire_flags] using h
      have := (counters_step_fired W H c h0).1
      omega
    | succ q =>
      have hq : (fire_flags W H (counters_step W H c).1 n).getD q false = true := by
        simpa [fire_flags] using h
      have hb := ih (counters_step W H c).1 q hq
      cases hfire : (counters_step W H c).2 with
      | true =>
        have := (counters_step_fired W H c hfire).2
        omega
      | false =>
        have := counters_step_idle W H c hfire
        omega

/-- Two fires of the flags are at least `H` positions apart. -/
theorem fire_flags_gap (W H : Nat) : ∀ (n : Nat) (c : Nat × Nat) (i j : Nat), i < j →
    (fire_flags W H c n).getD i false = true → (fire_flags W H c n).getD j false = true →
    H ≤ j - i := by
  intro n
  induction n with
  | zero => intro c i j _ h; simp [fire_flags] at h
  | succ n ih =>
    intro c i j hij hi hj
    cases j with
    | zero => omega
    | succ j2 =>
      have hj2 : (fire_flags W H (counters_step W H c).1 n).getD j2 false = true := by
        simpa [fire_flags] using hj
      cases i with
      | zero =>
        have h0 : (counters_step W H c).2 = true := by simpa [fire_flags] using hi
        have hz := (counters_step_fired W H c h0).2
        have := fire_flags_hop_bound W H n (counters_step W H c).1 j2 hj2
        omega
      | succ i2 =>
        have hi2 : (fire_flags W H (counters_step W H c).1 n).getD i2 false = true := by
          simpa [fire_flags] using hi
        have := ih (counters_step W H c).1 i2 j2 (by omega) hi2 hj2
        omega

theorem trace_isSome_eq_flag (W H : Nat) (st : loop_state α) (xs : List (imu_sample α))
    (i : Nat) :
    ((run_ticks W H st xs).2.getD i none).isSome =
      (fire_flags W H (st.ring_filled, st.hop_accum) xs.length).getD i false := by
  rw [← run_ticks_flags]
  simp only [List.getD_eq_getElem?_getD, List.getElem?_map]
  cases (run_ticks W H st xs).2[i]? <;> rfl

theorem run_ticks_trace_length (W H : Nat) (xs : List (imu_sample α)) :
    ∀ st : loop_state α, (run_ticks W H st xs).2.length = xs.length := by
  induction xs with
  | nil => intro st; rfl
  | cons s rest ih => intro st; simp [run_ticks, ih]

/-- C13: a tick that fires leaves `hop_accum = 0`, so with `H > 0` the ready
condition is false right after it; every tick yields at most one emission (the
trace has one entry per tick); and from any starting state two emissions are at
least `H` ticks apart. -/
theorem emission_resets_hop (W H : Nat) (hH : 0 < H) :
    (∀ (st : loop_state α) (s : imu_sample α), (tick W H st s).2.isSome = true →
      (tick W H st s).1.hop_accum = 0 ∧
      ¬ ((tick W H st s).1.ring_filled = W ∧ (tick W H st s).1.hop_accum ≥ H)) ∧
    (∀ (st : loop_state α) (xs : List (imu_sample α)),
      (run_ticks W H st xs).2.length = xs.length) ∧
    (∀ (st : loop_state α) (xs : List (imu_sample α)) (i j : Nat), i < j →
      ((run_ticks W H st xs).2.getD i none).isSome = true →
      ((run_ticks W H st xs).2.getD j none).isSome = true → H ≤ j - i) := by
  refine ⟨?_, fun st xs => run_ticks_trace_length W H xs st, ?_⟩
  · intro st s hfire
    have hhop : (tick W H st s).1.hop_accum = 0 := by
      have hc := (tick_snd_isSome W H st s).mp hfire
      unfold tick
      simp only
      rw [if_pos hc]
    refine ⟨hhop, ?_⟩
    rintro ⟨_, h⟩
    rw [hhop] at h
    omega
  · intro st xs i j hij hi hj
    rw [trace_isSome_eq_flag] at hi hj
    exact fire_flags_gap W H xs.length (st.ring_filled, st.hop_accum) i j hij hi hj

/-- Witness for C13: window 2, hop 2; the second tick fires and leaves
`hop_accum = 0`, and the emissions of four ticks (ticks 2 and 4) are 2 apart. -/
theorem emission_resets_hop_witness :
    (tick 2 2 (run_ticks 2 2 (initial_state 2) [(⟨1, 2, 3, 4, 5, 6⟩ : imu_sample ℚ)]).1
      ⟨7, 8, 9, 10, 11, 12⟩).1.hop_accum = 0 ∧ 2 ≤ 3 - 1 :=
  ⟨((emission_resets_hop 2 2 (by decide)).1
      (run_ticks 2 2 (initial_state 2) [(⟨1, 2, 3, 4, 5, 6⟩ : imu_sample ℚ)]).1
      ⟨7, 8, 9, 10, 11, 12⟩ (by rfl)).1,
   (emission_resets_hop 2 2 (by decide)).2.2 (initial_state 2)
    [(⟨1, 2, 3, 4, 5, 6⟩ : imu_sample ℚ), ⟨7, 8, 9, 10, 11, 12⟩, ⟨13, 14, 15, 16, 17, 18⟩,
      ⟨19, 20, 21, 22, 23, 24⟩] 1 3 (by decide) (by
        rw [trace_isSome_eq_flag]; decide) (by
        rw [trace_isSome_eq_flag]; decide)⟩

end HopTheorems

section CursorTheorems

variable {α : Type} [LinearOrderedField α]

theorem getD_set_eq_ite (l : List α) (i j : Nat) (v : α) (hi : i < l.length) :
    (l.set i v).getD j 0 = if j = i then v else l.getD j 0 := by
  by_cases h : j = i
  · subst h
    rw [if_pos rfl, List.getD_eq_getElem?_getD, List.getElem?_set_eq_of_lt _ hi]
    rfl
  · rw [if_neg h, List.getD_eq_getElem?_getD, List.getD_eq_getElem?_getD,
      List.getElem?_set_ne (fun e => h e.symm)]

theorem tick_rings (W H : Nat) (st : loop_state α) (s : imu_sample α) :
    (tick W H st s).1.ax_ring = st.ax_ring.set st.ring_index s.ax ∧
    (tick W H st s).1.ay_ring = st.ay_ring.set st.ring_index s.ay ∧
    (tick W H st s).1.az_ring = st.az_ring.set st.ring_index s.az ∧
    (tick W H st s).1.gx_ring = st.gx_ring.set st.ring_index s.gx ∧
    (tick W H st s).1.gy_ring = st.gy_ring.set st.ring_index s.gy ∧
    (tick W H st s).1.gz_ring = st.gz_ring.set st.ring_index s.gz := by
  rcases tick_fst W H st s with e | e <;> rw [e] <;> exact ⟨rfl, rfl, rfl, rfl, rfl, rfl⟩

/-- C14: after `m` pushes from the initial state the cursor is `m mod W`, hence
below `W`; the next tick writes each of the six rings at that cursor (the value
before the increment) with its channel of the sample and leaves every other
cell as it was. -/
theorem ring_index_cursor (W H : Nat) (hW : 0 < W) (xs : List (imu_sample α))
    (s : imu_sample α) :
    (run_ticks W H (initial_state W) xs).1.ring_index = xs.length % W ∧
    (run_ticks W H (initial_state W) xs).1.ring_index < W ∧
    (∀ j : Nat,
      (tick W H (run_ticks W H (initial_state W) xs).1 s).1.ax_ring.getD j 0 =
        (if j = xs.length % W then s.ax
          else (run_ticks W H (initial_state W) xs).1.ax_ring.getD j 0) ∧
      (tick W H (run_ticks W H (initial_state W) xs).1 s).1.ay_ring.getD j 0 =
        (if j = xs.length % W then s.ay
          else (run_ticks W H (initial_state W) xs).1.ay_ring.getD j 0) ∧
      (tick W H (run_ticks W H (initial_state W) xs).1 s).1.az_ring.getD j 0 =
        (if j = xs.length % W then s.az
          else (run_ticks W H (initial_state W) xs).1.az_ring.getD j 0) ∧
      (tick W H (run_ticks W H (initial_state W) xs).1 s).1.gx_ring.getD j 0 =
        (if j = xs.length % W then s.gx
          else (run_ticks W H (initial_state W) xs).1.gx_ring.getD j 0) ∧
      (tick W H (run_ticks W H (initial_state W) xs).1 s).1.gy_ring.getD j 0 =
        (if j = xs.length % W then s.gy
          else (run_ticks W H (initial_state W) xs).1.gy_ring.getD j 0) ∧
      (tick W H (run_ticks W H (initial_state W) xs).1 s).1.gz_ring.getD j 0 =
        (if j = xs.length % W then s.gz
          else (run_ticks W H (initial_state W) xs).1.gz_ring.getD j 0)) := by
  have hinv : LoopInv W (run_ticks W H (initial_state W) xs).1 ([] ++ xs) :=
    loopInv_run_ticks H hW xs (initial_state W) [] (loopInv_initial W)
  rw [List.nil_append] at hinv
  obtain ⟨hidx, _, h1, h2, h3, h4, h5, h6⟩ := hinv
  have hlt : xs.length % W < W := Nat.mod_lt _ hW
  refine ⟨hidx, by rw [hidx]; exact hlt, ?_⟩
  intro j
  obtain ⟨e1, e2, e3, e4, e5, e6⟩ :=
    tick_rings W H (run_ticks W H (initial_state W) xs).1 s
  rw [e1, e2, e3, e4, e5, e6, hidx]
  exact ⟨getD_set_eq_ite _ _ _ _ (by rw [h1.1]; exact hlt),
    getD_set_eq_ite _ _ _ _ (by rw [h2.1]; exact hlt),
    getD_set_eq_ite _ _ _ _ (by rw [h3.1]; exact hlt),
    getD_set_eq_ite _ _ _ _ (by rw [h4.1]; exact hlt),
    getD_set_eq_ite _ _ _ _ (by rw [h5.1]; exact hlt),
    getD_set_eq_ite _ _ _ _ (by rw [h6.1]; exact hlt)⟩

/-- Witness for C14: window 2, three pushes; the cursor is `3 mod 2`. -/
theorem ring_index_cursor_witness :
    (run_ticks 2 1 (initial_state 2)
      [(⟨1, 2, 3, 4, 5, 6⟩ : imu_sample ℚ), ⟨7, 8, 9, 10, 11, 12⟩,
        ⟨13, 14, 15, 16, 17, 18⟩]).1.ring_index = 3 % 2 :=
  (ring_index_cursor 2 1 (by decide)
    [(⟨1, 2, 3, 4, 5, 6⟩ : imu_sample ℚ), ⟨7, 8, 9, 10, 11, 12⟩, ⟨13, 14, 15, 16, 17, 18⟩]
    ⟨19, 20, 21, 22, 23, 24⟩).1

end CursorTheorems

section QuantizeRangeTheorems

variable {α : Type} [LinearOrderedField α] [FloorRing α]

theorem quantize_fold_length (vs : List α) : ∀ (buf : List Nat) (k : Nat),
    (vs.foldl (fun (st : List Nat × Nat) x => (st.1.set st.2 (quantize_value x), st.2 + 1))
      (buf, k)).1.length = buf.length := by
  induction vs with
  | nil => intro buf k; rfl
  | cons v rest ih =>
    intro buf k
    simp only [List.foldl_cons]
    rw [ih, List.length_set]

theorem lrintf_clamp_range (x : α) :
    0 ≤ lrintf (max 0 (min x 1) * 255) ∧ lrintf (max 0 (min x 1) * 255) ≤ 255 := by
  have hc0 : (0 : α) ≤ max 0 (min x 1) := le_max_left _ _
  have hc1 : max 0 (min x 1) ≤ (1 : α) := max_le (by norm_num) (min_le_right _ _)
  exact ⟨lrintf_nonneg (by positivity), lrintf_le_of_le 255 (by push_cast; linarith)⟩

/-- C11: for a buffer of at least five bytes `quantize_features_u8` reports
`out_len = 5`, keeps the buffer length, leaves every position from 5 on as it
was, and writes at each position `i < 5` the rounded value `lrintf(clamp · 255)`,
which lies in `[0, 255]`, so that the conversion to `uint8_t` does not wrap. -/
theorem quantize_features_u8_five_bytes (f : feat_vec_t α) (out_buf : List Nat)
    (hbuf : 5 ≤ out_buf.length) :
    (quantize_features_u8 f out_buf).2 = 5 ∧
    (quantize_features_u8 f out_buf).1.length = out_buf.length ∧
    (∀ j, 5 ≤ j → (quantize_features_u8 f out_buf).1[j]? = out_buf[j]?) ∧
    (∀ i, i < 5 →
      0 ≤ lrintf (max 0 (min ((quantize_selection f).getD i 0) 1) * 255) ∧
      lrintf (max 0 (min ((quantize_selection f).getD i 0) 1) * 255) ≤ 255 ∧
      (((quantize_features_u8 f out_buf).1.getD i 0 : Nat) : Int) =
        lrintf (max 0 (min ((quantize_selection f).getD i 0) 1) * 255) ∧
      (quantize_features_u8 f out_buf).1.getD i 0 ≤ 255) := by
  have hsel : (quantize_selection f).length = 5 := rfl
  obtain ⟨h1, h2, h3⟩ := quantize_fold (quantize_selection f) out_buf 0
    (by rw [hsel]; omega)
  rw [hsel] at h1 h2 h3
  refine ⟨?_, ?_, ?_, ?_⟩
  · unfold quantize_features_u8; rw [h1]
  · unfold quantize_features_u8; exact quantize_fold_length _ _ _
  · intro j hj
    unfold quantize_features_u8
    exact h3 j (Or.inr (by omega))
  · intro i hi
    have hrange := lrintf_clamp_range ((quantize_selection f).getD i 0)
    have hbyte : (quantize_features_u8 f out_buf).1.getD i 0 =
        quantize_value ((quantize_selection f).getD i 0) := by
      have hiv : i < (quantize_selection f).length := by rw [hsel]; exact hi
      have := h2 i hi
      rw [Nat.zero_add] at this
      unfold quantize_features_u8
      rw [List.getD_eq_getElem?_getD, this, List.getD_eq_getElem?_getD,
        List.getElem?_eq_getElem hiv]
      simp
    have hq := quantize_value_eq ((quantize_selection f).getD i 0)
    rw [hbyte]
    refine ⟨hrange.1, hrange.2, hq, ?_⟩
    have := hrange.2
    omega

/-- Witness for C11: an 8-byte buffer keeps its last three bytes. -/
theorem quantize_features_u8_five_bytes_witness :
    (quantize_features_u8 (⟨⟨0, 1 / 2, 0, 0, 3, 0, 0⟩, 30, 450, -3, 0, 0⟩ : feat_vec_t ℚ)
      (List.replicate 8 7)).2 = 5 :=
  (quantize_features_u8_five_bytes
    (⟨⟨0, 1 / 2, 0, 0, 3, 0, 0⟩, 30, 450, -3, 0, 0⟩ : feat_vec_t ℚ)
    (List.replicate 8 7) (by decide)).1

end QuantizeRangeTheorems

section HannCacheTheorems

variable {α : Type} [LinearOrderedField α]

theorem hannCacheValid_initial (cosf : α → α) (pi : α) :
    HannCacheValid cosf pi (hann_cache_initial : hann_cache α) := by
  refine ⟨by simp [hann_cache_initial], Or.inl rfl⟩

/-- The statics after a call of `hann_window` with a length of at least 2: kept
when `cached_n` is the (clamped) length, refilled otherwise. -/
theorem hann_window_snd (cosf : α → α) (pi : α) (n : Nat) (w : List α) (c : hann_cache α)
    (hn : 2 ≤ n) :
    (hann_window cosf pi n w c).2 =
      if c.cached_n ≠ (if n > MAX_SAMPLES then MAX_SAMPLES else n) then
        { cached_n := (if n > MAX_SAMPLES then MAX_SAMPLES else n)
          cached := (List.range (if n > MAX_SAMPLES then MAX_SAMPLES else n)).map
            (hann_coeff cosf pi (if n > MAX_SAMPLES then MAX_SAMPLES else n)) ++
            c.cached.drop (if n > MAX_SAMPLES then MAX_SAMPLES else n) }
      else c := by
  unfold hann_window
  rw [if_neg (by omega), if_neg (by omega)]

theorem hann_window_fst (cosf : α → α) (pi : α) (n : Nat) (w : List α) (c : hann_cache α)
    (hn : 2 ≤ n) :
    (hann_window cosf pi n w c).1 =
      (hann_window cosf pi n w c).2.cached.take (if n > MAX_SAMPLES then MAX_SAMPLES else n) ++
        w.drop (if n > MAX_SAMPLES then MAX_SAMPLES else n) := by
  unfold hann_window
  rw [if_neg (by omega), if_neg (by omega)]

theorem hannCacheValid_step (cosf : α → α) (pi : α) (n : Nat) (w : List α) (c : hann_cache α)
    (hc : HannCacheValid cosf pi c) :
    HannCacheValid cosf pi (hann_window cosf pi n w c).2 ∧
    (2 ≤ n → (hann_window cosf pi n w c).2.cached_n =
      (if n > MAX_SAMPLES then MAX_SAMPLES else n)) := by
  by_cases h0 : n = 0
  · have e : hann_window cosf pi n w c = (w, c) := by unfold hann_window; rw [if_pos h0]
    rw [e]; exact ⟨hc, fun h => by omega⟩
  by_cases h1 : n = 1
  · have e : hann_window cosf pi n w c = (w.set 0 1, c) := by
      unfold hann_window; rw [if_neg h0, if_pos h1]
    rw [e]; exact ⟨hc, fun h => by omega⟩
  have hn : 2 ≤ n := by omega
  have hM : MAX_SAMPLES = 2048 := rfl
  rw [hann_window_snd cosf pi n w c hn]
  generalize hm : (if n > MAX_SAMPLES then MAX_SAMPLES else n) = m
  have hm2 : 2 ≤ m ∧ m ≤ MAX_SAMPLES := by
    rw [← hm]; split_ifs <;> omega
  by_cases hcn : c.cached_n ≠ m
  · rw [if_pos hcn]
    refine ⟨⟨?_, Or.inr ⟨hm2.1, hm2.2, ?_⟩⟩, fun _ => rfl⟩
    · have := hc.1
      simp only [List.length_append, List.length_map, List.length_range, List.length_drop]
      omega
    · intro i hi
      show ((List.range m).map (hann_coeff cosf pi m) ++ c.cached.drop m).getD i 0 = _
      rw [List.getD_eq_getElem?_getD, List.getElem?_append_left (by simpa using hi),
        List.getElem?_map, List.getElem?_range hi]
      rfl
  · rw [if_neg hcn]
    exact ⟨hc, fun _ => not_not.mp hcn⟩

theorem hannCacheValid_calls (cosf : α → α) (pi : α) (calls : List (Nat × List α)) :
    ∀ c : hann_cache α, HannCacheValid cosf pi c →
      HannCacheValid cosf pi (hann_calls cosf pi c calls) := by
  induction calls with
  | nil => intro c hc; exact hc
  | cons call rest ih =>
    intro c hc
    exact ih _ (hannCacheValid_step cosf pi call.1 call.2 c hc).1

/-- With valid statics, a call of length `2 ≤ n ≤ MAX_SAMPLES` writes the Hann
coefficients of length `n` to the first `n` cells of the destination. -/
theorem hann_window_take (cosf : α → α) (pi : α) (n : Nat) (w : List α) (c : hann_cache α)
    (hc : HannCacheValid cosf pi c) (hn : 2 ≤ n) (hn2 : n ≤ MAX_SAMPLES) :
    (hann_window cosf pi n w c).1.take n = (List.range n).map (hann_coeff cosf pi n) := by
  have hif : (if n > MAX_SAMPLES then MAX_SAMPLES else n) = n := if_neg (by omega)
  obtain ⟨hv, hcn⟩ := hannCacheValid_step cosf pi n w c hc
  have hcn2 := hcn hn
  rw [hif] at hcn2
  rw [hann_window_fst cosf pi n w c hn, hif]
  have hlen : n ≤ (hann_window cosf pi n w c).2.cached.length := by rw [hv.1]; exact hn2
  rw [List.take_append_of_le_length (by rw [List.length_take]; omega), List.take_take,
    Nat.min_self]
  apply List.ext_getElem
  · simp only [List.length_take, List.length_map, List.length_range]; omega
  · intro i h1 h2
    have hi : i < n := by simpa using h2
    rcases hv.2 with h0 | ⟨_, _, htab⟩
    · omega
    · have := htab i (by rw [hcn2]; exact hi)
      rw [hcn2, List.getD_eq_getElem?_getD, List.getElem?_eq_getElem (by omega)] at this
      simp only [Option.getD_some] at this
      simp only [List.getElem_take, List.getElem_map, List.getElem_range]
      exact this

theorem hann_coeff_eq (cosf : α → α) (pi : α) (n i : Nat) (hn : 2 ≤ n) :
    hann_coeff cosf pi n i = 0.5 * (1 - cosf (2 * pi * (i : α) / ((n : α) - 1))) := by
  unfold hann_coeff
  rw [Nat.cast_sub (by omega), Nat.cast_one]

/-- C20: after any sequence of earlier calls, a call of `hann_window` with
`2 ≤ n ≤ 2048` writes `w_i = 0.5·(1 − cos(2πi/(n−1)))` for every `i < n`; the
statics are left as they are when `cached_n = n` and are refilled for length `n`
otherwise; a call with `n = 1` writes `w_0 = 1` and leaves the statics alone. -/
theorem hann_window_cache_transparent (cosf : α → α) (pi : α)
    (calls : List (Nat × List α)) (n : Nat) (w : List α) (hn : 2 ≤ n) (hn2 : n ≤ 2048) :
    (∀ i, i < n →
      (hann_window cosf pi n w (hann_calls cosf pi hann_cache_initial calls)).1.getD i 0 =
        0.5 * (1 - cosf (2 * pi * (i : α) / ((n : α) - 1)))) ∧
    ((hann_calls cosf pi hann_cache_initial calls).cached_n = n →
      (hann_window cosf pi n w (hann_calls cosf pi hann_cache_initial calls)).2 =
        hann_calls cosf pi hann_cache_initial calls) ∧
    ((hann_calls cosf pi hann_cache_initial calls).cached_n ≠ n →
      (hann_window cosf pi n w (hann_calls cosf pi hann_cache_initial calls)).2.cached_n = n ∧
      ∀ i, i < n →
        (hann_window cosf pi n w
          (hann_calls cosf pi hann_cache_initial calls)).2.cached.getD i 0 =
          0.5 * (1 - cosf (2 * pi * (i : α) / ((n : α) - 1)))) ∧
    hann_window cosf pi 1 w (hann_calls cosf pi hann_cache_initial calls) =
      (w.set 0 1, hann_calls cosf pi hann_cache_initial calls) := by
  have hc := hannCacheValid_calls cosf pi calls hann_cache_initial
    (hannCacheValid_initial cosf pi)
  generalize hann_calls cosf pi hann_cache_initial calls = c at hc ⊢
  have hM : n ≤ MAX_SAMPLES := hn2
  have hif : (if n > MAX_SAMPLES then MAX_SAMPLES else n) = n := if_neg (by omega)
  refine ⟨?_, ?_, ?_, ?_⟩
  · intro i hi
    have htake := hann_window_take cosf pi n w c hc hn hM
    have hget : ((hann_window cosf pi n w c).1.take n)[i]? =
        some (hann_coeff cosf pi n i) := by
      rw [htake, List.getElem?_map, List.getElem?_range hi]; rfl
    rw [List.getElem?_take_of_lt hi] at hget
    rw [List.getD_eq_getElem?_getD, hget, Option.getD_some, hann_coeff_eq cosf pi n i hn]
  · intro heq
    rw [hann_window_snd cosf pi n w c hn, hif, if_neg (not_not.mpr heq)]
  · intro hne
    have hsnd := hann_window_snd cosf pi n w c hn
    rw [hif, if_pos hne] at hsnd
    rw [hsnd]
    refine ⟨rfl, ?_⟩
    intro i hi
    show ((List.range n).map (hann_coeff cosf pi n) ++ c.cached.drop n).getD i 0 = _
    rw [List.getD_eq_getElem?_getD, List.getElem?_append_left (by simpa using hi),
      List.getElem?_map, List.getElem?_range hi]
    exact hann_coeff_eq cosf pi n i hn
  · unfold hann_window
    rw [if_neg (by decide), if_pos rfl]

/-- Witness for C20: a call of length 3 after calls of lengths 5 and 1, on the
rationals. -/
theorem hann_window_cache_transparent_witness :
    (hann_window taylor_cos (3 : ℚ) 3 [9, 9, 9, 9]
      (hann_calls taylor_cos 3 hann_cache_initial [(5, [0, 0, 0, 0, 0]), (1, [0])])).1.getD 1 0 =
      0.5 * (1 - taylor_cos (2 * 3 * ((1 : Nat) : ℚ) / (((3 : Nat) : ℚ) - 1))) :=
  (hann_window_cache_transparent taylor_cos (3 : ℚ) [(5, [0, 0, 0, 0, 0]), (1, [0])] 3
    [9, 9, 9, 9] (by decide) (by decide)).1 1 (by decide)

end HannCacheTheorems

section DegenerateTheorems

variable {α : Type} [LinearOrderedField α] [FloorRing α]

theorem spectral_degenerate (cosf cos sin : α → α) (pi : α) (x : List α) (fs : α)
    (c : hann_cache α) (h : x.length ≤ 1 ∨ fs ≤ 0) :
    spectral_features_capped cosf cos sin pi x fs c = (spectral_zero, c) := by
  unfold spectral_features_capped
  simp only
  rw [if_pos h]

/-- C16: on a degenerate input (`n ≤ 1` or `fs ≤ 0`) `spectral_features_capped`
returns the all-zero output whatever the samples are and leaves the statics of
`hann_window` untouched; `compute_features` then still returns a vector, with
zero spectral fields. -/
theorem degenerate_input_zero (cosf cos sin : α → α) (pi : α) (fs : α) (c : hann_cache α) :
    (∀ x : List α, x.length ≤ 1 ∨ fs ≤ 0 →
      spectral_features_capped cosf cos sin pi x fs c = (spectral_zero, c) ∧
      (spectral_features_capped cosf cos sin pi x fs c).1.dom_freq = 0 ∧
      (spectral_features_capped cosf cos sin pi x fs c).1.bp1 = 0 ∧
      (spectral_features_capped cosf cos sin pi x fs c).1.bp2 = 0) ∧
    (∀ (sqrtf : α → α) (ax ay az gx gy gz : List α) (n : Nat), n ≤ 1 ∨ fs ≤ 0 →
      (compute_features sqrtf cosf cos sin pi ax ay az gx gy gz n fs c).1.amag.dom_freq = 0 ∧
      (compute_features sqrtf cosf cos sin pi ax ay az gx gy gz n fs c).1.amag.bp1 = 0 ∧
      (compute_features sqrtf cosf cos sin pi ax ay az gx gy gz n fs c).1.amag.bp2 = 0 ∧
      (compute_features sqrtf cosf cos sin pi ax ay az gx gy gz n fs c).2 = c) := by
  constructor
  · intro x h
    have e := spectral_degenerate cosf cos sin pi x fs c h
    rw [e]
    exact ⟨rfl, rfl, rfl, rfl⟩
  · intro sqrtf ax ay az gx gy gz n h
    have hlen : ∀ f : Nat → α,
        ((List.range (if n > 2048 then 2048 else n)).map f).length ≤ 1 ∨ fs ≤ 0 := by
      intro f
      rcases h with h | h
      · left
        rw [List.length_map, List.length_range]
        split_ifs <;> omega
      · exact Or.inr h
    unfold compute_features
    simp only
    rw [spectral_degenerate cosf cos sin pi _ fs c (hlen _)]
    exact ⟨rfl, rfl, rfl, rfl⟩

/-- Witness for C16: one sample on the rationals. -/
theorem degenerate_input_zero_witness :
    spectral_features_capped taylor_cos taylor_cos taylor_sin (3 : ℚ) [7] 100
      hann_cache_initial = (spectral_zero, hann_cache_initial) :=
  ((degenerate_input_zero taylor_cos taylor_cos taylor_sin (3 : ℚ) 100 hann_cache_initial).1
    [7] (Or.inl (by decide))).1

end DegenerateTheorems

section ConstantWindowTheorems

variable {α : Type} [LinearOrderedField α]

theorem foldl_add_eq_sum (x : List α) : ∀ a : α,
    x.foldl (fun acc xi => acc + xi) a = a + x.sum := by
  induction x with
  | nil => intro a; simp
  | cons y ys ih =>
    intro a
    simp only [List.foldl_cons, List.sum_cons]
    rw [ih]; ring

theorem sum_of_all_eq (l : List α) (r : α) (h : ∀ v ∈ l, v = r) :
    l.sum = (l.length : α) * r := by
  induction l with
  | nil => simp
  | cons y ys ih =>
    have hy : y = r := h y (List.mem_cons_self _ _)
    have := ih (fun v hv => h v (List.mem_cons_of_mem _ hv))
    simp only [List.sum_cons, List.length_cons, Nat.cast_add, Nat.cast_one]
    rw [this, hy]; ring

theorem zipWith_mul_zero (l1 : List α) (h : ∀ a ∈ l1, a = 0) : ∀ l2 : List α,
    ∀ z ∈ List.zipWith (fun wi hi => wi * hi) l1 l2, z = 0 := by
  induction l1 with
  | nil => intro l2 z hz; simp at hz
  | cons a rest ih =>
    intro l2 z hz
    cases l2 with
    | nil => simp at hz
    | cons b rest2 =>
      simp only [List.zipWith_cons_cons, List.mem_cons] at hz
      rcases hz with hz | hz
      · rw [hz, h a (List.mem_cons_self _ _), zero_mul]
      · exact ih (fun v hv => h v (List.mem_cons_of_mem _ hv)) rest2 z hz

/-- The windowed signal of a constant window is zero: the mean removal of line
68 cancels every sample. -/
theorem windowed_signal_const (cosf : α → α) (pi : α) (x : List α) (r : α)
    (c : hann_cache α) (h : ∀ v ∈ x, v = r) :
    ∀ z ∈ (windowed_signal cosf pi x c).1, z = 0 := by
  unfold windowed_signal
  simp only
  apply zipWith_mul_zero
  intro a ha
  rw [List.mem_map] at ha
  obtain ⟨v, hv, rfl⟩ := ha
  have hne : x ≠ [] := List.ne_nil_of_mem hv
  have hpos : (0 : α) < (x.length : α) := by
    have : 0 < x.length := List.length_pos.mpr hne
    exact_mod_cast this
  rw [foldl_add_eq_sum, zero_add, sum_of_all_eq x r h, h v hv,
    mul_div_cancel_left₀ _ (ne_of_gt hpos), sub_self]

theorem goertzel_fold_zero (coeff : α) (w : List α) (h : ∀ v ∈ w, v = 0) :
    w.foldl (fun (p : α × α) wi => (wi + coeff * p.1 - p.2, p.1)) (0, 0) = (0, 0) := by
  induction w with
  | nil => rfl
  | cons y ys ih =>
    have hy : y = 0 := h y (List.mem_cons_self _ _)
    simp only [List.foldl_cons]
    rw [hy]
    simp only [mul_zero, add_zero, sub_zero]
    exact ih (fun v hv => h v (List.mem_cons_of_mem _ hv))

theorem goertzel_mag2_zero (cosw sinw : α) (w : List α) (h : ∀ v ∈ w, v = 0) :
    goertzel_mag2 cosw sinw w = 0 := by
  unfold goertzel_mag2
  simp only
  rw [goertzel_fold_zero _ w h]
  simp

/-- When every bin power is zero the bin loop leaves the zero accumulators. -/
theorem bin_fold_zero (cos sin : α → α) (pi : α) (work : List α) (n : Nat) (df : α)
    (h : ∀ k, bin_power cos sin pi work n k = 0) (L : List Nat) :
    L.foldl (bin_step cos sin pi work n df)
      { bp1_acc := 0, bp2_acc := 0, best_mag2 := 0, best_freq := 0 } =
      { bp1_acc := 0, bp2_acc := 0, best_mag2 := 0, best_freq := 0 } := by
  induction L with
  | nil => rfl
  | cons k rest ih =>
    have hstep : bin_step cos sin pi work n df
        { bp1_acc := 0, bp2_acc := 0, best_mag2 := 0, best_freq := 0 } k =
        { bp1_acc := 0, bp2_acc := 0, best_mag2 := 0, best_freq := 0 } := by
      unfold bin_step
      simp only [h k, gt_iff_lt, lt_self_iff_false, if_false, add_zero, ite_self]
    rw [List.foldl_cons, hstep, ih]

theorem stats_basic_std_const (sqrtf : α → α) (hsqrt : sqrtf 0 = 0) (x : List α) (r : α)
    (hne : x ≠ []) (h : ∀ v ∈ x, v = r) : (stats_basic sqrtf x).std = 0 := by
  have hpos : (0 : α) < (x.length : α) := by
    have : 0 < x.length := List.length_pos.mpr hne
    exact_mod_cast this
  have hsq : ∀ v ∈ x.map (fun t => t ^ 2), v = r ^ 2 := by
    intro v hv
    rw [List.mem_map] at hv
    obtain ⟨t, ht, rfl⟩ := hv
    rw [h t ht]
  have e := stats_sums_eq x
  have hv : (stats_sums x).2 / (x.length : α) -
      (stats_sums x).1 / (x.length : α) * ((stats_sums x).1 / (x.length : α)) = 0 := by
    rw [e]
    simp only
    rw [sum_of_all_eq x r h, sum_of_all_eq _ _ hsq, List.length_map,
      mul_div_cancel_left₀ _ (ne_of_gt hpos), mul_div_cancel_left₀ _ (ne_of_gt hpos)]
    ring
  show sqrtf (if (stats_sums x).2 / (x.length : α) -
      (stats_sums x).1 / (x.length : α) * ((stats_sums x).1 / (x.length : α)) < 0 then 0
    else (stats_sums x).2 / (x.length : α) -
      (stats_sums x).1 / (x.length : α) * ((stats_sums x).1 / (x.length : α))) = 0
  rw [hv, if_neg (lt_irrefl _), hsqrt]

end ConstantWindowTheorems

section ConstantFeatureTheorems

variable {α : Type} [LinearOrderedField α] [FloorRing α]

theorem spectral_const_zero (cosf cos sin : α → α) (pi : α) (x : List α) (r : α) (fs : α)
    (c : hann_cache α) (h : ∀ v ∈ x, v = r) :
    (spectral_features_capped cosf cos sin pi x fs c).1 = spectral_zero := by
  have hwork : ∀ z ∈ spectral_work cosf pi x c, z = 0 := by
    unfold spectral_work
    exact windowed_signal_const cosf pi _ r c (fun v hv => h v (List.mem_of_mem_take hv))
  have hpow : ∀ k, bin_power cos sin pi (spectral_work cosf pi x c) (spectral_n x.length) k
      = 0 := by
    intro k
    unfold bin_power
    exact goertzel_mag2_zero _ _ _ hwork
  rw [spectral_features_capped_eq, bin_fold_zero cos sin pi _ _ _ hpow]
  simp [spectral_finish, spectral_zero]

/-- C15: for `n ≥ 1` and accelerometer windows that are constant on their first
`n` entries, `compute_features` reports `amag.std = 0`, `amag.dom_freq = 0` and
both band powers 0, at any sample rate and with any gyro windows (`sqrtf` being
any function with `sqrtf 0 = 0`, as the real square root is). -/
theorem constant_window_features (sqrtf cosf cos sin : α → α) (pi : α)
    (hsqrt : sqrtf 0 = 0) (ax ay az gx gy gz : List α) (a b d : α) (n : Nat) (hn : 1 ≤ n)
    (fs : α) (c : hann_cache α)
    (hax : ∀ i, i < n → ax.getD i 0 = a) (hay : ∀ i, i < n → ay.getD i 0 = b)
    (haz : ∀ i, i < n → az.getD i 0 = d) :
    (compute_features sqrtf cosf cos sin pi ax ay az gx gy gz n fs c).1.amag.std = 0 ∧
    (compute_features sqrtf cosf cos sin pi ax ay az gx gy gz n fs c).1.amag.dom_freq = 0 ∧
    (compute_features sqrtf cosf cos sin pi ax ay az gx gy gz n fs c).1.amag.bp1 = 0 ∧
    (compute_features sqrtf cosf cos sin pi ax ay az gx gy gz n fs c).1.amag.bp2 = 0 := by
  have hm : (if n > 2048 then 2048 else n) ≤ n ∧ 1 ≤ (if n > 2048 then 2048 else n) := by
    split_ifs <;> omega
  generalize hamag : ((List.range (if n > 2048 then 2048 else n)).map fun i =>
    sqrtf (ax.getD i 0 * ax.getD i 0 + ay.getD i 0 * ay.getD i 0 +
      az.getD i 0 * az.getD i 0)) = amag
  have hall : ∀ v ∈ amag, v = sqrtf (a * a + b * b + d * d) := by
    intro v hv
    rw [← hamag, List.mem_map] at hv
    obtain ⟨i, hi, rfl⟩ := hv
    have hin : i < n := lt_of_lt_of_le (List.mem_range.mp hi) hm.1
    rw [hax i hin, hay i hin, haz i hin]
  have hne : amag ≠ [] := by
    intro h0
    have : amag.length = (if n > 2048 then 2048 else n) := by
      rw [← hamag, List.length_map, List.length_range]
    rw [h0] at this
    simp only [List.length_nil] at this
    omega
  have hstd := stats_basic_std_const sqrtf hsqrt amag _ hne hall
  have hsp := spectral_const_zero cosf cos sin pi amag _ fs c hall
  have hcf : (compute_features sqrtf cosf cos sin pi ax ay az gx gy gz n fs c).1.amag =
      { mean := (stats_basic sqrtf amag).mean, std := (stats_basic sqrtf amag).std,
        rms := (stats_basic sqrtf amag).rms, energy := (stats_basic sqrtf amag).energy,
        dom_freq := (spectral_features_capped cosf cos sin pi amag fs c).1.dom_freq,
        bp1 := (spectral_features_capped cosf cos sin pi amag fs c).1.bp1,
        bp2 := (spectral_features_capped cosf cos sin pi amag fs c).1.bp2 } := by
    rw [← hamag]; rfl
  rw [hcf, hsp]
  exact ⟨hstd, rfl, rfl, rfl⟩

/-- Witness for C15: three samples of the constant acceleration `(1, 2, 2)` on
the reals, with the real square root, cosine and sine. -/
theorem constant_window_features_witness :
    (compute_features Real.sqrt Real.cos Real.cos Real.sin Real.pi [1, 1, 1] [2, 2, 2]
      [2, 2, 2] [0, 1, 0] [0, 0, 0] [5, 0, 0] 3 100 hann_cache_initial).1.amag.dom_freq = 0 :=
  (constant_window_features Real.sqrt Real.cos Real.cos Real.sin Real.pi Real.sqrt_zero
    [1, 1, 1] [2, 2, 2] [2, 2, 2] [0, 1, 0] [0, 0, 0] [5, 0, 0] 1 2 2 3 (by decide) 100
    hann_cache_initial
    (by intro i hi; interval_cases i <;> rfl)
    (by intro i hi; interval_cases i <;> rfl)
    (by intro i hi; interval_cases i <;> rfl)).2.1

end ConstantFeatureTheorems

section UnitCircleTheorems

theorem exp_turn_mul (q1 q2 : ℝ) :
    Complex.exp (2 * Real.pi * q1 * Complex.I) * Complex.exp (2 * Real.pi * q2 * Complex.I) =
      Complex.exp (2 * Real.pi * ((q1 + q2 : ℝ) : ℂ) * Complex.I) := by
  rw [← Complex.exp_add]
  congr 1
  push_cast
  ring

theorem exp_turn_pow (q : ℝ) (j : Nat) :
    Complex.exp (2 * Real.pi * q * Complex.I) ^ j = Complex.exp (2 * Real.pi * ((q * j : ℝ) : ℂ) * Complex.I) := by
  rw [← Complex.exp_nat_mul]
  congr 1
  push_cast
  ring

theorem exp_turn_int (m : Int) : Complex.exp (2 * Real.pi * ((m : ℝ) : ℂ) * Complex.I) = 1 := by
  have := Complex.exp_int_mul_two_pi_mul_I m
  rw [← this]
  congr 1
  push_cast
  ring

theorem norm_exp_turn (q : ℝ) : ‖Complex.exp (2 * Real.pi * q * Complex.I)‖ = 1 := by
  have : (2 * Real.pi * q * Complex.I : ℂ) = ((2 * Real.pi * q : ℝ) : ℂ) * Complex.I := by push_cast; ring
  rw [this, Complex.norm_eq_abs, Complex.abs_exp_ofReal_mul_I]

/-- A point of the unit circle at `q` turns, `|q| ≤ 1/2`, is at distance at least
`4|q|` from 1 (Jordan's inequality). -/
theorem four_mul_abs_le_norm_exp_turn_sub_one (q : ℝ) (hq : |q| ≤ 1 / 2) :
    4 * |q| ≤ ‖Complex.exp (2 * Real.pi * q * Complex.I) - 1‖ := by
  have hpi : 0 < Real.pi := Real.pi_pos
  have harg : (2 * Real.pi * q * Complex.I : ℂ) = ((2 * Real.pi * q : ℝ) : ℂ) * Complex.I := by
    push_cast; ring
  have hsq : ‖Complex.exp (2 * Real.pi * q * Complex.I) - 1‖ ^ 2 = 4 * Real.sin (Real.pi * q) ^ 2 := by
    rw [harg, Complex.norm_eq_abs, Complex.sq_abs, Complex.normSq_apply]
    simp only [Complex.sub_re, Complex.sub_im, Complex.one_re, Complex.one_im,
      Complex.exp_ofReal_mul_I_re, Complex.exp_ofReal_mul_I_im, sub_zero]
    have hc : Real.cos (2 * Real.pi * q) = 1 - 2 * Real.sin (Real.pi * q) ^ 2 := by
      have : 2 * Real.pi * q = 2 * (Real.pi * q) := by ring
      rw [this, Real.cos_two_mul, Real.cos_sq']
      ring
    have hs := Real.sin_sq_add_cos_sq (2 * Real.pi * q)
    rw [hc] at hs ⊢
    nlinarith [hs]
  have hsin : 2 * |q| ≤ |Real.sin (Real.pi * q)| := by
    have h1 : 2 / Real.pi * (Real.pi * |q|) ≤ Real.sin (Real.pi * |q|) :=
      Real.mul_le_sin (by positivity) (by nlinarith [abs_nonneg q])
    have h2 : 2 / Real.pi * (Real.pi * |q|) = 2 * |q| := by field_simp; ring
    rw [h2] at h1
    rcases abs_cases q with ⟨e, _⟩ | ⟨e, _⟩
    · rw [e] at h1 ⊢
      exact le_trans h1 (le_abs_self _)
    · rw [e] at h1 ⊢
      have : Real.sin (Real.pi * -q) = -Real.sin (Real.pi * q) := by
        rw [mul_neg, Real.sin_neg]
      rw [this] at h1
      exact le_trans h1 (neg_le_abs _)
  have hn : 0 ≤ ‖Complex.exp (2 * Real.pi * q * Complex.I) - 1‖ := norm_nonneg _
  have h16 : (4 * |q|) ^ 2 ≤ ‖Complex.exp (2 * Real.pi * q * Complex.I) - 1‖ ^ 2 := by
    rw [hsq]
    have h3 : (2 * |q|) ^ 2 ≤ |Real.sin (Real.pi * q)| ^ 2 :=
      pow_le_pow_left₀ (by positivity) hsin 2
    have h4 : |Real.sin (Real.pi * q)| ^ 2 = Real.sin (Real.pi * q) ^ 2 := sq_abs _
    rw [h4] at h3
    nlinarith [h3]
  by_contra hlt
  push_neg at hlt
  nlinarith [abs_nonneg q]

end UnitCircleTheorems

section GeometricSumTheorems

theorem exp_turn_ne_one (q : ℝ) (hq0 : q ≠ 0) (hq : |q| ≤ 1 / 2) :
    Complex.exp (2 * Real.pi * q * Complex.I) - 1 ≠ 0 := by
  intro h
  have h1 := four_mul_abs_le_norm_exp_turn_sub_one q hq
  rw [h, norm_zero] at h1
  have : 0 < |q| := abs_pos.mpr hq0
  linarith

/-- The geometric sum over a whole number of turns vanishes. -/
theorem geom_turn_zero (q : ℝ) (hq0 : q ≠ 0) (hq : |q| ≤ 1 / 2) (N : Nat) (m : Int)
    (hm : q * (N : ℝ) = (m : ℝ)) :
    ∑ j in Finset.range N, Complex.exp (2 * Real.pi * q * Complex.I) ^ j = 0 := by
  have hg := geom_sum_mul (Complex.exp (2 * Real.pi * q * Complex.I)) N
  rw [exp_turn_pow, hm, exp_turn_int, sub_self] at hg
  rcases mul_eq_zero.mp hg with h | h
  · exact h
  · exact absurd h (exp_turn_ne_one q hq0 hq)

/-- The geometric sum over a whole number of turns plus one term is 1. -/
theorem geom_turn_one (q : ℝ) (hq0 : q ≠ 0) (hq : |q| ≤ 1 / 2) (N : Nat) (m : Int)
    (hm : q * (N : ℝ) = (m : ℝ)) :
    ∑ j in Finset.range (N + 1), Complex.exp (2 * Real.pi * q * Complex.I) ^ j = 1 := by
  rw [Finset.sum_range_succ, geom_turn_zero q hq0 hq N m hm, exp_turn_pow, hm, exp_turn_int,
    zero_add]

/-- The geometric sum at `q` turns per step, `q0 ≤ |q| ≤ 1/2`, is bounded by
`1 / (2 q0)` whatever the number of terms. -/
theorem geom_turn_norm_le (q q0 : ℝ) (h0 : 0 < q0) (h1 : q0 ≤ |q|) (h2 : |q| ≤ 1 / 2)
    (N : Nat) :
    ‖∑ j in Finset.range N, Complex.exp (2 * Real.pi * q * Complex.I) ^ j‖ ≤ 1 / (2 * q0) := by
  have hg := geom_sum_mul (Complex.exp (2 * Real.pi * q * Complex.I)) N
  have hd := four_mul_abs_le_norm_exp_turn_sub_one q h2
  have hnum : ‖Complex.exp (2 * Real.pi * q * Complex.I) ^ N - 1‖ ≤ 2 := by
    have := norm_sub_le (Complex.exp (2 * Real.pi * q * Complex.I) ^ N) 1
    rw [norm_pow, norm_exp_turn, one_pow, norm_one] at this
    linarith
  have hprod := congrArg norm hg
  rw [norm_mul] at hprod
  have hS : 0 ≤ ‖∑ j in Finset.range N, Complex.exp (2 * Real.pi * q * Complex.I) ^ j‖ :=
    norm_nonneg _
  rw [le_div_iff₀ (by positivity)]
  nlinarith [hprod, hnum, hd, h1, hS]

theorem geom_norm_le_card (z : ℂ) (hz : ‖z‖ = 1) (N : Nat) :
    ‖∑ j in Finset.range N, z ^ j‖ ≤ (N : ℝ) := by
  have h := norm_sum_le (Finset.range N) (fun j => z ^ j)
  have h2 : ∑ j in Finset.range N, ‖z ^ j‖ = (N : ℝ) := by
    simp [norm_pow, hz]
  linarith

end GeometricSumTheorems

section WindowedSineTheorems

theorem ofReal_sin_eq_exp (t : ℝ) :
    ((Real.sin t : ℝ) : ℂ) =
      (Complex.exp (-(t : ℂ) * Complex.I) - Complex.exp ((t : ℂ) * Complex.I)) *
        Complex.I / 2 := by
  rw [Complex.ofReal_sin]
  rfl

theorem ofReal_cos_eq_exp (t : ℝ) :
    ((Real.cos t : ℝ) : ℂ) =
      (Complex.exp ((t : ℂ) * Complex.I) + Complex.exp (-(t : ℂ) * Complex.I)) / 2 := by
  rw [Complex.ofReal_cos]
  rfl

/-- The transform of a Hann-windowed sine as a combination of six geometric sums:
`s p^j` is the phasor of the sine, `g^j` that of the window, `u^j` that of the
analysed bin, and `sb`, `pb`, `gb` stand for the conjugates. -/
theorem windowed_sine_sum (s sb p pb g gb u : ℂ) (a h : Nat → ℂ)
    (ha : ∀ j, a j = (sb * pb ^ j - s * p ^ j) * Complex.I / 2)
    (hh : ∀ j, h j = 1 / 2 * (1 - (g ^ j + gb ^ j) / 2)) (N : Nat) :
    ∑ j in Finset.range N, 1 / 4 * a j * h j * u ^ j =
      Complex.I / 32 *
        (sb * (2 * ∑ j in Finset.range N, (pb * u) ^ j - ∑ j in Finset.range N, (pb * g * u) ^ j -
            ∑ j in Finset.range N, (pb * gb * u) ^ j) -
          s * (2 * ∑ j in Finset.range N, (p * u) ^ j - ∑ j in Finset.range N, (p * g * u) ^ j -
            ∑ j in Finset.range N, (p * gb * u) ^ j)) := by
  induction N with
  | zero => simp
  | succ N ih =>
    simp only [Finset.sum_range_succ]
    rw [ih, ha N, hh N]
    simp only [mul_pow]
    ring

theorem mk_cos_neg_sin_eq_exp_turn (k N : Nat) :
    (⟨Real.cos (2 * Real.pi * (k : ℝ) / (N : ℝ)),
      -Real.sin (2 * Real.pi * (k : ℝ) / (N : ℝ))⟩ : ℂ) =
      Complex.exp (2 * Real.pi * ((-((k : ℝ) / (N : ℝ)) : ℝ) : ℂ) * Complex.I) := by
  have h := exp_bin_eq_pow N k 1
  rw [pow_one] at h
  rw [← h]
  congr 1
  push_cast
  ring

end WindowedSineTheorems

section SinusoidSpectrumTheorems

/-- The power of bin `k` for a Hann-windowed sine of 5 cycles in 100 samples, as
the squared magnitude of a combination of six geometric sums `E q` (at `q`
turns per sample). -/
theorem sinusoid_bin_power (E : ℝ → ℂ)
    (hE : ∀ q : ℝ, E q =
      ∑ j in Finset.range 100, Complex.exp (2 * Real.pi * (q : ℂ) * Complex.I) ^ j)
    (ψ : ℝ) (k : Nat) (work : List ℝ) (hlen : work.length = 100)
    (hw : ∀ j, j < 100 → work.getD j 0 =
      1 / 4 * Real.sin (2 * Real.pi * (1 / 20) * (j : ℝ) + ψ) *
        hann_coeff Real.cos Real.pi 100 j) :
    bin_power Real.cos Real.sin Real.pi work 100 k =
      1 / 1024 * Complex.normSq
        (Complex.exp (-(ψ : ℂ) * Complex.I) *
            (2 * E (-(1 / 20) + -((k : ℝ) / 100)) - E (-(1 / 20) + 1 / 99 + -((k : ℝ) / 100)) -
              E (-(1 / 20) + -(1 / 99) + -((k : ℝ) / 100))) -
          Complex.exp ((ψ : ℂ) * Complex.I) *
            (2 * E (1 / 20 + -((k : ℝ) / 100)) - E (1 / 20 + 1 / 99 + -((k : ℝ) / 100)) -
              E (1 / 20 + -(1 / 99) + -((k : ℝ) / 100)))) := by
  have hu := mk_cos_neg_sin_eq_exp_turn k 100
  have hcast : ((100 : Nat) : ℝ) = 100 := by norm_num
  rw [hcast] at hu
  have hpow : bin_power Real.cos Real.sin Real.pi work 100 k =
      Complex.normSq (∑ j in Finset.range work.length, ((work.getD j 0 : ℝ) : ℂ) *
        (⟨Real.cos (2 * Real.pi * (k : ℝ) / ((100 : Nat) : ℝ)),
          -Real.sin (2 * Real.pi * (k : ℝ) / ((100 : Nat) : ℝ))⟩ : ℂ) ^ j) := by
    unfold bin_power
    exact goertzel_mag2_eq_normSq _ _ (by rw [add_comm]; exact Real.sin_sq_add_cos_sq _) work
  rw [hpow, hlen, hcast, hu]
  have hterm : ∀ j ∈ Finset.range 100,
      ((work.getD j 0 : ℝ) : ℂ) *
        Complex.exp (2 * Real.pi * ((-((k : ℝ) / 100) : ℝ) : ℂ) * Complex.I) ^ j =
      1 / 4 * ((Real.sin (2 * Real.pi * (1 / 20) * (j : ℝ) + ψ) : ℝ) : ℂ) *
        ((hann_coeff Real.cos Real.pi 100 j : ℝ) : ℂ) *
        Complex.exp (2 * Real.pi * ((-((k : ℝ) / 100) : ℝ) : ℂ) * Complex.I) ^ j := by
    intro j hj
    rw [hw j (Finset.mem_range.mp hj)]
    push_cast
    ring
  rw [Finset.sum_congr rfl hterm]
  have ha : ∀ j : Nat, ((Real.sin (2 * Real.pi * (1 / 20) * (j : ℝ) + ψ) : ℝ) : ℂ) =
      (Complex.exp (-(ψ : ℂ) * Complex.I) *
          Complex.exp (2 * Real.pi * ((-(1 / 20) : ℝ) : ℂ) * Complex.I) ^ j -
        Complex.exp ((ψ : ℂ) * Complex.I) *
          Complex.exp (2 * Real.pi * ((1 / 20 : ℝ) : ℂ) * Complex.I) ^ j) * Complex.I / 2 := by
    intro j
    rw [ofReal_sin_eq_exp, exp_turn_pow, exp_turn_pow, ← Complex.exp_add, ← Complex.exp_add]
    congr 4 <;> (push_cast; ring)
  have hh : ∀ j : Nat, ((hann_coeff Real.cos Real.pi 100 j : ℝ) : ℂ) =
      1 / 2 * (1 - (Complex.exp (2 * Real.pi * ((1 / 99 : ℝ) : ℂ) * Complex.I) ^ j +
        Complex.exp (2 * Real.pi * ((-(1 / 99) : ℝ) : ℂ) * Complex.I) ^ j) / 2) := by
    intro j
    unfold hann_coeff
    rw [exp_turn_pow, exp_turn_pow]
    have e1 : Complex.exp (2 * Real.pi * ((1 / 99 * (j : ℝ) : ℝ) : ℂ) * Complex.I) =
        Complex.exp (((2 * Real.pi * (j : ℝ) / ((100 - 1 : Nat) : ℝ) : ℝ) : ℂ) * Complex.I) := by
      congr 1; push_cast; norm_num; ring
    have e2 : Complex.exp (2 * Real.pi * ((-(1 / 99) * (j : ℝ) : ℝ) : ℂ) * Complex.I) =
        Complex.exp (-((2 * Real.pi * (j : ℝ) / ((100 - 1 : Nat) : ℝ) : ℝ) : ℂ) * Complex.I) := by
      congr 1; push_cast; norm_num; ring
    rw [e1, e2, ← ofReal_cos_eq_exp]
    push_cast
    norm_num
  rw [windowed_sine_sum _ _ _ _ _ _ _ _ _ ha hh 100, Complex.normSq_mul]
  have hc : Complex.normSq (Complex.I / 32) = 1 / 1024 := by
    rw [map_div₀, Complex.normSq_I]
    norm_num [Complex.normSq_apply]
  rw [hc]
  simp only [exp_turn_mul, hE]

end SinusoidSpectrumTheorems

section SinusoidBoundTheorems

theorem norm_exp_ofReal_mul_I (t : ℝ) : ‖Complex.exp ((t : ℂ) * Complex.I)‖ = 1 := by
  rw [Complex.norm_eq_abs, Complex.abs_exp_ofReal_mul_I]

theorem norm_exp_neg_ofReal_mul_I (t : ℝ) : ‖Complex.exp (-(t : ℂ) * Complex.I)‖ = 1 := by
  have : (-(t : ℂ) * Complex.I) = (((-t : ℝ) : ℂ)) * Complex.I := by push_cast; ring
  rw [this, norm_exp_ofReal_mul_I]

/-- Lower bound on the combination of geometric sums at the bin of the sine
(bin 5): the window sum 198 less the image terms. -/
theorem sinusoid_peak_lower (E : ℝ → ℂ)
    (hE : ∀ q : ℝ, E q =
      ∑ j in Finset.range 100, Complex.exp (2 * Real.pi * (q : ℂ) * Complex.I) ^ j)
    (ψ : ℝ) :
    198 - 990 / 89 ≤
      ‖Complex.exp (-(ψ : ℂ) * Complex.I) *
            (2 * E (-(1 / 20) + -(((5 : Nat) : ℝ) / 100)) -
              E (-(1 / 20) + 1 / 99 + -(((5 : Nat) : ℝ) / 100)) -
              E (-(1 / 20) + -(1 / 99) + -(((5 : Nat) : ℝ) / 100))) -
          Complex.exp ((ψ : ℂ) * Complex.I) *
            (2 * E (1 / 20 + -(((5 : Nat) : ℝ) / 100)) -
              E (1 / 20 + 1 / 99 + -(((5 : Nat) : ℝ) / 100)) -
              E (1 / 20 + -(1 / 99) + -(((5 : Nat) : ℝ) / 100)))‖ := by
  have h0 : E (1 / 20 + -(((5 : Nat) : ℝ) / 100)) = 100 := by
    have : (1 / 20 + -(((5 : Nat) : ℝ) / 100) : ℝ) = 0 := by norm_num
    rw [this, hE]
    simp
  have h1 : E (1 / 20 + 1 / 99 + -(((5 : Nat) : ℝ) / 100)) = 1 := by
    have : (1 / 20 + 1 / 99 + -(((5 : Nat) : ℝ) / 100) : ℝ) = 1 / 99 := by norm_num
    rw [this, hE]
    exact geom_turn_one (1 / 99) (by norm_num) (by rw [abs_of_pos] <;> norm_num) 99 1
      (by norm_num)
  have h2 : E (1 / 20 + -(1 / 99) + -(((5 : Nat) : ℝ) / 100)) = 1 := by
    have : (1 / 20 + -(1 / 99) + -(((5 : Nat) : ℝ) / 100) : ℝ) = -(1 / 99) := by norm_num
    rw [this, hE]
    exact geom_turn_one (-(1 / 99)) (by norm_num) (by rw [abs_neg, abs_of_pos] <;> norm_num)
      99 (-1) (by norm_num)
  have h3 : E (-(1 / 20) + -(((5 : Nat) : ℝ) / 100)) = 0 := by
    rw [hE]
    exact geom_turn_zero _ (by norm_num) (by rw [abs_le]; constructor <;> norm_num) 100 (-10)
      (by norm_num)
  have h4 : ‖E (-(1 / 20) + 1 / 99 + -(((5 : Nat) : ℝ) / 100))‖ ≤ 495 / 89 := by
    rw [hE]
    have := geom_turn_norm_le (-(1 / 20) + 1 / 99 + -(((5 : Nat) : ℝ) / 100)) (89 / 990)
      (by norm_num) (by rw [le_abs]; right; norm_num) (by rw [abs_le]; constructor <;> norm_num)
      100
    have e : (1 : ℝ) / (2 * (89 / 990)) = 495 / 89 := by norm_num
    rw [e] at this
    exact this
  have h5 : ‖E (-(1 / 20) + -(1 / 99) + -(((5 : Nat) : ℝ) / 100))‖ ≤ 495 / 89 := by
    rw [hE]
    have := geom_turn_norm_le (-(1 / 20) + -(1 / 99) + -(((5 : Nat) : ℝ) / 100)) (89 / 990)
      (by norm_num) (by rw [le_abs]; right; norm_num) (by rw [abs_le]; constructor <;> norm_num)
      100
    have e : (1 : ℝ) / (2 * (89 / 990)) = 495 / 89 := by norm_num
    rw [e] at this
    exact this
  rw [h0, h1, h2, h3]
  have hmain : ‖Complex.exp ((ψ : ℂ) * Complex.I) * (2 * 100 - 1 - 1)‖ = 198 := by
    rw [norm_mul, norm_exp_ofReal_mul_I]
    norm_num
  have himg : ‖Complex.exp (-(ψ : ℂ) * Complex.I) *
      (2 * 0 - E (-(1 / 20) + 1 / 99 + -(((5 : Nat) : ℝ) / 100)) -
        E (-(1 / 20) + -(1 / 99) + -(((5 : Nat) : ℝ) / 100)))‖ ≤ 990 / 89 := by
    rw [norm_mul, norm_exp_neg_ofReal_mul_I, one_mul, mul_zero, zero_sub]
    have := norm_sub_le (-E (-(1 / 20) + 1 / 99 + -(((5 : Nat) : ℝ) / 100)))
      (E (-(1 / 20) + -(1 / 99) + -(((5 : Nat) : ℝ) / 100)))
    rw [norm_neg] at this
    linarith
  have htri := norm_sub_norm_le
    (Complex.exp ((ψ : ℂ) * Complex.I) * (2 * 100 - 1 - 1))
    (Complex.exp (-(ψ : ℂ) * Complex.I) *
      (2 * 0 - E (-(1 / 20) + 1 / 99 + -(((5 : Nat) : ℝ) / 100)) -
        E (-(1 / 20) + -(1 / 99) + -(((5 : Nat) : ℝ) / 100))))
  rw [norm_sub_rev] at htri
  rw [hmain] at htri
  exact le_trans (by linarith [himg]) htri

/-- Upper bound on the combination of geometric sums at any other evaluated bin
`k` of `1 .. 10`. -/
theorem sinusoid_side_upper (E : ℝ → ℂ)
    (hE : ∀ q : ℝ, E q =
      ∑ j in Finset.range 100, Complex.exp (2 * Real.pi * (q : ℂ) * Complex.I) ^ j)
    (ψ : ℝ) (k : Nat) (hk1 : 1 ≤ k) (hk2 : k ≤ 10) (hk5 : k ≠ 5) :
    ‖Complex.exp (-(ψ : ℂ) * Complex.I) *
          (2 * E (-(1 / 20) + -((k : ℝ) / 100)) - E (-(1 / 20) + 1 / 99 + -((k : ℝ) / 100)) -
            E (-(1 / 20) + -(1 / 99) + -((k : ℝ) / 100))) -
        Complex.exp ((ψ : ℂ) * Complex.I) *
          (2 * E (1 / 20 + -((k : ℝ) / 100)) - E (1 / 20 + 1 / 99 + -((k : ℝ) / 100)) -
            E (1 / 20 + -(1 / 99) + -((k : ℝ) / 100)))‖ ≤
      100 + 9900 / 398 + 2 * (9900 / 988) := by
  have hr1 : (1 : ℝ) ≤ (k : ℝ) := by exact_mod_cast hk1
  have hr2 : (k : ℝ) ≤ 10 := by exact_mod_cast hk2
  have hr5 : (k : ℝ) ≠ 5 := by exact_mod_cast hk5
  -- the two carriers vanish
  have ha0 : E (1 / 20 + -((k : ℝ) / 100)) = 0 := by
    rw [hE]
    refine geom_turn_zero _ ?_ (by rw [abs_le]; constructor <;> linarith) 100 (5 - (k : Int)) ?_
    · intro h; apply hr5; linarith
    · push_cast; ring
  have hb0 : E (-(1 / 20) + -((k : ℝ) / 100)) = 0 := by
    rw [hE]
    refine geom_turn_zero _ ?_ (by rw [abs_le]; constructor <;> linarith) 100
      (-5 - (k : Int)) ?_
    · intro h; linarith
    · push_cast; ring
  -- image terms
  have e988 : (1 : ℝ) / (2 * (494 / 9900)) = 9900 / 988 := by norm_num
  have hb1 : ‖E (-(1 / 20) + 1 / 99 + -((k : ℝ) / 100))‖ ≤ 9900 / 988 := by
    rw [hE, ← e988]
    exact geom_turn_norm_le _ (494 / 9900) (by norm_num) (by rw [le_abs]; right; linarith)
      (by rw [abs_le]; constructor <;> linarith) 100
  have hb2 : ‖E (-(1 / 20) + -(1 / 99) + -((k : ℝ) / 100))‖ ≤ 9900 / 988 := by
    rw [hE, ← e988]
    exact geom_turn_norm_le _ (494 / 9900) (by norm_num) (by rw [le_abs]; right; linarith)
      (by rw [abs_le]; constructor <;> linarith) 100
  -- side lobes of the window around the carrier
  have e398 : (1 : ℝ) / (2 * (199 / 9900)) = 9900 / 398 := by norm_num
  have htriv : ∀ q : ℝ, ‖E q‖ ≤ 100 := by
    intro q
    rw [hE]
    have := geom_norm_le_card (Complex.exp (2 * Real.pi * (q : ℂ) * Complex.I))
      (norm_exp_turn q) 100
    simpa using this
  have ha12 : ‖E (1 / 20 + 1 / 99 + -((k : ℝ) / 100))‖ +
      ‖E (1 / 20 + -(1 / 99) + -((k : ℝ) / 100))‖ ≤ 100 + 9900 / 398 := by
    rcases Nat.lt_or_ge k 5 with hlt | hge
    · have hr4 : (k : ℝ) ≤ 4 := by exact_mod_cast Nat.lt_succ_iff.mp hlt
      have h1 : ‖E (1 / 20 + 1 / 99 + -((k : ℝ) / 100))‖ ≤ 9900 / 398 := by
        rw [hE, ← e398]
        exact geom_turn_norm_le _ (199 / 9900) (by norm_num) (by rw [le_abs]; left; linarith)
          (by rw [abs_le]; constructor <;> linarith) 100
      have h2 := htriv (1 / 20 + -(1 / 99) + -((k : ℝ) / 100))
      linarith
    · have hgt : 6 ≤ k := by omega
      have hr6 : (6 : ℝ) ≤ (k : ℝ) := by exact_mod_cast hgt
      have h2 : ‖E (1 / 20 + -(1 / 99) + -((k : ℝ) / 100))‖ ≤ 9900 / 398 := by
        rw [hE, ← e398]
        exact geom_turn_norm_le _ (199 / 9900) (by norm_num) (by rw [le_abs]; right; linarith)
          (by rw [abs_le]; constructor <;> linarith) 100
      have h1 := htriv (1 / 20 + 1 / 99 + -((k : ℝ) / 100))
      linarith
  rw [ha0, hb0]
  have hA : ‖Complex.exp (-(ψ : ℂ) * Complex.I) *
      (2 * 0 - E (-(1 / 20) + 1 / 99 + -((k : ℝ) / 100)) -
        E (-(1 / 20) + -(1 / 99) + -((k : ℝ) / 100)))‖ ≤ 2 * (9900 / 988) := by
    rw [norm_mul, norm_exp_neg_ofReal_mul_I, one_mul, mul_zero, zero_sub]
    have := norm_sub_le (-E (-(1 / 20) + 1 / 99 + -((k : ℝ) / 100)))
      (E (-(1 / 20) + -(1 / 99) + -((k : ℝ) / 100)))
    rw [norm_neg] at this
    linarith
  have hB : ‖Complex.exp ((ψ : ℂ) * Complex.I) *
      (2 * 0 - E (1 / 20 + 1 / 99 + -((k : ℝ) / 100)) -
        E (1 / 20 + -(1 / 99) + -((k : ℝ) / 100)))‖ ≤ 100 + 9900 / 398 := by
    rw [norm_mul, norm_exp_ofReal_mul_I, one_mul, mul_zero, zero_sub]
    have := norm_sub_le (-E (1 / 20 + 1 / 99 + -((k : ℝ) / 100)))
      (E (1 / 20 + -(1 / 99) + -((k : ℝ) / 100)))
    rw [norm_neg] at this
    linarith
  have htri := norm_sub_le
    (Complex.exp (-(ψ : ℂ) * Complex.I) *
      (2 * 0 - E (-(1 / 20) + 1 / 99 + -((k : ℝ) / 100)) -
        E (-(1 / 20) + -(1 / 99) + -((k : ℝ) / 100))))
    (Complex.exp ((ψ : ℂ) * Complex.I) *
      (2 * 0 - E (1 / 20 + 1 / 99 + -((k : ℝ) / 100)) -
        E (1 / 20 + -(1 / 99) + -((k : ℝ) / 100))))
  linarith

end SinusoidBoundTheorems

section WindowedSignalTheorems

variable {α : Type} [LinearOrderedField α]

theorem list_sum_map_range {β : Type} [AddCommMonoid β] (f : Nat → β) (n : Nat) :
    ((List.range n).map f).sum = ∑ j in Finset.range n, f j := by
  induction n with
  | zero => simp
  | succ n ih => rw [List.sum_range_succ, Finset.sum_range_succ, ih]

/-- The windowed signal of lines 65-71, for valid statics of `hann_window`: the
samples less their mean, each times its Hann coefficient. -/
theorem windowed_signal_eq (cosf : α → α) (pi : α) (x : List α) (c : hann_cache α)
    (hc : HannCacheValid cosf pi c) (hn : 2 ≤ x.length) (hn2 : x.length ≤ MAX_SAMPLES) :
    (windowed_signal cosf pi x c).1 =
      List.zipWith (fun wi hi => wi * hi) (x.map fun xi => xi - x.sum / (x.length : α))
        ((List.range x.length).map (hann_coeff cosf pi x.length)) := by
  have htake := hann_window_take cosf pi x.length (List.replicate MAX_SAMPLES 0) c hc hn hn2
  unfold windowed_signal
  simp only
  rw [htake, foldl_add_eq_sum, zero_add]

/-- Entry `j` of the windowed signal, for valid statics of `hann_window`. -/
theorem windowed_signal_getD (cosf : α → α) (pi : α) (x : List α) (c : hann_cache α)
    (hc : HannCacheValid cosf pi c) (hn : 2 ≤ x.length) (hn2 : x.length ≤ MAX_SAMPLES) :
    (windowed_signal cosf pi x c).1.length = x.length ∧
    ∀ j, j < x.length → (windowed_signal cosf pi x c).1.getD j 0 =
      (x.getD j 0 - x.sum / (x.length : α)) * hann_coeff cosf pi x.length j := by
  rw [windowed_signal_eq cosf pi x c hc hn hn2]
  constructor
  · simp
  · intro j hj
    rw [List.getD_eq_getElem?_getD, List.getElem?_zipWith, List.getElem?_map,
      List.getElem?_map, List.getElem?_range hj, List.getElem?_eq_getElem hj,
      List.getD_eq_getElem?_getD, List.getElem?_eq_getElem hj]
    rfl

end WindowedSignalTheorems

section DominantBinTheorems

variable {α : Type} [LinearOrderedField α] [FloorRing α]

/-- When an evaluated bin `k0` has positive power, strictly larger than that of
every other evaluated bin, the reported dominant frequency is `df * k0`. -/
theorem dom_freq_of_dominant_bin (cosf cos sin : α → α) (pi : α) (x : List α) (fs : α)
    (c : hann_cache α) (K k0 : Nat) (hbins : evaluated_bins x.length fs = bins_upto K)
    (hk0 : 1 ≤ k0 ∧ k0 ≤ K)
    (hpos : 0 < bin_power cos sin pi (spectral_work cosf pi x c) (spectral_n x.length) k0)
    (hmax : ∀ k, 1 ≤ k → k ≤ K → k ≠ k0 →
      bin_power cos sin pi (spectral_work cosf pi x c) (spectral_n x.length) k <
        bin_power cos sin pi (spectral_work cosf pi x c) (spectral_n x.length) k0) :
    (spectral_features_capped cosf cos sin pi x fs c).1.dom_freq =
      spectral_df x.length fs * (k0 : α) := by
  obtain ⟨h0, hle, hcase⟩ := bin_loop_best cos sin pi (spectral_work cosf pi x c)
    (spectral_n x.length) (spectral_df x.length fs) K
  have hout : (spectral_features_capped cosf cos sin pi x fs c).1 = spectral_finish
      (bin_loop cos sin pi (spectral_work cosf pi x c) (spectral_n x.length)
        (spectral_df x.length fs) K) := by
    rw [spectral_features_capped_eq, hbins]; rfl
  have hbest := hle k0 hk0.1 hk0.2
  have hnz : ¬ ((bin_loop cos sin pi (spectral_work cosf pi x c) (spectral_n x.length)
      (spectral_df x.length fs) K).best_mag2 ≤ 0) := not_le.mpr (lt_of_lt_of_le hpos hbest)
  rw [hout]
  show (if (bin_loop cos sin pi (spectral_work cosf pi x c) (spectral_n x.length)
      (spectral_df x.length fs) K).best_mag2 ≤ 0 then 0
    else (bin_loop cos sin pi (spectral_work cosf pi x c) (spectral_n x.length)
      (spectral_df x.length fs) K).best_freq) = _
  rw [if_neg hnz]
  rcases hcase with ⟨hz, _⟩ | ⟨k, hk1, hk2, hk3, hk4, _, _⟩
  · exact absurd (le_of_eq hz) hnz
  · by_cases hkk : k = k0
    · rw [hk4, hkk]
    · have := hmax k hk1 hk2 hkk
      rw [hk3] at hbest
      exact absurd hbest (not_le.mpr this)

end DominantBinTheorems

section SinusoidWindowTheorems

/-- Over a whole number of turns the cosines and the sines of an arithmetic
progression of angles sum to zero. -/
theorem sum_cos_sin_turn_zero (q ψ : ℝ) (hq0 : q ≠ 0) (hq : |q| ≤ 1 / 2) (N : Nat) (m : Int)
    (hm : q * (N : ℝ) = (m : ℝ)) :
    ∑ j in Finset.range N, Real.cos (2 * Real.pi * q * (j : ℝ) + ψ) = 0 ∧
    ∑ j in Finset.range N, Real.sin (2 * Real.pi * q * (j : ℝ) + ψ) = 0 := by
  have hz : ∑ j in Finset.range N,
      Complex.exp (((2 * Real.pi * q * (j : ℝ) + ψ : ℝ) : ℂ) * Complex.I) = 0 := by
    have hterm : ∀ j ∈ Finset.range N,
        Complex.exp (((2 * Real.pi * q * (j : ℝ) + ψ : ℝ) : ℂ) * Complex.I) =
          Complex.exp ((ψ : ℂ) * Complex.I) *
            Complex.exp (2 * Real.pi * (q : ℂ) * Complex.I) ^ j := by
      intro j _
      rw [exp_turn_pow, ← Complex.exp_add]
      congr 1
      push_cast
      ring
    rw [Finset.sum_congr rfl hterm, ← Finset.mul_sum, geom_turn_zero q hq0 hq N m hm, mul_zero]
  constructor
  · have := congrArg Complex.re hz
    rw [Complex.re_sum] at this
    simp only [Complex.exp_ofReal_mul_I_re, Complex.zero_re] at this
    exact this
  · have := congrArg Complex.im hz
    rw [Complex.im_sum] at this
    simp only [Complex.exp_ofReal_mul_I_im, Complex.zero_im] at this
    exact this

/-- Sum and sum of squares of 100 samples (5 periods) of an offset sine of
amplitude 1/4. -/
theorem sinusoid_sums (c0 ψ : ℝ) :
    ∑ j in Finset.range 100, (c0 + 1 / 4 * Real.sin (2 * Real.pi * (1 / 20) * (j : ℝ) + ψ)) =
      100 * c0 ∧
    ∑ j in Finset.range 100,
      (c0 + 1 / 4 * Real.sin (2 * Real.pi * (1 / 20) * (j : ℝ) + ψ)) ^ 2 =
      100 * c0 ^ 2 + 100 / 32 := by
  have h1 := (sum_cos_sin_turn_zero (1 / 20) ψ (by norm_num)
    (by rw [abs_of_pos] <;> norm_num) 100 5 (by norm_num)).2
  have h2 := (sum_cos_sin_turn_zero (1 / 10) (2 * ψ) (by norm_num)
    (by rw [abs_of_pos] <;> norm_num) 100 10 (by norm_num)).1
  have hcos : ∀ j ∈ Finset.range 100,
      (c0 + 1 / 4 * Real.sin (2 * Real.pi * (1 / 20) * (j : ℝ) + ψ)) ^ 2 =
        (c0 ^ 2 + 1 / 32) + c0 / 2 * Real.sin (2 * Real.pi * (1 / 20) * (j : ℝ) + ψ) -
          1 / 32 * Real.cos (2 * Real.pi * (1 / 10) * (j : ℝ) + 2 * ψ) := by
    intro j _
    have hs := Real.sin_sq_eq_half_sub (2 * Real.pi * (1 / 20) * (j : ℝ) + ψ)
    have harg : 2 * (2 * Real.pi * (1 / 20) * (j : ℝ) + ψ) =
        2 * Real.pi * (1 / 10) * (j : ℝ) + 2 * ψ := by ring
    rw [harg] at hs
    have : (c0 + 1 / 4 * Real.sin (2 * Real.pi * (1 / 20) * (j : ℝ) + ψ)) ^ 2 =
        c0 ^ 2 + c0 / 2 * Real.sin (2 * Real.pi * (1 / 20) * (j : ℝ) + ψ) +
          1 / 16 * Real.sin (2 * Real.pi * (1 / 20) * (j : ℝ) + ψ) ^ 2 := by ring
    rw [this, hs]
    ring
  constructor
  · rw [Finset.sum_add_distrib, ← Finset.mul_sum, h1]
    simp
  · rw [Finset.sum_congr rfl hcos, Finset.sum_sub_distrib, Finset.sum_add_distrib,
      ← Finset.mul_sum, ← Finset.mul_sum, h1, h2]
    simp
    ring

end SinusoidWindowTheorems

section SinusoidFeatureTheorems

/-- The statics of `hann_window` stay valid across a call of
`spectral_features_capped`. -/
theorem spectral_cache_valid {α : Type} [LinearOrderedField α] [FloorRing α]
    (cosf cos sin : α → α) (pi : α) (x : List α) (fs : α) (c : hann_cache α)
    (hc : HannCacheValid cosf pi c) :
    HannCacheValid cosf pi (spectral_features_capped cosf cos sin pi x fs c).2 := by
  have hws : ∀ y : List α, HannCacheValid cosf pi (windowed_signal cosf pi y c).2 := fun y =>
    (hannCacheValid_step cosf pi y.length (List.replicate MAX_SAMPLES 0) c hc).1
  unfold spectral_features_capped
  simp only
  split_ifs
  all_goals first
    | exact hc
    | exact hws _

/-- The statics of `hann_window` stay valid across a call of `compute_features`. -/
theorem compute_features_cache_valid {α : Type} [LinearOrderedField α] [FloorRing α]
    (sqrtf cosf cos sin : α → α) (pi : α) (ax ay az gx gy gz : List α) (n : Nat) (fs : α)
    (c : hann_cache α) (hc : HannCacheValid cosf pi c) :
    HannCacheValid cosf pi
      (compute_features sqrtf cosf cos sin pi ax ay az gx gy gz n fs c).2 :=
  spectral_cache_valid cosf cos sin pi _ fs c hc

/-- A 100-sample window at 100 Hz: bins 1 to 10 are evaluated. -/
theorem evaluated_bins_configured : evaluated_bins 100 (100 : ℝ) = bins_upto 10 := by
  have hdf : spectral_df 100 (100 : ℝ) = 1 := by
    rw [spectral_df_of_le 100 100 (by decide)]; norm_num
  have hn : spectral_n 100 = 100 := by decide
  have hfl : ⌊(10 : ℝ) / 1⌋ = 10 := by
    rw [div_one]; exact Int.floor_natCast 10
  unfold evaluated_bins
  simp only
  rw [hdf, hn, hfl]
  rw [if_neg (by norm_num), if_neg (by norm_num)]
  simp [MAX_CAPPED_BINS]

/-- Bin 5 of a Hann-windowed 5 Hz sine of amplitude 1/4 (100 samples at 100 Hz)
has positive power, above that of every other bin from 1 to 10. -/
theorem sinusoid_bin5_dominates (ψ : ℝ) (work : List ℝ) (hlen : work.length = 100)
    (hw : ∀ j, j < 100 → work.getD j 0 =
      1 / 4 * Real.sin (2 * Real.pi * (1 / 20) * (j : ℝ) + ψ) *
        hann_coeff Real.cos Real.pi 100 j) :
    0 < bin_power Real.cos Real.sin Real.pi work 100 5 ∧
    ∀ k, 1 ≤ k → k ≤ 10 → k ≠ 5 →
      bin_power Real.cos Real.sin Real.pi work 100 k <
        bin_power Real.cos Real.sin Real.pi work 100 5 := by
  have hE : ∀ q : ℝ, (fun q : ℝ => ∑ j in Finset.range 100,
      Complex.exp (2 * Real.pi * (q : ℂ) * Complex.I) ^ j) q =
      ∑ j in Finset.range 100, Complex.exp (2 * Real.pi * (q : ℂ) * Complex.I) ^ j :=
    fun q => rfl
  have hpeak := sinusoid_peak_lower _ hE ψ
  have h5 := sinusoid_bin_power _ hE ψ 5 work hlen hw
  have hlow : (0 : ℝ) < 198 - 990 / 89 := by norm_num
  constructor
  · rw [h5, Complex.normSq_eq_norm_sq]
    have := lt_of_lt_of_le hlow hpeak
    positivity
  · intro k hk1 hk2 hk5
    have hside := sinusoid_side_upper _ hE ψ k hk1 hk2 hk5
    rw [h5, sinusoid_bin_power _ hE ψ k work hlen hw, Complex.normSq_eq_norm_sq,
      Complex.normSq_eq_norm_sq]
    have hlt : (100 : ℝ) + 9900 / 398 + 2 * (9900 / 988) < 198 - 990 / 89 := by norm_num
    have hchain := lt_of_le_of_lt hside (lt_of_lt_of_le hlt hpeak)
    have hsq := pow_lt_pow_left₀ hchain (norm_nonneg _) two_ne_zero
    linarith

end SinusoidFeatureTheorems

section SinusoidComputeTheorems

/-- Features of one window of 100 samples at 100 Hz whose accelerometer
magnitude is an offset 5 Hz sine of amplitude 1/4, for valid statics of
`hann_window`: `amag.std = sqrt (1/32) > 0.05`, `dom_freq = 5`, label `SHAKE`. -/
theorem sinusoid_window_features (ax ay az gx gy gz : List ℝ) (c0 ψ : ℝ) (c : hann_cache ℝ)
    (hc : HannCacheValid Real.cos Real.pi c)
    (hmag : ∀ j, j < 100 →
      Real.sqrt (ax.getD j 0 * ax.getD j 0 + ay.getD j 0 * ay.getD j 0 +
        az.getD j 0 * az.getD j 0) =
        c0 + 1 / 4 * Real.sin (2 * Real.pi * (1 / 20) * (j : ℝ) + ψ)) :
    (compute_features Real.sqrt Real.cos Real.cos Real.sin Real.pi ax ay az gx gy gz 100 100
      c).1.amag.std > 0.05 ∧
    (compute_features Real.sqrt Real.cos Real.cos Real.sin Real.pi ax ay az gx gy gz 100 100
      c).1.amag.dom_freq = 5 ∧
    classify (compute_features Real.sqrt Real.cos Real.cos Real.sin Real.pi ax ay az gx gy gz
      100 100 c).1 = G_SHAKE := by
  have hamag : ((List.range 100).map fun i =>
      Real.sqrt (ax.getD i 0 * ax.getD i 0 + ay.getD i 0 * ay.getD i 0 +
        az.getD i 0 * az.getD i 0)) =
      (List.range 100).map fun j : Nat =>
        c0 + 1 / 4 * Real.sin (2 * Real.pi * (1 / 20) * (j : ℝ) + ψ) := by
    apply List.map_congr_left
    intro j hj
    exact hmag j (List.mem_range.mp hj)
  obtain ⟨hs1, hs2⟩ := sinusoid_sums c0 ψ
  -- the statistics of the magnitude
  have hlen : ((List.range 100).map fun j : Nat =>
      c0 + 1 / 4 * Real.sin (2 * Real.pi * (1 / 20) * (j : ℝ) + ψ)).length = 100 := by
    rw [List.length_map, List.length_range]
  have hsum : ((List.range 100).map fun j : Nat =>
      c0 + 1 / 4 * Real.sin (2 * Real.pi * (1 / 20) * (j : ℝ) + ψ)).sum = 100 * c0 := by
    rw [list_sum_map_range]; exact hs1
  have hsq : (((List.range 100).map fun j : Nat =>
      c0 + 1 / 4 * Real.sin (2 * Real.pi * (1 / 20) * (j : ℝ) + ψ)).map fun t => t ^ 2).sum =
      100 * c0 ^ 2 + 100 / 32 := by
    rw [List.map_map, list_sum_map_range]; exact hs2
  have hstd : (stats_basic Real.sqrt ((List.range 100).map fun j : Nat =>
      c0 + 1 / 4 * Real.sin (2 * Real.pi * (1 / 20) * (j : ℝ) + ψ))).std =
      Real.sqrt (1 / 32) := by
    unfold stats_basic
    simp only
    rw [stats_sums_eq, hlen, hsum, hsq]
    have hv : ((100 * c0 ^ 2 + 100 / 32) / ((100 : Nat) : ℝ) -
        100 * c0 / ((100 : Nat) : ℝ) * (100 * c0 / ((100 : Nat) : ℝ))) = 1 / 32 := by
      push_cast
      ring
    rw [hv, if_neg (by norm_num)]
  have hstd2 : (0.05 : ℝ) < Real.sqrt (1 / 32) := by
    rw [Real.lt_sqrt (by norm_num)]
    norm_num
  -- the spectrum of the magnitude
  have hn : spectral_n ((List.range 100).map fun j : Nat =>
      c0 + 1 / 4 * Real.sin (2 * Real.pi * (1 / 20) * (j : ℝ) + ψ)).length = 100 := by
    rw [hlen]; decide
  have hwork := windowed_signal_getD Real.cos Real.pi ((List.range 100).map fun j : Nat =>
      c0 + 1 / 4 * Real.sin (2 * Real.pi * (1 / 20) * (j : ℝ) + ψ)) c hc
      (by rw [hlen]; norm_num) (by rw [hlen]; decide)
  rw [hlen, hsum] at hwork
  have hw : spectral_work Real.cos Real.pi ((List.range 100).map fun j : Nat =>
      c0 + 1 / 4 * Real.sin (2 * Real.pi * (1 / 20) * (j : ℝ) + ψ)) c =
      (windowed_signal Real.cos Real.pi ((List.range 100).map fun j : Nat =>
      c0 + 1 / 4 * Real.sin (2 * Real.pi * (1 / 20) * (j : ℝ) + ψ)) c).1 := by
    unfold spectral_work
    rw [hn, List.take_of_length_le (by rw [hlen])]
  have hdom := sinusoid_bin5_dominates ψ _ hwork.1 (by
    intro j hj
    rw [hwork.2 j hj, List.getD_eq_getElem?_getD, List.getElem?_map, List.getElem?_range hj]
    simp only [Option.map_some', Option.getD_some]
    push_cast
    ring)
  have hdf := dom_freq_of_dominant_bin Real.cos Real.cos Real.sin Real.pi
    ((List.range 100).map fun j : Nat =>
      c0 + 1 / 4 * Real.sin (2 * Real.pi * (1 / 20) * (j : ℝ) + ψ)) (100 : ℝ) c 10 5
    (by rw [hlen]; exact evaluated_bins_configured) (by decide)
    (by rw [hw, hn]; exact hdom.1)
    (by rw [hw, hn]; exact hdom.2)
  rw [hlen, spectral_df_of_le 100 100 (by decide)] at hdf
  have hdf5 : (spectral_features_capped Real.cos Real.cos Real.sin Real.pi
      ((List.range 100).map fun j : Nat =>
        c0 + 1 / 4 * Real.sin (2 * Real.pi * (1 / 20) * (j : ℝ) + ψ)) (100 : ℝ) c).1.dom_freq =
      5 := by
    rw [hdf]; norm_num
  have e1 : (compute_features Real.sqrt Real.cos Real.cos Real.sin Real.pi ax ay az gx gy gz
      100 100 c).1.amag.std = Real.sqrt (1 / 32) := by
    unfold compute_features
    simp only
    rw [if_neg (by norm_num), hamag]
    exact hstd
  have e2 : (compute_features Real.sqrt Real.cos Real.cos Real.sin Real.pi ax ay az gx gy gz
      100 100 c).1.amag.dom_freq = 5 := by
    unfold compute_features
    simp only
    rw [if_neg (by norm_num), hamag]
    exact hdf5
  refine ⟨by rw [e1]; exact hstd2, e2, ?_⟩
  unfold classify
  simp only
  rw [if_pos ⟨by rw [e1]; exact hstd2, by rw [e2]; norm_num⟩]

end SinusoidComputeTheorems

section EndToEndTheorems

/-- The per-tick results of the extraction block: one entry per tick, `none`
where nothing was emitted, and the features and label of the window where one
was, computed with valid statics of `hann_window`. -/
theorem process_emissions_spec {α : Type} [LinearOrderedField α] [FloorRing α]
    (sqrtf cosf cos sin : α → α) (pi : α) (W : Nat) (fs : α)
    (trace : List (Option (window_set α))) :
    ∀ c : hann_cache α, HannCacheValid cosf pi c → ∀ i,
      (trace.getD i none = none →
        (process_emissions sqrtf cosf cos sin pi W fs c trace).getD i none = none) ∧
      (∀ w, trace.getD i none = some w → ∃ c2, HannCacheValid cosf pi c2 ∧
        (process_emissions sqrtf cosf cos sin pi W fs c trace).getD i none =
          some ((compute_features sqrtf cosf cos sin pi w.ax_win w.ay_win w.az_win w.gx_win
              w.gy_win w.gz_win W fs c2).1,
            classify (compute_features sqrtf cosf cos sin pi w.ax_win w.ay_win w.az_win
              w.gx_win w.gy_win w.gz_win W fs c2).1)) := by
  induction trace with
  | nil =>
    intro c _ i
    refine ⟨fun _ => by simp [process_emissions], fun w hw => by simp at hw⟩
  | cons e rest ih =>
    intro c hc i
    cases e with
    | none =>
      cases i with
      | zero =>
        refine ⟨fun _ => by simp [process_emissions], fun w hw => by simp at hw⟩
      | succ j =>
        have := ih c hc j
        simpa [process_emissions] using this
    | some w0 =>
      cases i with
      | zero =>
        refine ⟨fun h => by simp at h, fun w hw => ⟨c, hc, ?_⟩⟩
        have hw2 : w0 = w := by simpa using hw
        subst hw2
        simp [process_emissions]
      | succ j =>
        have := ih _ (compute_features_cache_valid sqrtf cosf cos sin pi w0.ax_win w0.ay_win
          w0.az_win w0.gx_win w0.gy_win w0.gz_win W fs c hc) j
        simpa [process_emissions] using this

/-- The window emitted at tick `i` (0-based) holds the last `W` accelerometer
samples: entry `j` is the sample number `i + 1 - W + j`. -/
theorem emission_window_getD {α : Type} [LinearOrderedField α] (W H : Nat) (hW : 0 < W)
    (xs : List (imu_sample α)) (i : Nat) (hi : i < xs.length) (w : window_set α)
    (hw : (run_ticks W H (initial_state W) xs).2.getD i none = some w) :
    W ≤ i + 1 ∧ ∀ j, j < W → ∀ d : imu_sample α,
      w.ax_win.getD j 0 = (xs.getD (i + 1 - W + j) d).ax ∧
      w.ay_win.getD j 0 = (xs.getD (i + 1 - W + j) d).ay ∧
      w.az_win.getD j 0 = (xs.getD (i + 1 - W + j) d).az := by
  rw [run_ticks_getD W H xs (initial_state W) i hi] at hw
  have hinv0 : LoopInv W (run_ticks W H (initial_state W) (xs.take i)).1 ([] ++ xs.take i) :=
    loopInv_run_ticks H hW (xs.take i) (initial_state W) [] (loopInv_initial W)
  have hinv := loopInv_tick H hW (xs.get ⟨i, hi⟩) hinv0
  have hhist : [] ++ xs.take i ++ [xs.get ⟨i, hi⟩] = xs.take (i + 1) := by
    rw [List.nil_append, List.take_succ, List.getElem?_eq_getElem hi]
    rfl
  rw [hhist] at hinv
  have hlen : (xs.take (i + 1)).length = i + 1 := by
    rw [List.length_take]; omega
  have hsome := (tick_snd_isSome W H (run_ticks W H (initial_state W) (xs.take i)).1
    (xs.get ⟨i, hi⟩)).mp (by rw [hw]; rfl)
  have hwin : w = extract_windows W
      (tick W H (run_ticks W H (initial_state W) (xs.take i)).1 (xs.get ⟨i, hi⟩)).1 := by
    unfold tick at hw ⊢
    simp only at hw ⊢
    rw [if_pos hsome] at hw ⊢
    exact (Option.some.inj hw).symm
  obtain ⟨hidx, hfill, h1, h2, h3, _, _, _⟩ := hinv
  have hle : W ≤ i + 1 := by
    rcases tick_fst W H (run_ticks W H (initial_state W) (xs.take i)).1 (xs.get ⟨i, hi⟩)
      with e | e
    · rw [e] at hfill; rw [hsome.1, hlen] at hfill; omega
    · rw [e] at hfill
      have : (ring_update W (run_ticks W H (initial_state W) (xs.take i)).1
          (xs.get ⟨i, hi⟩)).ring_filled = min (xs.take (i + 1)).length W := hfill
      rw [hsome.1, hlen] at this; omega
  refine ⟨hle, ?_⟩
  intro j hj d
  have hget : ∀ p : imu_sample α → α,
      (((xs.take (i + 1)).drop ((xs.take (i + 1)).length - W)).map p).getD j 0 =
        p (xs.getD (i + 1 - W + j) d) := by
    intro p
    have hlt : i + 1 - W + j < xs.length := by omega
    rw [hlen, List.getD_eq_getElem?_getD, List.getElem?_map, List.getElem?_drop,
      List.getElem?_take_of_lt (by omega), List.getD_eq_getElem?_getD,
      List.getElem?_eq_getElem hlt]
    rfl
  rw [hwin]
  refine ⟨?_, ?_, ?_⟩
  · show (copy_window _ W _).getD j 0 = _
    rw [copy_window_of_loopInv hW _ _ hidx h1 (by rw [hlen]; exact hle)]
    exact hget (·.ax)
  · show (copy_window _ W _).getD j 0 = _
    rw [copy_window_of_loopInv hW _ _ hidx h2 (by rw [hlen]; exact hle)]
    exact hget (·.ay)
  · show (copy_window _ W _).getD j 0 = _
    rw [copy_window_of_loopInv hW _ _ hidx h3 (by rw [hlen]; exact hle)]
    exact hget (·.az)

set_option maxRecDepth 100000 in
theorem fire_flags_configured_list :
    fire_flags 100 50 (0, 0) 260 =
      (List.range 260).map fun i => decide (i + 1 ∈ [100, 150, 200, 250]) := by
  decide

end EndToEndTheorems

section ShakeScenarioTheorems

/-- C18: with `WIN_SAMPLES = 100`, `HOP_SAMPLES = 50` and `SAMPLE_HZ = 100`, feed
the sampling loop 260 samples whose accelerometer magnitude is a 5 Hz sine of
amplitude 0.25 (any offset `c0`, any phase `φ`, any gyro readings, zero
included).  Then the extraction block yields a result at exactly the ticks 100,
150, 200 and 250 (numbered from 1), and each result is a feature vector with
`amag.std > 0.05` and `dom_freq = 5` that `classify` labels `SHAKE`. -/
theorem shake_sinusoid_end_to_end (s : Nat → imu_sample ℝ) (c0 φ : ℝ)
    (hmag : ∀ i, i < 260 →
      Real.sqrt ((s i).ax * (s i).ax + (s i).ay * (s i).ay + (s i).az * (s i).az) =
        c0 + 0.25 * Real.sin (2 * Real.pi * 5 * (i : ℝ) / 100 + φ)) :
    WIN_SAMPLES = 100 ∧ HOP_SAMPLES = 50 ∧ SAMPLE_HZ = 100 ∧
    ∀ i, i < 260 →
      (i + 1 ∈ [100, 150, 200, 250] → ∃ feat : feat_vec_t ℝ,
        (process_emissions Real.sqrt Real.cos Real.cos Real.sin Real.pi WIN_SAMPLES
          (SAMPLE_HZ : ℝ) hann_cache_initial
          (run_ticks WIN_SAMPLES HOP_SAMPLES (initial_state WIN_SAMPLES)
            ((List.range 260).map s)).2).getD i none = some (feat, G_SHAKE) ∧
        feat.amag.std > 0.05 ∧ feat.amag.dom_freq = 5) ∧
      (i + 1 ∉ [100, 150, 200, 250] →
        (process_emissions Real.sqrt Real.cos Real.cos Real.sin Real.pi WIN_SAMPLES
          (SAMPLE_HZ : ℝ) hann_cache_initial
          (run_ticks WIN_SAMPLES HOP_SAMPLES (initial_state WIN_SAMPLES)
            ((List.range 260).map s)).2).getD i none = none) := by
  have hW : WIN_SAMPLES = 100 := by decide
  have hH : HOP_SAMPLES = 50 := by decide
  have hS : SAMPLE_HZ = 100 := by decide
  have hSr : ((SAMPLE_HZ : Nat) : ℝ) = 100 := by rw [hS]; norm_num
  refine ⟨hW, hH, hS, ?_⟩
  rw [hW, hH, hSr]
  intro i hi
  have hlen : ((List.range 260).map s).length = 260 := by
    rw [List.length_map, List.length_range]
  have hflag : ((run_ticks 100 50 (initial_state 100) ((List.range 260).map s)).2.getD i
      none).isSome = decide (i + 1 ∈ [100, 150, 200, 250]) := by
    rw [trace_isSome_eq_flag, hlen]
    show (fire_flags 100 50 (0, 0) 260).getD i false = _
    rw [fire_flags_configured_list, List.getD_eq_getElem?_getD, List.getElem?_map,
      List.getElem?_range hi]
    rfl
  have hspec := process_emissions_spec Real.sqrt Real.cos Real.cos Real.sin Real.pi 100
    (100 : ℝ) (run_ticks 100 50 (initial_state 100) ((List.range 260).map s)).2
    hann_cache_initial (hannCacheValid_initial Real.cos Real.pi) i
  constructor
  · intro hmem
    rw [decide_eq_true hmem] at hflag
    obtain ⟨w, hw⟩ := Option.isSome_iff_exists.mp hflag
    obtain ⟨c2, hc2, hout⟩ := hspec.2 w hw
    obtain ⟨hle, hwin⟩ := emission_window_getD 100 50 (by norm_num) ((List.range 260).map s) i
      (by rw [hlen]; exact hi) w hw
    have hfeat := sinusoid_window_features w.ax_win w.ay_win w.az_win w.gx_win w.gy_win
      w.gz_win c0 (2 * Real.pi * 5 * ((i + 1 - 100 : Nat) : ℝ) / 100 + φ) c2 hc2 (by
        intro j hj
        obtain ⟨h1, h2, h3⟩ := hwin j hj (s 0)
        have hidx : i + 1 - 100 + j < 260 := by omega
        have hget : ((List.range 260).map s).getD (i + 1 - 100 + j) (s 0) =
            s (i + 1 - 100 + j) := by
          rw [List.getD_eq_getElem?_getD, List.getElem?_map, List.getElem?_range hidx]
          rfl
        rw [h1, h2, h3, hget, hmag _ hidx]
        have harg : 2 * Real.pi * 5 * ((i + 1 - 100 + j : Nat) : ℝ) / 100 + φ =
            2 * Real.pi * (1 / 20) * (j : ℝ) +
              (2 * Real.pi * 5 * ((i + 1 - 100 : Nat) : ℝ) / 100 + φ) := by
          rw [Nat.cast_add]
          ring
        rw [harg]
        norm_num)
    exact ⟨_, by rw [hout, hfeat.2.2], hfeat.1, hfeat.2.1⟩
  · intro hmem
    rw [decide_eq_false hmem] at hflag
    apply hspec.1
    cases h : (run_ticks 100 50 (initial_state 100) ((List.range 260).map s)).2.getD i none with
    | none => rfl
    | some w => rw [h] at hflag; exact absurd hflag (by simp)

/-- Witness for C18: `ax = ay = 0`, `az_i = 1 + 0.25·sin(2π·5·i/100)`, zero gyro;
the window emitted at tick 100. -/
theorem shake_sinusoid_end_to_end_witness :
    ∃ feat : feat_vec_t ℝ,
      (process_emissions Real.sqrt Real.cos Real.cos Real.sin Real.pi WIN_SAMPLES
        (SAMPLE_HZ : ℝ) hann_cache_initial
        (run_ticks WIN_SAMPLES HOP_SAMPLES (initial_state WIN_SAMPLES)
          ((List.range 260).map fun i : Nat =>
            (⟨0, 0, 1 + 0.25 * Real.sin (2 * Real.pi * 5 * (i : ℝ) / 100 + 0), 0, 0, 0⟩ :
              imu_sample ℝ))).2).getD 99 none = some (feat, G_SHAKE) ∧
      feat.amag.std > 0.05 ∧ feat.amag.dom_freq = 5 :=
  ((shake_sinusoid_end_to_end
    (fun i : Nat =>
      (⟨0, 0, 1 + 0.25 * Real.sin (2 * Real.pi * 5 * (i : ℝ) / 100 + 0), 0, 0, 0⟩ :
        imu_sample ℝ)) 1 0
    (fun i _ => by
      have hz : 0 ≤ 1 + 0.25 * Real.sin (2 * Real.pi * 5 * (i : ℝ) / 100 + 0) := by
        have := Real.neg_one_le_sin (2 * Real.pi * 5 * (i : ℝ) / 100 + 0)
        linarith
      show Real.sqrt (0 * 0 + 0 * 0 +
        (1 + 0.25 * Real.sin (2 * Real.pi * 5 * (i : ℝ) / 100 + 0)) *
          (1 + 0.25 * Real.sin (2 * Real.pi * 5 * (i : ℝ) / 100 + 0))) = _
      rw [mul_zero, zero_add, zero_add, Real.sqrt_mul_self hz])).2.2.2 99 (by norm_num)).1
    (by decide)

end ShakeScenarioTheorems

section DominantGridTheorems

variable {α : Type} [LinearOrderedField α] [FloorRing α]

/-- An all-zero windowed signal gives the all-zero spectral output. -/
theorem spectral_zero_of_work_zero (cosf cos sin : α → α) (pi : α) (x : List α) (fs : α)
    (c : hann_cache α) (hwork : ∀ z ∈ spectral_work cosf pi x c, z = 0) :
    (spectral_features_capped cosf cos sin pi x fs c).1 = spectral_zero := by
  have hpow : ∀ k, bin_power cos sin pi (spectral_work cosf pi x c) (spectral_n x.length) k
      = 0 := by
    intro k
    unfold bin_power
    exact goertzel_mag2_zero _ _ _ hwork
  rw [spectral_features_capped_eq, bin_fold_zero cos sin pi _ _ _ hpow]
  simp [spectral_finish, spectral_zero]

omit [FloorRing α] in
theorem spectral_n_eq_min (n0 : Nat) : spectral_n n0 = min n0 MAX_SAMPLES := by
  unfold spectral_n
  split_ifs <;> omega

/-- The evaluated bins of an input of `n0 ≥ 2` samples at rate `fs > 0`. -/
theorem mem_evaluated_bins (n0 : Nat) (fs : α) (hn : 2 ≤ n0) (hfs : 0 < fs) (k : Nat) :
    k ∈ evaluated_bins n0 fs ↔
      1 ≤ k ∧ (k : Int) ≤ min (min ⌊10 / spectral_df n0 fs⌋ ((spectral_n n0 / 2 : Nat) : Int))
        (MAX_CAPPED_BINS : Int) := by
  have hn2 : 2 ≤ spectral_n n0 := by
    rw [spectral_n_eq_min]
    have : (2 : Nat) ≤ MAX_SAMPLES := by decide
    omega
  have hnpos : (0 : α) < (spectral_n n0 : α) := by
    have : 0 < spectral_n n0 := by omega
    exact_mod_cast this
  have hdf : 0 < spectral_df n0 fs := div_pos hfs hnpos
  have h1 : ¬ (n0 ≤ 1 ∨ fs ≤ 0) := by
    rintro (h | h)
    · omega
    · exact absurd hfs (not_lt.mpr h)
  unfold evaluated_bins
  simp only
  rw [if_neg h1, if_neg (not_le.mpr hdf)]
  exact mem_capped_bins _ _ k

/-- The reported dominant frequency is 0 or the frequency `df * k` of an
evaluated bin `k`. -/
theorem dom_freq_on_grid (cosf cos sin : α → α) (pi : α) (x : List α) (fs : α)
    (c : hann_cache α) :
    (spectral_features_capped cosf cos sin pi x fs c).1.dom_freq = 0 ∨
    ∃ k, k ∈ evaluated_bins x.length fs ∧
      (spectral_features_capped cosf cos sin pi x fs c).1.dom_freq =
        spectral_df x.length fs * (k : α) := by
  obtain ⟨K, hK⟩ := evaluated_bins_eq_upto x.length fs
  obtain ⟨_, _, hcase⟩ := bin_loop_best cos sin pi (spectral_work cosf pi x c)
    (spectral_n x.length) (spectral_df x.length fs) K
  have hout : (spectral_features_capped cosf cos sin pi x fs c).1 = spectral_finish
      (bin_loop cos sin pi (spectral_work cosf pi x c) (spectral_n x.length)
        (spectral_df x.length fs) K) := by
    rw [spectral_features_capped_eq, hK]; rfl
  rw [hout]
  show (if (bin_loop cos sin pi (spectral_work cosf pi x c) (spectral_n x.length)
      (spectral_df x.length fs) K).best_mag2 ≤ 0 then 0
    else (bin_loop cos sin pi (spectral_work cosf pi x c) (spectral_n x.length)
      (spectral_df x.length fs) K).best_freq) = 0 ∨ ∃ k, k ∈ evaluated_bins x.length fs ∧
    (if (bin_loop cos sin pi (spectral_work cosf pi x c) (spectral_n x.length)
      (spectral_df x.length fs) K).best_mag2 ≤ 0 then 0
    else (bin_loop cos sin pi (spectral_work cosf pi x c) (spectral_n x.length)
      (spectral_df x.length fs) K).best_freq) = spectral_df x.length fs * (k : α)
  rcases hcase with ⟨hz, _⟩ | ⟨k, hk1, hk2, hk3, hk4, hk5, _⟩
  · left
    rw [if_pos (le_of_eq hz)]
  · right
    refine ⟨k, by rw [hK]; exact (mem_bins_upto K k).mpr ⟨hk1, hk2⟩, ?_⟩
    rw [if_neg (by rw [hk3]; exact not_le.mpr hk5), hk4]

/-- Range of the reported dominant frequency for `n ≥ 2` samples at rate
`fs > 0`: between 0 and both 10 Hz and `fs / 2`, and at most 256 bins up. -/
theorem dom_freq_range (cosf cos sin : α → α) (pi : α) (x : List α) (fs : α)
    (c : hann_cache α) (hn : 2 ≤ x.length) (hfs : 0 < fs) :
    0 ≤ (spectral_features_capped cosf cos sin pi x fs c).1.dom_freq ∧
    (spectral_features_capped cosf cos sin pi x fs c).1.dom_freq ≤ 10 ∧
    (spectral_features_capped cosf cos sin pi x fs c).1.dom_freq ≤ fs / 2 ∧
    (spectral_features_capped cosf cos sin pi x fs c).1.dom_freq ≤
      spectral_df x.length fs * 256 := by
  have hn2 : 2 ≤ spectral_n x.length := by
    rw [spectral_n_eq_min]
    have : (2 : Nat) ≤ MAX_SAMPLES := by decide
    omega
  have hnpos : (0 : α) < (spectral_n x.length : α) := by
    have : 0 < spectral_n x.length := by omega
    exact_mod_cast this
  have hdf : 0 < spectral_df x.length fs := div_pos hfs hnpos
  rcases dom_freq_on_grid cosf cos sin pi x fs c with h0 | ⟨k, hk, hdom⟩
  · rw [h0]
    refine ⟨le_refl _, by norm_num, by positivity, by positivity⟩
  · rw [hdom]
    obtain ⟨hk1, hk2⟩ := (mem_evaluated_bins x.length fs hn hfs k).mp hk
    have hkf : (k : Int) ≤ ⌊10 / spectral_df x.length fs⌋ :=
      le_trans hk2 (le_trans (min_le_left _ _) (min_le_left _ _))
    have hkn : (k : Int) ≤ ((spectral_n x.length / 2 : Nat) : Int) :=
      le_trans hk2 (le_trans (min_le_left _ _) (min_le_right _ _))
    have hkc : (k : Int) ≤ (MAX_CAPPED_BINS : Int) := le_trans hk2 (min_le_right _ _)
    have hkf2 : (k : α) ≤ 10 / spectral_df x.length fs := by
      have := Int.le_floor.mp hkf
      simpa using this
    have hkn2 : 2 * k ≤ spectral_n x.length := by
      have : k ≤ spectral_n x.length / 2 := by exact_mod_cast hkn
      omega
    have hkn3 : 2 * (k : α) ≤ (spectral_n x.length : α) := by exact_mod_cast hkn2
    have hkc2 : (k : α) ≤ 256 := by
      have : k ≤ 256 := by
        have hM : (MAX_CAPPED_BINS : Int) = 256 := rfl
        rw [hM] at hkc
        exact_mod_cast hkc
      exact_mod_cast this
    refine ⟨by positivity, ?_, ?_, ?_⟩
    · have := (le_div_iff₀ hdf).mp hkf2
      linarith
    · unfold spectral_df
      rw [div_mul_eq_mul_div, div_le_iff₀ hnpos]
      have h2 : fs / 2 * (spectral_n x.length : α) = fs * ((spectral_n x.length : α) / 2) := by
        ring
      rw [h2]
      exact mul_le_mul_of_nonneg_left (by linarith) (le_of_lt hfs)
    · exact mul_le_mul_of_nonneg_left hkc2 (le_of_lt hdf)

end DominantGridTheorems

section SinusoidEstimateTheorems

end SinusoidEstimateTheorems

section ComputeFeaturesTheorems

variable {α : Type} [LinearOrderedField α] [FloorRing α]

omit [FloorRing α] in
/-- The magnitude series built by the loop of lines 175-178 over `n` samples is
the series `sqrt(ax_i² + ay_i² + az_i²)` of the three accelerometer windows. -/
theorem amag_series_eq (sqrtf : α → α) (ax ay az : List α) (n : Nat)
    (hax : ax.length = n) (hay : ay.length = n) (haz : az.length = n) :
    ((List.range n).map fun i =>
        sqrtf (ax.getD i 0 * ax.getD i 0 + ay.getD i 0 * ay.getD i 0 +
          az.getD i 0 * az.getD i 0)) =
      (ax.zip (ay.zip az)).map fun t => sqrtf (t.1 ^ 2 + t.2.1 ^ 2 + t.2.2 ^ 2) := by
  apply List.ext_getElem
  · simp [hax, hay, haz]
  · intro i h1 h2
    have hi : i < n := by simpa using h1
    simp only [List.getElem_map, List.getElem_range, List.getElem_zip]
    rw [List.getD_eq_getElem?_getD, List.getD_eq_getElem?_getD, List.getD_eq_getElem?_getD,
      List.getElem?_eq_getElem (by omega), List.getElem?_eq_getElem (by omega),
      List.getElem?_eq_getElem (by omega)]
    simp only [Option.getD_some]
    congr 1
    ring

/-- C21: for six windows of length `n`, `1 ≤ n ≤ 2048`, and any sample rate,
`compute_features` returns the vector whose `amag.{mean, std, rms, energy}` are
`stats_basic` of the series `m_i = sqrt(ax_i² + ay_i² + az_i²)`, whose
`amag.{dom_freq, bp1, bp2}` are `spectral_features_capped` of that series, and
whose `gx_std, gy_std, gz_std` are the `std` of `stats_basic` of `gx, gy, gz`;
the `amag` features are the same for any other gyro windows, and each gyro `std`
is the same whatever the other five windows and the sample rate are. -/
theorem compute_features_structure (sqrtf cosf cos sin : α → α) (pi : α)
    (ax ay az gx gy gz : List α) (n : Nat) (fs : α) (c : hann_cache α)
    (_hn1 : 1 ≤ n) (hn2 : n ≤ 2048)
    (hax : ax.length = n) (hay : ay.length = n) (haz : az.length = n)
    (hgx : gx.length = n) (hgy : gy.length = n) (hgz : gz.length = n) :
    ((compute_features sqrtf cosf cos sin pi ax ay az gx gy gz n fs c).1.amag.mean =
        (stats_basic sqrtf
          ((ax.zip (ay.zip az)).map fun t => sqrtf (t.1 ^ 2 + t.2.1 ^ 2 + t.2.2 ^ 2))).mean ∧
      (compute_features sqrtf cosf cos sin pi ax ay az gx gy gz n fs c).1.amag.std =
        (stats_basic sqrtf
          ((ax.zip (ay.zip az)).map fun t => sqrtf (t.1 ^ 2 + t.2.1 ^ 2 + t.2.2 ^ 2))).std ∧
      (compute_features sqrtf cosf cos sin pi ax ay az gx gy gz n fs c).1.amag.rms =
        (stats_basic sqrtf
          ((ax.zip (ay.zip az)).map fun t => sqrtf (t.1 ^ 2 + t.2.1 ^ 2 + t.2.2 ^ 2))).rms ∧
      (compute_features sqrtf cosf cos sin pi ax ay az gx gy gz n fs c).1.amag.energy =
        (stats_basic sqrtf
          ((ax.zip (ay.zip az)).map fun t =>
            sqrtf (t.1 ^ 2 + t.2.1 ^ 2 + t.2.2 ^ 2))).energy) ∧
    ((compute_features sqrtf cosf cos sin pi ax ay az gx gy gz n fs c).1.amag.dom_freq =
        (spectral_features_capped cosf cos sin pi
          ((ax.zip (ay.zip az)).map fun t => sqrtf (t.1 ^ 2 + t.2.1 ^ 2 + t.2.2 ^ 2))
          fs c).1.dom_freq ∧
      (compute_features sqrtf cosf cos sin pi ax ay az gx gy gz n fs c).1.amag.bp1 =
        (spectral_features_capped cosf cos sin pi
          ((ax.zip (ay.zip az)).map fun t => sqrtf (t.1 ^ 2 + t.2.1 ^ 2 + t.2.2 ^ 2))
          fs c).1.bp1 ∧
      (compute_features sqrtf cosf cos sin pi ax ay az gx gy gz n fs c).1.amag.bp2 =
        (spectral_features_capped cosf cos sin pi
          ((ax.zip (ay.zip az)).map fun t => sqrtf (t.1 ^ 2 + t.2.1 ^ 2 + t.2.2 ^ 2))
          fs c).1.bp2) ∧
    ((compute_features sqrtf cosf cos sin pi ax ay az gx gy gz n fs c).1.gx_std =
        (stats_basic sqrtf gx).std ∧
      (compute_features sqrtf cosf cos sin pi ax ay az gx gy gz n fs c).1.gy_std =
        (stats_basic sqrtf gy).std ∧
      (compute_features sqrtf cosf cos sin pi ax ay az gx gy gz n fs c).1.gz_std =
        (stats_basic sqrtf gz).std) ∧
    (∀ gx2 gy2 gz2 : List α,
      (compute_features sqrtf cosf cos sin pi ax ay az gx2 gy2 gz2 n fs c).1.amag =
        (compute_features sqrtf cosf cos sin pi ax ay az gx gy gz n fs c).1.amag) ∧
    (∀ (ax2 ay2 az2 g1 g2 : List α) (fs2 : α) (c2 : hann_cache α),
      (compute_features sqrtf cosf cos sin pi ax2 ay2 az2 gx g1 g2 n fs2 c2).1.gx_std =
          (compute_features sqrtf cosf cos sin pi ax ay az gx gy gz n fs c).1.gx_std ∧
        (compute_features sqrtf cosf cos sin pi ax2 ay2 az2 g1 gy g2 n fs2 c2).1.gy_std =
          (compute_features sqrtf cosf cos sin pi ax ay az gx gy gz n fs c).1.gy_std ∧
        (compute_features sqrtf cosf cos sin pi ax2 ay2 az2 g1 g2 gz n fs2 c2).1.gz_std =
          (compute_features sqrtf cosf cos sin pi ax ay az gx gy gz n fs c).1.gz_std) := by
  have hser := amag_series_eq sqrtf ax ay az n hax hay haz
  have hclamp : (if n > 2048 then 2048 else n) = n := if_neg (by omega)
  have htx : gx.take n = gx := List.take_of_length_le (by omega)
  have hty : gy.take n = gy := List.take_of_length_le (by omega)
  have htz : gz.take n = gz := List.take_of_length_le (by omega)
  refine ⟨?_, ?_, ?_, ?_, ?_⟩
  · unfold compute_features
    simp only
    rw [hclamp, hser]
    exact ⟨rfl, rfl, rfl, rfl⟩
  · unfold compute_features
    simp only
    rw [hclamp, hser]
    exact ⟨rfl, rfl, rfl⟩
  · unfold compute_features
    simp only
    rw [hclamp, htx, hty, htz]
    exact ⟨rfl, rfl, rfl⟩
  · intro gx2 gy2 gz2
    rfl
  · intro ax2 ay2 az2 g1 g2 fs2 c2
    exact ⟨rfl, rfl, rfl⟩

/-- Witness for C21: two samples per window on the rationals, `sqrtf` replaced
by the identity. -/
theorem compute_features_structure_witness :
    (compute_features (fun t : ℚ => t) taylor_cos taylor_cos taylor_sin 3
        [1, 2] [2, 0] [2, 1] [5, 7] [1, 1] [0, 4] 2 100 hann_cache_initial).1.gx_std =
      (stats_basic (fun t : ℚ => t) [5, 7]).std :=
  (compute_features_structure (fun t : ℚ => t) taylor_cos taylor_cos taylor_sin 3
    [1, 2] [2, 0] [2, 1] [5, 7] [1, 1] [0, 4] 2 100 hann_cache_initial (by decide) (by decide)
    rfl rfl rfl rfl rfl rfl).2.2.1.1

end ComputeFeaturesTheorems

section ScheduleTheorems

/-- Flags of the steady phase: from a full window with `h < H` samples since the
last emission, tick `i` fires iff `h + i + 1` is a multiple of `H`. -/
theorem fire_flags_steady (W H : Nat) (hH : 0 < H) : ∀ (n h i : Nat), h < H →
    ((fire_flags W H (W, h) n).getD i false = true ↔ i < n ∧ (h + i + 1) % H = 0) := by
  intro n
  induction n with
  | zero =>
    intro h i _
    simp [fire_flags]
  | succ n ih =>
    intro h i hh
    by_cases hf : h + 1 = H
    · have e : counters_step W H (W, h) = ((W, 0), true) := by
        unfold counters_step
        simp only
        rw [if_neg (lt_irrefl W), if_pos ⟨rfl, by omega⟩]
      cases i with
      | zero =>
        simp only [fire_flags, e, List.getD_cons_zero, true_iff]
        refine ⟨by omega, ?_⟩
        rw [Nat.add_zero, hf, Nat.mod_self]
      | succ j =>
        simp only [fire_flags, e, List.getD_cons_succ]
        rw [ih 0 j hH]
        have hmod : (h + (j + 1) + 1) % H = (0 + j + 1) % H := by
          have : h + (j + 1) + 1 = (0 + j + 1) + H := by omega
          rw [this, Nat.add_mod_right]
        rw [hmod]
        constructor
        · rintro ⟨h1, h2⟩; exact ⟨by omega, h2⟩
        · rintro ⟨h1, h2⟩; exact ⟨by omega, h2⟩
    · have hlt : h + 1 < H := by omega
      have e : counters_step W H (W, h) = ((W, h + 1), false) := by
        unfold counters_step
        simp only
        rw [if_neg (lt_irrefl W), if_neg (by rintro ⟨_, h2⟩; omega)]
      cases i with
      | zero =>
        simp only [fire_flags, e, List.getD_cons_zero, Bool.false_eq_true, false_iff]
        rintro ⟨_, h2⟩
        rw [Nat.add_zero, Nat.mod_eq_of_lt hlt] at h2
        omega
      | succ j =>
        simp only [fire_flags, e, List.getD_cons_succ]
        rw [ih (h + 1) j hlt]
        have hmod : h + (j + 1) + 1 = h + 1 + j + 1 := by omega
        rw [hmod]
        constructor
        · rintro ⟨h1, h2⟩; exact ⟨by omega, h2⟩
        · rintro ⟨h1, h2⟩; exact ⟨by omega, h2⟩

/-- Flags of the filling phase: `t < max W H` ticks after the start the counters
are `(min t W, t)`, and tick `i` from there fires iff `t + i + 1` is
`max W H` plus a multiple of `H`. -/
theorem fire_flags_filling (W H : Nat) (hH : 0 < H) : ∀ (n t i : Nat), t < max W H →
    ((fire_flags W H (min t W, t) n).getD i false = true ↔
      i < n ∧ max W H ≤ t + i + 1 ∧ (t + i + 1 - max W H) % H = 0) := by
  intro n
  induction n with
  | zero =>
    intro t i _
    simp [fire_flags]
  | succ n ih =>
    intro t i ht
    have hfill : (if min t W < W then min t W + 1 else min t W) = min (t + 1) W := by
      split_ifs <;> omega
    by_cases hf : t + 1 = max W H
    · have e : counters_step W H (min t W, t) = ((W, 0), true) := by
        unfold counters_step
        simp only
        rw [hfill]
        have h1 : min (t + 1) W = W := by omega
        rw [if_pos ⟨h1, by omega⟩, h1]
      cases i with
      | zero =>
        simp only [fire_flags, e, List.getD_cons_zero, true_iff]
        refine ⟨by omega, by omega, ?_⟩
        have : t + 0 + 1 - max W H = 0 := by omega
        rw [this, Nat.zero_mod]
      | succ j =>
        simp only [fire_flags, e, List.getD_cons_succ]
        rw [fire_flags_steady W H hH n 0 j hH]
        have hsub : t + (j + 1) + 1 - max W H = 0 + j + 1 := by omega
        rw [hsub]
        constructor
        · rintro ⟨h1, h2⟩; exact ⟨by omega, by omega, h2⟩
        · rintro ⟨h1, _, h2⟩; exact ⟨by omega, h2⟩
    · have hlt : t + 1 < max W H := by omega
      have e : counters_step W H (min t W, t) = ((min (t + 1) W, t + 1), false) := by
        unfold counters_step
        simp only
        rw [hfill, if_neg (by rintro ⟨h1, h2⟩; omega)]
      cases i with
      | zero =>
        simp only [fire_flags, e, List.getD_cons_zero, Bool.false_eq_true, false_iff]
        rintro ⟨_, h2, _⟩
        omega
      | succ j =>
        simp only [fire_flags, e, List.getD_cons_succ]
        rw [ih (t + 1) j hlt]
        have hmod : t + (j + 1) + 1 = t + 1 + j + 1 := by omega
        rw [hmod]
        constructor
        · rintro ⟨h1, h2, h3⟩; exact ⟨by omega, h2, h3⟩
        · rintro ⟨h1, h2, h3⟩; exact ⟨by omega, h2, h3⟩

/-- C26: for every `W > 0` and `H > 0` and every sample sequence, the sampling
loop started from its initial state fires extraction on tick `t` (counted from
1) if and only if `t = max W H + j·H` for some `j = 0, 1, 2, ...`; so the
first emission is at tick `max W H`, and after an emission at tick `t` the next
one is at tick `t + H` with none in between. -/
theorem emission_schedule (W H : Nat) (hW : 0 < W) (hH : 0 < H) {α : Type}
    [LinearOrderedField α] (xs : List (imu_sample α)) :
    (∀ i, i < xs.length →
      (((run_ticks W H (initial_state W) xs).2.getD i none).isSome = true ↔
        ∃ j : Nat, i + 1 = max W H + j * H)) ∧
    (∀ i, i < xs.length → ((run_ticks W H (initial_state W) xs).2.getD i none).isSome = true →
      (i + H < xs.length →
        ((run_ticks W H (initial_state W) xs).2.getD (i + H) none).isSome = true) ∧
      ∀ k, 0 < k → k < H → i + k < xs.length →
        ((run_ticks W H (initial_state W) xs).2.getD (i + k) none).isSome = false) := by
  have hM : 0 < max W H := by omega
  have key : ∀ i, i < xs.length →
      (((run_ticks W H (initial_state W) xs).2.getD i none).isSome = true ↔
        ∃ j : Nat, i + 1 = max W H + j * H) := by
    intro i hi
    rw [trace_isSome_eq_flag]
    have h0 := fire_flags_filling W H hH xs.length 0 i hM
    have hmin : min 0 W = 0 := by omega
    rw [hmin] at h0
    show (fire_flags W H (0, 0) xs.length).getD i false = true ↔ _
    rw [h0]
    constructor
    · rintro ⟨_, h2, h3⟩
      obtain ⟨j, hj⟩ := Nat.dvd_of_mod_eq_zero h3
      refine ⟨j, ?_⟩
      have : 0 + i + 1 = max W H + H * j := by omega
      rw [Nat.mul_comm j H]
      omega
    · rintro ⟨j, hj⟩
      refine ⟨hi, by omega, ?_⟩
      have : 0 + i + 1 - max W H = j * H := by omega
      rw [this, Nat.mul_mod_left]
  refine ⟨key, ?_⟩
  intro i hi hfire
  obtain ⟨j, hj⟩ := (key i hi).mp hfire
  constructor
  · intro hlt
    exact (key (i + H) hlt).mpr ⟨j + 1, by rw [Nat.add_mul]; omega⟩
  · intro k hk0 hkH hlt
    cases hsome : ((run_ticks W H (initial_state W) xs).2.getD (i + k) none).isSome with
    | false => rfl
    | true =>
      obtain ⟨j2, hj2⟩ := (key (i + k) hlt).mp hsome
      exfalso
      have hk : k + j * H = j2 * H := by omega
      have hjj : j < j2 := by
        by_contra hcon
        have : j2 * H ≤ j * H := Nat.mul_le_mul_right H (by omega)
        omega
      have : (j + 1) * H ≤ j2 * H := Nat.mul_le_mul_right H hjj
      rw [Nat.add_mul] at this
      omega

/-- Witness for C26: window 2, hop 3, seven samples; the emissions are at the
ticks 3 and 6. -/
theorem emission_schedule_witness :
    ((run_ticks 2 3 (initial_state 2)
        (List.replicate 7 (⟨0, 0, 1, 0, 0, 0⟩ : imu_sample ℚ))).2.getD 5 none).isSome = true :=
  ((emission_schedule 2 3 (by decide) (by decide)
    (List.replicate 7 (⟨0, 0, 1, 0, 0, 0⟩ : imu_sample ℚ))).1 5 (by decide)).mpr
    ⟨1, by decide⟩

end ScheduleTheorems

section VarianceTheorems

/-- Sum of the squared deviations from any `m`, expanded. -/
theorem sum_sq_dev_eq {α : Type} [LinearOrderedField α] (x : List α) (m : α) :
    (x.map fun t => (t - m) ^ 2).sum =
      (x.map fun t => t ^ 2).sum - 2 * m * x.sum + (x.length : α) * m ^ 2 := by
  induction x with
  | nil => simp
  | cons a rest ih =>
    simp only [List.map_cons, List.sum_cons, List.length_cons, Nat.cast_add, Nat.cast_one]
    rw [ih]
    ring

/-- The variance expression of `stats_basic` (line 26) is non-negative:
`(Σ x_i²)/n − ((Σ x_i)/n)² ≥ 0` for `n ≥ 1`. -/
theorem variance_nonneg {α : Type} [LinearOrderedField α] (x : List α) (hn : 1 ≤ x.length) :
    0 ≤ (x.map fun t => t ^ 2).sum / (x.length : α) -
      x.sum / (x.length : α) * (x.sum / (x.length : α)) := by
  have hpos : (0 : α) < (x.length : α) := by exact_mod_cast hn
  have hdev : 0 ≤ (x.map fun t => (t - x.sum / (x.length : α)) ^ 2).sum := by
    apply List.sum_nonneg
    intro v hv
    obtain ⟨t, _, rfl⟩ := List.mem_map.mp hv
    exact sq_nonneg _
  rw [sum_sq_dev_eq] at hdev
  have hexp : (x.map fun t => t ^ 2).sum / (x.length : α) -
      x.sum / (x.length : α) * (x.sum / (x.length : α)) =
      ((x.map fun t => t ^ 2).sum - 2 * (x.sum / (x.length : α)) * x.sum +
        (x.length : α) * (x.sum / (x.length : α)) ^ 2) / (x.length : α) := by
    field_simp
    ring
  rw [hexp]
  exact div_nonneg hdev (le_of_lt hpos)

/-- C27: in exact real arithmetic, for every window of `n ≥ 1` samples the
quantity `(Σ x_i²)/n − mean²` of `stats_basic` is `≥ 0`, so the clamp of line 27
is not taken, and the outputs satisfy `std² + mean² = rms²`, `|mean| ≤ rms`,
`std ≤ rms` and `energy = n · rms²`. -/
theorem stats_basic_relations (x : List ℝ) (hn : 1 ≤ x.length) :
    ¬ ((stats_sums x).2 / (x.length : ℝ) -
        (stats_sums x).1 / (x.length : ℝ) * ((stats_sums x).1 / (x.length : ℝ)) < 0) ∧
    (stats_basic Real.sqrt x).std ^ 2 + (stats_basic Real.sqrt x).mean ^ 2 =
      (stats_basic Real.sqrt x).rms ^ 2 ∧
    |(stats_basic Real.sqrt x).mean| ≤ (stats_basic Real.sqrt x).rms ∧
    (stats_basic Real.sqrt x).std ≤ (stats_basic Real.sqrt x).rms ∧
    (stats_basic Real.sqrt x).energy = (x.length : ℝ) * (stats_basic Real.sqrt x).rms ^ 2 := by
  have hpos : (0 : ℝ) < (x.length : ℝ) := by exact_mod_cast hn
  have hv := variance_nonneg x hn
  have hq : 0 ≤ (x.map fun t => t ^ 2).sum / (x.length : ℝ) := by
    apply div_nonneg _ (le_of_lt hpos)
    apply List.sum_nonneg
    intro v hv
    obtain ⟨t, _, rfl⟩ := List.mem_map.mp hv
    exact sq_nonneg _
  have hmean : (stats_basic Real.sqrt x).mean = x.sum / (x.length : ℝ) := by
    unfold stats_basic
    simp only
    rw [stats_sums_eq]
  have hrms : (stats_basic Real.sqrt x).rms =
      Real.sqrt ((x.map fun t => t ^ 2).sum / (x.length : ℝ)) := by
    unfold stats_basic
    simp only
    rw [stats_sums_eq]
  have hstd : (stats_basic Real.sqrt x).std =
      Real.sqrt ((x.map fun t => t ^ 2).sum / (x.length : ℝ) -
        x.sum / (x.length : ℝ) * (x.sum / (x.length : ℝ))) := by
    unfold stats_basic
    simp only
    rw [stats_sums_eq, if_neg (not_lt.mpr hv)]
  have henergy : (stats_basic Real.sqrt x).energy = (x.map fun t => t ^ 2).sum := by
    unfold stats_basic
    simp only
    rw [stats_sums_eq]
  refine ⟨?_, ?_, ?_, ?_, ?_⟩
  · rw [stats_sums_eq]
    exact not_lt.mpr hv
  · rw [hstd, hmean, hrms, Real.sq_sqrt hv, Real.sq_sqrt hq]
    ring
  · rw [hmean, hrms]
    apply Real.abs_le_sqrt
    have : (x.sum / (x.length : ℝ)) ^ 2 =
        x.sum / (x.length : ℝ) * (x.sum / (x.length : ℝ)) := by ring
    rw [this]
    linarith
  · rw [hstd, hrms]
    apply Real.sqrt_le_sqrt
    have := mul_self_nonneg (x.sum / (x.length : ℝ))
    linarith
  · rw [henergy, hrms, Real.sq_sqrt hq]
    field_simp

/-- Witness for C27: the window `[3, 4]`. -/
theorem stats_basic_relations_witness :
    (stats_basic Real.sqrt [3, 4]).std ^ 2 + (stats_basic Real.sqrt [3, 4]).mean ^ 2 =
      (stats_basic Real.sqrt [3, 4]).rms ^ 2 :=
  (stats_basic_relations [3, 4] (by decide)).2.1

end VarianceTheorems

section SpectralRangeTheorems

variable {α : Type} [LinearOrderedField α] [FloorRing α]

omit [FloorRing α] in
theorem bin_power_nonneg (cos sin : α → α) (pi : α) (work : List α) (n k : Nat) :
    0 ≤ bin_power cos sin pi work n k := by
  unfold bin_power goertzel_mag2
  simp only
  exact add_nonneg (mul_self_nonneg _) (mul_self_nonneg _)

/-- Both band powers reported by `spectral_features_capped` are sums of bin
powers, hence non-negative. -/
theorem bandpowers_nonneg (cosf cos sin : α → α) (pi : α) (x : List α) (fs : α)
    (c : hann_cache α) :
    0 ≤ (spectral_features_capped cosf cos sin pi x fs c).1.bp1 ∧
    0 ≤ (spectral_features_capped cosf cos sin pi x fs c).1.bp2 := by
  obtain ⟨h1, h2⟩ := bin_fold_bands cos sin pi (spectral_work cosf pi x c)
    (spectral_n x.length) (spectral_df x.length fs) (evaluated_bins x.length fs)
    { bp1_acc := 0, bp2_acc := 0, best_mag2 := 0, best_freq := 0 }
  have hsum : ∀ L : List Nat, 0 ≤ (L.map (bin_power cos sin pi (spectral_work cosf pi x c)
      (spectral_n x.length))).sum := by
    intro L
    apply List.sum_nonneg
    intro v hv
    obtain ⟨k, _, rfl⟩ := List.mem_map.mp hv
    exact bin_power_nonneg _ _ _ _ _ _
  rw [spectral_features_capped_eq]
  constructor
  · show 0 ≤ bin_acc.bp1_acc _
    rw [h1, zero_add]
    exact hsum _
  · show 0 ≤ bin_acc.bp2_acc _
    rw [h2, zero_add]
    exact hsum _

/-- When some evaluated bin has positive power the reported dominant frequency
is the frequency of an evaluated bin. -/
theorem dom_freq_of_positive_bin (cosf cos sin : α → α) (pi : α) (x : List α) (fs : α)
    (c : hann_cache α) (k0 : Nat) (hk0 : k0 ∈ evaluated_bins x.length fs)
    (hpos : 0 < bin_power cos sin pi (spectral_work cosf pi x c) (spectral_n x.length) k0) :
    ∃ k, k ∈ evaluated_bins x.length fs ∧
      (spectral_features_capped cosf cos sin pi x fs c).1.dom_freq =
        spectral_df x.length fs * (k : α) := by
  obtain ⟨K, hK⟩ := evaluated_bins_eq_upto x.length fs
  obtain ⟨_, hle, hcase⟩ := bin_loop_best cos sin pi (spectral_work cosf pi x c)
    (spectral_n x.length) (spectral_df x.length fs) K
  have hout : (spectral_features_capped cosf cos sin pi x fs c).1 = spectral_finish
      (bin_loop cos sin pi (spectral_work cosf pi x c) (spectral_n x.length)
        (spectral_df x.length fs) K) := by
    rw [spectral_features_capped_eq, hK]; rfl
  rw [hK, mem_bins_upto] at hk0
  have hbest := lt_of_lt_of_le hpos (hle k0 hk0.1 hk0.2)
  rw [hout]
  show ∃ k, k ∈ evaluated_bins x.length fs ∧
    (if (bin_loop cos sin pi (spectral_work cosf pi x c) (spectral_n x.length)
      (spectral_df x.length fs) K).best_mag2 ≤ 0 then 0
    else (bin_loop cos sin pi (spectral_work cosf pi x c) (spectral_n x.length)
      (spectral_df x.length fs) K).best_freq) = spectral_df x.length fs * (k : α)
  rw [if_neg (not_le.mpr hbest)]
  rcases hcase with ⟨hz, _⟩ | ⟨k, hk1, hk2, _, hk4, _, _⟩
  · rw [hz] at hbest; exact absurd hbest (lt_irrefl _)
  · exact ⟨k, by rw [hK]; exact (mem_bins_upto K k).mpr ⟨hk1, hk2⟩, hk4⟩

/-- C28 (amended): for every input of `n` samples at rate `fs`, with
`n' = min(n, 2048)`, the reported dominant frequency is 0 or `k · (fs / n')` for
an integer `1 ≤ k ≤ n'/2`; it satisfies `0 ≤ dom_freq ≤ 10`, and
`dom_freq ≤ fs/2` when `fs ≥ 0`; both band powers are `≥ 0`. -/
theorem dominant_frequency_range (cosf cos sin : α → α) (pi : α) (x : List α) (fs : α)
    (c : hann_cache α) :
    ((spectral_features_capped cosf cos sin pi x fs c).1.dom_freq = 0 ∨
      ∃ k : Nat, 1 ≤ k ∧ k ≤ min x.length MAX_SAMPLES / 2 ∧
        (spectral_features_capped cosf cos sin pi x fs c).1.dom_freq =
          (k : α) * (fs / ((min x.length MAX_SAMPLES : Nat) : α))) ∧
    0 ≤ (spectral_features_capped cosf cos sin pi x fs c).1.dom_freq ∧
    (spectral_features_capped cosf cos sin pi x fs c).1.dom_freq ≤ 10 ∧
    (0 ≤ fs → (spectral_features_capped cosf cos sin pi x fs c).1.dom_freq ≤ fs / 2) ∧
    0 ≤ (spectral_features_capped cosf cos sin pi x fs c).1.bp1 ∧
    0 ≤ (spectral_features_capped cosf cos sin pi x fs c).1.bp2 := by
  obtain ⟨hb1, hb2⟩ := bandpowers_nonneg cosf cos sin pi x fs c
  by_cases hdeg : x.length ≤ 1 ∨ fs ≤ 0
  · have hz : (spectral_features_capped cosf cos sin pi x fs c).1.dom_freq = 0 := by
      rw [spectral_degenerate cosf cos sin pi x fs c hdeg]; rfl
    rw [hz]
    exact ⟨Or.inl rfl, le_refl _, by norm_num, fun h => by positivity, hb1, hb2⟩
  · have hn : 2 ≤ x.length := by
      by_contra hcon
      exact hdeg (Or.inl (by omega))
    have hfs : 0 < fs := by
      by_contra hcon
      exact hdeg (Or.inr (not_lt.mp hcon))
    obtain ⟨h0, h10, hny, _⟩ := dom_freq_range cosf cos sin pi x fs c hn hfs
    refine ⟨?_, h0, h10, fun _ => hny, hb1, hb2⟩
    rcases dom_freq_on_grid cosf cos sin pi x fs c with hz | ⟨k, hk, hdom⟩
    · exact Or.inl hz
    · right
      obtain ⟨hk1, hk2⟩ := (mem_evaluated_bins x.length fs hn hfs k).mp hk
      have hkn : (k : Int) ≤ ((spectral_n x.length / 2 : Nat) : Int) :=
        le_trans hk2 (le_trans (min_le_left _ _) (min_le_right _ _))
      rw [spectral_n_eq_min] at hkn
      refine ⟨k, hk1, by exact_mod_cast hkn, ?_⟩
      rw [hdom]
      unfold spectral_df
      rw [spectral_n_eq_min, mul_comm]

/-- Witness for C28 (amended): four samples at 8 Hz on the rationals. -/
theorem dominant_frequency_range_witness :
    (spectral_features_capped taylor_cos taylor_cos taylor_sin 3 ([1, 2, 1, 0] : List ℚ) 8
      hann_cache_initial).1.dom_freq ≤ 8 / 2 :=
  (dominant_frequency_range taylor_cos taylor_cos taylor_sin 3 ([1, 2, 1, 0] : List ℚ) 8
    hann_cache_initial).2.2.2.1 (by norm_num)

end SpectralRangeTheorems

section TruncationTheorems

/-- A windowed signal whose only non-zero entry is entry 1 has the square of
that entry as the power of every bin. -/
theorem bin_power_single (work : List ℝ) (n k : Nat) (hlen : 2 ≤ work.length)
    (hz : ∀ j, j ≠ 1 → work.getD j 0 = 0) :
    bin_power Real.cos Real.sin Real.pi work n k = work.getD 1 0 ^ 2 := by
  unfold bin_power
  simp only
  rw [goertzel_mag2_eq_normSq _ _ (by rw [Real.cos_sq_add_sin_sq])]
  rw [Finset.sum_eq_single 1]
  · rw [pow_one, map_mul, Complex.normSq_ofReal, Complex.normSq_mk]
    have h := Real.cos_sq_add_sin_sq (2 * Real.pi * (k : ℝ) / (n : ℝ))
    have h2 : Real.cos (2 * Real.pi * (k : ℝ) / (n : ℝ)) *
        Real.cos (2 * Real.pi * (k : ℝ) / (n : ℝ)) +
        -Real.sin (2 * Real.pi * (k : ℝ) / (n : ℝ)) *
          -Real.sin (2 * Real.pi * (k : ℝ) / (n : ℝ)) = 1 := by
      linear_combination h
    rw [h2]
    ring
  · intro j _ hj
    rw [hz j hj]
    simp
  · intro h1
    exact absurd (Finset.mem_range.mpr (by omega)) h1

/-- Counterexample for C28.  First: 2049 samples `-1, 1, 0, 0, ...` at 2048 Hz.
The input is truncated to `MAX_SAMPLES = 2048` samples, so `df = 1` Hz; the
windowed signal has the single non-zero entry `w_1 > 0`, every bin has the
power `w_1² > 0`, and the report is `k'·1` Hz for a bin `1 ≤ k' ≤ 256`, which
is neither 0 nor `k · (2048/2049)` for an integer `k`.  Second: a negative
sample rate gives the report 0, which is not `≤ fs/2`. -/
theorem dominant_frequency_grid_counterexample :
    ¬ ((spectral_features_capped Real.cos Real.cos Real.sin Real.pi
          ((-1 : ℝ) :: 1 :: List.replicate 2047 0) 2048 hann_cache_initial).1.dom_freq = 0 ∨
        ∃ k : Nat, 1 ≤ k ∧ k ≤ 2049 / 2 ∧
          (spectral_features_capped Real.cos Real.cos Real.sin Real.pi
            ((-1 : ℝ) :: 1 :: List.replicate 2047 0) 2048 hann_cache_initial).1.dom_freq =
            (k : ℝ) * (2048 / ((2049 : Nat) : ℝ))) ∧
    ¬ ((spectral_features_capped Real.cos Real.cos Real.sin Real.pi ([1, 2, 3] : List ℝ) (-1)
          hann_cache_initial).1.dom_freq ≤ (-1 : ℝ) / 2) := by
  constructor
  · have hlen : ((-1 : ℝ) :: 1 :: List.replicate 2047 0).length = 2049 := by
      rw [List.length_cons, List.length_cons, List.length_replicate]
    have hn : spectral_n ((-1 : ℝ) :: 1 :: List.replicate 2047 0).length = 2048 := by
      rw [hlen]; decide
    have htake : ((-1 : ℝ) :: 1 :: List.replicate 2047 0).take 2048 =
        (-1 : ℝ) :: 1 :: List.replicate 2046 0 := by
      have : (2048 : Nat) = 2046 + 1 + 1 := by norm_num
      rw [this, List.take_succ_cons, List.take_succ_cons, List.take_replicate]
      norm_num
    have hlen2 : ((-1 : ℝ) :: 1 :: List.replicate 2046 0).length = 2048 := by
      rw [List.length_cons, List.length_cons, List.length_replicate]
    have hsum : ((-1 : ℝ) :: 1 :: List.replicate 2046 0).sum = 0 := by
      rw [List.sum_cons, List.sum_cons, List.sum_replicate, smul_zero]
      norm_num
    have hwork := windowed_signal_getD Real.cos Real.pi ((-1 : ℝ) :: 1 :: List.replicate 2046 0)
      hann_cache_initial (hannCacheValid_initial Real.cos Real.pi)
      (by rw [hlen2]; norm_num) (by rw [hlen2]; decide)
    rw [hlen2, hsum] at hwork
    have hsw : spectral_work Real.cos Real.pi ((-1 : ℝ) :: 1 :: List.replicate 2047 0)
        hann_cache_initial =
        (windowed_signal Real.cos Real.pi ((-1 : ℝ) :: 1 :: List.replicate 2046 0)
          hann_cache_initial).1 := by
      unfold spectral_work
      rw [hn, htake]
    -- the windowed signal: entry 1 is the Hann coefficient, the others are 0
    have hcoef : 0 < hann_coeff Real.cos Real.pi 2048 1 := by
      unfold hann_coeff
      have harg : 2 * Real.pi * ((1 : Nat) : ℝ) / ((2048 - 1 : Nat) : ℝ) =
          2 * Real.pi / 2047 := by
        norm_num
      rw [harg]
      have hpi := Real.pi_pos
      have hpos : 0 < 2 * Real.pi / 2047 := by positivity
      have hlo : -(2 * Real.pi) < 2 * Real.pi / 2047 := by linarith
      have hhi : 2 * Real.pi / 2047 < 2 * Real.pi := by
        rw [div_lt_iff₀ (by norm_num : (0 : ℝ) < 2047)]
        linarith
      have hne : Real.cos (2 * Real.pi / 2047) ≠ 1 := by
        intro h
        have := (Real.cos_eq_one_iff_of_lt_of_lt hlo hhi).mp h
        linarith
      have hlt : Real.cos (2 * Real.pi / 2047) < 1 :=
        lt_of_le_of_ne (Real.cos_le_one _) hne
      exact mul_pos (by norm_num) (by linarith)
    have hw1 : (windowed_signal Real.cos Real.pi ((-1 : ℝ) :: 1 :: List.replicate 2046 0)
        hann_cache_initial).1.getD 1 0 = hann_coeff Real.cos Real.pi 2048 1 := by
      rw [hwork.2 1 (by norm_num)]
      have : ((-1 : ℝ) :: 1 :: List.replicate 2046 0).getD 1 0 = 1 := rfl
      rw [this]
      norm_num
    have hwz : ∀ j, j ≠ 1 →
        (windowed_signal Real.cos Real.pi ((-1 : ℝ) :: 1 :: List.replicate 2046 0)
          hann_cache_initial).1.getD j 0 = 0 := by
      intro j hj
      by_cases hjl : j < 2048
      · rw [hwork.2 j hjl]
        rcases Nat.eq_zero_or_pos j with h0 | hpos
        · subst h0
          have : hann_coeff Real.cos Real.pi 2048 0 = 0 := by
            unfold hann_coeff
            norm_num
          rw [this, mul_zero]
        · obtain ⟨i, rfl⟩ : ∃ i, j = i + 2 := ⟨j - 2, by omega⟩
          have hget : ((-1 : ℝ) :: 1 :: List.replicate 2046 0).getD (i + 2) 0 = 0 := by
            rw [List.getD_cons_succ, List.getD_cons_succ, List.getD_eq_getElem?_getD,
              List.getElem?_replicate]
            split_ifs <;> rfl
          rw [hget]
          norm_num
      · rw [List.getD_eq_getElem?_getD, List.getElem?_eq_none (by rw [hwork.1]; omega)]
        rfl
    have hpow : 0 < bin_power Real.cos Real.sin Real.pi
        (spectral_work Real.cos Real.pi ((-1 : ℝ) :: 1 :: List.replicate 2047 0)
          hann_cache_initial)
        (spectral_n ((-1 : ℝ) :: 1 :: List.replicate 2047 0).length) 1 := by
      rw [hsw, bin_power_single _ _ _ (by rw [hwork.1]; norm_num) hwz, hw1]
      positivity
    have hdf : spectral_df ((-1 : ℝ) :: 1 :: List.replicate 2047 0).length (2048 : ℝ) = 1 := by
      unfold spectral_df
      rw [hn]
      norm_num
    have hmem : ∀ k : Nat, k ∈ evaluated_bins
        ((-1 : ℝ) :: 1 :: List.replicate 2047 0).length (2048 : ℝ) → 1 ≤ k ∧ k ≤ 256 := by
      intro k hk
      obtain ⟨h1, h2⟩ := (mem_evaluated_bins _ (2048 : ℝ) (by rw [hlen]; norm_num)
        (by norm_num) k).mp hk
      have h3 : (k : Int) ≤ (MAX_CAPPED_BINS : Int) := le_trans h2 (min_le_right _ _)
      have hM : (MAX_CAPPED_BINS : Int) = 256 := rfl
      rw [hM] at h3
      exact ⟨h1, by exact_mod_cast h3⟩
    have h1mem : 1 ∈ evaluated_bins
        ((-1 : ℝ) :: 1 :: List.replicate 2047 0).length (2048 : ℝ) := by
      rw [mem_evaluated_bins _ (2048 : ℝ) (by rw [hlen]; norm_num) (by norm_num) 1, hdf, hn]
      refine ⟨le_refl _, ?_⟩
      have hfl : ⌊(10 : ℝ) / 1⌋ = 10 := by
        rw [div_one]; exact Int.floor_natCast 10
      rw [hfl]
      decide
    obtain ⟨k0, hk0, hdom⟩ := dom_freq_of_positive_bin Real.cos Real.cos Real.sin Real.pi
      ((-1 : ℝ) :: 1 :: List.replicate 2047 0) 2048 hann_cache_initial 1 h1mem hpow
    obtain ⟨hk1, hk2⟩ := hmem k0 hk0
    rw [hdom, hdf, one_mul]
    rintro (h0 | ⟨k, _, _, hk⟩)
    · have : (k0 : ℝ) ≠ 0 := by
        have : k0 ≠ 0 := by omega
        exact_mod_cast this
      exact this h0
    · have hcast : ((2049 : Nat) : ℝ) = 2049 := by norm_num
      rw [hcast] at hk
      have h2 : (k0 : ℝ) * 2049 = (k : ℝ) * 2048 := by
        rw [hk]; ring
      have h3 : k0 * 2049 = k * 2048 := by exact_mod_cast h2
      omega
  · rw [spectral_degenerate Real.cos Real.cos Real.sin Real.pi _ (-1) hann_cache_initial
      (Or.inr (by norm_num))]
    show ¬ ((0 : ℝ) ≤ (-1 : ℝ) / 2)
    norm_num

end TruncationTheorems

section CsvLoggerTheorems

/-- One call of `csv_append` on an open logger whose two writes succeed: the
counter advances (modulo `UNSIGNED_MODULUS`) and `f_sync` is called exactly when
the new count is a multiple of a non-zero `flush_interval`. -/
theorem csv_append_written (lg : csv_logger_t) (o : csv_append_outcomes)
    (hopen : lg.opened = true) (hw : line_written o = true) :
    (csv_append (some lg) o).2.1 =
      some { lg with lines_written := (lg.lines_written + 1) % UNSIGNED_MODULUS } ∧
    (storage_call.f_sync ∈ (csv_append (some lg) o).2.2 ↔
      lg.flush_interval ≠ 0 ∧
        ((lg.lines_written + 1) % UNSIGNED_MODULUS) % lg.flush_interval = 0) := by
  have hw2 : o.f_write_line = FRESULT.FR_OK ∧ o.f_write_newline = FRESULT.FR_OK := by
    unfold line_written at hw
    exact of_decide_eq_true hw
  by_cases hc : lg.flush_interval ≠ 0 ∧
      ((lg.lines_written + 1) % UNSIGNED_MODULUS) % lg.flush_interval = 0
  · have e : csv_append (some lg) o = (o.f_sync,
        some { lg with lines_written := (lg.lines_written + 1) % UNSIGNED_MODULUS },
        [storage_call.f_write, storage_call.f_write, storage_call.f_sync]) := by
      unfold csv_append
      simp only [hopen, hw2.1, hw2.2, Bool.not_true, Bool.false_eq_true, if_false, ne_eq,
        not_true_eq_false]
      rw [if_pos hc]
    rw [e]
    exact ⟨rfl, by simp [hc]⟩
  · have e : csv_append (some lg) o = (FRESULT.FR_OK,
        some { lg with lines_written := (lg.lines_written + 1) % UNSIGNED_MODULUS },
        [storage_call.f_write, storage_call.f_write]) := by
      unfold csv_append
      simp only [hopen, hw2.1, hw2.2, Bool.not_true, Bool.false_eq_true, if_false, ne_eq,
        not_true_eq_false]
      rw [if_neg hc]
    rw [e]
    refine ⟨rfl, ?_⟩
    constructor
    · intro h; simp at h
    · intro h; exact absurd h hc

/-- One call of `csv_append` on an open logger with a failing write: the logger
is unchanged and `f_sync` is not called. -/
theorem csv_append_not_written (lg : csv_logger_t) (o : csv_append_outcomes)
    (hopen : lg.opened = true) (hw : line_written o = false) :
    (csv_append (some lg) o).2.1 = some lg ∧
    storage_call.f_sync ∉ (csv_append (some lg) o).2.2 ∧
    (csv_append (some lg) o).1 ≠ FRESULT.FR_OK := by
  have hw2 : ¬ (o.f_write_line = FRESULT.FR_OK ∧ o.f_write_newline = FRESULT.FR_OK) := by
    unfold line_written at hw
    exact of_decide_eq_false hw
  by_cases h1 : o.f_write_line = FRESULT.FR_OK
  · have h2 : o.f_write_newline ≠ FRESULT.FR_OK := fun h => hw2 ⟨h1, h⟩
    have e : csv_append (some lg) o = (o.f_write_newline, some lg,
        [storage_call.f_write, storage_call.f_write]) := by
      unfold csv_append
      simp only [hopen, Bool.not_true, Bool.false_eq_true, if_false]
      rw [if_neg (by rw [h1]; exact fun h => h rfl), if_pos h2]
    rw [e]
    exact ⟨rfl, by simp, h2⟩
  · have e : csv_append (some lg) o = (o.f_write_line, some lg, [storage_call.f_write]) := by
      unfold csv_append
      simp only [hopen, Bool.not_true, Bool.false_eq_true, if_false]
      rw [if_pos h1]
    rw [e]
    exact ⟨rfl, by simp, h1⟩

/-- The logger left by `csv_open`, when it is open: no line written, flush
interval 20. -/
theorem csv_open_opened (l : csv_logger_t) (oo : csv_open_outcomes) (lg0 : csv_logger_t)
    (h : (csv_open (some l) oo).2.1 = some lg0) (hopen : lg0.opened = true) :
    lg0 = { opened := true, lines_written := 0, flush_interval := 20 } := by
  unfold csv_open at h
  simp only at h
  split_ifs at h
  all_goals first
    | (have h2 := Option.some.inj h
       rw [← h2] at hopen
       exact absurd hopen (by decide))
    | exact (Option.some.inj h).symm

/-- A run of `csv_append` calls from an open logger with flush interval 20 and
count `c`: as long as the count stays below `UNSIGNED_MODULUS`, call `i` flushes
exactly when it writes its line and the count it reaches is a multiple of 20. -/
theorem csv_append_run_flush (os : List csv_append_outcomes) :
    ∀ (c i : Nat), i < os.length →
      c + ((os.take (i + 1)).filter line_written).length < UNSIGNED_MODULUS →
      (storage_call.f_sync ∈
          ((csv_append_run { opened := true, lines_written := c, flush_interval := 20 }
            os).2.getD i (FRESULT.FR_OK, [])).2 ↔
        line_written (os.getD i ⟨FRESULT.FR_OK, FRESULT.FR_OK, FRESULT.FR_OK⟩) = true ∧
          (c + ((os.take (i + 1)).filter line_written).length) % 20 = 0) := by
  induction os with
  | nil => intro c i hi; simp at hi
  | cons o rest ih =>
    intro c i hi hr
    by_cases hw : line_written o = true
    · obtain ⟨e1, e2⟩ := csv_append_written
        { opened := true, lines_written := c, flush_interval := 20 } o rfl hw
      have hc1 : c + 1 < UNSIGNED_MODULUS := by
        have : 1 ≤ (((o :: rest).take (i + 1)).filter line_written).length := by
          rw [List.take_succ_cons, List.filter_cons_of_pos hw, List.length_cons]
          omega
        omega
      have hmod : (c + 1) % UNSIGNED_MODULUS = c + 1 := Nat.mod_eq_of_lt hc1
      cases i with
      | zero =>
        simp only [csv_append_run, List.getD_cons_zero]
        rw [e2]
        show (20 ≠ 0 ∧ ((c + 1) % UNSIGNED_MODULUS) % 20 = 0) ↔ _
        rw [hmod]
        simp [hw]
      | succ j =>
        have hj : j < rest.length := by simpa using hi
        simp only [csv_append_run, List.getD_cons_succ]
        rw [e1]
        show storage_call.f_sync ∈ ((csv_append_run
          { opened := true, lines_written := (c + 1) % UNSIGNED_MODULUS, flush_interval := 20 }
          rest).2.getD j (FRESULT.FR_OK, [])).2 ↔ _
        rw [hmod]
        have hcount : (((o :: rest).take (j + 1 + 1)).filter line_written).length =
            ((rest.take (j + 1)).filter line_written).length + 1 := by
          rw [List.take_succ_cons, List.filter_cons_of_pos hw, List.length_cons]
        rw [hcount] at hr ⊢
        have := ih (c + 1) j hj (by omega)
        rw [this]
        have hadd : c + 1 + ((rest.take (j + 1)).filter line_written).length =
            c + (((rest.take (j + 1)).filter line_written).length + 1) := by omega
        rw [hadd]
    · have hw2 : line_written o = false := by
        cases h : line_written o
        · rfl
        · exact absurd h hw
      obtain ⟨e1, e2, _⟩ := csv_append_not_written
        { opened := true, lines_written := c, flush_interval := 20 } o rfl hw2
      cases i with
      | zero =>
        simp only [csv_append_run, List.getD_cons_zero]
        constructor
        · intro h; exact absurd h e2
        · rintro ⟨h, _⟩; exact absurd h hw
      | succ j =>
        have hj : j < rest.length := by simpa using hi
        simp only [csv_append_run, List.getD_cons_succ]
        rw [e1]
        show storage_call.f_sync ∈ ((csv_append_run
          { opened := true, lines_written := c, flush_interval := 20 }
          rest).2.getD j (FRESULT.FR_OK, [])).2 ↔ _
        have hcount : (((o :: rest).take (j + 1 + 1)).filter line_written).length =
            ((rest.take (j + 1)).filter line_written).length := by
          rw [List.take_succ_cons, List.filter_cons_of_neg hw]
        rw [hcount] at hr ⊢
        exact ih c j hj hr

end CsvLoggerTheorems

section CsvLoggerClaims

/-- Lines written by a prefix that ends in a written line: at least one. -/
theorem written_count_pos (os : List csv_append_outcomes) (i : Nat) (hi : i < os.length)
    (hw : line_written (os.getD i ⟨FRESULT.FR_OK, FRESULT.FR_OK, FRESULT.FR_OK⟩) = true) :
    0 < ((os.take (i + 1)).filter line_written).length := by
  have hget : os.getD i ⟨FRESULT.FR_OK, FRESULT.FR_OK, FRESULT.FR_OK⟩ = os[i] := by
    rw [List.getD_eq_getElem?_getD, List.getElem?_eq_getElem hi]
    rfl
  rw [hget] at hw
  have hmem : os[i] ∈ (os.take (i + 1)).filter line_written := by
    rw [List.mem_filter]
    refine ⟨?_, hw⟩
    rw [List.mem_take_iff_getElem]
    exact ⟨i, by omega, rfl⟩
  exact List.length_pos_of_mem hmem

/-- A run of `n` appends that all succeed, from an open logger with count `c`:
the count ends at `c + n` when that is below `UNSIGNED_MODULUS`. -/
theorem csv_append_run_all_written (o : csv_append_outcomes) (hw : line_written o = true) :
    ∀ (n c : Nat), c + n < UNSIGNED_MODULUS →
      (csv_append_run { opened := true, lines_written := c, flush_interval := 20 }
        (List.replicate n o)).1 =
        { opened := true, lines_written := c + n, flush_interval := 20 } := by
  intro n
  induction n with
  | zero => intro c _; rfl
  | succ n ih =>
    intro c hc
    obtain ⟨e1, _⟩ := csv_append_written
      { opened := true, lines_written := c, flush_interval := 20 } o rfl hw
    have hmod : (c + 1) % UNSIGNED_MODULUS = c + 1 := Nat.mod_eq_of_lt (by omega)
    simp only [List.replicate_succ, csv_append_run]
    rw [e1]
    show (csv_append_run
      { opened := true, lines_written := (c + 1) % UNSIGNED_MODULUS, flush_interval := 20 }
      (List.replicate n o)).1 = _
    rw [hmod, ih (c + 1) (by omega)]
    have : c + 1 + n = c + (n + 1) := by omega
    rw [this]

/-- Counterexample for C29: the logger reached after `csv_open` and 4294967295
appended lines has `lines_written = 4294967295 = 2^32 - 1`.  The next append
(both writes succeeding) wraps the 32-bit counter to 0, which is not
`4294967295 + 1` and not a positive multiple of 20, and calls `f_sync`, although
the line is the 4294967296th and 4294967296 is not a multiple of 20. -/
theorem csv_append_wrap_counterexample :
    (csv_append_run { opened := true, lines_written := 0, flush_interval := 20 }
        (List.replicate 4294967295 ⟨FRESULT.FR_OK, FRESULT.FR_OK, FRESULT.FR_OK⟩)).1 =
      { opened := true, lines_written := 4294967295, flush_interval := 20 } ∧
    line_written ⟨FRESULT.FR_OK, FRESULT.FR_OK, FRESULT.FR_OK⟩ = true ∧
    csv_append (some { opened := true, lines_written := 4294967295, flush_interval := 20 })
        ⟨FRESULT.FR_OK, FRESULT.FR_OK, FRESULT.FR_OK⟩ =
      (FRESULT.FR_OK, some { opened := true, lines_written := 0, flush_interval := 20 },
        [storage_call.f_write, storage_call.f_write, storage_call.f_sync]) ∧
    ¬ ((0 : Nat) = 4294967295 + 1) ∧ ¬ ((0 : Nat) < 0) ∧ ¬ (4294967296 % 20 = 0) := by
  refine ⟨?_, by decide, by decide, by decide, by decide, by decide⟩
  have h := csv_append_run_all_written ⟨FRESULT.FR_OK, FRESULT.FR_OK, FRESULT.FR_OK⟩
    (by decide) 4294967295 0 (by decide)
  rw [h]

/-- C29 (amended): on an open logger whose counter is below `2^32 - 1`,
`csv_append` increases `lines_written` by exactly 1 when its two writes succeed
and calls `f_sync` exactly when the new count is a multiple of a non-zero
`flush_interval`; when a write fails the logger is unchanged and there is no
flush.  Hence, after `csv_open` (flush interval 20), call `i` of a run of
appends flushes exactly when it writes its line and that line is the `k`-th
written one with `k` a positive multiple of 20, for every `k < 2^32`. -/
theorem csv_append_flush_schedule (lg : csv_logger_t) (o : csv_append_outcomes)
    (hopen : lg.opened = true) (hrange : lg.lines_written + 1 < UNSIGNED_MODULUS) :
    (line_written o = true →
      (csv_append (some lg) o).2.1 =
          some { lg with lines_written := lg.lines_written + 1 } ∧
        (storage_call.f_sync ∈ (csv_append (some lg) o).2.2 ↔
          lg.flush_interval ≠ 0 ∧ (lg.lines_written + 1) % lg.flush_interval = 0)) ∧
    (line_written o = false →
      (csv_append (some lg) o).2.1 = some lg ∧
        storage_call.f_sync ∉ (csv_append (some lg) o).2.2) ∧
    (∀ (l lg0 : csv_logger_t) (oo : csv_open_outcomes) (os : List csv_append_outcomes)
        (i : Nat),
      (csv_open (some l) oo).2.1 = some lg0 → lg0.opened = true → i < os.length →
      ((os.take (i + 1)).filter line_written).length < UNSIGNED_MODULUS →
      (storage_call.f_sync ∈ ((csv_append_run lg0 os).2.getD i (FRESULT.FR_OK, [])).2 ↔
        line_written (os.getD i ⟨FRESULT.FR_OK, FRESULT.FR_OK, FRESULT.FR_OK⟩) = true ∧
          0 < ((os.take (i + 1)).filter line_written).length ∧
          ((os.take (i + 1)).filter line_written).length % 20 = 0)) := by
  have hmod : (lg.lines_written + 1) % UNSIGNED_MODULUS = lg.lines_written + 1 :=
    Nat.mod_eq_of_lt hrange
  refine ⟨?_, ?_, ?_⟩
  · intro hw
    obtain ⟨e1, e2⟩ := csv_append_written lg o hopen hw
    rw [hmod] at e1 e2
    exact ⟨e1, e2⟩
  · intro hw
    obtain ⟨e1, e2, _⟩ := csv_append_not_written lg o hopen hw
    exact ⟨e1, e2⟩
  · intro l lg0 oo os i h0 hop hi hk
    rw [csv_open_opened l oo lg0 h0 hop]
    have := csv_append_run_flush os 0 i hi (by omega)
    rw [Nat.zero_add] at this
    rw [this]
    constructor
    · rintro ⟨h1, h2⟩
      exact ⟨h1, written_count_pos os i hi h1, h2⟩
    · rintro ⟨h1, _, h2⟩
      exact ⟨h1, h2⟩

/-- Witness for C29 (amended): the 20th line on a logger that has written 19. -/
theorem csv_append_flush_schedule_witness :
    storage_call.f_sync ∈
      (csv_append (some { opened := true, lines_written := 19, flush_interval := 20 })
        ⟨FRESULT.FR_OK, FRESULT.FR_OK, FRESULT.FR_OK⟩).2.2 :=
  ((csv_append_flush_schedule { opened := true, lines_written := 19, flush_interval := 20 }
    ⟨FRESULT.FR_OK, FRESULT.FR_OK, FRESULT.FR_OK⟩ rfl (by decide)).1 (by decide)).2.mpr
    (by decide)

/-- C30: `csv_open` on a non-null logger with `f_open` and both header writes
succeeding and `f_sync` failing (here with code 1, `FR_DISK_ERR`) returns the
error of `f_sync` and leaves the logger open. -/
theorem csv_open_sync_failure :
    csv_open (some { opened := false, lines_written := 0, flush_interval := 0 })
        ⟨FRESULT.FR_OK, FRESULT.FR_OK, FRESULT.FR_OK, FRESULT.FR_OTHER 1⟩ =
      (FRESULT.FR_OTHER 1,
        some { opened := true, lines_written := 0, flush_interval := 20 },
        [storage_call.f_open, storage_call.f_write, storage_call.f_write,
          storage_call.f_sync]) := by
  decide

/-- After `csv_open` on a non-null logger: the logger is open exactly when
`f_open` and both header writes succeeded, and then the result is that of
`f_sync`; so a result `FR_OK` implies an open logger. -/
theorem csv_open_opened_iff (l : csv_logger_t) (oo : csv_open_outcomes) :
    (∃ lg0, (csv_open (some l) oo).2.1 = some lg0 ∧
      (lg0.opened = true ↔ oo.f_open = FRESULT.FR_OK ∧ oo.f_write_header = FRESULT.FR_OK ∧
        oo.f_write_newline = FRESULT.FR_OK) ∧
      (lg0.opened = true → (csv_open (some l) oo).1 = oo.f_sync) ∧
      ((csv_open (some l) oo).1 = FRESULT.FR_OK → lg0.opened = true)) := by
  unfold csv_open
  simp only
  by_cases h1 : oo.f_open = FRESULT.FR_OK
  · by_cases h2 : oo.f_write_header = FRESULT.FR_OK
    · by_cases h3 : oo.f_write_newline = FRESULT.FR_OK
      · simp [h1, h2, h3]
      · simp [h1, h2, h3]
    · simp [h1, h2]
  · simp [h1]

/-- On a logger that is not open (or a NULL pointer) `csv_append` and
`csv_close` return `FR_INVALID_OBJECT`, make no library call and leave the
logger as it is. -/
theorem csv_not_open_rejected (lg : Option csv_logger_t)
    (h : ∀ l, lg = some l → l.opened = false) (oa : csv_append_outcomes)
    (oc : csv_close_outcomes) :
    csv_append lg oa = (FRESULT.FR_INVALID_OBJECT, lg, []) ∧
    csv_close lg oc = (FRESULT.FR_INVALID_OBJECT, lg, []) := by
  cases lg with
  | none => exact ⟨rfl, rfl⟩
  | some l =>
    have hl := h l rfl
    unfold csv_append csv_close
    simp [hl]

end CsvLoggerClaims

section StorageSinkTheorems

/-- The function `ensure_sd_mounted` leaves the logger and the two flags alone. -/
theorem ensure_sd_mounted_flags (st : sink_state) (o : mount_outcomes) :
    (ensure_sd_mounted st o).2.1.g_csv_logger_ready = st.g_csv_logger_ready ∧
    (ensure_sd_mounted st o).2.1.g_csv_logger_failed = st.g_csv_logger_failed := by
  unfold ensure_sd_mounted
  simp only
  split_ifs <;> exact ⟨rfl, rfl⟩

/-- The flags after `init_csv_logging`: untouched when one of them is set on
entry; otherwise exactly one of them is set, `ready` on success and `failed` on
failure. -/
theorem init_csv_logging_flags (st : sink_state) (o : init_outcomes) :
    (st.g_csv_logger_ready = true → init_csv_logging st o = (true, st, [])) ∧
    (st.g_csv_logger_ready = false → st.g_csv_logger_failed = true →
      init_csv_logging st o = (false, st, [])) ∧
    (st.g_csv_logger_ready = false → st.g_csv_logger_failed = false →
      ((init_csv_logging st o).1 = true ∧
          (init_csv_logging st o).2.1.g_csv_logger_ready = true ∧
          (init_csv_logging st o).2.1.g_csv_logger_failed = false) ∨
        ((init_csv_logging st o).1 = false ∧
          (init_csv_logging st o).2.1.g_csv_logger_ready = false ∧
          (init_csv_logging st o).2.1.g_csv_logger_failed = true)) := by
  refine ⟨?_, ?_, ?_⟩
  · intro h
    unfold init_csv_logging
    rw [if_pos h]
  · intro h1 h2
    unfold init_csv_logging
    rw [if_neg (by rw [h1]; decide), if_pos h2]
  · intro h1 h2
    obtain ⟨m1, m2⟩ := ensure_sd_mounted_flags st o.mount
    rw [h1] at m1
    rw [h2] at m2
    unfold init_csv_logging
    simp only
    rw [if_neg (by rw [h1]; decide), if_neg (by rw [h2]; decide)]
    split_ifs
    · exact Or.inr ⟨rfl, m1, rfl⟩
    · exact Or.inr ⟨rfl, m1, rfl⟩
    · exact Or.inr ⟨rfl, m1, rfl⟩
    · exact Or.inl ⟨rfl, rfl, m2⟩

theorem sink_step_init (st : sink_state) (o : init_outcomes) :
    sink_step st (sink_call.init o) =
      ((init_csv_logging st o).2.1, (init_csv_logging st o).2.2) := rfl

theorem sink_step_append (st : sink_state) (o : append_line_outcomes) :
    sink_step st (sink_call.append o) = append_csv_line st o := rfl

theorem bool_eq_false_of_ne_true {b : Bool} (h : ¬ b = true) : b = false := by
  cases b
  · rfl
  · exact absurd rfl h

/-- The flags after `append_csv_line`: with `failed` set on entry the call
returns at once (no library call, no change); otherwise exactly one of the two
flags is set afterwards. -/
theorem append_csv_line_flags (st : sink_state) (o : append_line_outcomes) :
    (st.g_csv_logger_failed = true → append_csv_line st o = (st, [])) ∧
    (st.g_csv_logger_failed = false →
      ((append_csv_line st o).1.g_csv_logger_ready = true ∧
          (append_csv_line st o).1.g_csv_logger_failed = false) ∨
        ((append_csv_line st o).1.g_csv_logger_ready = false ∧
          (append_csv_line st o).1.g_csv_logger_failed = true)) := by
  constructor
  · intro h
    unfold append_csv_line
    rw [if_pos h]
  · intro hf
    have key : ∀ r : Bool × sink_state × List storage_call,
        ((r.1 = true ∧ r.2.1.g_csv_logger_ready = true ∧ r.2.1.g_csv_logger_failed = false) ∨
          (r.1 = false ∧ r.2.1.g_csv_logger_ready = false ∧
            r.2.1.g_csv_logger_failed = true)) →
        (((if !r.1 then (r.2.1, r.2.2)
          else
            let a := csv_append (some r.2.1.g_csv_logger) o.csv_append
            let st2 : sink_state :=
              { r.2.1 with g_csv_logger := a.2.1.getD r.2.1.g_csv_logger }
            if a.1 ≠ FRESULT.FR_OK then
              let cl := csv_close (some st2.g_csv_logger) o.csv_close
              (({ st2 with g_csv_logger := cl.2.1.getD st2.g_csv_logger
                           g_csv_logger_ready := false
                           g_csv_logger_failed := true } : sink_state),
                r.2.2 ++ a.2.2 ++ cl.2.2)
            else (st2, r.2.2 ++ a.2.2)) : sink_state × List storage_call).1.g_csv_logger_ready
              = true ∧
          ((if !r.1 then (r.2.1, r.2.2)
          else
            let a := csv_append (some r.2.1.g_csv_logger) o.csv_append
            let st2 : sink_state :=
              { r.2.1 with g_csv_logger := a.2.1.getD r.2.1.g_csv_logger }
            if a.1 ≠ FRESULT.FR_OK then
              let cl := csv_close (some st2.g_csv_logger) o.csv_close
              (({ st2 with g_csv_logger := cl.2.1.getD st2.g_csv_logger
                           g_csv_logger_ready := false
                           g_csv_logger_failed := true } : sink_state),
                r.2.2 ++ a.2.2 ++ cl.2.2)
            else (st2, r.2.2 ++ a.2.2)) : sink_state × List storage_call).1.g_csv_logger_failed
              = false) ∨
        (((if !r.1 then (r.2.1, r.2.2)
          else
            let a := csv_append (some r.2.1.g_csv_logger) o.csv_append
            let st2 : sink_state :=
              { r.2.1 with g_csv_logger := a.2.1.getD r.2.1.g_csv_logger }
            if a.1 ≠ FRESULT.FR_OK then
              let cl := csv_close (some st2.g_csv_logger) o.csv_close
              (({ st2 with g_csv_logger := cl.2.1.getD st2.g_csv_logger
                           g_csv_logger_ready := false
                           g_csv_logger_failed := true } : sink_state),
                r.2.2 ++ a.2.2 ++ cl.2.2)
            else (st2, r.2.2 ++ a.2.2)) : sink_state × List storage_call).1.g_csv_logger_ready
              = false ∧
          ((if !r.1 then (r.2.1, r.2.2)
          else
            let a := csv_append (some r.2.1.g_csv_logger) o.csv_append
            let st2 : sink_state :=
              { r.2.1 with g_csv_logger := a.2.1.getD r.2.1.g_csv_logger }
            if a.1 ≠ FRESULT.FR_OK then
              let cl := csv_close (some st2.g_csv_logger) o.csv_close
              (({ st2 with g_csv_logger := cl.2.1.getD st2.g_csv_logger
                           g_csv_logger_ready := false
                           g_csv_logger_failed := true } : sink_state),
                r.2.2 ++ a.2.2 ++ cl.2.2)
            else (st2, r.2.2 ++ a.2.2)) : sink_state × List storage_call).1.g_csv_logger_failed
              = true) := by
      intro r hr
      rcases hr with ⟨h1, h2, h3⟩ | ⟨h1, h2, h3⟩
      · simp only [h1, Bool.not_true, Bool.false_eq_true, if_false]
        split_ifs
        · exact Or.inr ⟨rfl, rfl⟩
        · exact Or.inl ⟨h2, h3⟩
      · simp only [h1, Bool.not_false, if_true]
        exact Or.inr ⟨h2, h3⟩
    by_cases hrd : st.g_csv_logger_ready = true
    · have := key (true, st, []) (Or.inl ⟨rfl, hrd, hf⟩)
      unfold append_csv_line
      simp only [hf, hrd, Bool.false_eq_true, if_false, Bool.not_true] at this ⊢
      exact this
    · have hrd2 := bool_eq_false_of_ne_true hrd
      have hinit := (init_csv_logging_flags st o.init).2.2 hrd2 hf
      have := key (init_csv_logging st o.init) hinit
      unfold append_csv_line
      simp only [hf, hrd2, Bool.false_eq_true, if_false, Bool.not_false, if_true] at this ⊢
      exact this

/-- With `g_csv_logger_failed` set, a call into the sink returns at once: no
library call, no change of state. -/
theorem sink_step_failed (st : sink_state) (c : sink_call)
    (h : st.g_csv_logger_failed = true) : sink_step st c = (st, []) := by
  cases c with
  | init o =>
    rw [sink_step_init]
    by_cases hr : st.g_csv_logger_ready = true
    · rw [(init_csv_logging_flags st o).1 hr]
    · rw [(init_csv_logging_flags st o).2.1 (bool_eq_false_of_ne_true hr) h]
  | append o =>
    rw [sink_step_append]
    exact (append_csv_line_flags st o).1 h

/-- The two flags are not both set after a call into the sink when they are not
both set before it. -/
theorem sink_step_exclusive (st : sink_state) (c : sink_call)
    (h : ¬ (st.g_csv_logger_ready = true ∧ st.g_csv_logger_failed = true)) :
    ¬ ((sink_step st c).1.g_csv_logger_ready = true ∧
      (sink_step st c).1.g_csv_logger_failed = true) := by
  by_cases hf : st.g_csv_logger_failed = true
  · rw [sink_step_failed st c hf]
    exact h
  have hf2 := bool_eq_false_of_ne_true hf
  have hdis : ∀ s : sink_state,
      ((s.g_csv_logger_ready = true ∧ s.g_csv_logger_failed = false) ∨
        (s.g_csv_logger_ready = false ∧ s.g_csv_logger_failed = true)) →
      ¬ (s.g_csv_logger_ready = true ∧ s.g_csv_logger_failed = true) := by
    intro s hs
    rcases hs with ⟨_, h2⟩ | ⟨h1, _⟩
    · rintro ⟨_, h4⟩
      rw [h2] at h4
      exact absurd h4 (by decide)
    · rintro ⟨h4, _⟩
      rw [h1] at h4
      exact absurd h4 (by decide)
  cases c with
  | init o =>
    rw [sink_step_init]
    by_cases hr : st.g_csv_logger_ready = true
    · rw [(init_csv_logging_flags st o).1 hr]
      exact h
    · rcases (init_csv_logging_flags st o).2.2 (bool_eq_false_of_ne_true hr) hf2 with
        ⟨_, h2, h3⟩ | ⟨_, h2, h3⟩
      · exact hdis _ (Or.inl ⟨h2, h3⟩)
      · exact hdis _ (Or.inr ⟨h2, h3⟩)
  | append o =>
    rw [sink_step_append]
    exact hdis _ ((append_csv_line_flags st o).2 hf2)

/-- Every state along a run of calls from a state whose flags are not both set
has its flags not both set. -/
theorem sink_run_exclusive (calls : List sink_call) :
    ∀ st : sink_state, ¬ (st.g_csv_logger_ready = true ∧ st.g_csv_logger_failed = true) →
      ∀ p ∈ sink_run st calls,
        ¬ (p.1.g_csv_logger_ready = true ∧ p.1.g_csv_logger_failed = true) := by
  induction calls with
  | nil => intro st _ p hp; simp [sink_run] at hp
  | cons c rest ih =>
    intro st hst p hp
    have hstep := sink_step_exclusive st c hst
    simp only [sink_run, List.mem_cons] at hp
    rcases hp with rfl | hp
    · exact hstep
    · exact ih _ hstep p hp

/-- From a state with `failed` set every call of a run returns at once. -/
theorem sink_run_failed (calls : List sink_call) :
    ∀ st : sink_state, st.g_csv_logger_failed = true →
      ∀ p ∈ sink_run st calls, p = (st, []) := by
  induction calls with
  | nil => intro st _ p hp; simp [sink_run] at hp
  | cons c rest ih =>
    intro st hst p hp
    have hstep := sink_step_failed st c hst
    simp only [sink_run, List.mem_cons] at hp
    rw [hstep] at hp
    rcases hp with rfl | hp
    · rfl
    · exact ih st hst p hp

/-- The part of a run after call `i` is the run of the remaining calls from the
state call `i` left. -/
theorem sink_run_drop (calls : List sink_call) :
    ∀ (st : sink_state) (i : Nat) (p : sink_state × List storage_call),
      (sink_run st calls)[i]? = some p →
      (sink_run st calls).drop (i + 1) = sink_run p.1 (calls.drop (i + 1)) := by
  induction calls with
  | nil => intro st i p hp; simp [sink_run] at hp
  | cons c rest ih =>
    intro st i p hp
    cases i with
    | zero =>
      simp only [sink_run, List.getElem?_cons_zero, Option.some.injEq] at hp
      subst hp
      simp [sink_run]
    | succ j =>
      simp only [sink_run, List.getElem?_cons_succ] at hp
      simp only [sink_run, List.drop_succ_cons]
      exact ih _ j p hp

/-- C23: along every sequence of calls of `init_csv_logging` and
`append_csv_line` from program start, whatever the library calls return: the
flags `g_csv_logger_ready` and `g_csv_logger_failed` are never both set; once
`g_csv_logger_failed` is set it stays set, and every later call leaves the
state as it is and makes no library call (no initialisation attempt, no write);
in particular `append_csv_line` with `failed` set returns at once. -/
theorem sink_failed_latches (calls : List sink_call) :
    (∀ (i : Nat) (p : sink_state × List storage_call),
      (sink_run sink_initial calls)[i]? = some p →
      ¬ (p.1.g_csv_logger_ready = true ∧ p.1.g_csv_logger_failed = true)) ∧
    (∀ (i j : Nat) (p q : sink_state × List storage_call), i < j →
      (sink_run sink_initial calls)[i]? = some p → p.1.g_csv_logger_failed = true →
      (sink_run sink_initial calls)[j]? = some q →
      q.1.g_csv_logger_failed = true ∧ q = (p.1, [])) ∧
    (∀ (st : sink_state) (o : append_line_outcomes), st.g_csv_logger_failed = true →
      append_csv_line st o = (st, [])) := by
  have h0 : ¬ (sink_initial.g_csv_logger_ready = true ∧
      sink_initial.g_csv_logger_failed = true) := by decide
  refine ⟨?_, ?_, fun st o h => (append_csv_line_flags st o).1 h⟩
  · intro i p hp
    exact sink_run_exclusive calls sink_initial h0 p (List.getElem?_mem hp)
  · intro i j p q hij hp hf hq
    have hdrop := sink_run_drop calls sink_initial i p hp
    have hq2 : ((sink_run sink_initial calls).drop (i + 1))[j - (i + 1)]? = some q := by
      rw [List.getElem?_drop]
      have : i + 1 + (j - (i + 1)) = j := by omega
      rw [this]
      exact hq
    rw [hdrop] at hq2
    have := sink_run_failed (calls.drop (i + 1)) p.1 hf q (List.getElem?_mem hq2)
    rw [this]
    exact ⟨hf, rfl⟩

/-- Witness for C23: initialisation fails at `sd_init_driver`; the append that
follows makes no library call. -/
theorem sink_failed_latches_witness :
    append_csv_line
        (sink_step sink_initial (sink_call.init
          ⟨⟨false, false, false, FRESULT.FR_OK, FRESULT.FR_OK, FRESULT.FR_OK⟩, FRESULT.FR_OK,
            ⟨FRESULT.FR_OK, FRESULT.FR_OK, FRESULT.FR_OK, FRESULT.FR_OK⟩⟩)).1
        ⟨⟨⟨true, true, true, FRESULT.FR_OK, FRESULT.FR_OK, FRESULT.FR_OK⟩, FRESULT.FR_OK,
            ⟨FRESULT.FR_OK, FRESULT.FR_OK, FRESULT.FR_OK, FRESULT.FR_OK⟩⟩,
          ⟨FRESULT.FR_OK, FRESULT.FR_OK, FRESULT.FR_OK⟩, ⟨FRESULT.FR_OK, FRESULT.FR_OK⟩⟩ =
      ((sink_step sink_initial (sink_call.init
          ⟨⟨false, false, false, FRESULT.FR_OK, FRESULT.FR_OK, FRESULT.FR_OK⟩, FRESULT.FR_OK,
            ⟨FRESULT.FR_OK, FRESULT.FR_OK, FRESULT.FR_OK, FRESULT.FR_OK⟩⟩)).1, []) :=
  (sink_failed_latches []).2.2 _ _ (by decide)

end StorageSinkTheorems

section RateMonitorTheorems

/-- One tick of the rate monitor: it warns exactly when `dt_us > 0`, the drift
exceeds 5 % and the throttle time is reached; `last_sample_us` becomes the
timestamp, and `next_rate_warn_us` moves one second past it on a warning. -/
theorem rate_monitor_step_spec (m : rate_monitor) (t : Nat) :
    ((rate_monitor_step m t).2 = true ↔
      0 < sample_dt_us m.last_sample_us t ∧
        rate_drift (sample_dt_us m.last_sample_us t) > 0.05 ∧ m.next_rate_warn_us ≤ t) ∧
    (rate_monitor_step m t).1.last_sample_us = t ∧
    ((rate_monitor_step m t).2 = true →
      (rate_monitor_step m t).1.next_rate_warn_us = (t + 1000000) % UINT64_MODULUS) ∧
    ((rate_monitor_step m t).2 = false →
      (rate_monitor_step m t).1.next_rate_warn_us = m.next_rate_warn_us) := by
  by_cases h1 : sample_dt_us m.last_sample_us t > 0
  · by_cases h2 : rate_drift (sample_dt_us m.last_sample_us t) > 0.05 ∧
        t ≥ m.next_rate_warn_us
    · have e : rate_monitor_step m t = ((⟨t, (t + 1000000) % UINT64_MODULUS⟩ : rate_monitor), true) := by
        unfold rate_monitor_step
        simp only
        rw [if_pos h1, if_pos h2]
      rw [e]
      exact ⟨⟨fun _ => ⟨h1, h2.1, h2.2⟩, fun _ => rfl⟩, rfl, fun _ => rfl,
        fun h => Bool.noConfusion h⟩
    · have e : rate_monitor_step m t = ((⟨t, m.next_rate_warn_us⟩ : rate_monitor), false) := by
        unfold rate_monitor_step
        simp only
        rw [if_pos h1, if_neg h2]
      rw [e]
      exact ⟨⟨fun h => Bool.noConfusion h, fun h => absurd ⟨h.2.1, h.2.2⟩ h2⟩, rfl,
        fun h => Bool.noConfusion h, fun _ => rfl⟩
  · have e : rate_monitor_step m t = ((⟨t, m.next_rate_warn_us⟩ : rate_monitor), false) := by
      unfold rate_monitor_step
      simp only
      rw [if_neg h1]
    rw [e]
    exact ⟨⟨fun h => Bool.noConfusion h, fun h => absurd h.1 h1⟩, rfl,
      fun h => Bool.noConfusion h, fun _ => rfl⟩

/-- A warning on tick `i` of a run implies `dt_us > 0` and a drift above 5 % on
that tick, `dt_us` being taken from the previous timestamp. -/
theorem rate_monitor_run_warn (ts : List Nat) :
    ∀ (m : rate_monitor) (i : Nat), i < ts.length →
      (rate_monitor_run m ts).2.getD i false = true →
      0 < sample_dt_us ((m.last_sample_us :: ts).getD i 0) (ts.getD i 0) ∧
        rate_drift (sample_dt_us ((m.last_sample_us :: ts).getD i 0) (ts.getD i 0)) > 0.05 := by
  induction ts with
  | nil => intro m i hi; simp at hi
  | cons t rest ih =>
    intro m i hi hw
    obtain ⟨h1, h2, _, _⟩ := rate_monitor_step_spec m t
    cases i with
    | zero =>
      simp only [rate_monitor_run, List.getD_cons_zero] at hw ⊢
      obtain ⟨a, b, _⟩ := h1.mp hw
      exact ⟨a, b⟩
    | succ j =>
      have hj : j < rest.length := by simpa using hi
      simp only [rate_monitor_run, List.getD_cons_succ] at hw ⊢
      have := ih (rate_monitor_step m t).1 j hj hw
      rw [h2] at this
      exact this

/-- Throttle of the warnings, for timestamps that stay one second below the
wrap of the 64-bit clock: a warning is never earlier than `next_rate_warn_us`,
and a later warning is at least 1000000 microseconds after an earlier one. -/
theorem rate_monitor_run_spacing (ts : List Nat) :
    ∀ (m : rate_monitor), (∀ t ∈ ts, t + 1000000 < UINT64_MODULUS) →
      (∀ j, j < ts.length → (rate_monitor_run m ts).2.getD j false = true →
        m.next_rate_warn_us ≤ ts.getD j 0) ∧
      (∀ i j, i < j → j < ts.length → (rate_monitor_run m ts).2.getD i false = true →
        (rate_monitor_run m ts).2.getD j false = true →
        ts.getD i 0 + 1000000 ≤ ts.getD j 0) := by
  induction ts with
  | nil =>
    intro m _
    exact ⟨fun j hj => by simp at hj, fun i j _ hj => by simp at hj⟩
  | cons t rest ih =>
    intro m hr
    obtain ⟨h1, _, h3, h4⟩ := rate_monitor_step_spec m t
    have hrest : ∀ u ∈ rest, u + 1000000 < UINT64_MODULUS :=
      fun u hu => hr u (List.mem_cons_of_mem _ hu)
    have ht : t + 1000000 < UINT64_MODULUS := hr t (List.mem_cons_self _ _)
    obtain ⟨iha, ihb⟩ := ih (rate_monitor_step m t).1 hrest
    have hmono : m.next_rate_warn_us ≤ (rate_monitor_step m t).1.next_rate_warn_us := by
      cases hw : (rate_monitor_step m t).2
      · rw [h4 hw]
      · rw [h3 hw, Nat.mod_eq_of_lt ht]
        have := (h1.mp hw).2.2
        omega
    constructor
    · intro j hj hw
      cases j with
      | zero =>
        simp only [rate_monitor_run, List.getD_cons_zero] at hw ⊢
        exact (h1.mp hw).2.2
      | succ k =>
        have hk : k < rest.length := by simpa using hj
        simp only [rate_monitor_run, List.getD_cons_succ] at hw ⊢
        exact le_trans hmono (iha k hk hw)
    · intro i j hij hj hwi hwj
      cases j with
      | zero => omega
      | succ k =>
        have hk : k < rest.length := by simpa using hj
        simp only [rate_monitor_run, List.getD_cons_succ] at hwj
        cases i with
        | zero =>
          simp only [rate_monitor_run, List.getD_cons_zero] at hwi
          simp only [List.getD_cons_zero, List.getD_cons_succ]
          have hnext := h3 hwi
          rw [Nat.mod_eq_of_lt ht] at hnext
          have := iha k hk hwj
          rw [hnext] at this
          exact this
        | succ l =>
          simp only [rate_monitor_run, List.getD_cons_succ] at hwi
          simp only [List.getD_cons_succ]
          exact ihb l k (by omega) hk hwi hwj

/-- The window state and the emissions of the sampling loop are those of the
window update alone, and the warnings are those of the rate monitor alone: each
part reads and writes only its own variables. -/
theorem main_run_split {α : Type} [LinearOrderedField α] (W H : Nat)
    (xs : List (Nat × imu_sample α)) :
    ∀ st : main_loop_state α,
      (main_run W H st xs).1.window = (run_ticks W H st.window (xs.map (·.2))).1 ∧
      (main_run W H st xs).2.map (·.2) = (run_ticks W H st.window (xs.map (·.2))).2 ∧
      (main_run W H st xs).1.monitor = (rate_monitor_run st.monitor (xs.map (·.1))).1 ∧
      (main_run W H st xs).2.map (·.1) = (rate_monitor_run st.monitor (xs.map (·.1))).2 := by
  induction xs with
  | nil => intro st; exact ⟨rfl, rfl, rfl, rfl⟩
  | cons x rest ih =>
    intro st
    obtain ⟨h1, h2, h3, h4⟩ := ih (main_iteration W H st x.1 x.2).1
    simp only [main_run, List.map_cons, run_ticks, rate_monitor_run]
    refine ⟨h1, ?_, h3, ?_⟩
    · rw [h2]; rfl
    · rw [h4]; rfl

end RateMonitorTheorems

section RateMonitorClaims

/-- C24: for every sequence of ticks, from any window state and any loop entry
time `t0`: a drift warning is printed on a tick only if `dt_us > 0` and
`|1e6/dt_us − SAMPLE_HZ| / SAMPLE_HZ > 0.05` (`dt_us` the 64-bit difference to
the previous timestamp); a later warning is at least 1000000 microseconds after
an earlier one; and the window state and the emissions are those of the window
update run on the samples alone, whatever the timestamps and the warnings are.
The timestamps are values of `time_us_64()`, the microseconds since boot, which
the program never sets: `hrange` states that they are below `2^64 - 1000000`,
which holds for the first 584 000 years after boot, so that the 64-bit sum
`sample_time_us + 1000000u` of line 318 does not wrap. -/
theorem drift_warnings_throttled {α : Type} [LinearOrderedField α] (W H : Nat)
    (st0 : loop_state α) (t0 : Nat) (xs : List (Nat × imu_sample α))
    (hrange : ∀ x ∈ xs, x.1 + 1000000 < UINT64_MODULUS) :
    (∀ i, i < xs.length →
      ((main_run W H ⟨rate_monitor_init t0, st0⟩ xs).2.getD i (false, none)).1 = true →
      0 < sample_dt_us ((t0 :: xs.map (·.1)).getD i 0) ((xs.map (·.1)).getD i 0) ∧
        |(1000000 : ℚ) /
            ((sample_dt_us ((t0 :: xs.map (·.1)).getD i 0) ((xs.map (·.1)).getD i 0) : Nat) : ℚ) -
          (SAMPLE_HZ : ℚ)| / (SAMPLE_HZ : ℚ) > 0.05) ∧
    (∀ i j, i < j → j < xs.length →
      ((main_run W H ⟨rate_monitor_init t0, st0⟩ xs).2.getD i (false, none)).1 = true →
      ((main_run W H ⟨rate_monitor_init t0, st0⟩ xs).2.getD j (false, none)).1 = true →
      (xs.map (·.1)).getD i 0 + 1000000 ≤ (xs.map (·.1)).getD j 0) ∧
    (main_run W H ⟨rate_monitor_init t0, st0⟩ xs).1.window =
      (run_ticks W H st0 (xs.map (·.2))).1 ∧
    (main_run W H ⟨rate_monitor_init t0, st0⟩ xs).2.map (·.2) =
      (run_ticks W H st0 (xs.map (·.2))).2 := by
  obtain ⟨h1, h2, _, h4⟩ := main_run_split W H xs ⟨rate_monitor_init t0, st0⟩
  have hflag : ∀ i, ((main_run W H ⟨rate_monitor_init t0, st0⟩ xs).2.getD i (false, none)).1 =
      (rate_monitor_run (rate_monitor_init t0) (xs.map (·.1))).2.getD i false := by
    intro i
    rw [← h4]
    simp only [List.getD_eq_getElem?_getD, List.getElem?_map]
    cases (main_run W H ⟨rate_monitor_init t0, st0⟩ xs).2[i]? <;> rfl
  have hr2 : ∀ t ∈ xs.map (·.1), t + 1000000 < UINT64_MODULUS := by
    intro t ht
    obtain ⟨x, hx, rfl⟩ := List.mem_map.mp ht
    exact hrange x hx
  obtain ⟨_, hsp⟩ := rate_monitor_run_spacing (xs.map (·.1)) (rate_monitor_init t0) hr2
  refine ⟨?_, ?_, h1, h2⟩
  · intro i hi hw
    rw [hflag] at hw
    exact rate_monitor_run_warn (xs.map (·.1)) (rate_monitor_init t0) i
      (by rw [List.length_map]; exact hi) hw
  · intro i j hij hj hwi hwj
    rw [hflag] at hwi hwj
    exact hsp i j hij (by rw [List.length_map]; exact hj) hwi hwj

/-- Witness for C24: three ticks 100 ms apart (10 Hz instead of
100 Hz) from time 0; the window state after them is that of the three pushes. -/
theorem drift_warnings_throttled_witness :
    (main_run 2 1 ⟨rate_monitor_init 0, initial_state 2⟩
        [(100000, (⟨1, 2, 3, 4, 5, 6⟩ : imu_sample ℚ)), (200000, ⟨7, 8, 9, 10, 11, 12⟩),
          (300000, ⟨13, 14, 15, 16, 17, 18⟩)]).1.window =
      (run_ticks 2 1 (initial_state 2)
        ([(100000, (⟨1, 2, 3, 4, 5, 6⟩ : imu_sample ℚ)), (200000, ⟨7, 8, 9, 10, 11, 12⟩),
          (300000, ⟨13, 14, 15, 16, 17, 18⟩)].map (·.2))).1 :=
  (drift_warnings_throttled 2 1 (initial_state 2) 0
    [(100000, (⟨1, 2, 3, 4, 5, 6⟩ : imu_sample ℚ)), (200000, ⟨7, 8, 9, 10, 11, 12⟩),
      (300000, ⟨13, 14, 15, 16, 17, 18⟩)]
    (by
      intro x hx
      simp only [List.mem_cons, List.mem_singleton, List.not_mem_nil, or_false] at hx
      rcases hx with rfl | rfl | rfl <;> decide)).2.2.1

end RateMonitorClaims

section RecordTheorems

/-- Counterexample for C25: for a concrete window the record handed to the
storage sink has 17 fields, not the 22 of the specification; `amag_mean`,
`amag_rms`, `energy`, `pitch_rate_std` and `roll_rate_std` are not in it.  The
window: `t_ms = 1000`, sample `1 .. 6`, features `7 .. 18`, label 1, latency 19,
quantised length 0. -/
theorem storage_record_counterexample :
    (storage_record (⟨1000, 1, 2, 3, 4, 5, 6, ⟨⟨7, 8, 9, 10, 11, 12, 13⟩, 14, 15, 16, 17, 18⟩, 1, 19, 0⟩ :
        window_locals ℚ)).length = 17 ∧
    (record_spec (⟨1000, 1, 2, 3, 4, 5, 6, ⟨⟨7, 8, 9, 10, 11, 12, 13⟩, 14, 15, 16, 17, 18⟩, 1, 19, 0⟩ :
        window_locals ℚ)).length = 22 ∧
    storage_record (⟨1000, 1, 2, 3, 4, 5, 6, ⟨⟨7, 8, 9, 10, 11, 12, 13⟩, 14, 15, 16, 17, 18⟩, 1, 19, 0⟩ :
        window_locals ℚ) ≠
      record_spec (⟨1000, 1, 2, 3, 4, 5, 6, ⟨⟨7, 8, 9, 10, 11, 12, 13⟩, 14, 15, 16, 17, 18⟩, 1, 19, 0⟩ :
        window_locals ℚ) := by
  refine ⟨rfl, rfl, ?_⟩
  intro h
  have := congrArg List.length h
  exact absurd this (by decide)

/-- C25 (amended): for every emitted window the record of the console sink
consists of exactly the 22 fields of the specification, in its order, under the
header `CSV_HEADER` of 22 columns; the record handed to the storage sink
consists of the 17 fields `t_ms, ax, ay, az, gx, gy, gz, amag_std, dom_freq,
bandpower_low, bandpower_high, gx_std, gy_std, gz_std, class, latency_ms,
quantized_len`, in this order, under the header `kCsvHeader` of 17 columns;
each format string has one conversion per field. -/
theorem sink_records {α : Type} [LinearOrderedField α] (w : window_locals α) :
    console_record w = record_spec w ∧
    (console_record w).length = 22 ∧
    header_column_count CSV_HEADER = (console_record w).length ∧
    conversion_count kConsoleFormat = (console_record w).length ∧
    storage_record w =
      [record_value.unsigned w.t_ms, record_value.floating w.ax, record_value.floating w.ay,
       record_value.floating w.az, record_value.floating w.gx, record_value.floating w.gy,
       record_value.floating w.gz, record_value.floating w.feat.amag.std,
       record_value.floating w.feat.amag.dom_freq, record_value.floating w.feat.amag.bp1,
       record_value.floating w.feat.amag.bp2, record_value.floating w.feat.gx_std,
       record_value.floating w.feat.gy_std, record_value.floating w.feat.gz_std,
       record_value.signed w.cls, record_value.floating w.lat_ms,
       record_value.signed w.q_len] ∧
    (storage_record w).length = 17 ∧
    header_column_count kCsvHeader = (storage_record w).length ∧
    conversion_count kCsvLineFormat = (storage_record w).length := by
  have hc : header_column_count CSV_HEADER = 22 := by decide
  have hk : header_column_count kCsvHeader = 17 := by decide
  have fc : conversion_count kConsoleFormat = 22 := by decide
  have fk : conversion_count kCsvLineFormat = 17 := by decide
  refine ⟨rfl, rfl, ?_, ?_, rfl, rfl, ?_, ?_⟩
  · rw [hc]; rfl
  · rw [fc]; rfl
  · rw [hk]; rfl
  · rw [fk]; rfl

end RecordTheorems

section QuantizeMonotoneTheorems

variable {α : Type} [LinearOrderedField α] [FloorRing α]

/-- Rounding to nearest (ties to even) is monotone. -/
theorem lrintf_mono {y1 y2 : α} (h : y1 ≤ y2) : lrintf y1 ≤ lrintf y2 := by
  have hfl : ⌊y1⌋ ≤ ⌊y2⌋ := Int.floor_mono h
  have hlo1 : ⌊y1⌋ ≤ lrintf y1 := by rcases lrintf_cases y1 with e | e <;> omega
  have hhi1 : lrintf y1 ≤ ⌊y1⌋ + 1 := by rcases lrintf_cases y1 with e | e <;> omega
  have hlo2 : ⌊y2⌋ ≤ lrintf y2 := by rcases lrintf_cases y2 with e | e <;> omega
  have hhi2 : lrintf y2 ≤ ⌊y2⌋ + 1 := by rcases lrintf_cases y2 with e | e <;> omega
  rcases lt_or_eq_of_le hfl with hlt | heq
  · omega
  · have hd : y1 - ((⌊y1⌋ : Int) : α) ≤ y2 - ((⌊y1⌋ : Int) : α) := by linarith
    unfold lrintf
    simp only
    rw [← heq]
    by_cases a1 : y1 - ((⌊y1⌋ : Int) : α) < 1 / 2
    · rw [if_pos a1]
      split_ifs <;> omega
    · rw [if_neg a1]
      by_cases a2 : 1 / 2 < y1 - ((⌊y1⌋ : Int) : α)
      · rw [if_pos a2, if_neg (by linarith), if_pos (by linarith)]
      · rw [if_neg a2]
        by_cases b1 : y2 - ((⌊y1⌋ : Int) : α) < 1 / 2
        · exfalso; linarith
        · rw [if_neg b1]
          by_cases b2 : 1 / 2 < y2 - ((⌊y1⌋ : Int) : α)
          · rw [if_pos b2]
            split_ifs <;> omega
          · rw [if_neg b2]

/-- The byte written for a value is monotone in the value. -/
theorem quantize_value_mono {x y : α} (h : x ≤ y) : quantize_value x ≤ quantize_value y := by
  have hx := quantize_value_eq x
  have hy := quantize_value_eq y
  have hc : max 0 (min x 1) * 255 ≤ max 0 (min y 1) * 255 := by
    apply mul_le_mul_of_nonneg_right _ (by norm_num)
    exact max_le_max (le_refl _) (min_le_min h (le_refl _))
  have := lrintf_mono hc
  rw [← hx, ← hy] at this
  exact_mod_cast this

/-- The bytes written by `quantize_features_u8`, one per selected value. -/
theorem quantize_features_u8_getD (f : feat_vec_t α) (out_buf : List Nat)
    (hbuf : 5 ≤ out_buf.length) (i : Nat) (hi : i < 5) :
    (quantize_features_u8 f out_buf).1.getD i 0 =
      quantize_value ((quantize_selection f).getD i 0) := by
  have hfold := (quantize_fold (quantize_selection f) out_buf 0
    (by simpa [quantize_selection] using hbuf)).2.1 i (by simpa [quantize_selection] using hi)
  rw [Nat.zero_add] at hfold
  unfold quantize_features_u8
  rw [List.getD_eq_getElem?_getD, hfold, List.getD_eq_getElem?_getD,
    List.getElem?_eq_getElem (by simpa [quantize_selection] using hi)]
  rfl

/-- C31: `quantize_features_u8` is monotone in each selected feature and blind
to the others.  If a second vector has the same selected features
`amag.std, amag.dom_freq, gx_std, gy_std, gz_std` except that feature `i` is at
least as large, then output byte `i` of the second is `≥` that of the first and
the other four bytes are equal; and two vectors that agree on the five selected
features produce the same buffer and length, whatever their other fields. -/
theorem quantize_monotone_blind (f g : feat_vec_t α) (out_buf : List Nat)
    (hbuf : 5 ≤ out_buf.length) :
    (∀ i, i < 5 →
      (∀ j, j < 5 → j ≠ i →
        [f.amag.std, f.amag.dom_freq, f.gx_std, f.gy_std, f.gz_std].getD j 0 =
          [g.amag.std, g.amag.dom_freq, g.gx_std, g.gy_std, g.gz_std].getD j 0) →
      [f.amag.std, f.amag.dom_freq, f.gx_std, f.gy_std, f.gz_std].getD i 0 ≤
        [g.amag.std, g.amag.dom_freq, g.gx_std, g.gy_std, g.gz_std].getD i 0 →
      (quantize_features_u8 f out_buf).1.getD i 0 ≤
          (quantize_features_u8 g out_buf).1.getD i 0 ∧
        ∀ j, j < 5 → j ≠ i →
          (quantize_features_u8 f out_buf).1.getD j 0 =
            (quantize_features_u8 g out_buf).1.getD j 0) ∧
    (f.amag.std = g.amag.std → f.amag.dom_freq = g.amag.dom_freq → f.gx_std = g.gx_std →
      f.gy_std = g.gy_std → f.gz_std = g.gz_std →
      quantize_features_u8 f out_buf = quantize_features_u8 g out_buf) := by
  have hsel : ∀ j, j < 5 →
      [f.amag.std, f.amag.dom_freq, f.gx_std, f.gy_std, f.gz_std].getD j 0 ≤
        [g.amag.std, g.amag.dom_freq, g.gx_std, g.gy_std, g.gz_std].getD j 0 →
      (quantize_selection f).getD j 0 ≤ (quantize_selection g).getD j 0 := by
    intro j hj hle
    unfold quantize_selection
    interval_cases j
    · exact hle
    · exact div_le_div_of_nonneg_right hle (by norm_num)
    · exact div_le_div_of_nonneg_right hle (by norm_num)
    · exact div_le_div_of_nonneg_right hle (by norm_num)
    · exact div_le_div_of_nonneg_right hle (by norm_num)
  constructor
  · intro i hi hsame hle
    constructor
    · rw [quantize_features_u8_getD f out_buf hbuf i hi,
        quantize_features_u8_getD g out_buf hbuf i hi]
      exact quantize_value_mono (hsel i hi hle)
    · intro j hj hne
      rw [quantize_features_u8_getD f out_buf hbuf j hj,
        quantize_features_u8_getD g out_buf hbuf j hj]
      have h1 := hsel j hj (le_of_eq (hsame j hj hne))
      have h2 : (quantize_selection g).getD j 0 ≤ (quantize_selection f).getD j 0 := by
        have hsel2 : ∀ k, k < 5 →
            [g.amag.std, g.amag.dom_freq, g.gx_std, g.gy_std, g.gz_std].getD k 0 ≤
              [f.amag.std, f.amag.dom_freq, f.gx_std, f.gy_std, f.gz_std].getD k 0 →
            (quantize_selection g).getD k 0 ≤ (quantize_selection f).getD k 0 := by
          intro k hk hle2
          unfold quantize_selection
          interval_cases k
          · exact hle2
          · exact div_le_div_of_nonneg_right hle2 (by norm_num)
          · exact div_le_div_of_nonneg_right hle2 (by norm_num)
          · exact div_le_div_of_nonneg_right hle2 (by norm_num)
          · exact div_le_div_of_nonneg_right hle2 (by norm_num)
        exact hsel2 j hj (le_of_eq (hsame j hj hne).symm)
      rw [le_antisymm h1 h2]
  · intro h1 h2 h3 h4 h5
    unfold quantize_features_u8 quantize_selection
    rw [h1, h2, h3, h4, h5]

/-- Witness for C31: `gx_std` raised from 30 to 60, the other features equal. -/
theorem quantize_monotone_blind_witness :
    (quantize_features_u8
        (⟨⟨1, 1 / 2, 3, 4, 5, 6, 7⟩, 30, 0, 0, 8, 9⟩ : feat_vec_t ℚ) [0, 0, 0, 0, 0]).1.getD 2 0 ≤
      (quantize_features_u8
        (⟨⟨0, 1 / 2, 0, 0, 5, 0, 0⟩, 60, 0, 0, 0, 0⟩ : feat_vec_t ℚ) [0, 0, 0, 0, 0]).1.getD 2 0 :=
  ((quantize_monotone_blind
    (⟨⟨1, 1 / 2, 3, 4, 5, 6, 7⟩, 30, 0, 0, 8, 9⟩ : feat_vec_t ℚ)
    (⟨⟨0, 1 / 2, 0, 0, 5, 0, 0⟩, 60, 0, 0, 0, 0⟩ : feat_vec_t ℚ) [0, 0, 0, 0, 0]
    (by decide)).1 2 (by decide)
    (by
      intro j hj hne
      interval_cases j
      · rfl
      · rfl
      · exact absurd rfl hne
      · rfl
      · rfl)
    (by norm_num)).1

end QuantizeMonotoneTheorems

section QuantizationLabTheorems

variable {α : Type} [LinearOrderedField α] [FloorRing α]

theorem to_signed_of_range (w : Nat) (hw : 1 ≤ w) (q : Int)
    (h1 : -(2 : Int) ^ (w - 1) ≤ q) (h2 : q < 2 ^ (w - 1)) : to_signed w q = q := by
  unfold to_signed
  have hp : (2 : Int) ^ w = 2 * 2 ^ (w - 1) := by
    rw [← pow_succ']
    congr 1
    omega
  rw [hp, Int.emod_eq_of_lt (by omega) (by omega)]
  omega

omit [FloorRing α] in
theorem clampf_of_mem {v lo hi : α} (h1 : lo ≤ v) (h2 : v ≤ hi) : clampf v lo hi = v := by
  unfold clampf
  rw [if_neg (not_lt.mpr h1), if_neg (not_lt.mpr h2)]

omit [FloorRing α] in
theorem clampf_of_lt {v lo hi : α} (h1 : v < lo) : clampf v lo hi = lo := by
  unfold clampf
  rw [if_pos h1]

omit [FloorRing α] in
theorem clampf_of_gt {v lo hi : α} (h1 : lo ≤ hi) (h2 : hi < v) : clampf v lo hi = hi := by
  unfold clampf
  rw [if_neg (not_lt.mpr (le_trans h1 (le_of_lt h2))), if_pos h2]

/-- The stored value of one sample in terms of the clamped sample, for a width
`bits ≤ w` stored in a signed type of `w` bits. -/
theorem quantize_sample_eq (bits es w : Nat) (hb : 1 ≤ bits) (hbw : bits ≤ w)
    (hes : (es = 2 ∧ w = 16) ∨ (es = 1 ∧ w = 8)) (x s : α)
    (hs : clampf x (-1) ((((2 : Int) ^ (bits - 1) - 1 : Int) : α) / (((2 : Int) ^ (bits - 1) : Int) : α)) = s)
    (q : Int) (hq : lrintf (s * (((2 : Int) ^ (bits - 1) : Int) : α)) = q)
    (hq1 : -(2 : Int) ^ (bits - 1) ≤ q) (hq2 : q ≤ 2 ^ (bits - 1) - 1) :
    quantize_sample bits es x = (decide (s ≠ x), some q) := by
  have hpw : (2 : Int) ^ (bits - 1) ≤ 2 ^ (w - 1) :=
    pow_le_pow_right₀ (by norm_num) (by omega)
  have hts : to_signed w q = q := to_signed_of_range w (by omega) q (by omega) (by omega)
  have hmax : ¬ q > 2 ^ (bits - 1) - 1 := by omega
  have hmin : ¬ q < -2 ^ (bits - 1) := by omega
  rcases hes with ⟨e1, e2⟩ | ⟨e1, e2⟩
  · subst e1; subst e2
    simp only [quantize_sample, hs, hq, if_neg hmax, if_neg hmin, if_true, hts]
  · subst e1; subst e2
    simp only [quantize_sample, hs, hq, if_neg hmax, if_neg hmin, if_true, hts,
      OfNat.one_ne_ofNat, if_false]

omit [FloorRing α] in
/-- The scale `1 << (bits - 1)` as a scalar is positive. -/
theorem quant_scale_pos (bits : Nat) : (0 : α) < (((2 : Int) ^ (bits - 1) : Int) : α) := by
  have : (0 : Int) < 2 ^ (bits - 1) := by positivity
  exact_mod_cast this

omit [FloorRing α] in
theorem quant_hi_mul (bits : Nat) :
    ((((2 : Int) ^ (bits - 1) - 1 : Int) : α) / (((2 : Int) ^ (bits - 1) : Int) : α)) *
      (((2 : Int) ^ (bits - 1) : Int) : α) = (((2 : Int) ^ (bits - 1) - 1 : Int) : α) :=
  div_mul_cancel₀ _ (ne_of_gt (quant_scale_pos bits))

omit [FloorRing α] in
theorem quant_lo_le_hi (bits : Nat) :
    (-1 : α) ≤ (((2 : Int) ^ (bits - 1) - 1 : Int) : α) / (((2 : Int) ^ (bits - 1) : Int) : α) := by
  rw [le_div_iff₀ (quant_scale_pos bits)]
  have h : (1 : Int) ≤ 2 ^ (bits - 1) := one_le_pow₀ (by norm_num)
  have h2 : -(((2 : Int) ^ (bits - 1) : Int) : α) ≤ (((2 : Int) ^ (bits - 1) - 1 : Int) : α) := by
    have : -((2 : Int) ^ (bits - 1)) ≤ (2 : Int) ^ (bits - 1) - 1 := by omega
    exact_mod_cast this
  linarith

theorem quantize_sample_in_range (bits es w : Nat) (hb : 1 ≤ bits) (hbw : bits ≤ w)
    (hes : (es = 2 ∧ w = 16) ∨ (es = 1 ∧ w = 8)) (x : α) (h1 : -1 ≤ x)
    (h2 : x ≤ (((2 : Int) ^ (bits - 1) - 1 : Int) : α) / (((2 : Int) ^ (bits - 1) : Int) : α)) :
    quantize_sample bits es x =
      (false, some (lrintf (x * (((2 : Int) ^ (bits - 1) : Int) : α)))) ∧
    -(2 : Int) ^ (bits - 1) ≤ lrintf (x * (((2 : Int) ^ (bits - 1) : Int) : α)) ∧
    lrintf (x * (((2 : Int) ^ (bits - 1) : Int) : α)) ≤ 2 ^ (bits - 1) - 1 := by
  have hS := quant_scale_pos (α := α) bits
  have hlo : -(2 : Int) ^ (bits - 1) ≤ lrintf (x * (((2 : Int) ^ (bits - 1) : Int) : α)) := by
    have hle : ((-(2 : Int) ^ (bits - 1) : Int) : α) ≤ x * (((2 : Int) ^ (bits - 1) : Int) : α) := by
      push_cast
      push_cast at hS
      nlinarith
    have h := lrintf_mono hle
    rwa [lrintf_intCast] at h
  have hhi : lrintf (x * (((2 : Int) ^ (bits - 1) : Int) : α)) ≤ 2 ^ (bits - 1) - 1 := by
    apply lrintf_le_of_le
    rw [← quant_hi_mul bits]
    exact mul_le_mul_of_nonneg_right h2 (le_of_lt hS)
  have e := quantize_sample_eq bits es w hb hbw hes x x (clampf_of_mem h1 h2) _ rfl hlo hhi
  refine ⟨?_, hlo, hhi⟩
  rw [e]
  simp

theorem quantize_sample_below (bits es w : Nat) (hb : 1 ≤ bits) (hbw : bits ≤ w)
    (hes : (es = 2 ∧ w = 16) ∨ (es = 1 ∧ w = 8)) (x : α) (h1 : x < -1) :
    quantize_sample bits es x = (true, some (-(2 : Int) ^ (bits - 1))) := by
  have hq : lrintf ((-1 : α) * (((2 : Int) ^ (bits - 1) : Int) : α)) = -(2 : Int) ^ (bits - 1) := by
    have := lrintf_intCast (α := α) (-(2 : Int) ^ (bits - 1))
    rw [← this]
    congr 1
    push_cast
    ring
  have h1p : (1 : Int) ≤ 2 ^ (bits - 1) := one_le_pow₀ (by norm_num)
  have e := quantize_sample_eq bits es w hb hbw hes x (-1) (clampf_of_lt h1) _ hq
    (le_refl _) (by omega)
  rw [e, decide_eq_true (ne_of_gt h1)]

theorem quantize_sample_above (bits es w : Nat) (hb : 1 ≤ bits) (hbw : bits ≤ w)
    (hes : (es = 2 ∧ w = 16) ∨ (es = 1 ∧ w = 8)) (x : α)
    (h1 : (((2 : Int) ^ (bits - 1) - 1 : Int) : α) / (((2 : Int) ^ (bits - 1) : Int) : α) < x) :
    quantize_sample bits es x = (true, some ((2 : Int) ^ (bits - 1) - 1)) := by
  have hq : lrintf (((((2 : Int) ^ (bits - 1) - 1 : Int) : α) /
      (((2 : Int) ^ (bits - 1) : Int) : α)) * (((2 : Int) ^ (bits - 1) : Int) : α)) =
      (2 : Int) ^ (bits - 1) - 1 := by
    rw [quant_hi_mul, lrintf_intCast]
  have h1p : (1 : Int) ≤ 2 ^ (bits - 1) := one_le_pow₀ (by norm_num)
  have e := quantize_sample_eq bits es w hb hbw hes x _
    (clampf_of_gt (quant_lo_le_hi bits) h1) _ hq (by omega) (le_refl _)
  rw [e, decide_eq_true (ne_of_lt h1)]

omit [FloorRing α] in
/-- The loop of `quantize_bits`: it keeps the length of the buffer, counts the
samples flagged by the body, stores what the body stores at the position of
each sample, and touches no other position. -/
theorem quantize_bits_fold (g : α → Bool × Option Int) (x : List α) :
    ∀ (buf : List Int) (c k : Nat), k + x.length ≤ buf.length →
    (x.foldl (fun (st : List Int × Nat × Nat) xi =>
        ((match (g xi).2 with
          | some v => st.1.set st.2.2 v
          | none => st.1),
         (if (g xi).1 then st.2.1 + 1 else st.2.1), st.2.2 + 1)) (buf, c, k)).1.length
      = buf.length ∧
    (x.foldl (fun (st : List Int × Nat × Nat) xi =>
        ((match (g xi).2 with
          | some v => st.1.set st.2.2 v
          | none => st.1),
         (if (g xi).1 then st.2.1 + 1 else st.2.1), st.2.2 + 1)) (buf, c, k)).2.1
      = c + x.countP (fun v => (g v).1) ∧
    (∀ i, i < x.length → ∀ v, (g (x.getD i 0)).2 = some v →
      (x.foldl (fun (st : List Int × Nat × Nat) xi =>
        ((match (g xi).2 with
          | some v => st.1.set st.2.2 v
          | none => st.1),
         (if (g xi).1 then st.2.1 + 1 else st.2.1), st.2.2 + 1)) (buf, c, k)).1[k + i]?
        = some v) ∧
    (∀ j, j < k ∨ k + x.length ≤ j →
      (x.foldl (fun (st : List Int × Nat × Nat) xi =>
        ((match (g xi).2 with
          | some v => st.1.set st.2.2 v
          | none => st.1),
         (if (g xi).1 then st.2.1 + 1 else st.2.1), st.2.2 + 1)) (buf, c, k)).1[j]?
        = buf[j]?) := by
  induction x with
  | nil => intro buf c k _; simp
  | cons a rest ih =>
    intro buf c k hk
    simp only [List.length_cons] at hk
    simp only [List.foldl_cons, List.length_cons]
    cases hg : (g a).2 with
    | none =>
      obtain ⟨h1, h2, h3, h4⟩ := ih buf (if (g a).1 then c + 1 else c) (k + 1) (by omega)
      refine ⟨h1, ?_, ?_, ?_⟩
      · rw [h2, List.countP_cons]
        by_cases hc : (g a).1 = true
        · rw [if_pos hc, if_pos hc]; omega
        · rw [if_neg hc, if_neg hc]; omega
      · intro i hi v hv
        cases i with
        | zero =>
          simp only [List.getD_cons_zero] at hv
          rw [hg] at hv
          exact absurd hv (by simp)
        | succ j =>
          simp only [List.getD_cons_succ] at hv
          have := h3 j (by omega) v hv
          rw [show k + (j + 1) = k + 1 + j by omega]
          exact this
      · intro j hj
        exact h4 j (by omega)
    | some v0 =>
      obtain ⟨h1, h2, h3, h4⟩ :=
        ih (buf.set k v0) (if (g a).1 then c + 1 else c) (k + 1) (by rw [List.length_set]; omega)
      refine ⟨by rw [h1, List.length_set], ?_, ?_, ?_⟩
      · rw [h2, List.countP_cons]
        by_cases hc : (g a).1 = true
        · rw [if_pos hc, if_pos hc]; omega
        · rw [if_neg hc, if_neg hc]; omega
      · intro i hi v hv
        cases i with
        | zero =>
          simp only [List.getD_cons_zero] at hv
          rw [hg] at hv
          rw [h4 (k + 0) (Or.inl (by omega))]
          simp only [Nat.add_zero]
          rw [List.getElem?_set_eq_of_lt _ (by omega)]
          exact hv
        | succ j =>
          simp only [List.getD_cons_succ] at hv
          have := h3 j (by omega) v hv
          rw [show k + (j + 1) = k + 1 + j by omega]
          exact this
      · intro j hj
        rw [h4 j (by omega)]
        exact List.getElem?_set_ne (by omega)

omit [LinearOrderedField α] [FloorRing α] in
/-- The loop of `dequantize_bits` stores `f i` at every position `i < n`. -/
theorem dequantize_fold (f : Nat → α) (n : Nat) : ∀ (y : List α), n ≤ y.length →
    ((List.range n).foldl (fun (y : List α) i => y.set i (f i)) y).length = y.length ∧
    (∀ i, i < n → ((List.range n).foldl (fun (y : List α) i => y.set i (f i)) y)[i]? = some (f i)) ∧
    (∀ j, n ≤ j → ((List.range n).foldl (fun (y : List α) i => y.set i (f i)) y)[j]? = y[j]?) := by
  induction n with
  | zero => intro y _; simp
  | succ m ih =>
    intro y hy
    obtain ⟨h1, h2, h3⟩ := ih y (by omega)
    rw [List.range_succ, List.foldl_append]
    simp only [List.foldl_cons, List.foldl_nil]
    refine ⟨by rw [List.length_set, h1], ?_, ?_⟩
    · intro i hi
      by_cases him : i = m
      · subst him
        exact List.getElem?_set_eq_of_lt _ (by rw [h1]; omega)
      · rw [List.getElem?_set_ne (by omega)]
        exact h2 i (by omega)
    · intro j hj
      rw [List.getElem?_set_ne (by omega)]
      exact h3 j (by omega)

end QuantizationLabTheorems

section QuantizeBitsClaim

variable {α : Type} [LinearOrderedField α] [FloorRing α]

/-- The reading of `quantize_bits` and `dequantize_bits` for a width stored in a
signed type of `w ≥ bits` bits: clip count, stored integers and restored values. -/
theorem quantize_bits_spec (bits es w : Nat) (hb : 1 ≤ bits) (hbw : bits ≤ w)
    (hes : (es = 2 ∧ w = 16) ∨ (es = 1 ∧ w = 8))
    (x : List α) (q_out : List Int) (y : List α)
    (hq : x.length ≤ q_out.length) (hy : x.length ≤ y.length) :
    (quantize_bits x bits es q_out).2 =
      x.countP (fun v => decide (v < -1 ∨ ((2 : α) ^ (bits - 1) - 1) / 2 ^ (bits - 1) < v)) ∧
    ∀ i, i < x.length →
      (-1 ≤ x.getD i 0 ∧ x.getD i 0 ≤ ((2 : α) ^ (bits - 1) - 1) / 2 ^ (bits - 1) →
        -(2 : Int) ^ (bits - 1) ≤ (quantize_bits x bits es q_out).1.getD i 0 ∧
        (quantize_bits x bits es q_out).1.getD i 0 ≤ 2 ^ (bits - 1) - 1 ∧
        |(dequantize_bits (quantize_bits x bits es q_out).1 x.length bits es y).getD i 0
            - x.getD i 0| ≤ (1 / 2) * (1 / 2 ^ (bits - 1))) ∧
      (x.getD i 0 < -1 →
        (quantize_bits x bits es q_out).1.getD i 0 = -(2 : Int) ^ (bits - 1)) ∧
      (((2 : α) ^ (bits - 1) - 1) / 2 ^ (bits - 1) < x.getD i 0 →
        (quantize_bits x bits es q_out).1.getD i 0 = 2 ^ (bits - 1) - 1) := by
  have hc : (((2 : Int) ^ (bits - 1) : Int) : α) = (2 : α) ^ (bits - 1) := by push_cast; rfl
  have hc1 : (((2 : Int) ^ (bits - 1) - 1 : Int) : α) = (2 : α) ^ (bits - 1) - 1 := by
    push_cast; rfl
  have hS : (0 : α) < (2 : α) ^ (bits - 1) := by positivity
  obtain ⟨f1, f2, f3, f4⟩ := quantize_bits_fold (quantize_sample (α := α) bits es) x q_out 0 0
    (by omega)
  have hq2 : (quantize_bits x bits es q_out).2 =
      0 + x.countP (fun v => (quantize_sample bits es v).1) := f2
  have hq1 : ∀ i, i < x.length → ∀ v, (quantize_sample bits es (x.getD i 0)).2 = some v →
      (quantize_bits x bits es q_out).1.getD i 0 = v := by
    intro i hi v hv
    have h0 := f3 i hi v hv
    rw [Nat.zero_add] at h0
    have e : (quantize_bits x bits es q_out).1[i]? = some v := h0
    rw [List.getD_eq_getElem?_getD, e]
    rfl
  have hflag : ∀ v : α, (quantize_sample bits es v).1 =
      decide (v < -1 ∨ ((2 : α) ^ (bits - 1) - 1) / 2 ^ (bits - 1) < v) := by
    intro v
    by_cases h1 : v < -1
    · rw [quantize_sample_below bits es w hb hbw hes v h1, decide_eq_true (Or.inl h1)]
    · by_cases h2 : ((2 : α) ^ (bits - 1) - 1) / 2 ^ (bits - 1) < v
      · rw [quantize_sample_above bits es w hb hbw hes v (by rw [hc, hc1]; exact h2),
          decide_eq_true (Or.inr h2)]
      · rw [(quantize_sample_in_range bits es w hb hbw hes v (not_lt.mp h1)
          (by rw [hc, hc1]; exact not_lt.mp h2)).1]
        exact (decide_eq_false (by rintro (h | h); exact h1 h; exact h2 h)).symm
  refine ⟨?_, ?_⟩
  · rw [hq2, Nat.zero_add]
    congr 1
    funext v
    exact hflag v
  · intro i hi
    refine ⟨?_, ?_, ?_⟩
    · rintro ⟨h1, h2⟩
      obtain ⟨e, hlo, hhi⟩ := quantize_sample_in_range bits es w hb hbw hes (x.getD i 0) h1
        (by rw [hc, hc1]; exact h2)
      have hqi := hq1 i hi _ (by rw [e])
      rw [hqi]
      refine ⟨hlo, hhi, ?_⟩
      have hes2 : es = 2 ∨ es = 1 ∨ es = 4 := by
        rcases hes with ⟨h, _⟩ | ⟨h, _⟩
        · exact Or.inl h
        · exact Or.inr (Or.inl h)
      have hlen : (quantize_bits x bits es q_out).1.length = q_out.length := f1
      obtain ⟨_, g2, _⟩ := dequantize_fold
        (fun i => (((quantize_bits x bits es q_out).1.getD i 0 : Int) : α) *
          (1 / (((2 : Int) ^ (bits - 1) : Int) : α))) x.length y hy
      have hyi : (dequantize_bits (quantize_bits x bits es q_out).1 x.length bits es y).getD i 0
          = (((quantize_bits x bits es q_out).1.getD i 0 : Int) : α) *
            (1 / (((2 : Int) ^ (bits - 1) : Int) : α)) := by
        unfold dequantize_bits
        simp only
        rw [if_pos hes2, List.getD_eq_getElem?_getD, g2 i hi]
        rfl
      rw [hyi, hqi, hc]
      have hr := lrintf_abs_sub_le (x.getD i 0 * (((2 : Int) ^ (bits - 1) : Int) : α))
      rw [hc] at hr
      have e2 : ((lrintf (x.getD i 0 * (2 : α) ^ (bits - 1)) : Int) : α) * (1 / 2 ^ (bits - 1))
          - x.getD i 0 =
          (((lrintf (x.getD i 0 * (2 : α) ^ (bits - 1)) : Int) : α)
            - x.getD i 0 * 2 ^ (bits - 1)) * (1 / 2 ^ (bits - 1)) := by
        have hne : (2 : α) ^ (bits - 1) ≠ 0 := ne_of_gt hS
        rw [sub_mul, mul_assoc (x.getD i 0), mul_one_div_cancel hne, mul_one]
      rw [e2, abs_mul, abs_of_pos (by positivity : (0 : α) < 1 / 2 ^ (bits - 1))]
      exact mul_le_mul_of_nonneg_right hr (by positivity)
    · intro h1
      exact hq1 i hi _ (by rw [quantize_sample_below bits es w hb hbw hes _ h1])
    · intro h2
      exact hq1 i hi _ (by
        rw [quantize_sample_above bits es w hb hbw hes _ (by rw [hc, hc1]; exact h2)])

/-- C34: for `bits ∈ {4, 8, 16}` with the element size of the validation program,
`quantize_bits` counts as clipped exactly the samples outside
`[-1, (2^(bits-1) - 1) / 2^(bits-1)]`; a sample inside that interval is stored as
an integer in `[-2^(bits-1), 2^(bits-1) - 1]` and `dequantize_bits` restores it
with an error of at most `0.5 · delta`, `delta = 1 / 2^(bits-1)`; a sample below
`-1` is stored as `-2^(bits-1)` and one above the interval as `2^(bits-1) - 1`. -/
theorem quantize_bits_validation (bits : Nat) (hbits : bits = 4 ∨ bits = 8 ∨ bits = 16)
    (x : List α) (q_out : List Int) (y : List α)
    (hq : x.length ≤ q_out.length) (hy : x.length ≤ y.length) :
    (quantize_bits x bits (validation_elem_size bits) q_out).2 =
      x.countP (fun v => decide (v < -1 ∨ ((2 : α) ^ (bits - 1) - 1) / 2 ^ (bits - 1) < v)) ∧
    ∀ i, i < x.length →
      (-1 ≤ x.getD i 0 ∧ x.getD i 0 ≤ ((2 : α) ^ (bits - 1) - 1) / 2 ^ (bits - 1) →
        -(2 : Int) ^ (bits - 1) ≤
          (quantize_bits x bits (validation_elem_size bits) q_out).1.getD i 0 ∧
        (quantize_bits x bits (validation_elem_size bits) q_out).1.getD i 0
          ≤ 2 ^ (bits - 1) - 1 ∧
        |(dequantize_bits (quantize_bits x bits (validation_elem_size bits) q_out).1
            x.length bits (validation_elem_size bits) y).getD i 0
            - x.getD i 0| ≤ (1 / 2) * (1 / 2 ^ (bits - 1))) ∧
      (x.getD i 0 < -1 →
        (quantize_bits x bits (validation_elem_size bits) q_out).1.getD i 0
          = -(2 : Int) ^ (bits - 1)) ∧
      (((2 : α) ^ (bits - 1) - 1) / 2 ^ (bits - 1) < x.getD i 0 →
        (quantize_bits x bits (validation_elem_size bits) q_out).1.getD i 0
          = 2 ^ (bits - 1) - 1) := by
  rcases hbits with h | h | h
  · subst h
    exact quantize_bits_spec 4 1 8 (by norm_num) (by norm_num) (Or.inr ⟨rfl, rfl⟩) x q_out y hq hy
  · subst h
    exact quantize_bits_spec 8 1 8 (by norm_num) (by norm_num) (Or.inr ⟨rfl, rfl⟩) x q_out y hq hy
  · subst h
    exact quantize_bits_spec 16 2 16 (by norm_num) (by norm_num) (Or.inl ⟨rfl, rfl⟩) x q_out y
      hq hy

/-- Witness for C34: four bits, the samples `1/2` (kept), `-2` and `1` (clipped). -/
theorem quantize_bits_validation_witness :
    (quantize_bits ([1 / 2, -2, 1] : List ℚ) 4 (validation_elem_size 4) [0, 0, 0]).2 =
      ([1 / 2, -2, 1] : List ℚ).countP
        (fun v => decide (v < -1 ∨ ((2 : ℚ) ^ (4 - 1) - 1) / 2 ^ (4 - 1) < v)) :=
  (quantize_bits_validation 4 (Or.inl rfl) ([1 / 2, -2, 1] : List ℚ) [0, 0, 0] [0, 0, 0]
    (by decide) (by decide)).1

end QuantizeBitsClaim

section PowerOfTwoTheorems

theorem land_pred_eq_zero_iff (n : Nat) (hn : 0 < n) :
    n &&& (n - 1) = 0 ↔ ∃ k, n = 2 ^ k := by
  constructor
  · induction n using Nat.strong_induction_on with
    | _ n ih =>
      intro h
      rcases Nat.even_or_odd' n with ⟨a, rfl | rfl⟩
      · have ha : 0 < a := by omega
        have e1 : 2 * a = Nat.bit false a := by simp [Nat.bit_val]
        have e2 : 2 * a - 1 = Nat.bit true (a - 1) := by simp [Nat.bit_val]; omega
        rw [e2, e1, Nat.land_bit] at h
        simp only [Bool.false_and] at h
        have h3 : a &&& (a - 1) = 0 := by
          have := h
          simp [Nat.bit_val] at this
          exact this
        obtain ⟨k, hk⟩ := ih a (by omega) ha h3
        exact ⟨k + 1, by rw [hk, pow_succ]; ring⟩
      · by_cases ha : a = 0
        · subst ha
          exact ⟨0, rfl⟩
        · exfalso
          have e1 : 2 * a + 1 = Nat.bit true a := by simp [Nat.bit_val]
          have e2 : 2 * a + 1 - 1 = Nat.bit false a := by simp [Nat.bit_val]
          rw [e2, e1, Nat.land_bit] at h
          simp [Nat.bit_val] at h
          exact ha h
  · rintro ⟨k, rfl⟩
    rw [Nat.and_pow_two_sub_one_eq_mod, Nat.mod_self]

/-- The truth value of `is_power_of_two(n)`: `n` is `2^k` for a `k ≥ 0`. -/
theorem is_power_of_two_iff (n : Int) :
    is_power_of_two n = true ↔ ∃ k : Nat, n = 2 ^ k := by
  unfold is_power_of_two
  rw [Bool.and_eq_true, decide_eq_true_iff, decide_eq_true_iff]
  constructor
  · rintro ⟨hpos, hand⟩
    obtain ⟨k, hk⟩ := (land_pred_eq_zero_iff n.toNat (by omega)).mp hand
    refine ⟨k, ?_⟩
    have : ((n.toNat : Nat) : Int) = n := Int.toNat_of_nonneg (le_of_lt hpos)
    rw [← this, hk]
    push_cast
    rfl
  · rintro ⟨k, rfl⟩
    have hpos : (0 : Int) < 2 ^ k := by positivity
    refine ⟨hpos, ?_⟩
    have : ((2 : Int) ^ k).toNat = 2 ^ k := by
      have h : ((2 : Int) ^ k) = ((2 ^ k : Nat) : Int) := by push_cast; rfl
      rw [h, Int.toNat_natCast]
    rw [this]
    exact (land_pred_eq_zero_iff (2 ^ k) (by positivity)).mpr ⟨k, rfl⟩

variable {α : Type} [LinearOrderedField α]

/-- C33: `fft_radix2(x, n, dir)` returns `-1` with the buffer unchanged exactly
when `n` is not a power of two (which includes every `n ≤ 0`), it returns `0`
when `n` is one, and `is_power_of_two(n)` is non-zero exactly when `n = 2^k`
for an integer `k ≥ 0`. -/
theorem fft_radix2_size_check (sinf : α → α) (pi : α) (x : List (c32 α)) (n dir : Int) :
    (((fft_radix2 sinf pi x n dir).1 = -1 ∧ (fft_radix2 sinf pi x n dir).2 = x) ↔
      ¬ ∃ k : Nat, n = 2 ^ k) ∧
    ((fft_radix2 sinf pi x n dir).1 = -1 ∨ (fft_radix2 sinf pi x n dir).1 = 0) ∧
    ((fft_radix2 sinf pi x n dir).1 = 0 ↔ ∃ k : Nat, n = 2 ^ k) ∧
    (n ≤ 0 → fft_radix2 sinf pi x n dir = (-1, x)) ∧
    (is_power_of_two n = true ↔ ∃ k : Nat, n = 2 ^ k) := by
  have hiff := is_power_of_two_iff n
  by_cases hp : is_power_of_two n = true
  · have hk := hiff.mp hp
    have e1 : (fft_radix2 sinf pi x n dir).1 = 0 := by
      unfold fft_radix2
      rw [if_neg (by rw [hp]; decide)]
    refine ⟨⟨fun h => ?_, fun h => absurd hk h⟩, Or.inr e1, ⟨fun _ => hk, fun _ => e1⟩, ?_, hiff⟩
    · rw [e1] at h
      have h2 : (0 : Int) = -1 := h.1
      omega
    · intro hn
      obtain ⟨k, rfl⟩ := hk
      have : (0 : Int) < 2 ^ k := by positivity
      omega
  · have hf : is_power_of_two n = false := by
      cases h : is_power_of_two n
      · rfl
      · exact absurd h hp
    have hk : ¬ ∃ k : Nat, n = 2 ^ k := fun h => hp (hiff.mpr h)
    have e : fft_radix2 sinf pi x n dir = (-1, x) := by
      unfold fft_radix2
      rw [if_pos hf]
    refine ⟨⟨fun _ => hk, fun _ => by rw [e]; exact ⟨rfl, rfl⟩⟩, Or.inl (by rw [e]),
      ⟨fun h => ?_, fun h => absurd h hk⟩, fun _ => e, hiff⟩
    rw [e] at h
    have h2 : (-1 : Int) = 0 := h
    omega

end PowerOfTwoTheorems

section MedianTheorems

variable {α : Type} [LinearOrderedField α]

/-- The shift loop followed by the store of `key`: the sorted prefix `A` splits
into `A1 ++ A2` with every element of `A2` above `key` and the last element of
`A1` (if any) not above it, and `key` lands between the two. -/
theorem insertion_shift_spec (key : α) (A : List α) : ∀ (h : α) (T : List α),
    ∃ A1 A2 : List α, A = A1 ++ A2 ∧ (∀ a ∈ A2, key < a) ∧
      (∀ a, A1.getLast? = some a → a ≤ key) ∧
      (insertion_shift key (A ++ h :: T) A.length).1.set
        (insertion_shift key (A ++ h :: T) A.length).2 key = A1 ++ key :: (A2 ++ T) := by
  induction A using List.reverseRecOn with
  | nil =>
    intro h T
    refine ⟨[], [], rfl, by simp, by simp, ?_⟩
    simp [insertion_shift]
  | append_singleton A' a ih =>
    intro h T
    have hlen : (A' ++ [a]).length = A'.length + 1 := by simp
    have hget : (A' ++ [a] ++ h :: T).getD A'.length 0 = a := by
      rw [List.append_assoc, List.getD_eq_getElem?_getD,
        List.getElem?_append_right (le_refl _), Nat.sub_self]
      rfl
    rw [hlen]
    by_cases hgt : a > key
    · have hstep : insertion_shift key (A' ++ [a] ++ h :: T) (A'.length + 1) =
          insertion_shift key (A' ++ a :: a :: T) A'.length := by
        rw [insertion_shift, hget, if_pos hgt]
        congr 1
        have : A' ++ [a] ++ h :: T = (A' ++ [a]) ++ h :: T := rfl
        rw [this, ← hlen, List.set_append_right _ _ (le_refl _)]
        simp
      rw [hstep]
      obtain ⟨A1, A2, hA, h2, h1, hres⟩ := ih a (a :: T)
      refine ⟨A1, A2 ++ [a], by rw [hA, List.append_assoc], ?_, h1, ?_⟩
      · intro b hb
        rcases List.mem_append.mp hb with hb | hb
        · exact h2 b hb
        · rw [List.mem_singleton.mp hb]; exact hgt
      · rw [hres]
        simp
    · have hstep : insertion_shift key (A' ++ [a] ++ h :: T) (A'.length + 1) =
          (A' ++ [a] ++ h :: T, A'.length + 1) := by
        rw [insertion_shift, hget, if_neg hgt]
      rw [hstep]
      refine ⟨A' ++ [a], [], by simp, by simp, ?_, ?_⟩
      · intro b hb
        rw [List.getLast?_append, List.getLast?_singleton] at hb
        simp at hb
        rw [← hb]
        exact not_lt.mp hgt
      · simp only
        rw [← hlen, List.set_append_right _ _ (le_refl _)]
        simp

/-- One iteration of the outer loop of the insertion sort on `P ++ key :: R`
with `P` sorted: the first `|P| + 1` elements become a sorted permutation of
`key :: P`, the rest is untouched. -/
theorem insertion_step_spec (P : List α) (key : α) (R : List α)
    (hP : List.Sorted (· ≤ ·) P) :
    ∃ Q : List α, (insertion_shift key (P ++ key :: R) P.length).1.set
        (insertion_shift key (P ++ key :: R) P.length).2 key = Q ++ R ∧
      Q.length = P.length + 1 ∧ List.Sorted (· ≤ ·) Q ∧ List.Perm Q (P ++ [key]) := by
  obtain ⟨A1, A2, hA, h2, h1, hres⟩ := insertion_shift_spec key P key R
  refine ⟨A1 ++ key :: A2, ?_, ?_, ?_, ?_⟩
  · rw [hres]; simp
  · rw [hA]; simp; omega
  · rw [hA] at hP
    have hP' := List.pairwise_append.mp hP
    obtain ⟨s1, s2, s12⟩ := hP'
    have hA1 : ∀ a ∈ A1, a ≤ key := by
      intro a ha
      rcases List.eq_nil_or_concat A1 with hnil | ⟨L, b, hb⟩
      · rw [hnil] at ha; simp at ha
      · rw [List.concat_eq_append] at hb
        have hlast : A1.getLast? = some b := by rw [hb]; simp
        have hbk := h1 b hlast
        rw [hb] at ha s1
        rcases List.mem_append.mp ha with haL | hab
        · have := (List.pairwise_append.mp s1).2.2 a haL b (by simp)
          exact le_trans this hbk
        · rw [List.mem_singleton.mp hab]; exact hbk
    apply List.pairwise_append.mpr
    refine ⟨s1, ?_, ?_⟩
    · exact List.pairwise_cons.mpr ⟨fun a ha => le_of_lt (h2 a ha), s2⟩
    · intro a ha b hb
      rcases List.mem_cons.mp hb with hbk | hb2
      · rw [hbk]; exact hA1 a ha
      · exact s12 a ha b hb2
  · rw [hA]
    have : A1 ++ key :: A2 = A1 ++ ([key] ++ A2) := rfl
    rw [this, List.append_assoc]
    exact List.Perm.append_left A1 List.perm_append_comm

/-- The outer loop of the insertion sort after `k` iterations: a sorted
permutation of the first `k + 1` elements, followed by the others. -/
theorem insertion_sort_prefix (x : List α) (hx : 1 ≤ x.length) : ∀ k, k ≤ x.length - 1 →
    ∃ P : List α,
      (List.range k).foldl
        (fun (tmp : List α) i0 =>
          (insertion_shift (tmp.getD (i0 + 1) 0) tmp (i0 + 1)).1.set
            (insertion_shift (tmp.getD (i0 + 1) 0) tmp (i0 + 1)).2 (tmp.getD (i0 + 1) 0))
        x = P ++ x.drop (k + 1) ∧
      P.length = k + 1 ∧ List.Sorted (· ≤ ·) P ∧ List.Perm P (x.take (k + 1)) := by
  intro k
  induction k with
  | zero =>
    intro _
    refine ⟨x.take 1, ?_, ?_, ?_, List.Perm.refl _⟩
    · exact (List.take_append_drop 1 x).symm
    · rw [List.length_take]; omega
    · cases x with
      | nil => simp
      | cons a t => simp
  | succ k ih =>
    intro hk
    obtain ⟨P, hfold, hlen, hsorted, hperm⟩ := ih (by omega)
    rw [List.range_succ, List.foldl_append, hfold]
    simp only [List.foldl_cons, List.foldl_nil]
    have hlt : k + 1 < x.length := by omega
    have hdrop : x.drop (k + 1) = x[k + 1] :: x.drop (k + 2) := by
      rw [List.drop_eq_getElem_cons hlt]
    have hkey : (P ++ x.drop (k + 1)).getD (k + 1) 0 = x[k + 1] := by
      rw [List.getD_eq_getElem?_getD, List.getElem?_append_right (by omega), hlen, Nat.sub_self,
        hdrop]
      simp [List.getElem?_eq_getElem hlt]
    rw [hkey, hdrop]
    obtain ⟨Q, hQ, hQlen, hQs, hQp⟩ := insertion_step_spec P x[k + 1] (x.drop (k + 2)) hsorted
    rw [hlen] at hQ
    refine ⟨Q, hQ, by rw [hQlen, hlen], hQs, ?_⟩
    refine hQp.trans ?_
    have htake : x.take (k + 1 + 1) = x.take (k + 1) ++ [x[k + 1]] := by
      rw [List.take_succ, List.getElem?_eq_getElem hlt]
      rfl
    rw [htake]
    exact List.Perm.append_right _ hperm

omit [LinearOrderedField α] in
theorem range_map_getD [Zero α] (x : List α) :
    (List.range x.length).map (fun i => x.getD i 0) = x := by
  apply List.ext_getElem
  · simp
  · intro i h1 h2
    simp [List.getD_eq_getElem?_getD, List.getElem?_eq_getElem h2]

/-- The local copy after the sort is an ascending permutation of `x`. -/
theorem median_tmp_sorted_perm (x : List α) (hx : 1 ≤ x.length) :
    List.Sorted (· ≤ ·) (median_f32_run x).tmp ∧ List.Perm (median_f32_run x).tmp x := by
  obtain ⟨P, hfold, hlen, hsorted, hperm⟩ := insertion_sort_prefix x hx (x.length - 1) (le_refl _)
  have htmp : (median_f32_run x).tmp = P := by
    show insertion_sort ((List.range x.length).map (fun i => x.getD i 0)) x.length = P
    rw [range_map_getD]
    unfold insertion_sort
    rw [hfold, List.drop_of_length_le (by omega), List.append_nil]
  rw [htmp]
  refine ⟨hsorted, ?_⟩
  rw [List.take_of_length_le (by omega)] at hperm
  exact hperm

/-- C35: for an array `x` of `n ≥ 1` values `median_f32` leaves `x` as it is,
its insertion sort turns the local copy into an ascending permutation of `x`,
the value returned is the middle element of the sorted copy when `n` is odd and
the mean of the two middle elements when `n` is even, and it is the same for
every permutation of `x`. -/
theorem median_f32_sorted_middle (x : List α) (hx : 1 ≤ x.length) :
    (median_f32_run x).x = x ∧
    List.Sorted (· ≤ ·) (median_f32_run x).tmp ∧
    List.Perm (median_f32_run x).tmp x ∧
    (x.length % 2 = 1 →
      median_f32 x = (median_f32_run x).tmp.getD (x.length / 2) 0) ∧
    (x.length % 2 = 0 →
      median_f32 x = ((median_f32_run x).tmp.getD (x.length / 2 - 1) 0 +
        (median_f32_run x).tmp.getD (x.length / 2) 0) / 2) ∧
    (∀ y : List α, List.Perm y x → median_f32 y = median_f32 x) := by
  obtain ⟨hs, hp⟩ := median_tmp_sorted_perm x hx
  refine ⟨rfl, hs, hp, ?_, ?_, ?_⟩
  · intro hodd
    show (if x.length % 2 = 1 then _ else _) = _
    rw [if_pos hodd]
    rfl
  · intro heven
    show (if x.length % 2 = 1 then _ else _) = _
    rw [if_neg (by omega)]
    have h : ∀ u : α, 0.5 * u = u / 2 := by
      intro u
      norm_num
      ring
    exact h _
  · intro y hy
    have hylen : y.length = x.length := hy.length_eq
    obtain ⟨hs2, hp2⟩ := median_tmp_sorted_perm y (by omega)
    have htmp : (median_f32_run y).tmp = (median_f32_run x).tmp :=
      List.eq_of_perm_of_sorted ((hp2.trans hy).trans hp.symm) hs2 hs
    show (if y.length % 2 = 1 then (median_f32_run y).tmp.getD (y.length / 2) 0
      else 0.5 * ((median_f32_run y).tmp.getD (y.length / 2 - 1) 0 +
        (median_f32_run y).tmp.getD (y.length / 2) 0)) =
      (if x.length % 2 = 1 then (median_f32_run x).tmp.getD (x.length / 2) 0
      else 0.5 * ((median_f32_run x).tmp.getD (x.length / 2 - 1) 0 +
        (median_f32_run x).tmp.getD (x.length / 2) 0))
    rw [htmp, hylen]

/-- Witness for C35: four values, two of them equal. -/
theorem median_f32_sorted_middle_witness :
    List.Perm (median_f32_run ([3, 1, 2, 1] : List ℚ)).tmp [3, 1, 2, 1] :=
  (median_f32_sorted_middle ([3, 1, 2, 1] : List ℚ) (by decide)).2.2.1

end MedianTheorems

section TopKPeaksTheorems

variable {α : Type} [LinearOrderedField α]

/-- The scan of a strictly increasing list of candidate indices: nothing is
found when no candidate is free, otherwise the first free candidate of largest
magnitude. -/
theorem peak_scan_fold (mag : List α) (T : List Nat) (L : List Nat)
    (hL : List.Pairwise (· < ·) L) (hmag : ∀ i ∈ L, 0 ≤ mag.getD i 0) :
    ((L.foldl (fun (st : Option Nat × α) i =>
        if T.contains i then st
        else if mag.getD i 0 > st.2 then (some i, mag.getD i 0)
        else st) (none, -1)) = (none, -1) ∧ ∀ i ∈ L, i ∈ T) ∨
    (∃ b, (L.foldl (fun (st : Option Nat × α) i =>
        if T.contains i then st
        else if mag.getD i 0 > st.2 then (some i, mag.getD i 0)
        else st) (none, -1)) = (some b, mag.getD b 0) ∧ b ∈ L ∧ b ∉ T ∧
      (∀ i ∈ L, i ∉ T → mag.getD i 0 ≤ mag.getD b 0) ∧
      (∀ i ∈ L, i ∉ T → mag.getD i 0 = mag.getD b 0 → b ≤ i)) := by
  induction L using List.reverseRecOn with
  | nil => left; simp
  | append_singleton L a ih =>
    have hL' := List.pairwise_append.mp hL
    have ih' := ih hL'.1 (fun i hi => hmag i (List.mem_append_left _ hi))
    have ha0 : 0 ≤ mag.getD a 0 := hmag a (by simp)
    rw [List.foldl_append]
    simp only [List.foldl_cons, List.foldl_nil]
    rcases ih' with ⟨he, hall⟩ | ⟨b, he, hbL, hbT, hmax, htie⟩
    · rw [he]
      by_cases hT : a ∈ T
      · left
        rw [if_pos (by simpa using hT)]
        refine ⟨rfl, ?_⟩
        intro i hi
        rcases List.mem_append.mp hi with h | h
        · exact hall i h
        · rw [List.mem_singleton.mp h]; exact hT
      · right
        rw [if_neg (by simpa using hT), if_pos (by show (-1 : α) < _; linarith)]
        refine ⟨a, rfl, by simp, hT, ?_, ?_⟩
        · intro i hi hiT
          rcases List.mem_append.mp hi with h | h
          · exact absurd (hall i h) hiT
          · rw [List.mem_singleton.mp h]
        · intro i hi hiT _
          rcases List.mem_append.mp hi with h | h
          · exact absurd (hall i h) hiT
          · rw [List.mem_singleton.mp h]
    · rw [he]
      right
      by_cases hT : a ∈ T
      · rw [if_pos (by simpa using hT)]
        refine ⟨b, rfl, List.mem_append_left _ hbL, hbT, ?_, ?_⟩
        · intro i hi hiT
          rcases List.mem_append.mp hi with h | h
          · exact hmax i h hiT
          · rw [List.mem_singleton.mp h] at hiT; exact absurd hT hiT
        · intro i hi hiT heq
          rcases List.mem_append.mp hi with h | h
          · exact htie i h hiT heq
          · rw [List.mem_singleton.mp h] at hiT; exact absurd hT hiT
      · rw [if_neg (by simpa using hT)]
        by_cases hgt : mag.getD a 0 > mag.getD b 0
        · rw [if_pos hgt]
          refine ⟨a, rfl, by simp, hT, ?_, ?_⟩
          · intro i hi hiT
            rcases List.mem_append.mp hi with h | h
            · exact le_of_lt (lt_of_le_of_lt (hmax i h hiT) hgt)
            · rw [List.mem_singleton.mp h]
          · intro i hi hiT heq
            rcases List.mem_append.mp hi with h | h
            · have := hmax i h hiT
              rw [heq] at this
              exact absurd hgt (not_lt.mpr this)
            · rw [List.mem_singleton.mp h]
        · rw [if_neg hgt]
          refine ⟨b, rfl, List.mem_append_left _ hbL, hbT, ?_, ?_⟩
          · intro i hi hiT
            rcases List.mem_append.mp hi with h | h
            · exact hmax i h hiT
            · rw [List.mem_singleton.mp h]; exact not_lt.mp hgt
          · intro i hi hiT heq
            rcases List.mem_append.mp hi with h | h
            · exact htie i h hiT heq
            · rw [List.mem_singleton.mp h]
              exact le_of_lt (hL'.2.2 b hbL a (by simp))

/-- The scan of `top_k_peaks` over the range `[k_exclude_dc, n_half)`. -/
theorem peak_scan_spec (mag : List α) (n_half k0 : Nat) (T : List Nat)
    (hmag : ∀ i, i < n_half → 0 ≤ mag.getD i 0) :
    (peak_scan mag n_half k0 T = (none, -1) ∧ ∀ i, k0 ≤ i → i < n_half → i ∈ T) ∨
    (∃ b, peak_scan mag n_half k0 T = (some b, mag.getD b 0) ∧ k0 ≤ b ∧ b < n_half ∧ b ∉ T ∧
      (∀ i, k0 ≤ i → i < n_half → i ∉ T → mag.getD i 0 ≤ mag.getD b 0) ∧
      (∀ i, k0 ≤ i → i < n_half → i ∉ T → mag.getD i 0 = mag.getD b 0 → b ≤ i)) := by
  have hmem : ∀ i, i ∈ List.range' k0 (n_half - k0) ↔ k0 ≤ i ∧ i < n_half := by
    intro i
    rw [List.mem_range'_1]
    omega
  rcases peak_scan_fold mag T (List.range' k0 (n_half - k0)) (List.pairwise_lt_range' k0 _)
    (fun i hi => hmag i ((hmem i).mp hi).2) with ⟨he, hall⟩ | ⟨b, he, hbL, hbT, hmax, htie⟩
  · left
    exact ⟨he, fun i h1 h2 => hall i ((hmem i).mpr ⟨h1, h2⟩)⟩
  · right
    exact ⟨b, he, ((hmem b).mp hbL).1, ((hmem b).mp hbL).2, hbT,
      fun i h1 h2 => hmax i ((hmem i).mpr ⟨h1, h2⟩),
      fun i h1 h2 => htie i ((hmem i).mpr ⟨h1, h2⟩)⟩

/-- The loop over `k` of `top_k_peaks` after `k` iterations. -/
theorem top_k_peaks_fold (mag : List α) (n_half k0 : Nat)
    (hmag : ∀ i, i < n_half → 0 ≤ mag.getD i 0) : ∀ k : Nat,
    ∃ idx : List Nat,
      (List.range k).foldl
        (fun (st : List Nat × List α) _ =>
          match (peak_scan mag n_half k0 st.1).1 with
          | some best_i => (st.1 ++ [best_i], st.2 ++ [(peak_scan mag n_half k0 st.1).2])
          | none => st) ([], []) = (idx, idx.map (fun i => mag.getD i 0)) ∧
      idx.length = min k (n_half - k0) ∧
      idx.Nodup ∧
      (∀ i ∈ idx, k0 ≤ i ∧ i < n_half) ∧
      List.Pairwise (· ≥ ·) (idx.map (fun i => mag.getD i 0)) ∧
      (∀ i, k0 ≤ i → i < n_half → i ∉ idx → ∀ j ∈ idx, mag.getD i 0 ≤ mag.getD j 0) ∧
      (∀ p, p < idx.length → ∀ i, k0 ≤ i → i < idx.getD p 0 →
        mag.getD i 0 = mag.getD (idx.getD p 0) 0 → i ∈ idx.take p) := by
  intro k
  induction k with
  | zero =>
    refine ⟨[], rfl, by simp, List.nodup_nil, by simp, by simp, by simp, by simp⟩
  | succ k ih =>
    obtain ⟨idx, hfold, hlen, hnd, hrange, hsorted, hrest, htie⟩ := ih
    rw [List.range_succ, List.foldl_append, hfold]
    simp only [List.foldl_cons, List.foldl_nil]
    have hsub : idx ⊆ List.range' k0 (n_half - k0) := by
      intro i hi
      rw [List.mem_range'_1]
      have := hrange i hi
      omega
    rcases peak_scan_spec mag n_half k0 idx hmag with ⟨he, hall⟩ | ⟨b, he, hb1, hb2, hbT, hmax, hbtie⟩
    · rw [he]
      refine ⟨idx, rfl, ?_, hnd, hrange, hsorted, hrest, htie⟩
      have hsub2 : List.range' k0 (n_half - k0) ⊆ idx := by
        intro i hi
        rw [List.mem_range'_1] at hi
        exact hall i hi.1 (by omega)
      have h1 := (List.subperm_of_subset (List.nodup_range' k0 (n_half - k0)) hsub2).length_le
      rw [List.length_range'] at h1
      rw [hlen] at h1 ⊢
      omega
    · rw [he]
      have hlt : idx.length < n_half - k0 := by
        by_contra hge
        have h1 := List.subperm_of_subset hnd hsub
        have h2 : (List.range' k0 (n_half - k0)).length ≤ idx.length := by
          rw [List.length_range']; omega
        have hperm := h1.perm_of_length_le h2
        have : b ∈ idx := hperm.symm.subset (by rw [List.mem_range'_1]; omega)
        exact hbT this
      refine ⟨idx ++ [b], ?_, ?_, ?_, ?_, ?_, ?_, ?_⟩
      · simp
      · rw [List.length_append, List.length_singleton, hlen]
        rw [hlen] at hlt
        omega
      · rw [List.nodup_append]
        refine ⟨hnd, List.nodup_singleton b, ?_⟩
        intro i hi hi2
        rw [List.mem_singleton.mp hi2] at hi
        exact hbT hi
      · intro i hi
        rcases List.mem_append.mp hi with h | h
        · exact hrange i h
        · rw [List.mem_singleton.mp h]; exact ⟨hb1, hb2⟩
      · rw [List.map_append, List.pairwise_append]
        refine ⟨hsorted, by simp, ?_⟩
        intro v hv w hw
        simp only [List.map_cons, List.map_nil, List.mem_singleton] at hw
        obtain ⟨j, hj, rfl⟩ := List.mem_map.mp hv
        rw [hw]
        exact hrest b hb1 hb2 hbT j hj
      · intro i h1 h2 hni j hj
        have hni1 : i ∉ idx := fun h => hni (List.mem_append_left _ h)
        rcases List.mem_append.mp hj with h | h
        · exact hrest i h1 h2 hni1 j h
        · rw [List.mem_singleton.mp h]; exact hmax i h1 h2 hni1
      · intro p hp i h1 h2 heq
        rw [List.length_append, List.length_singleton] at hp
        by_cases hpl : p < idx.length
        · have hg : (idx ++ [b]).getD p 0 = idx.getD p 0 := by
            rw [List.getD_eq_getElem?_getD, List.getElem?_append_left hpl,
              ← List.getD_eq_getElem?_getD]
          rw [hg] at h2 heq
          have := htie p hpl i h1 h2 heq
          rw [List.take_append_of_le_length (le_of_lt hpl)]
          exact this
        · have hpe : p = idx.length := by omega
          have hg : (idx ++ [b]).getD p 0 = b := by
            rw [hpe, List.getD_eq_getElem?_getD, List.getElem?_append_right (le_refl _),
              Nat.sub_self]
            rfl
          rw [hg] at h2 heq
          rw [hpe, List.take_left']
          · by_contra hni
            have := hbtie i h1 (by omega) hni heq
            omega
          · rfl

/-- C36: for magnitudes that are all `≥ 0`, `top_k_peaks` returns
`out_count = min(K, max(0, n_half - k_exclude_dc))` peaks; their indices are
pairwise distinct and lie in `[k_exclude_dc, n_half)`, their values are the
magnitudes at those indices, in non-increasing order; every index of the range
that was not selected has a magnitude `≤` every selected value; and an index
with the same magnitude as a selected peak and below it was selected before it
(ties go to the lower index). -/
theorem top_k_peaks_selection (mag : List α) (n_half k_exclude_dc K : Nat)
    (hlen : n_half ≤ mag.length) (hmag : ∀ v ∈ mag, 0 ≤ v) :
    (top_k_peaks mag n_half k_exclude_dc K).2.2 = min K (n_half - k_exclude_dc) ∧
    (top_k_peaks mag n_half k_exclude_dc K).1.length =
      (top_k_peaks mag n_half k_exclude_dc K).2.2 ∧
    (top_k_peaks mag n_half k_exclude_dc K).2.1.length =
      (top_k_peaks mag n_half k_exclude_dc K).2.2 ∧
    (top_k_peaks mag n_half k_exclude_dc K).1.Nodup ∧
    (∀ i ∈ (top_k_peaks mag n_half k_exclude_dc K).1, k_exclude_dc ≤ i ∧ i < n_half) ∧
    (top_k_peaks mag n_half k_exclude_dc K).2.1 =
      (top_k_peaks mag n_half k_exclude_dc K).1.map (fun i => mag.getD i 0) ∧
    List.Pairwise (· ≥ ·) (top_k_peaks mag n_half k_exclude_dc K).2.1 ∧
    (∀ i, k_exclude_dc ≤ i → i < n_half → i ∉ (top_k_peaks mag n_half k_exclude_dc K).1 →
      ∀ v ∈ (top_k_peaks mag n_half k_exclude_dc K).2.1, mag.getD i 0 ≤ v) ∧
    (∀ p, p < (top_k_peaks mag n_half k_exclude_dc K).2.2 → ∀ i, k_exclude_dc ≤ i →
      i < (top_k_peaks mag n_half k_exclude_dc K).1.getD p 0 →
      mag.getD i 0 = (top_k_peaks mag n_half k_exclude_dc K).2.1.getD p 0 →
      i ∈ (top_k_peaks mag n_half k_exclude_dc K).1.take p) := by
  have hmag2 : ∀ i, i < n_half → 0 ≤ mag.getD i 0 := by
    intro i hi
    have hi2 : i < mag.length := by omega
    rw [List.getD_eq_getElem?_getD, List.getElem?_eq_getElem hi2]
    exact hmag _ (List.getElem_mem hi2)
  obtain ⟨idx, hfold, hl, hnd, hrange, hsorted, hrest, htie⟩ :=
    top_k_peaks_fold mag n_half k_exclude_dc hmag2 K
  have e : top_k_peaks mag n_half k_exclude_dc K =
      (idx, idx.map (fun i => mag.getD i 0), idx.length) := by
    unfold top_k_peaks
    simp only
    rw [hfold]
  rw [e]
  refine ⟨hl, rfl, by simp, hnd, hrange, rfl, hsorted, ?_, ?_⟩
  · intro i h1 h2 hni v hv
    obtain ⟨j, hj, rfl⟩ := List.mem_map.mp hv
    exact hrest i h1 h2 hni j hj
  · intro p hp i h1 h2 heq
    apply htie p hp i h1 h2
    rw [heq]
    show (List.map (fun i => mag.getD i 0) idx).getD p 0 = _
    have hp2 : p < idx.length := hp
    simp [List.getD_eq_getElem?_getD, List.getElem?_eq_getElem hp2]

/-- Witness for C36: five magnitudes with a tie, the three largest outside DC. -/
theorem top_k_peaks_selection_witness :
    (top_k_peaks ([9, 2, 5, 5, 1] : List ℚ) 5 1 3).2.2 = min 3 (5 - 1) :=
  (top_k_peaks_selection ([9, 2, 5, 5, 1] : List ℚ) 5 1 3 (by decide)
    (by
      intro v hv
      simp only [List.mem_cons, List.mem_singleton, List.not_mem_nil, or_false] at hv
      rcases hv with h | h | h | h | h <;> rw [h] <;> norm_num)).1

end TopKPeaksTheorems

section ReverseBitsTheorems

/-- A fold over a range that ignores the index is an iteration. -/
theorem foldl_range_const {β : Type} (g : β → β) (a : β) (K : Nat) :
    (List.range K).foldl (fun st _ => g st) a = g^[K] a := by
  induction K with
  | zero => rfl
  | succ K ih =>
    rw [List.range_succ, List.foldl_append, ih, Function.iterate_succ_apply']
    rfl

theorem reverse_bits_eq_iterate (v K : Nat) :
    reverse_bits v K = (reverse_bits_step^[K] (0, v)).1 := by
  unfold reverse_bits
  rw [← foldl_range_const]
  rfl

theorem reverse_bits_step_eq (r v : Nat) (hr : r < 2 ^ 31) :
    reverse_bits_step (r, v) = (2 * r + v % 2, v / 2) := by
  unfold reverse_bits_step UNSIGNED_MODULUS
  simp only
  have h1 : r <<< 1 = 2 * r := by rw [Nat.shiftLeft_eq]; ring
  have h2 : (r <<< 1) % 2 ^ 32 = r <<< 1 := Nat.mod_eq_of_lt (by rw [h1]; omega)
  have h3 : 2 * r ||| v % 2 = 2 * r + v % 2 := by
    rcases Nat.mod_two_eq_zero_or_one v with h | h
    · rw [h, Nat.or_zero, Nat.add_zero]
    · rw [h]
      have e1 : 2 * r = Nat.bit false r := by simp [Nat.bit_val]
      have e2 : 1 = Nat.bit true 0 := by simp [Nat.bit_val]
      rw [e1]
      nth_rewrite 1 [e2]
      rw [Nat.lor_bit]
      simp [Nat.bit_val]
  rw [h2, Nat.and_one_is_mod, h1, h3, Nat.shiftRight_eq_div_pow]

theorem reverse_bits_iterate (K : Nat) : ∀ (r v a : Nat), r < 2 ^ a → a + K ≤ 31 →
    (reverse_bits_step^[K] (r, v)).1 = r * 2 ^ K + (reverse_bits_step^[K] (0, v)).1 := by
  induction K with
  | zero => intro r v a _ _; simp
  | succ K ih =>
    intro r v a hr ha
    have hr31 : r < 2 ^ 31 :=
      lt_of_lt_of_le hr (Nat.pow_le_pow_right (by norm_num) (by omega))
    rw [Function.iterate_succ_apply, Function.iterate_succ_apply,
      reverse_bits_step_eq r v hr31, reverse_bits_step_eq 0 v (by norm_num)]
    have h1 : 2 * r + v % 2 < 2 ^ (a + 1) := by rw [pow_succ]; omega
    have h2 : 2 * 0 + v % 2 < 2 ^ 1 := by omega
    rw [ih (2 * r + v % 2) (v / 2) (a + 1) h1 (by omega),
      ih (2 * 0 + v % 2) (v / 2) 1 h2 (by omega), pow_succ]
    ring

theorem reverse_bits_zero (v : Nat) : reverse_bits v 0 = 0 := rfl

/-- The reversal of `K + 1` bits: the lowest bit of `v` becomes the highest. -/
theorem reverse_bits_succ (v K : Nat) (hK : K + 1 ≤ 31) :
    reverse_bits v (K + 1) = (v % 2) * 2 ^ K + reverse_bits (v / 2) K := by
  rw [reverse_bits_eq_iterate, reverse_bits_eq_iterate, Function.iterate_succ_apply,
    reverse_bits_step_eq 0 v (by norm_num)]
  have h2 : 2 * 0 + v % 2 < 2 ^ 1 := by omega
  rw [reverse_bits_iterate K (2 * 0 + v % 2) (v / 2) 1 h2 (by omega)]
  simp

/-- The reversal of `K` bits has `K` bits. -/
theorem reverse_bits_lt (K : Nat) : ∀ v, K ≤ 31 → reverse_bits v K < 2 ^ K := by
  induction K with
  | zero => intro v _; rw [reverse_bits_zero]; norm_num
  | succ K ih =>
    intro v hK
    rw [reverse_bits_succ v K hK, pow_succ]
    have := ih (v / 2) (by omega)
    have h2 : v % 2 < 2 := Nat.mod_lt _ (by norm_num)
    nlinarith

/-- The reversal of `K + 1` bits: the highest bit becomes the lowest. -/
theorem reverse_bits_high (K : Nat) : ∀ (a c : Nat), a < 2 ^ K → c < 2 → K + 1 ≤ 31 →
    reverse_bits (a + 2 ^ K * c) (K + 1) = 2 * reverse_bits a K + c := by
  induction K with
  | zero =>
    intro a c ha hc _
    have : a = 0 := by simpa using ha
    subst this
    rw [reverse_bits_succ _ 0 (by norm_num), reverse_bits_zero, reverse_bits_zero]
    simp
    omega
  | succ K ih =>
    intro a c ha hc hK
    rw [reverse_bits_succ _ (K + 1) hK, reverse_bits_succ a K (by omega)]
    have e0 : a + 2 ^ (K + 1) * c = a + 2 * (2 ^ K * c) := by rw [pow_succ]; ring
    have h1 : (a + 2 ^ (K + 1) * c) % 2 = a % 2 := by
      rw [e0]; omega
    have h2 : (a + 2 ^ (K + 1) * c) / 2 = a / 2 + 2 ^ K * c := by
      rw [e0]; omega
    rw [h1, h2, ih (a / 2) c (by rw [pow_succ] at ha; omega) hc (by omega), pow_succ]
    ring

/-- Bit reversal is an involution on the numbers of `K` bits. -/
theorem reverse_bits_involutive (K : Nat) : ∀ v, v < 2 ^ K → K ≤ 31 →
    reverse_bits (reverse_bits v K) K = v := by
  induction K with
  | zero =>
    intro v hv _
    have : v = 0 := by simpa using hv
    subst this
    rfl
  | succ K ih =>
    intro v hv hK
    rw [reverse_bits_succ v K hK]
    have hlt := reverse_bits_lt K (v / 2) (by omega)
    have h2 : v % 2 < 2 := Nat.mod_lt _ (by norm_num)
    have e : v % 2 * 2 ^ K + reverse_bits (v / 2) K =
        reverse_bits (v / 2) K + 2 ^ K * (v % 2) := by ring
    rw [e, reverse_bits_high K _ _ hlt h2 hK,
      ih (v / 2) (by rw [pow_succ] at hv; omega) (by omega)]
    omega

/-- The loop of line 33 of `fft.c` on a power of two. -/
theorem fft_logn_loop_pow (m : Nat) : ∀ (fuel logn : Nat), logn ≤ m → m ≤ logn + fuel →
    fft_logn_loop ((2 : Int) ^ m) fuel logn = m := by
  intro fuel
  induction fuel with
  | zero =>
    intro logn h1 h2
    rw [fft_logn_loop]
    omega
  | succ fuel ih =>
    intro logn h1 h2
    rw [fft_logn_loop]
    by_cases h : logn < m
    · have : (2 : Int) ^ logn < 2 ^ m := pow_lt_pow_right₀ (by norm_num) h
      rw [if_pos this]
      exact ih (logn + 1) (by omega) (by omega)
    · have hm : logn = m := by omega
      rw [hm, if_neg (lt_irrefl _)]

theorem fft_logn_pow (m : Nat) : fft_logn ((2 : Int) ^ m) = m := by
  unfold fft_logn
  apply fft_logn_loop_pow m _ 0 (Nat.zero_le _)
  have h : ((2 : Int) ^ m).toNat = 2 ^ m := by
    have h : ((2 : Int) ^ m) = ((2 ^ m : Nat) : Int) := by push_cast; rfl
    rw [h, Int.toNat_natCast]
  rw [h, Nat.zero_add]
  exact le_of_lt (Nat.lt_two_pow m)

end ReverseBitsTheorems

section BitReversalTheorems

theorem getD_set_ite {β : Type} (d : β) (l : List β) (i j : Nat) (v : β) (hi : i < l.length) :
    (l.set i v).getD j d = if j = i then v else l.getD j d := by
  by_cases h : j = i
  · subst h
    rw [if_pos rfl, List.getD_eq_getElem?_getD, List.getElem?_set_eq_of_lt _ hi]
    rfl
  · rw [if_neg h, List.getD_eq_getElem?_getD, List.getD_eq_getElem?_getD,
      List.getElem?_set_ne (fun e => h e.symm)]

/-- The swap loop for an involution `f` of the indices: after the indices
below `I`, position `p` holds the element that was at `f p` when `p` or `f p`
has been visited. -/
theorem swap_fold {β : Type} (d : β) (f : Nat → Nat) (n : Nat)
    (hf : ∀ p, p < n → f p < n) (hinv : ∀ p, p < n → f (f p) = p)
    (x : List β) (hx : x.length = n) : ∀ I, I ≤ n →
    ((List.range I).foldl
      (fun (x : List β) i =>
        if f i > i then (x.set i (x.getD (f i) d)).set (f i) (x.getD i d) else x) x).length = n ∧
    ∀ p, p < n →
      ((List.range I).foldl
        (fun (x : List β) i =>
          if f i > i then (x.set i (x.getD (f i) d)).set (f i) (x.getD i d) else x) x).getD p d
        = if p < I ∨ f p < I then x.getD (f p) d else x.getD p d := by
  intro I
  induction I with
  | zero =>
    intro _
    refine ⟨hx, ?_⟩
    intro p _
    simp
  | succ I ih =>
    intro hI
    obtain ⟨hlen, hget⟩ := ih (by omega)
    rw [List.range_succ, List.foldl_append]
    simp only [List.foldl_cons, List.foldl_nil]
    generalize (List.range I).foldl
      (fun (x : List β) i =>
        if f i > i then (x.set i (x.getD (f i) d)).set (f i) (x.getD i d) else x) x = y
      at hlen hget ⊢
    have hIn : I < n := by omega
    have hfI := hf I hIn
    have hffI := hinv I hIn
    by_cases hj : f I > I
    · rw [if_pos hj]
      refine ⟨by rw [List.length_set, List.length_set, hlen], ?_⟩
      intro p hp
      rw [getD_set_ite d _ _ _ _ (by rw [List.length_set, hlen]; exact hfI),
        getD_set_ite d _ _ _ _ (by rw [hlen]; exact hIn)]
      have hyI : y.getD I d = x.getD I d := by
        rw [hget I hIn, if_neg (by omega)]
      have hyj : y.getD (f I) d = x.getD (f I) d := by
        rw [hget (f I) hfI, if_neg (by rw [hffI]; omega)]
      by_cases hpj : p = f I
      · rw [if_pos hpj, hyI, hpj, hffI, if_pos (Or.inr (by omega))]
      · rw [if_neg hpj]
        by_cases hpI : p = I
        · rw [if_pos hpI, hyj, hpI, if_pos (Or.inl (by omega))]
        · rw [if_neg hpI, hget p hp]
          have hfp : f p ≠ I := by
            intro h
            apply hpj
            rw [← h, hinv p hp]
          by_cases hc : p < I ∨ f p < I
          · rw [if_pos hc, if_pos (by omega)]
          · rw [if_neg hc, if_neg (by omega)]
    · rw [if_neg hj]
      refine ⟨hlen, ?_⟩
      intro p hp
      rw [hget p hp]
      by_cases hc : p < I ∨ f p < I
      · rw [if_pos hc, if_pos (by omega)]
      · rw [if_neg hc]
        by_cases hpI : p = I
        · have hfe : f I = I := by
            rw [hpI] at hc
            omega
          rw [if_pos (Or.inl (by omega)), hpI, hfe]
        · have hfp : f p ≠ I := by
            intro h
            have : p = f I := by rw [← h, hinv p hp]
            omega
          rw [if_neg (by omega)]

variable {α : Type} [LinearOrderedField α]

/-- The bit-reversal pass of `fft_radix2` on a buffer of `2^L` elements: the
element at `p` afterwards is the one that was at the reversal of `p`. -/
theorem bit_reversal_spec (L : Nat) (hL : L ≤ 30) (x : List (c32 α)) (hx : x.length = 2 ^ L) :
    (bit_reversal x ((2 : Int) ^ L) L).length = 2 ^ L ∧
    ∀ p, p < 2 ^ L →
      (bit_reversal x ((2 : Int) ^ L) L).getD p ⟨0, 0⟩ = x.getD (reverse_bits p L) ⟨0, 0⟩ := by
  have hn : ((2 : Int) ^ L).toNat = 2 ^ L := by
    have h : ((2 : Int) ^ L) = ((2 ^ L : Nat) : Int) := by push_cast; rfl
    rw [h, Int.toNat_natCast]
  obtain ⟨h1, h2⟩ := swap_fold (⟨0, 0⟩ : c32 α) (fun p => reverse_bits p L) (2 ^ L)
    (fun p _ => reverse_bits_lt L p (by omega))
    (fun p hp => reverse_bits_involutive L p hp (by omega)) x hx (2 ^ L) (le_refl _)
  unfold bit_reversal
  rw [hn]
  refine ⟨h1, ?_⟩
  intro p hp
  have := h2 p hp
  rw [if_pos (Or.inl hp)] at this
  exact this

end BitReversalTheorems

section ButterflyTheorems

theorem c32_seq_set (x : List (c32 ℝ)) (i p : Nat) (v : c32 ℝ) (hi : i < x.length) :
    c32_seq (x.set i v) p = if p = i then c32_to_complex v else c32_seq x p := by
  unfold c32_seq
  rw [getD_set_ite _ _ _ _ _ hi]
  split_ifs <;> rfl

/-- One butterfly in complex form. -/
theorem butterfly_spec (wpr wpi : ℝ) (k m2 j : Nat) (x : List (c32 ℝ)) (wr wi : ℝ)
    (hm2 : 1 ≤ m2) (ht : k + j + m2 < x.length) :
    (butterfly wpr wpi k m2 (x, wr, wi) j).1.length = x.length ∧
    (⟨(butterfly wpr wpi k m2 (x, wr, wi) j).2.1,
      (butterfly wpr wpi k m2 (x, wr, wi) j).2.2⟩ : ℂ) =
      (⟨wr, wi⟩ : ℂ) * (⟨1 + wpr, wpi⟩ : ℂ) ∧
    ∀ p, c32_seq (butterfly wpr wpi k m2 (x, wr, wi) j).1 p =
      if p = k + j then c32_seq x (k + j) + (⟨wr, wi⟩ : ℂ) * c32_seq x (k + j + m2)
      else if p = k + j + m2 then
        c32_seq x (k + j) - (⟨wr, wi⟩ : ℂ) * c32_seq x (k + j + m2)
      else c32_seq x p := by
  refine ⟨?_, ?_, ?_⟩
  · simp [butterfly]
  · apply Complex.ext
    · simp [butterfly]; ring
    · simp [butterfly]; ring
  · intro p
    unfold butterfly
    simp only
    rw [c32_seq_set _ _ _ _ (by rw [List.length_set]; omega), c32_seq_set _ _ _ _ ht]
    by_cases h1 : p = k + j
    · rw [if_pos h1, if_pos h1]
      apply Complex.ext
      · simp [c32_seq, c32_to_complex]
      · simp [c32_seq, c32_to_complex]
    · rw [if_neg h1, if_neg h1]
      by_cases h2 : p = k + j + m2
      · rw [if_pos h2, if_pos h2]
        apply Complex.ext
        · simp [c32_seq, c32_to_complex]
        · simp [c32_seq, c32_to_complex]
      · rw [if_neg h2, if_neg h2]

/-- The loop over `j` of `fft_radix2` (lines 50-62) on the block starting at
`k`, after `J` iterations. -/
theorem butterfly_fold (wpr wpi : ℝ) (k m2 : Nat) (x : List (c32 ℝ))
    (hlen : k + 2 * m2 ≤ x.length) : ∀ J, J ≤ m2 →
    ((List.range J).foldl (butterfly wpr wpi k m2) (x, 1, 0)).1.length = x.length ∧
    (⟨((List.range J).foldl (butterfly wpr wpi k m2) (x, 1, 0)).2.1,
      ((List.range J).foldl (butterfly wpr wpi k m2) (x, 1, 0)).2.2⟩ : ℂ) =
      (⟨1 + wpr, wpi⟩ : ℂ) ^ J ∧
    ∀ p, c32_seq ((List.range J).foldl (butterfly wpr wpi k m2) (x, 1, 0)).1 p =
      if k ≤ p ∧ p < k + J then
        c32_seq x p + (⟨1 + wpr, wpi⟩ : ℂ) ^ (p - k) * c32_seq x (p + m2)
      else if k + m2 ≤ p ∧ p < k + m2 + J then
        c32_seq x (p - m2) - (⟨1 + wpr, wpi⟩ : ℂ) ^ (p - k - m2) * c32_seq x p
      else c32_seq x p := by
  intro J
  induction J with
  | zero =>
    intro _
    refine ⟨rfl, ?_, ?_⟩
    · simp only [List.range_zero, List.foldl_nil, pow_zero]
      rfl
    · intro p
      show c32_seq x p = _
      rw [if_neg (by omega), if_neg (by omega)]
  | succ J ih =>
    intro hJ
    obtain ⟨h1, h2, h3⟩ := ih (by omega)
    rw [List.range_succ, List.foldl_append]
    simp only [List.foldl_cons, List.foldl_nil]
    generalize (List.range J).foldl (butterfly wpr wpi k m2) (x, 1, 0) = st at h1 h2 h3 ⊢
    obtain ⟨y, wr, wi⟩ := st
    simp only at h1 h2 h3
    obtain ⟨b1, b2, b3⟩ := butterfly_spec wpr wpi k m2 J y wr wi (by omega) (by rw [h1]; omega)
    refine ⟨by rw [b1, h1], by rw [b2, h2, pow_succ], ?_⟩
    intro p
    rw [b3 p, h2]
    have hu : c32_seq y (k + J) = c32_seq x (k + J) := by
      rw [h3, if_neg (by omega), if_neg (by omega)]
    have ht : c32_seq y (k + J + m2) = c32_seq x (k + J + m2) := by
      rw [h3, if_neg (by omega), if_neg (by omega)]
    rw [hu, ht]
    by_cases c1 : p = k + J
    · rw [if_pos c1, if_pos (by omega), c1]
      congr 3
      omega
    · rw [if_neg c1]
      by_cases c2 : p = k + J + m2
      · rw [if_pos c2, if_neg (by omega), if_pos (by omega), c2]
        congr 3
        · omega
        · omega
      · rw [if_neg c2, h3 p]
        split_ifs <;> first | rfl | (exfalso; omega)

/-- The loop over the blocks of one stage (lines 48-63), after `B` blocks. -/
theorem stage_fold (wpr wpi : ℝ) (m2 : Nat) (hm2 : 1 ≤ m2) (x : List (c32 ℝ)) :
    ∀ B, B * (2 * m2) ≤ x.length →
    (((List.range B).map (fun b => b * (2 * m2))).foldl
      (fun (x : List (c32 ℝ)) k =>
        ((List.range m2).foldl (butterfly wpr wpi k m2) (x, 1, 0)).1) x).length = x.length ∧
    ∀ p, c32_seq (((List.range B).map (fun b => b * (2 * m2))).foldl
      (fun (x : List (c32 ℝ)) k =>
        ((List.range m2).foldl (butterfly wpr wpi k m2) (x, 1, 0)).1) x) p =
      if p < B * (2 * m2) then stage_map (⟨1 + wpr, wpi⟩ : ℂ) m2 (c32_seq x) p
      else c32_seq x p := by
  intro B
  induction B with
  | zero =>
    intro _
    refine ⟨rfl, ?_⟩
    intro p
    show c32_seq x p = _
    rw [if_neg (by omega)]
  | succ B ih =>
    intro hB
    have hB' : B * (2 * m2) ≤ x.length := by
      have : B * (2 * m2) ≤ (B + 1) * (2 * m2) := Nat.mul_le_mul_right _ (by omega)
      omega
    obtain ⟨h1, h2⟩ := ih hB'
    rw [List.range_succ, List.map_append, List.foldl_append]
    simp only [List.map_cons, List.map_nil, List.foldl_cons, List.foldl_nil]
    generalize ((List.range B).map (fun b => b * (2 * m2))).foldl
      (fun (x : List (c32 ℝ)) k =>
        ((List.range m2).foldl (butterfly wpr wpi k m2) (x, 1, 0)).1) x = y at h1 h2 ⊢
    have hexp : (B + 1) * (2 * m2) = B * (2 * m2) + 2 * m2 := by ring
    obtain ⟨b1, _, b3⟩ := butterfly_fold wpr wpi (B * (2 * m2)) m2 y (by rw [h1]; omega) m2
      (le_refl _)
    refine ⟨by rw [b1, h1], ?_⟩
    intro p
    rw [b3 p]
    by_cases c1 : B * (2 * m2) ≤ p ∧ p < B * (2 * m2) + m2
    · rw [if_pos c1, if_pos (by omega), h2 p, if_neg (by omega), h2 (p + m2),
        if_neg (by omega)]
      have hmod : p % (2 * m2) = p - B * (2 * m2) := by
        have : p = (p - B * (2 * m2)) + B * (2 * m2) := by omega
        rw [this, Nat.add_mul_mod_self_right, Nat.mod_eq_of_lt (by omega)]
        omega
      unfold stage_map
      rw [if_pos (by omega), hmod]
    · rw [if_neg c1]
      by_cases c2 : B * (2 * m2) + m2 ≤ p ∧ p < B * (2 * m2) + m2 + m2
      · rw [if_pos c2, if_pos (by omega), h2 p, if_neg (by omega), h2 (p - m2),
          if_neg (by omega)]
        have hmod : p % (2 * m2) = p - B * (2 * m2) := by
          have : p = (p - B * (2 * m2)) + B * (2 * m2) := by omega
          rw [this, Nat.add_mul_mod_self_right, Nat.mod_eq_of_lt (by omega)]
          omega
        unfold stage_map
        rw [if_neg (by omega), hmod]
      · rw [if_neg c2, h2 p]
        split_ifs <;> first | rfl | (exfalso; omega)

end ButterflyTheorems

section FftStageTheorems

theorem int_two_pow_toNat (L : Nat) : ((2 : Int) ^ L).toNat = 2 ^ L := by
  have h : ((2 : Int) ^ L) = ((2 ^ L : Nat) : Int) := by push_cast; rfl
  rw [h, Int.toNat_natCast]

/-- The block starts of a stage with block size `2^s` in a buffer of `2^L`. -/
theorem block_starts_pow (L s : Nat) (hs : s ≤ L) :
    block_starts ((2 : Int) ^ L) (2 ^ s) = (List.range (2 ^ (L - s))).map (fun b => b * 2 ^ s) := by
  unfold block_starts
  rw [int_two_pow_toNat]
  have h1 : 2 ^ L = 2 ^ (L - s) * 2 ^ s := by rw [← pow_add]; congr 1; omega
  have hpos : 0 < 2 ^ s := by positivity
  have h2 : (2 ^ L + 2 ^ s - 1) / 2 ^ s = 2 ^ (L - s) := by
    rw [h1]
    have : 2 ^ (L - s) * 2 ^ s + 2 ^ s - 1 = 2 ^ s - 1 + 2 ^ (L - s) * 2 ^ s := by omega
    rw [this, Nat.add_mul_div_right _ _ hpos, Nat.div_eq_of_lt (by omega)]
    omega
  rw [h2]

/-- The twiddle step `(1 + wpr, wpi)` of a stage is `exp(i·theta)`. -/
theorem twiddle_step_eq (theta : ℝ) :
    (⟨1 + -2 * Real.sin (0.5 * theta) * Real.sin (0.5 * theta), Real.sin theta⟩ : ℂ) =
      Complex.exp ((theta : ℂ) * Complex.I) := by
  apply Complex.ext
  · rw [Complex.exp_ofReal_mul_I_re]
    have h := Real.cos_two_mul (0.5 * theta)
    have h2 := Real.sin_sq_add_cos_sq (0.5 * theta)
    have e : 2 * (0.5 * theta) = theta := by norm_num; ring
    rw [e] at h
    simp only
    nlinarith
  · rw [Complex.exp_ofReal_mul_I_im]

/-- One stage of `fft_radix2` on a buffer of `2^L` elements, `1 ≤ s ≤ L`. -/
theorem fft_stage_spec (sgn : ℝ) (L s : Nat) (hs1 : 1 ≤ s) (hsL : s ≤ L)
    (x : List (c32 ℝ)) (hx : x.length = 2 ^ L) :
    (fft_stage Real.sin Real.pi sgn ((2 : Int) ^ L) x s).length = 2 ^ L ∧
    ∀ p, p < 2 ^ L →
      c32_seq (fft_stage Real.sin Real.pi sgn ((2 : Int) ^ L) x s) p =
        stage_map (Complex.exp (((sgn * Real.pi / (2 : ℝ) ^ (s - 1) : ℝ) : ℂ) * Complex.I))
          (2 ^ (s - 1)) (c32_seq x) p := by
  have hm : 2 ^ s = 2 * 2 ^ (s - 1) := by
    rw [← pow_succ']; congr 1; omega
  have hm2 : 2 ^ s / 2 = 2 ^ (s - 1) := by rw [hm]; omega
  have hB : 2 ^ (L - s) * (2 * 2 ^ (s - 1)) = 2 ^ L := by
    rw [← hm, ← pow_add]; congr 1; omega
  obtain ⟨h1, h2⟩ := stage_fold
    (-2 * Real.sin (0.5 * (sgn * Real.pi / (((2 ^ (s - 1) : Nat)) : ℝ))) *
      Real.sin (0.5 * (sgn * Real.pi / (((2 ^ (s - 1) : Nat)) : ℝ))))
    (Real.sin (sgn * Real.pi / (((2 ^ (s - 1) : Nat)) : ℝ)))
    (2 ^ (s - 1)) (Nat.one_le_two_pow) x (2 ^ (L - s)) (by rw [hB, hx])
  have e : fft_stage Real.sin Real.pi sgn ((2 : Int) ^ L) x s =
      ((List.range (2 ^ (L - s))).map (fun b => b * (2 * 2 ^ (s - 1)))).foldl
        (fun (x : List (c32 ℝ)) k =>
          ((List.range (2 ^ (s - 1))).foldl
            (butterfly
              (-2 * Real.sin (0.5 * (sgn * Real.pi / (((2 ^ (s - 1) : Nat)) : ℝ))) *
                Real.sin (0.5 * (sgn * Real.pi / (((2 ^ (s - 1) : Nat)) : ℝ))))
              (Real.sin (sgn * Real.pi / (((2 ^ (s - 1) : Nat)) : ℝ))) k (2 ^ (s - 1)))
            (x, 1, 0)).1) x := by
    unfold fft_stage
    simp only
    rw [block_starts_pow L s hsL, hm2, hm]
  rw [e]
  refine ⟨by rw [h1, hx], ?_⟩
  intro p hp
  rw [h2 p, if_pos (by rw [hB]; exact hp), twiddle_step_eq]
  congr 3
  push_cast
  ring

end FftStageTheorems

section DftAlgebra

variable {K : Type} [Field K]

theorem sum_range_two_mul (f : Nat → K) (M : Nat) :
    ∑ t in Finset.range (2 * M), f t =
      ∑ t in Finset.range M, f (2 * t) + ∑ t in Finset.range M, f (2 * t + 1) := by
  induction M with
  | zero => simp
  | succ M ih =>
    rw [show 2 * (M + 1) = 2 * M + 1 + 1 by ring, Finset.sum_range_succ, Finset.sum_range_succ,
      ih, Finset.sum_range_succ, Finset.sum_range_succ]
    ring

/-- Decimation in time: a Fourier sum of `2M` terms is the sum of the ones over
the even and the odd positions, the latter with the twiddle factor. -/
theorem dft_sub_split (ζ : K) (a : Nat → K) (S c M j : Nat) :
    dft_sub ζ a S c (2 * M) j =
      dft_sub ζ a (2 * S) c M j + ζ ^ (S * j) * dft_sub ζ a (2 * S) (c + S) M j := by
  unfold dft_sub
  rw [sum_range_two_mul, Finset.mul_sum]
  congr 1
  · apply Finset.sum_congr rfl
    intro t _
    congr 2
    · ring
    · ring
  · apply Finset.sum_congr rfl
    intro t _
    rw [show c + (2 * t + 1) * S = c + S + t * (2 * S) by ring,
      show S * (2 * t + 1) * j = S * j + 2 * S * t * j by ring, pow_add]
    ring

/-- A Fourier sum of `M` terms for the root `ζ^S` with `ζ^(S·M) = 1` has period
`M` in the frequency. -/
theorem dft_sub_periodic (ζ : K) (a : Nat → K) (S c M j : Nat) (h : ζ ^ (S * M) = 1) :
    dft_sub ζ a S c M (j + M) = dft_sub ζ a S c M j := by
  unfold dft_sub
  apply Finset.sum_congr rfl
  intro t _
  congr 1
  rw [show S * t * (j + M) = S * t * j + S * M * t by ring, pow_add, pow_mul (ζ) (S * M) t, h,
    one_pow, mul_one]

/-- One stage of butterflies turns the Fourier sums of the blocks of size `2^s`
into those of the blocks of size `2^(s+1)`. -/
theorem dft_stage_step (ζ : K) (L s : Nat) (hs : s < L) (hL : L ≤ 30)
    (h1 : ζ ^ (2 ^ L) = 1) (h2 : ζ ^ (2 ^ (L - 1)) = -1) (a y : Nat → K)
    (hy : ∀ b j, b < 2 ^ (L - s) → j < 2 ^ s →
      y (b * 2 ^ s + j) = dft_sub ζ a (2 ^ (L - s)) (reverse_bits b (L - s)) (2 ^ s) j) :
    ∀ b j, b < 2 ^ (L - (s + 1)) → j < 2 ^ (s + 1) →
      stage_map (ζ ^ (2 ^ (L - (s + 1)))) (2 ^ s) y (b * 2 ^ (s + 1) + j) =
        dft_sub ζ a (2 ^ (L - (s + 1))) (reverse_bits b (L - (s + 1))) (2 ^ (s + 1)) j := by
  intro b j hb hj
  have hLs : L - s = (L - (s + 1)) + 1 := by omega
  have hS : 2 ^ (L - s) = 2 * 2 ^ (L - (s + 1)) := by rw [hLs, pow_succ']
  have hM : 2 ^ (s + 1) = 2 * 2 ^ s := pow_succ' 2 s
  have hrev0 : reverse_bits (2 * b) (L - s) = reverse_bits b (L - (s + 1)) := by
    rw [hLs, reverse_bits_succ _ _ (by omega)]
    have e1 : 2 * b % 2 = 0 := by omega
    have e2 : 2 * b / 2 = b := by omega
    rw [e1, e2]
    simp
  have hrev1 : reverse_bits (2 * b + 1) (L - s) =
      reverse_bits b (L - (s + 1)) + 2 ^ (L - (s + 1)) := by
    rw [hLs, reverse_bits_succ _ _ (by omega)]
    have e1 : (2 * b + 1) % 2 = 1 := by omega
    have e2 : (2 * b + 1) / 2 = b := by omega
    rw [e1, e2]
    ring
  have hb0 : 2 * b < 2 ^ (L - s) := by rw [hS]; omega
  have hb1 : 2 * b + 1 < 2 ^ (L - s) := by rw [hS]; omega
  have hMpos : 0 < 2 ^ s := by positivity
  have hmod : (b * (2 * 2 ^ s) + j) % (2 * 2 ^ s) = j := by
    rw [Nat.add_comm, Nat.add_mul_mod_self_right, Nat.mod_eq_of_lt (by omega)]
  have hper : ζ ^ (2 ^ (L - s) * 2 ^ s) = 1 := by
    rw [← pow_add, show L - s + s = L by omega, h1]
  have hneg : ζ ^ (2 ^ (L - (s + 1)) * 2 ^ s) = -1 := by
    rw [← pow_add, show L - (s + 1) + s = L - 1 by omega, h2]
  rw [hM, dft_sub_split, ← hS]
  unfold stage_map
  rw [hmod]
  by_cases hlow : j < 2 ^ s
  · rw [if_pos hlow]
    have e0 : b * (2 * 2 ^ s) + j = (2 * b) * 2 ^ s + j := by ring
    have e1 : b * (2 * 2 ^ s) + j + 2 ^ s = (2 * b + 1) * 2 ^ s + j := by ring
    rw [e1, e0, hy (2 * b) j hb0 hlow, hy (2 * b + 1) j hb1 hlow, hrev0, hrev1, ← pow_mul]
  · rw [if_neg hlow]
    have hj2 : j - 2 ^ s < 2 ^ s := by omega
    have e0 : b * (2 * 2 ^ s) + j - 2 ^ s = (2 * b) * 2 ^ s + (j - 2 ^ s) := by
      have : b * (2 * 2 ^ s) = 2 * b * 2 ^ s := by ring
      omega
    have e1 : b * (2 * 2 ^ s) + j = (2 * b + 1) * 2 ^ s + (j - 2 ^ s) := by
      have : b * (2 * 2 ^ s) + 2 ^ s = (2 * b + 1) * 2 ^ s := by ring
      omega
    rw [e0, e1, hy (2 * b) _ hb0 hj2, hy (2 * b + 1) _ hb1 hj2, hrev0, hrev1, ← pow_mul]
    have ej : j = (j - 2 ^ s) + 2 ^ s := by omega
    have p1 := dft_sub_periodic ζ a (2 ^ (L - s)) (reverse_bits b (L - (s + 1))) (2 ^ s)
      (j - 2 ^ s) hper
    have p2 := dft_sub_periodic ζ a (2 ^ (L - s))
      (reverse_bits b (L - (s + 1)) + 2 ^ (L - (s + 1))) (2 ^ s) (j - 2 ^ s) hper
    rw [← ej] at p1 p2
    rw [p1, p2]
    have e3 : ζ ^ (2 ^ (L - (s + 1)) * j) =
        -ζ ^ (2 ^ (L - (s + 1)) * (j - 2 ^ s)) := by
      nth_rewrite 1 [ej]
      rw [Nat.mul_add, pow_add, hneg]
      ring
    rw [e3]
    ring

/-- Orthogonality of the powers of a primitive root. -/
theorem root_orthogonal (ζ ζi : K) (n : Nat) (hinv : ζ * ζi = 1) (hn : ζi ^ n = 1)
    (hprim : ∀ d, 0 < d → d < n → ζi ^ d ≠ 1) (u j : Nat) (hu : u < n) (hj : j < n) :
    ∑ t in Finset.range n, ζ ^ (u * t) * ζi ^ (t * j) = if u = j then (n : K) else 0 := by
  have hζn : ζ ^ n = 1 := by
    have := congrArg (fun z => z ^ n) hinv
    simp only [mul_pow, one_pow, hn, mul_one] at this
    exact this
  have hi2 : ζi * ζ = 1 := by rw [mul_comm]; exact hinv
  have hprim2 : ∀ d, 0 < d → d < n → ζ ^ d ≠ 1 := by
    intro d h1 h2 h
    apply hprim d h1 h2
    have := congrArg (fun z => z ^ d) hi2
    simp only [mul_pow, one_pow, h, mul_one] at this
    exact this
  have hterm : ∀ t, ζ ^ (u * t) * ζi ^ (t * j) = (ζ ^ u * ζi ^ j) ^ t := by
    intro t
    rw [mul_pow, ← pow_mul, ← pow_mul, mul_comm t j]
  simp only [hterm]
  by_cases huj : u = j
  · rw [if_pos huj, huj, ← mul_pow, hinv, one_pow]
    simp
  · rw [if_neg huj]
    have hr : (ζ ^ u * ζi ^ j) ^ n = 1 := by
      rw [mul_pow, ← pow_mul, ← pow_mul, mul_comm u n, mul_comm j n, pow_mul, pow_mul, hζn, hn,
        one_pow, one_pow, one_mul]
    have hne : ζ ^ u * ζi ^ j - 1 ≠ 0 := by
      intro h
      have h1 : ζ ^ u * ζi ^ j = 1 := sub_eq_zero.mp h
      rcases Nat.lt_or_gt_of_ne huj with hlt | hgt
      · apply hprim (j - u) (by omega) (by omega)
        have : ζi ^ j = ζi ^ (j - u) * ζi ^ u := by rw [← pow_add]; congr 1; omega
        rw [this] at h1
        have h3 : ζ ^ u * (ζi ^ (j - u) * ζi ^ u) = ζi ^ (j - u) * (ζ * ζi) ^ u := by
          rw [mul_pow]; ring
        rw [h3, hinv, one_pow, mul_one] at h1
        exact h1
      · apply hprim2 (u - j) (by omega) (by omega)
        have : ζ ^ u = ζ ^ (u - j) * ζ ^ j := by rw [← pow_add]; congr 1; omega
        rw [this] at h1
        have h3 : ζ ^ (u - j) * ζ ^ j * ζi ^ j = ζ ^ (u - j) * (ζ * ζi) ^ j := by
          rw [mul_pow]; ring
        rw [h3, hinv, one_pow, mul_one] at h1
        exact h1
    have hg := geom_sum_mul (ζ ^ u * ζi ^ j) n
    rw [hr, sub_self] at hg
    rcases mul_eq_zero.mp hg with h | h
    · exact h
    · exact absurd h hne

end DftAlgebra

section FftRootTheorems

/-- The root of unity of the transform: `exp(sgn · 2πi / 2^L)`. -/
theorem fft_root_pow (sgn : ℝ) (L k : Nat) :
    Complex.exp (((sgn * (2 * Real.pi) / (2 : ℝ) ^ L : ℝ) : ℂ) * Complex.I) ^ k =
      Complex.exp (((sgn * (2 * Real.pi) * (k : ℝ) / (2 : ℝ) ^ L : ℝ) : ℂ) * Complex.I) := by
  rw [← Complex.exp_nat_mul]
  congr 1
  push_cast
  ring

theorem exp_sgn_two_pi (sgn : ℝ) (hsgn : sgn = 1 ∨ sgn = -1) :
    Complex.exp (((sgn * (2 * Real.pi) : ℝ) : ℂ) * Complex.I) = 1 := by
  rcases hsgn with h | h
  · rw [h]
    have : (((1 * (2 * Real.pi) : ℝ) : ℂ) * Complex.I) = 2 * Real.pi * Complex.I := by
      push_cast; ring
    rw [this, Complex.exp_two_pi_mul_I]
  · rw [h]
    have : (((-1 * (2 * Real.pi) : ℝ) : ℂ) * Complex.I) = -(2 * Real.pi * Complex.I) := by
      push_cast; ring
    rw [this, Complex.exp_neg, Complex.exp_two_pi_mul_I, inv_one]

theorem exp_sgn_pi (sgn : ℝ) (hsgn : sgn = 1 ∨ sgn = -1) :
    Complex.exp (((sgn * Real.pi : ℝ) : ℂ) * Complex.I) = -1 := by
  rcases hsgn with h | h
  · rw [h]
    have : (((1 * Real.pi : ℝ) : ℂ) * Complex.I) = Real.pi * Complex.I := by
      push_cast; ring
    rw [this, Complex.exp_pi_mul_I]
  · rw [h]
    have : (((-1 * Real.pi : ℝ) : ℂ) * Complex.I) = -(Real.pi * Complex.I) := by
      push_cast; ring
    rw [this, Complex.exp_neg, Complex.exp_pi_mul_I]
    norm_num

theorem fft_root_pow_full (sgn : ℝ) (hsgn : sgn = 1 ∨ sgn = -1) (L : Nat) :
    Complex.exp (((sgn * (2 * Real.pi) / (2 : ℝ) ^ L : ℝ) : ℂ) * Complex.I) ^ (2 ^ L) = 1 := by
  rw [fft_root_pow, ← exp_sgn_two_pi sgn hsgn]
  congr 3
  push_cast
  field_simp

theorem fft_root_pow_half (sgn : ℝ) (hsgn : sgn = 1 ∨ sgn = -1) (L : Nat) (hL : 1 ≤ L) :
    Complex.exp (((sgn * (2 * Real.pi) / (2 : ℝ) ^ L : ℝ) : ℂ) * Complex.I) ^ (2 ^ (L - 1)) =
      -1 := by
  rw [fft_root_pow, ← exp_sgn_pi sgn hsgn]
  congr 3
  have : (2 : ℝ) ^ L = 2 * 2 ^ (L - 1) := by
    rw [← pow_succ']; congr 1; omega
  rw [this]
  push_cast
  field_simp
  ring

theorem fft_root_pow_stage (sgn : ℝ) (L s : Nat) (hs : s < L) :
    Complex.exp (((sgn * (2 * Real.pi) / (2 : ℝ) ^ L : ℝ) : ℂ) * Complex.I) ^
        (2 ^ (L - (s + 1))) =
      Complex.exp (((sgn * Real.pi / (2 : ℝ) ^ s : ℝ) : ℂ) * Complex.I) := by
  rw [fft_root_pow]
  congr 3
  have : (2 : ℝ) ^ L = 2 ^ (L - (s + 1)) * (2 * 2 ^ s) := by
    rw [← pow_succ', ← pow_add]; congr 1; omega
  rw [this]
  push_cast
  field_simp
  ring

/-- The stages of `fft_radix2` after the bit reversal: after `s` stages every
block of `2^s` elements holds the Fourier sums of the elements of the input at
stride `2^(L-s)` from the reversal of the block number. -/
theorem fft_stages_spec (sgn : ℝ) (hsgn : sgn = 1 ∨ sgn = -1) (L : Nat) (hL : L ≤ 30)
    (y : List (c32 ℝ)) (hy : y.length = 2 ^ L) (a : Nat → ℂ)
    (ha : ∀ p, p < 2 ^ L → c32_seq y p = a (reverse_bits p L)) : ∀ s, s ≤ L →
    ((List.range s).foldl
      (fun (x : List (c32 ℝ)) s => fft_stage Real.sin Real.pi sgn ((2 : Int) ^ L) x (s + 1))
      y).length = 2 ^ L ∧
    ∀ b j, b < 2 ^ (L - s) → j < 2 ^ s →
      c32_seq ((List.range s).foldl
        (fun (x : List (c32 ℝ)) s => fft_stage Real.sin Real.pi sgn ((2 : Int) ^ L) x (s + 1))
        y) (b * 2 ^ s + j) =
      dft_sub (Complex.exp (((sgn * (2 * Real.pi) / (2 : ℝ) ^ L : ℝ) : ℂ) * Complex.I)) a
        (2 ^ (L - s)) (reverse_bits b (L - s)) (2 ^ s) j := by
  intro s
  induction s with
  | zero =>
    intro _
    refine ⟨hy, ?_⟩
    intro b j hb hj
    have hj0 : j = 0 := by simpa using hj
    subst hj0
    simp only [List.range_zero, List.foldl_nil, pow_zero, mul_one, add_zero, Nat.sub_zero]
    rw [ha b hb]
    simp [dft_sub]
  | succ s ih =>
    intro hs
    obtain ⟨h1, h2⟩ := ih (by omega)
    rw [List.range_succ, List.foldl_append]
    simp only [List.foldl_cons, List.foldl_nil]
    generalize (List.range s).foldl
      (fun (x : List (c32 ℝ)) s => fft_stage Real.sin Real.pi sgn ((2 : Int) ^ L) x (s + 1))
      y = z at h1 h2 ⊢
    obtain ⟨g1, g2⟩ := fft_stage_spec sgn L (s + 1) (by omega) hs z h1
    refine ⟨g1, ?_⟩
    intro b j hb hj
    have hp : b * 2 ^ (s + 1) + j < 2 ^ L := by
      have e : 2 ^ L = 2 ^ (L - (s + 1)) * 2 ^ (s + 1) := by
        rw [← pow_add]; congr 1; omega
      rw [e]
      have : (b + 1) * 2 ^ (s + 1) ≤ 2 ^ (L - (s + 1)) * 2 ^ (s + 1) :=
        Nat.mul_le_mul_right _ hb
      have e2 : (b + 1) * 2 ^ (s + 1) = b * 2 ^ (s + 1) + 2 ^ (s + 1) := by ring
      omega
    rw [g2 _ hp, Nat.add_sub_cancel, ← fft_root_pow_stage sgn L s (by omega)]
    exact dft_stage_step _ L s (by omega) hL (fft_root_pow_full sgn hsgn L)
      (fft_root_pow_half sgn hsgn L (by omega)) a (c32_seq z) h2 b j hb hj

end FftRootTheorems

section FftRadix2Theorems

/-- The branches of `fft_radix2` on a size `2^L`. -/
theorem fft_radix2_pow (L : Nat) (x : List (c32 ℝ)) (dir : Int) :
    fft_radix2 Real.sin Real.pi x ((2 : Int) ^ L) dir =
      (0,
        if dir < 0 then
          (List.range (2 ^ L)).foldl
            (fun (x : List (c32 ℝ)) i =>
              x.set i ⟨(x.getD i ⟨0, 0⟩).re * (1 / (((2 : Int) ^ L : Int) : ℝ)),
                (x.getD i ⟨0, 0⟩).im * (1 / (((2 : Int) ^ L : Int) : ℝ))⟩)
            ((List.range L).foldl
              (fun (x : List (c32 ℝ)) s =>
                fft_stage Real.sin Real.pi (if dir ≥ 0 then -1 else 1) ((2 : Int) ^ L) x (s + 1))
              (bit_reversal x ((2 : Int) ^ L) L))
        else
          (List.range L).foldl
            (fun (x : List (c32 ℝ)) s =>
              fft_stage Real.sin Real.pi (if dir ≥ 0 then -1 else 1) ((2 : Int) ^ L) x (s + 1))
            (bit_reversal x ((2 : Int) ^ L) L)) := by
  have hp : is_power_of_two ((2 : Int) ^ L) = true := (is_power_of_two_iff _).mpr ⟨L, rfl⟩
  unfold fft_radix2
  rw [if_neg (by rw [hp]; decide), fft_logn_pow, int_two_pow_toNat]

/-- The scaling loop of the inverse transform, lines 66-69. -/
theorem scale_fold (inv : ℝ) (x : List (c32 ℝ)) : ∀ n, n ≤ x.length →
    ((List.range n).foldl
      (fun (x : List (c32 ℝ)) i =>
        x.set i ⟨(x.getD i ⟨0, 0⟩).re * inv, (x.getD i ⟨0, 0⟩).im * inv⟩) x).length
      = x.length ∧
    ∀ p, c32_seq ((List.range n).foldl
      (fun (x : List (c32 ℝ)) i =>
        x.set i ⟨(x.getD i ⟨0, 0⟩).re * inv, (x.getD i ⟨0, 0⟩).im * inv⟩) x) p =
      if p < n then c32_seq x p * (inv : ℂ) else c32_seq x p := by
  intro n
  induction n with
  | zero =>
    intro _
    refine ⟨rfl, ?_⟩
    intro p
    show c32_seq x p = _
    rw [if_neg (by omega)]
  | succ n ih =>
    intro hn
    obtain ⟨h1, h2⟩ := ih (by omega)
    rw [List.range_succ, List.foldl_append]
    simp only [List.foldl_cons, List.foldl_nil]
    generalize (List.range n).foldl
      (fun (x : List (c32 ℝ)) i =>
        x.set i ⟨(x.getD i ⟨0, 0⟩).re * inv, (x.getD i ⟨0, 0⟩).im * inv⟩) x = y at h1 h2 ⊢
    refine ⟨by rw [List.length_set, h1], ?_⟩
    intro p
    rw [c32_seq_set _ _ _ _ (by rw [h1]; omega)]
    by_cases hp : p = n
    · rw [if_pos hp, if_pos (by omega), hp]
      have := h2 n
      rw [if_neg (by omega)] at this
      rw [← this]
      apply Complex.ext
      · simp [c32_seq, c32_to_complex]
      · simp [c32_seq, c32_to_complex]
    · rw [if_neg hp, h2 p]
      split_ifs <;> first | rfl | (exfalso; omega)

/-- The forward transform in terms of the root `exp(-2πi / 2^L)`. -/
theorem fft_forward_spec (L : Nat) (hL : L ≤ 30) (x : List (c32 ℝ)) (hx : x.length = 2 ^ L) :
    (fft_radix2 Real.sin Real.pi x ((2 : Int) ^ L) 1).1 = 0 ∧
    (fft_radix2 Real.sin Real.pi x ((2 : Int) ^ L) 1).2.length = 2 ^ L ∧
    ∀ k, k < 2 ^ L →
      c32_seq (fft_radix2 Real.sin Real.pi x ((2 : Int) ^ L) 1).2 k =
        ∑ j in Finset.range (2 ^ L), c32_seq x j *
          Complex.exp ((((-1 : ℝ) * (2 * Real.pi) / (2 : ℝ) ^ L : ℝ) : ℂ) * Complex.I) ^ (j * k) := by
  obtain ⟨b1, b2⟩ := bit_reversal_spec L hL x hx
  obtain ⟨s1, s2⟩ := fft_stages_spec (-1) (Or.inr rfl) L hL
    (bit_reversal x ((2 : Int) ^ L) L) b1 (c32_seq x)
    (fun p hp => by unfold c32_seq; rw [b2 p hp]) L (le_refl _)
  rw [fft_radix2_pow]
  simp only [if_neg (show ¬ ((1 : Int) < 0) by decide), if_pos (show (1 : Int) ≥ 0 by decide)]
  refine ⟨trivial, s1, ?_⟩
  intro k hk
  have := s2 0 k (by simp) hk
  rw [Nat.zero_mul, Nat.zero_add, Nat.sub_self, reverse_bits_zero] at this
  rw [this]
  unfold dft_sub
  apply Finset.sum_congr rfl
  intro t _
  simp

/-- The inverse transform in terms of the root `exp(2πi / 2^L)`. -/
theorem fft_inverse_spec (L : Nat) (hL : L ≤ 30) (x : List (c32 ℝ)) (hx : x.length = 2 ^ L) :
    (fft_radix2 Real.sin Real.pi x ((2 : Int) ^ L) (-1)).1 = 0 ∧
    (fft_radix2 Real.sin Real.pi x ((2 : Int) ^ L) (-1)).2.length = 2 ^ L ∧
    ∀ k, k < 2 ^ L →
      c32_seq (fft_radix2 Real.sin Real.pi x ((2 : Int) ^ L) (-1)).2 k =
        (∑ j in Finset.range (2 ^ L), c32_seq x j *
          Complex.exp ((((1 : ℝ) * (2 * Real.pi) / (2 : ℝ) ^ L : ℝ) : ℂ) * Complex.I) ^ (j * k)) *
          ((1 / (2 : ℝ) ^ L : ℝ) : ℂ) := by
  obtain ⟨b1, b2⟩ := bit_reversal_spec L hL x hx
  obtain ⟨s1, s2⟩ := fft_stages_spec 1 (Or.inl rfl) L hL
    (bit_reversal x ((2 : Int) ^ L) L) b1 (c32_seq x)
    (fun p hp => by unfold c32_seq; rw [b2 p hp]) L (le_refl _)
  rw [fft_radix2_pow]
  simp only [if_pos (show ((-1 : Int) < 0) by decide), if_neg (show ¬ ((-1 : Int) ≥ 0) by decide)]
  obtain ⟨c1, c2⟩ := scale_fold (1 / (((2 : Int) ^ L : Int) : ℝ)) _ (2 ^ L) (le_of_eq s1.symm)
  refine ⟨trivial, by rw [c1, s1], ?_⟩
  intro k hk
  rw [c2 k, if_pos hk]
  have := s2 0 k (by simp) hk
  rw [Nat.zero_mul, Nat.zero_add, Nat.sub_self, reverse_bits_zero] at this
  rw [this]
  have hc : (((2 : Int) ^ L : Int) : ℝ) = (2 : ℝ) ^ L := by push_cast; rfl
  rw [hc]
  congr 1
  unfold dft_sub
  apply Finset.sum_congr rfl
  intro t _
  simp

end FftRadix2Theorems

section FftClaim

theorem c32_to_complex_injective (u v : c32 ℝ) (h : c32_to_complex u = c32_to_complex v) :
    u = v := by
  cases u with
  | mk a b =>
    cases v with
    | mk c d =>
      have h1 := congrArg Complex.re h
      have h2 := congrArg Complex.im h
      simp only [c32_to_complex] at h1 h2
      rw [h1, h2]

/-- The powers of `exp(2πi / 2^L)` below the order differ from 1. -/
theorem fft_root_primitive (L d : Nat) (h0 : 0 < d) (hd : d < 2 ^ L) :
    Complex.exp ((((1 : ℝ) * (2 * Real.pi) / (2 : ℝ) ^ L : ℝ) : ℂ) * Complex.I) ^ d ≠ 1 := by
  have hn : (2 ^ L : Nat) ≠ 0 := by positivity
  have hp := Complex.isPrimitiveRoot_exp (2 ^ L) hn
  have e : Complex.exp ((((1 : ℝ) * (2 * Real.pi) / (2 : ℝ) ^ L : ℝ) : ℂ) * Complex.I) =
      Complex.exp (2 * Real.pi * Complex.I / ((2 ^ L : Nat) : ℂ)) := by
    congr 1
    push_cast
    ring
  rw [e]
  exact hp.pow_ne_one_of_pos_of_lt h0 hd

theorem fft_roots_inverse (L : Nat) :
    Complex.exp ((((-1 : ℝ) * (2 * Real.pi) / (2 : ℝ) ^ L : ℝ) : ℂ) * Complex.I) *
      Complex.exp ((((1 : ℝ) * (2 * Real.pi) / (2 : ℝ) ^ L : ℝ) : ℂ) * Complex.I) = 1 := by
  rw [← Complex.exp_add]
  have : ((((-1 : ℝ) * (2 * Real.pi) / (2 : ℝ) ^ L : ℝ) : ℂ) * Complex.I) +
      ((((1 : ℝ) * (2 * Real.pi) / (2 : ℝ) ^ L : ℝ) : ℂ) * Complex.I) = 0 := by
    push_cast
    ring
  rw [this, Complex.exp_zero]

/-- C32: for `n = 2^m` (an `int`, so `m ≤ 30`) and a buffer `x` of `n` complex
values, `fft_radix2(x, n, +1)` returns 0 and leaves in place the forward DFT
`X_k = Σ_j x_j · exp(-2πi·j·k/n)`, `0 ≤ k < n`, in exact real arithmetic, and
`fft_radix2(·, n, -1)` applied to that result returns 0 and restores `x`. -/
theorem fft_radix2_dft_roundtrip (m : Nat) (hm : m ≤ 30) (x : List (c32 ℝ))
    (hx : x.length = 2 ^ m) :
    (fft_radix2 Real.sin Real.pi x ((2 : Int) ^ m) 1).1 = 0 ∧
    (fft_radix2 Real.sin Real.pi x ((2 : Int) ^ m) 1).2.length = 2 ^ m ∧
    (∀ k, k < 2 ^ m →
      c32_seq (fft_radix2 Real.sin Real.pi x ((2 : Int) ^ m) 1).2 k =
        ∑ j in Finset.range (2 ^ m), c32_seq x j *
          Complex.exp (-2 * Real.pi * Complex.I * (j : ℂ) * (k : ℂ) / (2 : ℂ) ^ m)) ∧
    fft_radix2 Real.sin Real.pi (fft_radix2 Real.sin Real.pi x ((2 : Int) ^ m) 1).2
      ((2 : Int) ^ m) (-1) = (0, x) := by
  obtain ⟨f1, f2, f3⟩ := fft_forward_spec m hm x hx
  obtain ⟨i1, i2, i3⟩ := fft_inverse_spec m hm
    (fft_radix2 Real.sin Real.pi x ((2 : Int) ^ m) 1).2 f2
  refine ⟨f1, f2, ?_, ?_⟩
  · intro k hk
    rw [f3 k hk]
    apply Finset.sum_congr rfl
    intro j _
    rw [fft_root_pow]
    congr 2
    push_cast
    ring
  · have hseq : ∀ j, j < 2 ^ m →
        c32_seq (fft_radix2 Real.sin Real.pi
          (fft_radix2 Real.sin Real.pi x ((2 : Int) ^ m) 1).2 ((2 : Int) ^ m) (-1)).2 j =
          c32_seq x j := by
      intro j hj
      rw [i3 j hj]
      have e1 : ∑ t in Finset.range (2 ^ m),
          c32_seq (fft_radix2 Real.sin Real.pi x ((2 : Int) ^ m) 1).2 t *
            Complex.exp ((((1 : ℝ) * (2 * Real.pi) / (2 : ℝ) ^ m : ℝ) : ℂ) * Complex.I) ^ (t * j) =
          ∑ t in Finset.range (2 ^ m), ∑ u in Finset.range (2 ^ m),
            c32_seq x u *
              (Complex.exp ((((-1 : ℝ) * (2 * Real.pi) / (2 : ℝ) ^ m : ℝ) : ℂ) * Complex.I) ^ (u * t) *
              Complex.exp ((((1 : ℝ) * (2 * Real.pi) / (2 : ℝ) ^ m : ℝ) : ℂ) * Complex.I) ^ (t * j)) := by
        apply Finset.sum_congr rfl
        intro t ht
        rw [f3 t (Finset.mem_range.mp ht), Finset.sum_mul]
        apply Finset.sum_congr rfl
        intro u _
        ring
      rw [e1, Finset.sum_comm]
      have e2 : ∀ u ∈ Finset.range (2 ^ m),
          ∑ t in Finset.range (2 ^ m), c32_seq x u *
              (Complex.exp ((((-1 : ℝ) * (2 * Real.pi) / (2 : ℝ) ^ m : ℝ) : ℂ) * Complex.I) ^ (u * t) *
              Complex.exp ((((1 : ℝ) * (2 * Real.pi) / (2 : ℝ) ^ m : ℝ) : ℂ) * Complex.I) ^ (t * j)) =
            if u = j then c32_seq x u * ((2 ^ m : Nat) : ℂ) else 0 := by
        intro u hu
        rw [← Finset.mul_sum, root_orthogonal _ _ (2 ^ m) (fft_roots_inverse m)
          (fft_root_pow_full 1 (Or.inl rfl) m) (fun d h0 hd => fft_root_primitive m d h0 hd)
          u j (Finset.mem_range.mp hu) hj]
        split_ifs <;> simp
      rw [Finset.sum_congr rfl e2, Finset.sum_ite_eq', if_pos (Finset.mem_range.mpr hj)]
      push_cast
      field_simp
    have hlist : (fft_radix2 Real.sin Real.pi
        (fft_radix2 Real.sin Real.pi x ((2 : Int) ^ m) 1).2 ((2 : Int) ^ m) (-1)).2 = x := by
      apply List.ext_getElem
      · rw [i2, hx]
      · intro j h1 h2
        have hj : j < 2 ^ m := by rw [← hx]; exact h2
        have h := hseq j hj
        unfold c32_seq at h
        rw [List.getD_eq_getElem?_getD, List.getD_eq_getElem?_getD, List.getElem?_eq_getElem h1,
          List.getElem?_eq_getElem h2] at h
        exact c32_to_complex_injective _ _ h
    exact Prod.ext i1 hlist

/-- Witness for C32: a transform of size 2. -/
theorem fft_radix2_dft_roundtrip_witness :
    fft_radix2 Real.sin Real.pi
      (fft_radix2 Real.sin Real.pi ([⟨1, 0⟩, ⟨2, 3⟩] : List (c32 ℝ)) ((2 : Int) ^ 1) 1).2
      ((2 : Int) ^ 1) (-1) = (0, [⟨1, 0⟩, ⟨2, 3⟩]) :=
  (fft_radix2_dft_roundtrip 1 (by decide) [⟨1, 0⟩, ⟨2, 3⟩] (by rfl)).2.2.2

end FftClaim

section HannKernelAlgebra

end HannKernelAlgebra

section UnitCircleBounds

end UnitCircleBounds

section HannKernelBounds

end HannKernelBounds

section HannKernelFar

end HannKernelFar

section HannMomentTheorems

end HannMomentTheorems

section HannKernelNear

theorem exp_turn_im (q : ℝ) :
    (Complex.exp (2 * Real.pi * (q : ℂ) * Complex.I)).im = Real.sin (2 * Real.pi * q) := by
  have harg : (2 * Real.pi * q * Complex.I : ℂ) = ((2 * Real.pi * q : ℝ) : ℂ) * Complex.I := by
    push_cast; ring
  rw [harg, Complex.exp_ofReal_mul_I_im]

end HannKernelNear

section ParsevalTheorems

end ParsevalTheorems

section WindowedSinusoidTheorems

end WindowedSinusoidTheorems

section WindowedEnergyTheorems

end WindowedEnergyTheorems

section SinusoidBudget

end SinusoidBudget

section BinPointTheorems

end BinPointTheorems

section SinusoidKernelBudget

end SinusoidKernelBudget

section SinusoidBinBounds

end SinusoidBinBounds

section SinusoidDominance

end SinusoidDominance

section SinusoidEstimateAssembly

end SinusoidEstimateAssembly

section SinusoidAccuracyTheorems

end SinusoidAccuracyTheorems

section SinusoidAccuracyWitness

end SinusoidAccuracyWitness

end MLES
